import Mathlib

/-!
# graphql-go-tools: AST records, linked-list iterators and walker lookups

A shallow embedding of parts of the `document`, `lookup` and `astinspect`
packages.  Go `int` indices are `Int` (no arithmetic is done on them, `-1` is
the absent index), a Go call that may panic returns `Except String α` with the
panic message as the error, and a Go pointer receiver that is mutated becomes
an explicit old state / new state pair.
-/

namespace position

/-- Modelled from the spec: the `lexing/position` package is not among the
sources; "positions track line and column", so a position is the line and
column range of a lexeme. -/
structure Position where
  LineStart : Nat
  LineEnd : Nat
  CharStart : Nat
  CharEnd : Nat
deriving DecidableEq, Repr, Inhabited

end position

namespace document

/-- Modelled from the spec: the declaration of `ByteSliceReference` is not among
the sources; the spec gives it as `(start:u32, end:u32)` into the raw input. -/
structure ByteSliceReference where
  Start : Nat
  End : Nat
deriving DecidableEq, Repr, Inhabited

/-- Modelled from the spec: `ByteSliceReference.Length` is not among the sources
(the test helper `hasAlias` reads an alias as absent when `Length() == 0`); the
number of bytes between `Start` and `End`. -/
def ByteSliceReference.Length (r : ByteSliceReference) : Nat := r.End - r.Start

/-- Modelled from the spec: the declaration of `ValueType` is not among the
sources; the spec lists the value kinds. -/
inductive ValueType where
  | Variable | Int | Float | String | Boolean | Null | Enum | List | Object
deriving DecidableEq, Repr, Inhabited

/-- Modelled from the spec: the declaration of `OperationType` is not among the
sources; operations are `query`, `mutation` or `subscription`. -/
inductive OperationType where
  | Query | Mutation | Subscription
deriving DecidableEq, Repr, Inhabited

/-- The record `FieldDefinition` of fielddefinition.go. -/
structure FieldDefinition where
  Description : ByteSliceReference
  Name : ByteSliceReference
  ArgumentsDefinition : Int
  Type' : Int
  DirectiveSet : Int
  Position : position.Position
  NextRef : Int
deriving DecidableEq, Repr

/-- The record `ScalarTypeDefinition` of scalartypedefinition.go. -/
structure ScalarTypeDefinition where
  Description : ByteSliceReference
  Name : ByteSliceReference
  DirectiveSet : Int
  Position : position.Position
  IsExtend : Bool
deriving DecidableEq, Repr

/-- The record `Value` of value.go. -/
structure Value where
  ValueType : ValueType
  Reference : Int
  Position : position.Position
  Raw : ByteSliceReference
deriving DecidableEq, Repr

/-- The iterator state `FieldDefinitions` of fielddefinition.go. -/
structure FieldDefinitions where
  nextRef : Int
  currentRef : Int
  current : FieldDefinition
deriving DecidableEq, Repr

/-- The Go zero value of `FieldDefinition`: what a struct literal leaves in the
fields it does not name. -/
def FieldDefinition.zero : FieldDefinition :=
  { Description := ⟨0, 0⟩, Name := ⟨0, 0⟩, ArgumentsDefinition := 0, Type' := 0,
    DirectiveSet := 0, Position := ⟨0, 0, 0, 0⟩, NextRef := 0 }

/-! ## The `Node` accessors

The result types `InputValueDefinitions`, `SchemaDefinition`,
`EnumValueDefinitions` and `ByteSliceReferences` are declared outside the
sources; the accessors returning them take the type as a parameter. -/

/-- Go: `func (f FieldDefinition) NodeSelectionSet() int`. -/
def FieldDefinition.NodeSelectionSet (_f : FieldDefinition) : Except String Int :=
  .error "implement me"

/-- Go: `func (f FieldDefinition) NodeInputFieldsDefinition() int`. -/
def FieldDefinition.NodeInputFieldsDefinition (_f : FieldDefinition) : Except String Int :=
  .error "implement me"

/-- Go: `func (f FieldDefinition) NodeInputValueDefinitions() InputValueDefinitions`. -/
def FieldDefinition.NodeInputValueDefinitions (InputValueDefinitions : Type) (_f : FieldDefinition) : Except String InputValueDefinitions :=
  .error "implement me"

/-- Go: `func (f FieldDefinition) NodePosition() position.Position`. -/
def FieldDefinition.NodePosition (f : FieldDefinition) : Except String position.Position :=
  .ok f.Position

/-- Go: `func (f FieldDefinition) NodeValueType() ValueType`. -/
def FieldDefinition.NodeValueType (_f : FieldDefinition) : Except String document.ValueType :=
  .error "implement me"

/-- Go: `func (f FieldDefinition) NodeValueReference() int`. -/
def FieldDefinition.NodeValueReference (_f : FieldDefinition) : Except String Int :=
  .error "implement me"

/-- Go: `func (f FieldDefinition) NodeUnionMemberTypes() []int`. -/
def FieldDefinition.NodeUnionMemberTypes (_f : FieldDefinition) : Except String (List Int) :=
  .error "implement me"

/-- Go: `func (f FieldDefinition) NodeSchemaDefinition() SchemaDefinition`. -/
def FieldDefinition.NodeSchemaDefinition (SchemaDefinition : Type) (_f : FieldDefinition) : Except String SchemaDefinition :=
  .error "implement me"

/-- Go: `func (f FieldDefinition) NodeScalarTypeDefinitions() []int`. -/
def FieldDefinition.NodeScalarTypeDefinitions (_f : FieldDefinition) : Except String (List Int) :=
  .error "implement me"

/-- Go: `func (f FieldDefinition) NodeObjectTypeDefinitions() []int`. -/
def FieldDefinition.NodeObjectTypeDefinitions (_f : FieldDefinition) : Except String (List Int) :=
  .error "implement me"

/-- Go: `func (f FieldDefinition) NodeInterfaceTypeDefinitions() []int`. -/
def FieldDefinition.NodeInterfaceTypeDefinitions (_f : FieldDefinition) : Except String (List Int) :=
  .error "implement me"

/-- Go: `func (f FieldDefinition) NodeUnionTypeDefinitions() []int`. -/
def FieldDefinition.NodeUnionTypeDefinitions (_f : FieldDefinition) : Except String (List Int) :=
  .error "implement me"

/-- Go: `func (f FieldDefinition) NodeEnumTypeDefinitions() []int`. -/
def FieldDefinition.NodeEnumTypeDefinitions (_f : FieldDefinition) : Except String (List Int) :=
  .error "implement me"

/-- Go: `func (f FieldDefinition) NodeInputObjectTypeDefinitions() []int`. -/
def FieldDefinition.NodeInputObjectTypeDefinitions (_f : FieldDefinition) : Except String (List Int) :=
  .error "implement me"

/-- Go: `func (f FieldDefinition) NodeDirectiveDefinitions() []int`. -/
def FieldDefinition.NodeDirectiveDefinitions (_f : FieldDefinition) : Except String (List Int) :=
  .error "implement me"

/-- Go: `func (f FieldDefinition) NodeImplementsInterfaces() ByteSliceReferences`. -/
def FieldDefinition.NodeImplementsInterfaces (ByteSliceReferences : Type) (_f : FieldDefinition) : Except String ByteSliceReferences :=
  .error "implement me"

/-- Go: `func (f FieldDefinition) NodeValue() int`. -/
def FieldDefinition.NodeValue (_f : FieldDefinition) : Except String Int :=
  .error "implement me"

/-- Go: `func (f FieldDefinition) NodeDefaultValue() int`. -/
def FieldDefinition.NodeDefaultValue (_f : FieldDefinition) : Except String Int :=
  .error "implement me"

/-- Go: `func (f FieldDefinition) NodeFieldsDefinition() FieldDefinitions`. -/
def FieldDefinition.NodeFieldsDefinition (_f : FieldDefinition) : Except String FieldDefinitions :=
  .error "implement me"

/-- Go: `func (f FieldDefinition) NodeArgumentsDefinition() int`. -/
def FieldDefinition.NodeArgumentsDefinition (f : FieldDefinition) : Except String Int :=
  .ok f.ArgumentsDefinition

/-- Go: `func (f FieldDefinition) NodeName() ByteSliceReference`. -/
def FieldDefinition.NodeName (f : FieldDefinition) : Except String ByteSliceReference :=
  .ok f.Name

/-- Go: `func (f FieldDefinition) NodeAlias() ByteSliceReference`. -/
def FieldDefinition.NodeAlias (_f : FieldDefinition) : Except String ByteSliceReference :=
  .error "implement me"

/-- Go: `func (f FieldDefinition) NodeDescription() ByteSliceReference`. -/
def FieldDefinition.NodeDescription (f : FieldDefinition) : Except String ByteSliceReference :=
  .ok f.Description

/-- Go: `func (f FieldDefinition) NodeArgumentSet() int`. -/
def FieldDefinition.NodeArgumentSet (_f : FieldDefinition) : Except String Int :=
  .error "implement me"

/-- Go: `func (f FieldDefinition) NodeDirectiveSet() int`. -/
def FieldDefinition.NodeDirectiveSet (f : FieldDefinition) : Except String Int :=
  .ok f.DirectiveSet

/-- Go: `func (f FieldDefinition) NodeEnumValuesDefinition() EnumValueDefinitions`. -/
def FieldDefinition.NodeEnumValuesDefinition (EnumValueDefinitions : Type) (_f : FieldDefinition) : Except String EnumValueDefinitions :=
  .error "implement me"

/-- Go: `func (f FieldDefinition) NodeFields() []int`. -/
def FieldDefinition.NodeFields (_f : FieldDefinition) : Except String (List Int) :=
  .error "implement me"

/-- Go: `func (f FieldDefinition) NodeFragmentSpreads() []int`. -/
def FieldDefinition.NodeFragmentSpreads (_f : FieldDefinition) : Except String (List Int) :=
  .error "implement me"

/-- Go: `func (f FieldDefinition) NodeInlineFragments() []int`. -/
def FieldDefinition.NodeInlineFragments (_f : FieldDefinition) : Except String (List Int) :=
  .error "implement me"

/-- Go: `func (f FieldDefinition) NodeVariableDefinitions() []int`. -/
def FieldDefinition.NodeVariableDefinitions (_f : FieldDefinition) : Except String (List Int) :=
  .error "implement me"

/-- Go: `func (f FieldDefinition) NodeType() int`. -/
def FieldDefinition.NodeType (f : FieldDefinition) : Except String Int :=
  .ok f.Type'

/-- Go: `func (f FieldDefinition) NodeOperationType() OperationType`. -/
def FieldDefinition.NodeOperationType (_f : FieldDefinition) : Except String OperationType :=
  .error "implement me"


/-- Go: `func (s ScalarTypeDefinition) NodeSelectionSet() int`. -/
def ScalarTypeDefinition.NodeSelectionSet (_s : ScalarTypeDefinition) : Except String Int :=
  .error "implement me"

/-- Go: `func (s ScalarTypeDefinition) NodeInputFieldsDefinition() int`. -/
def ScalarTypeDefinition.NodeInputFieldsDefinition (_s : ScalarTypeDefinition) : Except String Int :=
  .error "implement me"

/-- Go: `func (s ScalarTypeDefinition) NodeInputValueDefinitions() InputValueDefinitions`. -/
def ScalarTypeDefinition.NodeInputValueDefinitions (InputValueDefinitions : Type) (_s : ScalarTypeDefinition) : Except String InputValueDefinitions :=
  .error "implement me"

/-- Go: `func (s ScalarTypeDefinition) NodePosition() position.Position`. -/
def ScalarTypeDefinition.NodePosition (s : ScalarTypeDefinition) : Except String position.Position :=
  .ok s.Position

/-- Go: `func (s ScalarTypeDefinition) NodeValueType() ValueType`. -/
def ScalarTypeDefinition.NodeValueType (_s : ScalarTypeDefinition) : Except String document.ValueType :=
  .error "implement me"

/-- Go: `func (s ScalarTypeDefinition) NodeValueReference() int`. -/
def ScalarTypeDefinition.NodeValueReference (_s : ScalarTypeDefinition) : Except String Int :=
  .error "implement me"

/-- Go: `func (s ScalarTypeDefinition) NodeUnionMemberTypes() []int`. -/
def ScalarTypeDefinition.NodeUnionMemberTypes (_s : ScalarTypeDefinition) : Except String (List Int) :=
  .error "implement me"

/-- Go: `func (s ScalarTypeDefinition) NodeSchemaDefinition() SchemaDefinition`. -/
def ScalarTypeDefinition.NodeSchemaDefinition (SchemaDefinition : Type) (_s : ScalarTypeDefinition) : Except String SchemaDefinition :=
  .error "implement me"

/-- Go: `func (s ScalarTypeDefinition) NodeScalarTypeDefinitions() []int`. -/
def ScalarTypeDefinition.NodeScalarTypeDefinitions (_s : ScalarTypeDefinition) : Except String (List Int) :=
  .error "implement me"

/-- Go: `func (s ScalarTypeDefinition) NodeObjectTypeDefinitions() []int`. -/
def ScalarTypeDefinition.NodeObjectTypeDefinitions (_s : ScalarTypeDefinition) : Except String (List Int) :=
  .error "implement me"

/-- Go: `func (s ScalarTypeDefinition) NodeInterfaceTypeDefinitions() []int`. -/
def ScalarTypeDefinition.NodeInterfaceTypeDefinitions (_s : ScalarTypeDefinition) : Except String (List Int) :=
  .error "implement me"

/-- Go: `func (s ScalarTypeDefinition) NodeUnionTypeDefinitions() []int`. -/
def ScalarTypeDefinition.NodeUnionTypeDefinitions (_s : ScalarTypeDefinition) : Except String (List Int) :=
  .error "implement me"

/-- Go: `func (s ScalarTypeDefinition) NodeEnumTypeDefinitions() []int`. -/
def ScalarTypeDefinition.NodeEnumTypeDefinitions (_s : ScalarTypeDefinition) : Except String (List Int) :=
  .error "implement me"

/-- Go: `func (s ScalarTypeDefinition) NodeInputObjectTypeDefinitions() []int`. -/
def ScalarTypeDefinition.NodeInputObjectTypeDefinitions (_s : ScalarTypeDefinition) : Except String (List Int) :=
  .error "implement me"

/-- Go: `func (s ScalarTypeDefinition) NodeDirectiveDefinitions() []int`. -/
def ScalarTypeDefinition.NodeDirectiveDefinitions (_s : ScalarTypeDefinition) : Except String (List Int) :=
  .error "implement me"

/-- Go: `func (s ScalarTypeDefinition) NodeName() ByteSliceReference`. -/
def ScalarTypeDefinition.NodeName (s : ScalarTypeDefinition) : Except String ByteSliceReference :=
  .ok s.Name

/-- Go: `func (s ScalarTypeDefinition) NodeAlias() ByteSliceReference`. -/
def ScalarTypeDefinition.NodeAlias (_s : ScalarTypeDefinition) : Except String ByteSliceReference :=
  .error "implement me"

/-- Go: `func (s ScalarTypeDefinition) NodeDescription() ByteSliceReference`. -/
def ScalarTypeDefinition.NodeDescription (s : ScalarTypeDefinition) : Except String ByteSliceReference :=
  .ok s.Description

/-- Go: `func (s ScalarTypeDefinition) NodeArgumentSet() int`. -/
def ScalarTypeDefinition.NodeArgumentSet (_s : ScalarTypeDefinition) : Except String Int :=
  .error "implement me"

/-- Go: `func (s ScalarTypeDefinition) NodeArgumentsDefinition() int`. -/
def ScalarTypeDefinition.NodeArgumentsDefinition (_s : ScalarTypeDefinition) : Except String Int :=
  .error "implement me"

/-- Go: `func (s ScalarTypeDefinition) NodeDirectiveSet() int`. -/
def ScalarTypeDefinition.NodeDirectiveSet (s : ScalarTypeDefinition) : Except String Int :=
  .ok s.DirectiveSet

/-- Go: `func (s ScalarTypeDefinition) NodeEnumValuesDefinition() EnumValueDefinitions`. -/
def ScalarTypeDefinition.NodeEnumValuesDefinition (EnumValueDefinitions : Type) (_s : ScalarTypeDefinition) : Except String EnumValueDefinitions :=
  .error "implement me"

/-- Go: `func (s ScalarTypeDefinition) NodeFields() []int`. -/
def ScalarTypeDefinition.NodeFields (_s : ScalarTypeDefinition) : Except String (List Int) :=
  .error "implement me"

/-- Go: `func (s ScalarTypeDefinition) NodeFieldsDefinition() FieldDefinitions`. -/
def ScalarTypeDefinition.NodeFieldsDefinition (_s : ScalarTypeDefinition) : Except String FieldDefinitions :=
  .error "implement me"

/-- Go: `func (s ScalarTypeDefinition) NodeFragmentSpreads() []int`. -/
def ScalarTypeDefinition.NodeFragmentSpreads (_s : ScalarTypeDefinition) : Except String (List Int) :=
  .error "implement me"

/-- Go: `func (s ScalarTypeDefinition) NodeInlineFragments() []int`. -/
def ScalarTypeDefinition.NodeInlineFragments (_s : ScalarTypeDefinition) : Except String (List Int) :=
  .error "implement me"

/-- Go: `func (s ScalarTypeDefinition) NodeVariableDefinitions() []int`. -/
def ScalarTypeDefinition.NodeVariableDefinitions (_s : ScalarTypeDefinition) : Except String (List Int) :=
  .error "implement me"

/-- Go: `func (s ScalarTypeDefinition) NodeType() int`. -/
def ScalarTypeDefinition.NodeType (_s : ScalarTypeDefinition) : Except String Int :=
  .error "implement me"

/-- Go: `func (s ScalarTypeDefinition) NodeOperationType() OperationType`. -/
def ScalarTypeDefinition.NodeOperationType (_s : ScalarTypeDefinition) : Except String OperationType :=
  .error "implement me"

/-- Go: `func (s ScalarTypeDefinition) NodeValue() int`. -/
def ScalarTypeDefinition.NodeValue (_s : ScalarTypeDefinition) : Except String Int :=
  .error "implement me"

/-- Go: `func (s ScalarTypeDefinition) NodeDefaultValue() int`. -/
def ScalarTypeDefinition.NodeDefaultValue (_s : ScalarTypeDefinition) : Except String Int :=
  .error "implement me"

/-- Go: `func (s ScalarTypeDefinition) NodeImplementsInterfaces() ByteSliceReferences`. -/
def ScalarTypeDefinition.NodeImplementsInterfaces (ByteSliceReferences : Type) (_s : ScalarTypeDefinition) : Except String ByteSliceReferences :=
  .error "implement me"


/-- Go: `func (v Value) NodeSelectionSet() int`. -/
def Value.NodeSelectionSet (_v : Value) : Except String Int :=
  .error "implement me"

/-- Go: `func (v Value) NodeInputFieldsDefinition() int`. -/
def Value.NodeInputFieldsDefinition (_v : Value) : Except String Int :=
  .error "implement me"

/-- Go: `func (v Value) NodeInputValueDefinitions() InputValueDefinitions`. -/
def Value.NodeInputValueDefinitions (InputValueDefinitions : Type) (_v : Value) : Except String InputValueDefinitions :=
  .error "implement me"

/-- Go: `func (v Value) NodePosition() position.Position`. -/
def Value.NodePosition (v : Value) : Except String position.Position :=
  .ok v.Position

/-- Go: `func (v Value) NodeValueType() ValueType`. -/
def Value.NodeValueType (v : Value) : Except String document.ValueType :=
  .ok v.ValueType

/-- Go: `func (v Value) NodeValueReference() int`. -/
def Value.NodeValueReference (v : Value) : Except String Int :=
  .ok v.Reference

/-- Go: `func (v Value) NodeName() ByteSliceReference`. -/
def Value.NodeName (_v : Value) : Except String ByteSliceReference :=
  .error "implement me"

/-- Go: `func (v Value) NodeAlias() ByteSliceReference`. -/
def Value.NodeAlias (_v : Value) : Except String ByteSliceReference :=
  .error "implement me"

/-- Go: `func (v Value) NodeDescription() ByteSliceReference`. -/
def Value.NodeDescription (_v : Value) : Except String ByteSliceReference :=
  .error "implement me"

/-- Go: `func (v Value) NodeArgumentSet() int`. -/
def Value.NodeArgumentSet (_v : Value) : Except String Int :=
  .error "implement me"

/-- Go: `func (v Value) NodeArgumentsDefinition() int`. -/
def Value.NodeArgumentsDefinition (_v : Value) : Except String Int :=
  .error "implement me"

/-- Go: `func (v Value) NodeDirectiveSet() int`. -/
def Value.NodeDirectiveSet (_v : Value) : Except String Int :=
  .error "implement me"

/-- Go: `func (v Value) NodeEnumValuesDefinition() EnumValueDefinitions`. -/
def Value.NodeEnumValuesDefinition (EnumValueDefinitions : Type) (_v : Value) : Except String EnumValueDefinitions :=
  .error "implement me"

/-- Go: `func (v Value) NodeFields() []int`. -/
def Value.NodeFields (_v : Value) : Except String (List Int) :=
  .error "implement me"

/-- Go: `func (v Value) NodeFieldsDefinition() FieldDefinitions`. -/
def Value.NodeFieldsDefinition (_v : Value) : Except String FieldDefinitions :=
  .error "implement me"

/-- Go: `func (v Value) NodeFragmentSpreads() []int`. -/
def Value.NodeFragmentSpreads (_v : Value) : Except String (List Int) :=
  .error "implement me"

/-- Go: `func (v Value) NodeInlineFragments() []int`. -/
def Value.NodeInlineFragments (_v : Value) : Except String (List Int) :=
  .error "implement me"

/-- Go: `func (v Value) NodeVariableDefinitions() []int`. -/
def Value.NodeVariableDefinitions (_v : Value) : Except String (List Int) :=
  .error "implement me"

/-- Go: `func (v Value) NodeType() int`. -/
def Value.NodeType (_v : Value) : Except String Int :=
  .error "implement me"

/-- Go: `func (v Value) NodeOperationType() OperationType`. -/
def Value.NodeOperationType (_v : Value) : Except String OperationType :=
  .error "implement me"

/-- Go: `func (v Value) NodeValue() int`. -/
def Value.NodeValue (_v : Value) : Except String Int :=
  .error "implement me"

/-- Go: `func (v Value) NodeDefaultValue() int`. -/
def Value.NodeDefaultValue (_v : Value) : Except String Int :=
  .error "implement me"

/-- Go: `func (v Value) NodeImplementsInterfaces() ByteSliceReferences`. -/
def Value.NodeImplementsInterfaces (ByteSliceReferences : Type) (_v : Value) : Except String ByteSliceReferences :=
  .error "implement me"

/-- Go: `func (v Value) NodeSchemaDefinition() SchemaDefinition`. -/
def Value.NodeSchemaDefinition (SchemaDefinition : Type) (_v : Value) : Except String SchemaDefinition :=
  .error "implement me"

/-- Go: `func (v Value) NodeScalarTypeDefinitions() []int`. -/
def Value.NodeScalarTypeDefinitions (_v : Value) : Except String (List Int) :=
  .error "implement me"

/-- Go: `func (v Value) NodeObjectTypeDefinitions() []int`. -/
def Value.NodeObjectTypeDefinitions (_v : Value) : Except String (List Int) :=
  .error "implement me"

/-- Go: `func (v Value) NodeInterfaceTypeDefinitions() []int`. -/
def Value.NodeInterfaceTypeDefinitions (_v : Value) : Except String (List Int) :=
  .error "implement me"

/-- Go: `func (v Value) NodeUnionTypeDefinitions() []int`. -/
def Value.NodeUnionTypeDefinitions (_v : Value) : Except String (List Int) :=
  .error "implement me"

/-- Go: `func (v Value) NodeEnumTypeDefinitions() []int`. -/
def Value.NodeEnumTypeDefinitions (_v : Value) : Except String (List Int) :=
  .error "implement me"

/-- Go: `func (v Value) NodeInputObjectTypeDefinitions() []int`. -/
def Value.NodeInputObjectTypeDefinitions (_v : Value) : Except String (List Int) :=
  .error "implement me"

/-- Go: `func (v Value) NodeDirectiveDefinitions() []int`. -/
def Value.NodeDirectiveDefinitions (_v : Value) : Except String (List Int) :=
  .error "implement me"

/-- Go: `func (v Value) NodeUnionMemberTypes() []int`. -/
def Value.NodeUnionMemberTypes (_v : Value) : Except String (List Int) :=
  .error "implement me"

/-! ## The `FieldDefinitions` iterator -/

/-- Go: `NewFieldDefinitions`; the fields the literal does not name are zero. -/
def NewFieldDefinitions (nextRef : Int) : FieldDefinitions :=
  { nextRef := nextRef, currentRef := 0, current := FieldDefinition.zero }

/-- Go: `(*FieldDefinitions).HasNext`. -/
def FieldDefinitions.HasNext (i : FieldDefinitions) : Bool :=
  i.nextRef != -1

/-- Go: `(*FieldDefinitions).Next`.  The getter is an interface value, so its
call is an effect in an arbitrary monad `m`; the result is the returned `bool`
and the iterator after the call. -/
def FieldDefinitions.Next {m : Type → Type} [Monad m] (getter : Int → m FieldDefinition)
    (i : FieldDefinitions) : m (Bool × FieldDefinitions) :=
  if i.nextRef = -1 then
    pure (false, i)
  else do
    let current ← getter i.nextRef
    pure (true, { nextRef := current.NextRef, currentRef := i.nextRef, current := current })

/-- Go: `(*FieldDefinitions).Value`. -/
def FieldDefinitions.Value (i : FieldDefinitions) : FieldDefinition × Int :=
  (i.current, i.currentRef)

/-- `Next` with a pool that is a pure lookup. -/
def FieldDefinitions.NextPure (pool : Int → FieldDefinition) (i : FieldDefinitions) :
    Bool × FieldDefinitions :=
  Id.run (FieldDefinitions.Next (fun ref => (pure (pool ref) : Id FieldDefinition)) i)

/-- The iterator after `k` calls of `Next` on a pure pool. -/
def FieldDefinitions.afterNext (pool : Int → FieldDefinition) (i : FieldDefinitions) :
    Nat → FieldDefinitions
  | 0 => i
  | k + 1 => (FieldDefinitions.NextPure pool (FieldDefinitions.afterNext pool i k)).2

/-- `Next` called `k` times in a row in the monad of the getter: the returned
booleans in call order and the final iterator. -/
def FieldDefinitions.NextTimes {m : Type → Type} [Monad m] (getter : Int → m FieldDefinition) :
    Nat → FieldDefinitions → m (List Bool × FieldDefinitions)
  | 0, i => pure ([], i)
  | k + 1, i => do
    let r ← FieldDefinitions.Next getter i
    let rest ← FieldDefinitions.NextTimes getter k r.2
    pure (r.1 :: rest.1, rest.2)

/-- Following `NextRef` from `h` through the pool visits exactly the references
`rs`, none of them `-1`, and then reaches `-1`. -/
def chainFrom (pool : Int → FieldDefinition) : Int → List Int → Bool
  | h, [] => h == -1
  | h, r :: rs => h == r && r != -1 && chainFrom pool (pool r).NextRef rs

/-- The getter of a pure pool that also appends every reference it is asked for
to a log of getter calls. -/
def loggingGetter (pool : Int → FieldDefinition) (ref : Int) :
    StateM (List Int) FieldDefinition :=
  fun log => (pool ref, log ++ [ref])

/-- A pool of three field definitions chained 0 → 2 → 1 → -1; every other
reference reads as a record that ends the chain. -/
def examplePool (ref : Int) : FieldDefinition :=
  { FieldDefinition.zero with
    Name := ⟨ref.toNat, ref.toNat + 1⟩
    NextRef := if ref = 0 then 2 else if ref = 2 then 1 else -1 }

end document

/-! ## The arena of parsed definitions

The parser, the lookup and the walker are not among the sources (only their
tests are); the records and pools below follow the data model of the
specification and the names used by the tests. -/

namespace document

/-- Modelled from the spec: the record `Type` is not among the sources;
`{kind: Named|List|NonNull, name, of_type}`, list and non-null wrap another type
by index. -/
inductive TypeKind where
  | Named | List | NonNull
deriving DecidableEq, Repr, Inhabited

/-- Modelled from the spec: the record `Type` (see `TypeKind`). -/
structure Type' where
  Kind : TypeKind
  Name : ByteSliceReference
  OfType : Int
deriving DecidableEq, Repr

/-- Modelled from the spec: the record `Argument` is not among the sources;
`{name, value: ValueIndex}`. -/
structure Argument where
  Name : ByteSliceReference
  Value : Int
deriving DecidableEq, Repr

/-- Modelled from the spec: the record `Field` is not among the sources;
`{alias, name, argument_set, directive_set, selection_set, position}`. -/
structure Field where
  Alias : ByteSliceReference
  Name : ByteSliceReference
  ArgumentSet : Int
  DirectiveSet : Int
  SelectionSet : Int
  Position : position.Position
deriving DecidableEq, Repr

/-- Modelled from the spec: the record `SelectionSet` is not among the sources;
"arrays of field, fragment-spread, and inline-fragment indices". -/
structure SelectionSet where
  Fields : List Int
  FragmentSpreads : List Int
  InlineFragments : List Int
deriving DecidableEq, Repr

/-- Modelled from the spec: the record `FragmentSpread` is not among the
sources; `{name, directive_set, position}`. -/
structure FragmentSpread where
  FragmentName : ByteSliceReference
  DirectiveSet : Int
  Position : position.Position
deriving DecidableEq, Repr

/-- Modelled from the spec: the record `InlineFragment` is not among the
sources; `{type_condition: Index?, directive_set, selection_set, position}`, the
type condition an index into the `Types` pool or `-1`. -/
structure InlineFragment where
  TypeCondition : Int
  DirectiveSet : Int
  SelectionSet : Int
  Position : position.Position
deriving DecidableEq, Repr

/-- Modelled from the spec: the record `OperationDefinition` is not among the
sources; `{operation_type, name, variable_definitions, directive_set,
selection_set}`. -/
structure OperationDefinition where
  OperationType : OperationType
  Name : ByteSliceReference
  VariableDefinitions : List Int
  DirectiveSet : Int
  SelectionSet : Int
deriving DecidableEq, Repr

/-- Modelled from the spec: the record `FragmentDefinition` is not among the
sources; `{name, type_condition, directive_set, selection_set}`, the type
condition an index into the `Types` pool. -/
structure FragmentDefinition where
  FragmentName : ByteSliceReference
  TypeCondition : Int
  DirectiveSet : Int
  SelectionSet : Int
deriving DecidableEq, Repr

/-- The record `ExecutableDefinition` of executabledefinition.go. -/
structure ExecutableDefinition where
  OperationDefinitions : List Int
  FragmentDefinitions : List Int
deriving DecidableEq, Repr

/-- Modelled from the spec: the record `SchemaDefinition` is not among the
sources; the test helper `hasSchemaOperationTypeName` reads its `Query`,
`Mutation` and `Subscription` type names and `isExtend` its `IsExtend` flag. -/
structure SchemaDefinition where
  Query : ByteSliceReference
  Mutation : ByteSliceReference
  Subscription : ByteSliceReference
  DirectiveSet : Int
  Position : position.Position
  IsExtend : Bool
deriving DecidableEq, Repr

/-- Modelled from the spec: the records of object and interface type
definitions are not among the sources; each "carries description, name,
directive_set, position, an is_extend flag, and kind-specific fields", here the
head of the `NextRef` chain of its field definitions. -/
structure ObjectTypeDefinition where
  Description : ByteSliceReference
  Name : ByteSliceReference
  FieldsDefinition : FieldDefinitions
  DirectiveSet : Int
  Position : position.Position
  IsExtend : Bool
deriving DecidableEq, Repr

/-- Modelled from the spec: the kinds of type-system definitions, "schema,
scalar, object, interface, union, enum, input-object, directive
definitions". -/
inductive DefinitionKind where
  | Schema | Scalar | Object | Interface | Union | Enum | InputObject | Directive
deriving DecidableEq, Repr, Inhabited

/-- Modelled from the spec: the record of an interface type definition is not
among the sources; as that of an object type, with the head of the `NextRef`
chain of its field definitions. -/
structure InterfaceTypeDefinition where
  Description : ByteSliceReference
  Name : ByteSliceReference
  FieldsDefinition : FieldDefinitions
  DirectiveSet : Int
  Position : position.Position
  IsExtend : Bool
deriving DecidableEq, Repr

/-- Modelled from the spec: the record of a union type definition is not among
the sources; "`|`-separated identifiers", the names of the member types. -/
structure UnionTypeDefinition where
  Description : ByteSliceReference
  Name : ByteSliceReference
  UnionMemberTypes : List ByteSliceReference
  DirectiveSet : Int
  Position : position.Position
  IsExtend : Bool
deriving DecidableEq, Repr

/-- Modelled from the spec: the record of a value of an enum type is not among
the sources; its name and directives, chained by `NextRef` as the field
definitions are. -/
structure EnumValueDefinition where
  Description : ByteSliceReference
  EnumValue : ByteSliceReference
  DirectiveSet : Int
  Position : position.Position
  NextRef : Int
deriving DecidableEq, Repr

/-- Modelled from the spec: the record of an enum type definition is not among
the sources; with the head of the `NextRef` chain of its values (`-1` when it
has none). -/
structure EnumTypeDefinition where
  Description : ByteSliceReference
  Name : ByteSliceReference
  EnumValuesDefinition : Int
  DirectiveSet : Int
  Position : position.Position
  IsExtend : Bool
deriving DecidableEq, Repr

/-- Modelled from the spec: the record of an input object type definition is
not among the sources; with the head of the `NextRef` chain of its input
fields (`-1` when it has none). -/
structure InputObjectTypeDefinition where
  Description : ByteSliceReference
  Name : ByteSliceReference
  InputFieldsDefinition : Int
  DirectiveSet : Int
  Position : position.Position
  IsExtend : Bool
deriving DecidableEq, Repr

/-- Modelled from the spec: the record of a variable definition of an operation
is not among the sources; the variable, its type and its default value (`-1`
when it has none). -/
structure VariableDefinition where
  Variable : ByteSliceReference
  Type' : Int
  DefaultValue : Int
  Position : position.Position
deriving DecidableEq, Repr

/-- Modelled from the spec: the record `Directive` is not among the sources;
`{name, argument_set_index}`. -/
structure Directive where
  Name : ByteSliceReference
  ArgumentSet : Int
deriving DecidableEq, Repr

/-- Modelled from the spec: the record `InputValueDefinition` is not among the
sources; an argument definition with its name, type and default value (`-1`
when it has none), "stored with a `next_ref` index to form intrusive
singly-linked lists". -/
structure InputValueDefinition where
  Description : ByteSliceReference
  Name : ByteSliceReference
  Type' : Int
  DefaultValue : Int
  DirectiveSet : Int
  Position : position.Position
  NextRef : Int
deriving DecidableEq, Repr

/-- Modelled from the spec: the record `DirectiveDefinition` is not among the
sources; its name, the head of the chain of its argument definitions (`-1` when
it has none) and the locations it is allowed at. -/
structure DirectiveDefinition where
  Description : ByteSliceReference
  Name : ByteSliceReference
  ArgumentsDefinition : Int
  DirectiveLocations : List ByteSliceReference
  Position : position.Position
  IsExtend : Bool
deriving DecidableEq, Repr

/-- Modelled from the spec: a field of an object value, its name and the
reference of its value. -/
structure ObjectField where
  Name : ByteSliceReference
  Value : Int
deriving DecidableEq, Repr

end document

namespace lookup

open document

/-- The element at a Go `int` index, `none` outside the slice. -/
def getAt {α : Type} (xs : List α) (i : Int) : Option α :=
  if i < 0 then none else xs.get? i.toNat

/-- Modelled from the spec: `parser.ParsedDefinitions` with the input buffer is
not among the sources; "a single container owning all pools and the input
buffer".  Bytes are naturals below 256.  `Values` are the parsed values,
`ByteSliceReferences` the cached string literals that a string value refers to.
`Directives` are grouped into `DirectiveSets`; a list value refers to
the references of its values in `ListValues`, an object value to the references
of its fields in `ObjectValues`.  Every kind of type-system definition has its
pool, as the test helpers read them (`SchemaDefinitions`,
`ScalarTypeDefinitions`, ..., `DirectiveDefinitions`). -/
structure ParsedDefinitions where
  Input : List Nat
  Types : List Type'
  Arguments : List Argument
  ArgumentSets : List (List Int)
  Fields : List Field
  SelectionSets : List SelectionSet
  FragmentSpreads : List FragmentSpread
  InlineFragments : List InlineFragment
  OperationDefinitions : List OperationDefinition
  FragmentDefinitions : List FragmentDefinition
  ExecutableDefinition : ExecutableDefinition
  FieldDefinitions : List FieldDefinition
  ObjectTypeDefinitions : List ObjectTypeDefinition
  Values : List Value := []
  ByteSliceReferences : List ByteSliceReference := []
  Directives : List Directive := []
  DirectiveSets : List (List Int) := []
  InputValueDefinitions : List InputValueDefinition := []
  DirectiveDefinitions : List DirectiveDefinition := []
  ListValues : List (List Int) := []
  ObjectValues : List (List Int) := []
  ObjectFields : List ObjectField := []
  SchemaDefinitions : List SchemaDefinition := []
  ScalarTypeDefinitions : List ScalarTypeDefinition := []
  InterfaceTypeDefinitions : List InterfaceTypeDefinition := []
  UnionTypeDefinitions : List UnionTypeDefinition := []
  EnumTypeDefinitions : List EnumTypeDefinition := []
  EnumValueDefinitions : List EnumValueDefinition := []
  InputObjectTypeDefinitions : List InputObjectTypeDefinition := []
  VariableDefinitions : List VariableDefinition := []
deriving Repr

/-- Modelled from the spec: `resolve(byte_slice_ref)`, "exactly the source bytes
between `start` and `end`". -/
def ParsedDefinitions.ByteSlice (d : ParsedDefinitions) (r : ByteSliceReference) : List Nat :=
  (d.Input.drop r.Start).take (r.End - r.Start)

/-- Modelled from the spec: "equality is byte-comparison against the input". -/
def ParsedDefinitions.ByteSliceReferenceContentsEquals (d : ParsedDefinitions)
    (a b : ByteSliceReference) : Bool :=
  d.ByteSlice a == d.ByteSlice b

/-! Pool reads.  A reference outside its pool, which invariant 1 of the data
model excludes and on which a Go slice read panics, reads as a record without
links. -/

/-- Modelled from the spec: `get_Type(index)`. -/
def ParsedDefinitions.Type' (d : ParsedDefinitions) (ref : Int) : document.Type' :=
  (getAt d.Types ref).getD ⟨.Named, ⟨0, 0⟩, -1⟩

/-- Modelled from the spec: `get_Field(index)`. -/
def ParsedDefinitions.Field (d : ParsedDefinitions) (ref : Int) : document.Field :=
  (getAt d.Fields ref).getD ⟨⟨0, 0⟩, ⟨0, 0⟩, -1, -1, -1, ⟨0, 0, 0, 0⟩⟩

/-- Modelled from the spec: `get_SelectionSet(index)`; the walker test reads the
set of a field without selection set (`-1`) and gets a set without entries. -/
def ParsedDefinitions.SelectionSet (d : ParsedDefinitions) (ref : Int) : document.SelectionSet :=
  (getAt d.SelectionSets ref).getD ⟨[], [], []⟩

/-- Modelled from the spec: `get_ArgumentSet(index)`. -/
def ParsedDefinitions.ArgumentSet (d : ParsedDefinitions) (ref : Int) : List Int :=
  (getAt d.ArgumentSets ref).getD []

/-- Modelled from the spec: `get_Argument(index)`. -/
def ParsedDefinitions.Argument (d : ParsedDefinitions) (ref : Int) : document.Argument :=
  (getAt d.Arguments ref).getD ⟨⟨0, 0⟩, -1⟩

/-- Modelled from the spec: `get_FragmentSpread(index)`. -/
def ParsedDefinitions.FragmentSpread (d : ParsedDefinitions) (ref : Int) : document.FragmentSpread :=
  (getAt d.FragmentSpreads ref).getD ⟨⟨0, 0⟩, -1, ⟨0, 0, 0, 0⟩⟩

/-- Modelled from the spec: `get_InlineFragment(index)`. -/
def ParsedDefinitions.InlineFragment (d : ParsedDefinitions) (ref : Int) : document.InlineFragment :=
  (getAt d.InlineFragments ref).getD ⟨-1, -1, -1, ⟨0, 0, 0, 0⟩⟩

/-- Modelled from the spec: `get_OperationDefinition(index)`. -/
def ParsedDefinitions.OperationDefinition (d : ParsedDefinitions) (ref : Int) :
    document.OperationDefinition :=
  (getAt d.OperationDefinitions ref).getD ⟨.Query, ⟨0, 0⟩, [], -1, -1⟩

/-- Modelled from the spec: `get_FragmentDefinition(index)`. -/
def ParsedDefinitions.FragmentDefinition (d : ParsedDefinitions) (ref : Int) :
    document.FragmentDefinition :=
  (getAt d.FragmentDefinitions ref).getD ⟨⟨0, 0⟩, -1, -1, -1⟩

/-- Modelled from the spec: `get_FieldDefinition(index)`, the
`FieldDefinitionGetter` of the parser. -/
def ParsedDefinitions.FieldDefinition (d : ParsedDefinitions) (ref : Int) :
    document.FieldDefinition :=
  (getAt d.FieldDefinitions ref).getD { FieldDefinition.zero with NextRef := -1 }

end lookup

/-! ## The walker and its lookups -/

namespace lookup

open document

/-- Modelled from the spec: the node kinds of the walker are not among the
sources; the kinds of the executable document that the tests reach. -/
inductive NodeKind where
  | OPERATION_DEFINITION | FRAGMENT_DEFINITION | SELECTION_SET | FIELD
  | INLINE_FRAGMENT | FRAGMENT_SPREAD | ARGUMENT_SET | ARGUMENT
deriving DecidableEq, Repr, Inhabited

/-- Modelled from the spec: a walked node is not among the sources; the walker
keeps for every visited node its kind, its pool reference and the index of its
parent node ("ancestor indices"), `-1` for a root. -/
structure Node where
  Parent : Int
  Kind : NodeKind
  Ref : Int
deriving DecidableEq, Repr

/-- Modelled from the spec: `lookup.Walker` is not among the sources; the lookup
`l` over the parsed definitions and the nodes in visiting order. -/
structure Walker where
  l : ParsedDefinitions
  nodes : List Node
deriving Repr

/-- Walks the references `xs` one after the other; `f x base` is the list of
nodes the walk of `x` appends to a node list that has `base` entries. -/
def walkEach (f : Int → Nat → List Node) : List Int → Nat → List Node
  | [], _ => []
  | x :: xs, base => f x base ++ walkEach f xs (base + (f x base).length)

/-- Modelled from the spec: the walk of an argument set with parent node
`parent`: the set, then its arguments in order as children of the set. -/
def walkArgumentSet (d : ParsedDefinitions) (setRef : Int) (parent : Int) (base : Nat) :
    List Node :=
  if setRef = -1 then []
  else ⟨parent, .ARGUMENT_SET, setRef⟩ ::
    (d.ArgumentSet setRef).map (fun ref => ⟨(base : Int), .ARGUMENT, ref⟩)

/-- Modelled from the spec: the depth-first walk of a selection set with parent
node `parent`, appended to a node list of `base` entries: the set itself, then
its fields (each followed by its argument set and its own selection set), its
fragment spreads and its inline fragments (each followed by its selection set).
`depth` bounds the nesting of selection sets that is followed. -/
def walkSelectionSet (d : ParsedDefinitions) : Nat → Int → Int → Nat → List Node
  | 0, _, _, _ => []
  | depth + 1, setRef, parent, base =>
    if setRef = -1 then []
    else
      let set := d.SelectionSet setRef
      let fields := walkEach (fun ref b =>
          let args := walkArgumentSet d (d.Field ref).ArgumentSet b (b + 1)
          ⟨(base : Int), .FIELD, ref⟩ ::
            (args ++ walkSelectionSet d depth (d.Field ref).SelectionSet b (b + 1 + args.length)))
        set.Fields (base + 1)
      let spreads := set.FragmentSpreads.map (fun ref => (⟨(base : Int), .FRAGMENT_SPREAD, ref⟩ : Node))
      let inlineFragments := walkEach (fun ref b =>
          ⟨(base : Int), .INLINE_FRAGMENT, ref⟩ ::
            walkSelectionSet d depth (d.InlineFragment ref).SelectionSet b (b + 1))
        set.InlineFragments (base + 1 + fields.length + spreads.length)
      ⟨parent, .SELECTION_SET, setRef⟩ :: (fields ++ spreads ++ inlineFragments)

/-- Modelled from the spec: the nodes of `walk_executable()`: every operation
definition in document order, then every fragment definition, each a root
(`Parent = -1`) followed by the walk of its selection set. -/
def walkExecutableNodes (d : ParsedDefinitions) (depth : Nat) : List Node :=
  let operations := walkEach (fun ref b =>
      ⟨-1, .OPERATION_DEFINITION, ref⟩ ::
        walkSelectionSet d depth (d.OperationDefinition ref).SelectionSet b (b + 1))
    d.ExecutableDefinition.OperationDefinitions 0
  let fragments := walkEach (fun ref b =>
      ⟨-1, .FRAGMENT_DEFINITION, ref⟩ ::
        walkSelectionSet d depth (d.FragmentDefinition ref).SelectionSet b (b + 1))
    d.ExecutableDefinition.FragmentDefinitions operations.length
  operations ++ fragments

/-- Modelled from the spec: `NewWalker`, `SetLookup` and `WalkExecutable` of the
walker test; selection sets are followed `depth` levels deep. -/
def WalkExecutable (d : ParsedDefinitions) (depth : Nat) : Walker :=
  ⟨d, walkExecutableNodes d depth⟩

/-- Walks up the parent indices from node `p` to a root and folds `step` over
the nodes met, the root first: the value at a node is `step` of its kind and
reference applied to the value at its parent, and `init` above a root.  The
number of steps is bounded by `fuel`. -/
def walkUp {σ : Type} (step : NodeKind → Int → σ → σ) (init : σ) (nodes : List Node) :
    Nat → Int → σ
  | 0, _ => init
  | fuel + 1, p =>
    match getAt nodes p with
    | none => init
    | some node => step node.Kind node.Ref (walkUp step init nodes fuel node.Parent)

/-- Modelled from the spec: "the alias or name of each enclosing field"; an
alias is present when it is not empty (test helper `hasAlias`). -/
def aliasOrName (f : document.Field) : ByteSliceReference :=
  if f.Alias.Length ≠ 0 then f.Alias else f.Name

/-- The step of `FieldPath`: a field puts its alias or name in front of the
path of its ancestors, every other node leaves the path as it is. -/
def fieldPathStep (d : ParsedDefinitions) (kind : NodeKind) (ref : Int)
    (path : List ByteSliceReference) : List ByteSliceReference :=
  if kind = .FIELD then aliasOrName (d.Field ref) :: path else path

/-- Modelled from the spec: `Walker.FieldPath` is not among the sources;
"walks up from a field's parent selection set, emitting the alias or name of
each enclosing field, skipping inline fragments". -/
def Walker.FieldPath (w : Walker) (parent : Int) : List ByteSliceReference :=
  walkUp (fieldPathStep w.l) [] w.nodes w.nodes.length parent

/-- Modelled from the spec: `Walker.FieldsIterable` is not among the sources;
the walker test reads from it, for every walked field in order, the field
record, its reference and its parent node. -/
def Walker.FieldsIterable (w : Walker) : List (document.Field × Int × Int) :=
  w.nodes.filterMap (fun node =>
    if node.Kind = .FIELD then some (w.l.Field node.Ref, node.Ref, node.Parent) else none)

end lookup

/-! ## Selection-set typing -/

namespace lookup

open document

/-- The type at `ref` is the named type at `named` inside the list and non-null
wrappers at `ws`, outermost first. -/
def wrapsNamed (d : ParsedDefinitions) : Int → List Int → Int → Bool
  | ref, [], named => ref == named && (d.Type' named).Kind == .Named
  | ref, w :: ws, named =>
    ref == w && (d.Type' w).Kind != .Named && wrapsNamed d (d.Type' w).OfType ws named

/-- Modelled from the spec: "the unwrapped named type": follows `OfType`
through list and non-null wrappers to the named type; at most `fuel` records
are read, and the empty name results when the fuel runs out. -/
def unwrapType (d : ParsedDefinitions) : Nat → Int → document.Type'
  | 0, _ => ⟨.Named, ⟨0, 0⟩, -1⟩
  | fuel + 1, ref =>
    if (d.Type' ref).Kind = .Named then d.Type' ref
    else unwrapType d fuel (d.Type' ref).OfType

/-- Modelled from the spec: `UnwrappedNamedType`; a chain of wrappers that ends
in a named type has fewer records than the pool, so the pool size is enough
fuel. -/
def ParsedDefinitions.UnwrappedNamedType (d : ParsedDefinitions) (ref : Int) : document.Type' :=
  unwrapType d (d.Types.length + 1) ref

/-- Modelled from the spec: the schema definition of the document, the first of
the pool; without one, the record of zeros. -/
def ParsedDefinitions.SchemaDefinition (d : ParsedDefinitions) : document.SchemaDefinition :=
  (getAt d.SchemaDefinitions 0).getD ⟨⟨0, 0⟩, ⟨0, 0⟩, ⟨0, 0⟩, -1, ⟨0, 0, 0, 0⟩, false⟩

/-- Modelled from the spec: the root (operation or fragment definition) above
node `ref`, found by walking up the parent indices. -/
def Walker.rootNode (w : Walker) (ref : Int) : Option Node :=
  walkUp (fun kind r above =>
      if kind = .OPERATION_DEFINITION ∨ kind = .FRAGMENT_DEFINITION then some ⟨-1, kind, r⟩
      else above)
    none w.nodes w.nodes.length ref

/-- The indices of the fragment-spread nodes that spread the fragment called
`name`, in visiting order. -/
def Walker.spreadsOf (w : Walker) (name : ByteSliceReference) : List Int :=
  ((List.range w.nodes.length).filter (fun i =>
    match w.nodes.get? i with
    | some node => node.Kind = .FRAGMENT_SPREAD ∧
        w.l.ByteSliceReferenceContentsEquals (w.l.FragmentSpread node.Ref).FragmentName name
    | none => false)).map Int.ofNat

/-- Keeps the first occurrence of every element. -/
def keepFirst : List Int → List Int
  | [] => []
  | x :: xs => x :: (keepFirst xs).filter (fun y => y ≠ x)

/-- Modelled from the spec: "walks back through fragment spreads to enumerate
every root operation that reaches `node_ref`", each operation "at most once":
the operation above the node, or, for a node in a fragment definition, the
operations found in the same way from every spread of that fragment.  `fuel`
bounds the number of spreads walked back in a row. -/
def Walker.usedInOperations (w : Walker) : Nat → Int → List Int
  | 0, _ => []
  | fuel + 1, ref =>
    match w.rootNode ref with
    | none => []
    | some root =>
      match root.Kind with
      | .OPERATION_DEFINITION => [root.Ref]
      | .FRAGMENT_DEFINITION =>
        keepFirst ((w.spreadsOf (w.l.FragmentDefinition root.Ref).FragmentName).flatMap
          (fun spread => Walker.usedInOperations w fuel spread))
      | _ => []

/-- Operation `O` reaches node `n` through fragment spreads: `n` lies in `O`, or
`n` lies in a fragment definition and `O` reaches, in the same way, a spread of
that fragment (which may lie in an inline fragment or in another fragment
definition). -/
inductive Walker.Reaches (w : Walker) : Int → Int → Prop where
  | operation (n : Int) (root : Node) (hroot : w.rootNode n = some root)
      (hkind : root.Kind = .OPERATION_DEFINITION) : Walker.Reaches w root.Ref n
  | spread (O n s : Int) (root : Node) (hroot : w.rootNode n = some root)
      (hkind : root.Kind = .FRAGMENT_DEFINITION)
      (hs : s ∈ w.spreadsOf (w.l.FragmentDefinition root.Ref).FragmentName)
      (hreach : Walker.Reaches w O s) : Walker.Reaches w O n

/-- Modelled from the spec: the entry of the "node-usage map linking reachable
nodes back to the set of root operations transitively containing them": the
walk back finds the set, and it is enumerated in the order of the operations of
the document, as the test of two queries that spread one fragment expects,
each operation once. -/
def Walker.usageInOperations (w : Walker) (fuel : Nat) (ref : Int) : List Int :=
  keepFirst (w.l.ExecutableDefinition.OperationDefinitions.filter
    (fun O => decide (O ∈ w.usedInOperations fuel ref)))

/-- Modelled from the spec: the iterator returned by
`NodeUsageInOperationsIterator` is not among the sources; the test drives it
with `Next()` and `Value()`. -/
structure NodeUsageInOperationsIterator where
  current : Int
  refs : List Int
deriving DecidableEq, Repr

/-- Modelled from the spec: `Walker.NodeUsageInOperationsIterator`. -/
def Walker.NodeUsageInOperationsIterator (w : Walker) (fuel : Nat) (ref : Int) :
    NodeUsageInOperationsIterator :=
  ⟨-1, w.usageInOperations fuel ref⟩

/-- Modelled from the spec: `Next` of the iterator: moves to the next
operation and tells whether there is one. -/
def NodeUsageInOperationsIterator.Next (i : NodeUsageInOperationsIterator) :
    Bool × NodeUsageInOperationsIterator :=
  (decide (i.current + 1 < i.refs.length), { i with current := i.current + 1 })

/-- Modelled from the spec: `Value` of the iterator: the operation reference at
the current position (`none` where a Go slice read panics). -/
def NodeUsageInOperationsIterator.Value (i : NodeUsageInOperationsIterator) : Option Int :=
  getAt i.refs i.current

end lookup

/-! ## The document read top-down

What the lookups of the walker are compared with: every field of the document
together with a value that is computed from the root down to the field. -/

namespace lookup

open document

/-- The fields below selection set `setRef`, in document order, each with the
value `step` has built from the root down to the selection set the field is
in; `s` is the value at the parent of the set.  Fields come with the value of
their set, the set of a field or inline fragment is entered with the value
stepped by that field or inline fragment. -/
def descendSet {σ : Type} (d : ParsedDefinitions) (step : NodeKind → Int → σ → σ) :
    Nat → Int → σ → List (Int × σ)
  | 0, _, _ => []
  | depth + 1, setRef, s =>
    if setRef = -1 then []
    else
      (d.SelectionSet setRef).Fields.flatMap (fun ref =>
        (ref, step .SELECTION_SET setRef s) ::
          descendSet d step depth (d.Field ref).SelectionSet
            (step .FIELD ref (step .SELECTION_SET setRef s))) ++
      (d.SelectionSet setRef).InlineFragments.flatMap (fun ref =>
        descendSet d step depth (d.InlineFragment ref).SelectionSet
          (step .INLINE_FRAGMENT ref (step .SELECTION_SET setRef s)))

/-- The fields of all operations and then of all fragment definitions, see
`descendSet`. -/
def descendDocument {σ : Type} (d : ParsedDefinitions) (step : NodeKind → Int → σ → σ)
    (init : σ) (depth : Nat) : List (Int × σ) :=
  d.ExecutableDefinition.OperationDefinitions.flatMap (fun ref =>
    descendSet d step depth (d.OperationDefinition ref).SelectionSet
      (step .OPERATION_DEFINITION ref init)) ++
  d.ExecutableDefinition.FragmentDefinitions.flatMap (fun ref =>
    descendSet d step depth (d.FragmentDefinition ref).SelectionSet
      (step .FRAGMENT_DEFINITION ref init))

/-- The fields below selection set `setRef`, in document order, each with the
references of its enclosing fields, outermost first; `enclosing` are the fields
that enclose the set.  Inline fragments enclose nothing. -/
def enclosedFields (d : ParsedDefinitions) : Nat → Int → List Int → List (Int × List Int)
  | 0, _, _ => []
  | depth + 1, setRef, enclosing =>
    if setRef = -1 then []
    else
      (d.SelectionSet setRef).Fields.flatMap (fun ref =>
        (ref, enclosing) ::
          enclosedFields d depth (d.Field ref).SelectionSet (enclosing ++ [ref])) ++
      (d.SelectionSet setRef).InlineFragments.flatMap (fun ref =>
        enclosedFields d depth (d.InlineFragment ref).SelectionSet enclosing)

/-- Every field of the executable document (selection sets nested at most
`depth` deep), in document order, with its enclosing fields, outermost
first. -/
def documentFields (d : ParsedDefinitions) (depth : Nat) : List (Int × List Int) :=
  d.ExecutableDefinition.OperationDefinitions.flatMap (fun ref =>
    enclosedFields d depth (d.OperationDefinition ref).SelectionSet []) ++
  d.ExecutableDefinition.FragmentDefinitions.flatMap (fun ref =>
    enclosedFields d depth (d.FragmentDefinition ref).SelectionSet [])

/-- In a node list built by a walk every parent index is smaller than the index
of its node. -/
def Backward (nodes : List Node) : Prop :=
  ∀ (i : Nat) (node : Node), nodes.get? i = some node → node.Parent < (i : Int)

/-- The value of the upward fold at node `p` of a complete node list. -/
def valueAt {σ : Type} (step : NodeKind → Int → σ → σ) (init : σ) (nodes : List Node)
    (p : Int) : σ :=
  walkUp step init nodes nodes.length p

/-- The walked fields among `seg`, each with the value of the upward fold at its
parent node in the node list `nodes`. -/
def fieldEntries {σ : Type} (step : NodeKind → Int → σ → σ) (init : σ) (nodes seg : List Node) :
    List (Int × σ) :=
  seg.filterMap (fun node =>
    if node.Kind = .FIELD then some (node.Ref, valueAt step init nodes node.Parent) else none)

/-- The segment `seg`, appended to `pre`, keeps parents before their children
and its walked fields carry the `expected` values. -/
def SegOK {σ : Type} (step : NodeKind → Int → σ → σ) (init : σ) (pre seg : List Node)
    (expected : List (Int × σ)) : Prop :=
  Backward (pre ++ seg) ∧ fieldEntries step init (pre ++ seg) seg = expected

end lookup

/-! ## Merging of fields -/

namespace astinspect

open document lookup

/-- Modelled from the spec: `astinspect.FieldsCanMerge` is not among the
sources (only its test is); two fields can merge unless they have the same
response key (the alias if present, otherwise the name) and name different
fields, as the alias `a` of field `b` conflicts with field `a`.  `left` and
`right` are the references of the two fields, which in the documents of the
test are also their positions in the selection set. -/
def FieldsCanMerge (d : ParsedDefinitions) (left right : Int) : Bool :=
  if d.ByteSliceReferenceContentsEquals (aliasOrName (d.Field left))
      (aliasOrName (d.Field right)) then
    d.ByteSliceReferenceContentsEquals (d.Field left).Name (d.Field right).Name
  else true

end astinspect

/-! ## Example documents

The pools of the documents used by the walker and merge tests, as a parse
leaves them: records in order of appearance, references as byte offsets into
the input. -/

namespace lookup

open document

/-- The bytes of an ASCII text. -/
def asciiBytes (s : String) : List Nat := s.toList.map Char.toNat

/-- The document of the walker test "with alias". -/
def aliasPathDocument : ParsedDefinitions where
  Input := asciiBytes "{dog{renamed:owner{name}}}"
  Types := []
  Arguments := []
  ArgumentSets := []
  Fields := [
      ⟨⟨0, 0⟩, ⟨1, 4⟩, -1, -1, 1, ⟨0, 0, 0, 0⟩⟩,
      ⟨⟨5, 12⟩, ⟨13, 18⟩, -1, -1, 2, ⟨0, 0, 0, 0⟩⟩,
      ⟨⟨0, 0⟩, ⟨19, 23⟩, -1, -1, -1, ⟨0, 0, 0, 0⟩⟩]
  SelectionSets := [
      ⟨[0], [], []⟩,
      ⟨[1], [], []⟩,
      ⟨[2], [], []⟩]
  FragmentSpreads := []
  InlineFragments := []
  OperationDefinitions := [
      ⟨.Query, ⟨0, 0⟩, [], -1, 0⟩]
  FragmentDefinitions := []
  ExecutableDefinition := ⟨[0], []⟩
  FieldDefinitions := []
  ObjectTypeDefinitions := []

/-- The document of the walker test "with nested inline fragments". -/
def inlinePathDocument : ParsedDefinitions where
  Input := asciiBytes "{ dog { ... on Dog { ... { owner { name } } } } }"
  Types := [
      ⟨.Named, ⟨15, 18⟩, -1⟩]
  Arguments := []
  ArgumentSets := []
  Fields := [
      ⟨⟨0, 0⟩, ⟨2, 5⟩, -1, -1, 1, ⟨0, 0, 0, 0⟩⟩,
      ⟨⟨0, 0⟩, ⟨27, 32⟩, -1, -1, 4, ⟨0, 0, 0, 0⟩⟩,
      ⟨⟨0, 0⟩, ⟨35, 39⟩, -1, -1, -1, ⟨0, 0, 0, 0⟩⟩]
  SelectionSets := [
      ⟨[0], [], []⟩,
      ⟨[], [], [0]⟩,
      ⟨[], [], [1]⟩,
      ⟨[1], [], []⟩,
      ⟨[2], [], []⟩]
  FragmentSpreads := []
  InlineFragments := [
      ⟨0, -1, 2, ⟨0, 0, 0, 0⟩⟩,
      ⟨-1, -1, 3, ⟨0, 0, 0, 0⟩⟩]
  OperationDefinitions := [
      ⟨.Query, ⟨0, 0⟩, [], -1, 0⟩]
  FragmentDefinitions := []
  ExecutableDefinition := ⟨[0], []⟩
  FieldDefinitions := []
  ObjectTypeDefinitions := []

/-- The document of the walker test "fragment multiple times", without its directive. -/
def spreadTwiceDocument : ParsedDefinitions where
  Input := asciiBytes "query argOnRequiredArg($booleanArg: Boolean) { dog { ...argOnOptional ...argOnOptional ...argOnOptional } } fragment argOnOptional on Dog { isHousetrained(atOtherHomes: $booleanArg) }"
  Types := [
      ⟨.Named, ⟨134, 137⟩, -1⟩]
  Arguments := [
      ⟨⟨155, 167⟩, 0⟩]
  ArgumentSets := [
      [0]]
  Fields := [
      ⟨⟨0, 0⟩, ⟨47, 50⟩, -1, -1, 1, ⟨0, 0, 0, 0⟩⟩,
      ⟨⟨0, 0⟩, ⟨140, 154⟩, 0, -1, -1, ⟨0, 0, 0, 0⟩⟩]
  SelectionSets := [
      ⟨[0], [], []⟩,
      ⟨[], [0, 1, 2], []⟩,
      ⟨[1], [], []⟩]
  FragmentSpreads := [
      ⟨⟨56, 69⟩, -1, ⟨0, 0, 0, 0⟩⟩,
      ⟨⟨73, 86⟩, -1, ⟨0, 0, 0, 0⟩⟩,
      ⟨⟨90, 103⟩, -1, ⟨0, 0, 0, 0⟩⟩]
  InlineFragments := []
  OperationDefinitions := [
      ⟨.Query, ⟨6, 22⟩, [], -1, 0⟩]
  FragmentDefinitions := [
      ⟨⟨117, 130⟩, 0, -1, 2⟩]
  ExecutableDefinition := ⟨[0], [0]⟩
  FieldDefinitions := []
  ObjectTypeDefinitions := []

/-- The document `{dog{isHousetrained(atOtherHomes: $a, withCat: $b)}}`, a field with two
arguments below a field with none. -/
def argumentsDocument : ParsedDefinitions where
  Input := asciiBytes "{dog{isHousetrained(atOtherHomes: $a, withCat: $b)}}"
  Types := []
  Arguments := [
      ⟨⟨20, 32⟩, 0⟩,
      ⟨⟨38, 45⟩, 1⟩]
  ArgumentSets := [
      [0, 1]]
  Fields := [
      ⟨⟨0, 0⟩, ⟨1, 4⟩, -1, -1, 1, ⟨0, 0, 0, 0⟩⟩,
      ⟨⟨0, 0⟩, ⟨5, 19⟩, 0, -1, -1, ⟨0, 0, 0, 0⟩⟩]
  SelectionSets := [
      ⟨[0], [], []⟩,
      ⟨[1], [], []⟩]
  FragmentSpreads := []
  InlineFragments := []
  OperationDefinitions := [
      ⟨.Query, ⟨0, 0⟩, [], -1, 0⟩]
  FragmentDefinitions := []
  ExecutableDefinition := ⟨[0], []⟩
  FieldDefinitions := []
  ObjectTypeDefinitions := []

/-- The document `{a b}` of the merge test. -/
def mergeDifferentDocument : ParsedDefinitions where
  Input := asciiBytes "{a b}"
  Types := []
  Arguments := []
  ArgumentSets := []
  Fields := [
      ⟨⟨0, 0⟩, ⟨1, 2⟩, -1, -1, -1, ⟨0, 0, 0, 0⟩⟩,
      ⟨⟨0, 0⟩, ⟨3, 4⟩, -1, -1, -1, ⟨0, 0, 0, 0⟩⟩]
  SelectionSets := [
      ⟨[0, 1], [], []⟩]
  FragmentSpreads := []
  InlineFragments := []
  OperationDefinitions := [
      ⟨.Query, ⟨0, 0⟩, [], -1, 0⟩]
  FragmentDefinitions := []
  ExecutableDefinition := ⟨[0], []⟩
  FieldDefinitions := []
  ObjectTypeDefinitions := []

/-- The document `{a a}` of the merge test. -/
def mergeSameDocument : ParsedDefinitions where
  Input := asciiBytes "{a a}"
  Types := []
  Arguments := []
  ArgumentSets := []
  Fields := [
      ⟨⟨0, 0⟩, ⟨1, 2⟩, -1, -1, -1, ⟨0, 0, 0, 0⟩⟩,
      ⟨⟨0, 0⟩, ⟨3, 4⟩, -1, -1, -1, ⟨0, 0, 0, 0⟩⟩]
  SelectionSets := [
      ⟨[0, 1], [], []⟩]
  FragmentSpreads := []
  InlineFragments := []
  OperationDefinitions := [
      ⟨.Query, ⟨0, 0⟩, [], -1, 0⟩]
  FragmentDefinitions := []
  ExecutableDefinition := ⟨[0], []⟩
  FieldDefinitions := []
  ObjectTypeDefinitions := []

/-- The document `{a: b a}` of the merge test. -/
def mergeAliasedDocument : ParsedDefinitions where
  Input := asciiBytes "{a: b a}"
  Types := []
  Arguments := []
  ArgumentSets := []
  Fields := [
      ⟨⟨1, 2⟩, ⟨4, 5⟩, -1, -1, -1, ⟨0, 0, 0, 0⟩⟩,
      ⟨⟨0, 0⟩, ⟨6, 7⟩, -1, -1, -1, ⟨0, 0, 0, 0⟩⟩]
  SelectionSets := [
      ⟨[0, 1], [], []⟩]
  FragmentSpreads := []
  InlineFragments := []
  OperationDefinitions := [
      ⟨.Query, ⟨0, 0⟩, [], -1, 0⟩]
  FragmentDefinitions := []
  ExecutableDefinition := ⟨[0], []⟩
  FieldDefinitions := []
  ObjectTypeDefinitions := []

end lookup

/-! ## Manual mutation of the AST

`ManualAstMod` is not among the sources (only the test helpers that call it
are).  A write to a pool entry outside the pool is a Go panic (index out of
range) and returns an error. -/

namespace parser

open document lookup

/-- The list with the entry at Go index `i` replaced, an error outside the
list. -/
def setAt {α : Type} (xs : List α) (i : Int) (x : α) : Except String (List α) :=
  if 0 ≤ i ∧ i < (xs.length : Int) then .ok (xs.set i.toNat x)
  else .error "index out of range"

/-- Modelled from the spec: `PutLiteralString`, "interns a byte slice into the
input buffer (growing it) and returns a `ByteSliceRef` plus a primitive-cache
index": the bytes are appended to the input, the reference spans them and is
itself appended to the cached string literals.  The Go function also returns an
error, of which the sources show no cause; it is left out. -/
def PutLiteralString (d : ParsedDefinitions) (b : List Nat) :
    (ByteSliceReference × Int) × ParsedDefinitions :=
  ((⟨d.Input.length, d.Input.length + b.length⟩, (d.ByteSliceReferences.length : Int)),
   { d with
     Input := d.Input ++ b
     ByteSliceReferences :=
       d.ByteSliceReferences ++ [⟨d.Input.length, d.Input.length + b.length⟩] })

/-- Modelled from the spec: `put_field(field_record) -> index`, an append to
the pool. -/
def PutField (d : ParsedDefinitions) (f : Field) : Int × ParsedDefinitions :=
  ((d.Fields.length : Int), { d with Fields := d.Fields ++ [f] })

/-- Modelled from the spec: `put_value`, an append to the pool. -/
def PutValue (d : ParsedDefinitions) (v : Value) : Int × ParsedDefinitions :=
  ((d.Values.length : Int), { d with Values := d.Values ++ [v] })

/-- Modelled from the spec: `put_argument`, an append to the pool. -/
def PutArgument (d : ParsedDefinitions) (a : Argument) : Int × ParsedDefinitions :=
  ((d.Arguments.length : Int), { d with Arguments := d.Arguments ++ [a] })

/-- Modelled from the spec: `append_field_to_selection_set(field_index,
set_index)`, "extends the set's field list". -/
def AppendFieldToSelectionSet (d : ParsedDefinitions) (fieldRef setRef : Int) :
    Except String ParsedDefinitions := do
  let sets ← setAt d.SelectionSets setRef
    { d.SelectionSet setRef with Fields := (d.SelectionSet setRef).Fields ++ [fieldRef] }
  pure { d with SelectionSets := sets }

/-- Modelled from the spec: `delete_field_from_selection_set(field_index,
set_index)`, "rewrites the set's field list, omitting the target index; the
field record itself remains in the pool". -/
def DeleteFieldFromSelectionSet (d : ParsedDefinitions) (fieldRef setRef : Int) :
    Except String ParsedDefinitions := do
  let sets ← setAt d.SelectionSets setRef
    { d.SelectionSet setRef with
      Fields := (d.SelectionSet setRef).Fields.filter (fun ref => ref ≠ fieldRef) }
  pure { d with SelectionSets := sets }

/-- The argument called like argument `argRef`: "argument-name equality is byte
comparison via the interner". -/
def sameArgumentName (d : ParsedDefinitions) (argRef other : Int) : Bool :=
  d.ByteSliceReferenceContentsEquals (d.Argument other).Name (d.Argument argRef).Name

/-- The argument set with its first argument called like `argRef` replaced by
`argRef`, or with `argRef` appended when no argument is called so. -/
def mergeArgument (d : ParsedDefinitions) (argRef : Int) : List Int → List Int
  | [] => [argRef]
  | x :: xs => if sameArgumentName d argRef x then argRef :: xs else x :: mergeArgument d argRef xs

/-- Modelled from the spec: `merge_argument_into_field(arg_index,
field_index)`, "if the field has no argument set, assigns a new one; otherwise
appends the argument unless an argument of the same name exists (in which case
it is replaced)". -/
def MergeArgIntoFieldArguments (d : ParsedDefinitions) (argRef fieldRef : Int) :
    Except String ParsedDefinitions :=
  if (d.Field fieldRef).ArgumentSet = -1 then do
    let fields ← setAt d.Fields fieldRef
      { d.Field fieldRef with ArgumentSet := (d.ArgumentSets.length : Int) }
    pure { d with Fields := fields, ArgumentSets := d.ArgumentSets ++ [[argRef]] }
  else do
    let sets ← setAt d.ArgumentSets (d.Field fieldRef).ArgumentSet
      (mergeArgument d argRef (d.ArgumentSet (d.Field fieldRef).ArgumentSet))
    pure { d with ArgumentSets := sets }

/-- The steps of the test helper `mustMergeArgumentOnField` before its merge:
the name of the argument and the content of its value are interned, the string
value and then the argument are put; gives the reference of the argument. -/
def putStringArgument (d : ParsedDefinitions) (argumentName valueContent : List Nat) :
    Int × ParsedDefinitions :=
  let name := PutLiteralString d argumentName
  let content := PutLiteralString name.2 valueContent
  let value := PutValue content.2 ⟨.String, content.1.2, ⟨0, 0, 0, 0⟩, content.1.1⟩
  PutArgument value.2 ⟨name.1.1, value.1⟩

/-- The document `argumentsDocument` with a new argument `withCat: "true"` put,
the name interned anew: the argument to merge and the document. -/
def replaceArgumentExample : Int × ParsedDefinitions :=
  putStringArgument argumentsDocument (asciiBytes "withCat") (asciiBytes "true")

/-- The document `argumentsDocument` with a new argument `withDog: "true"`
put: the argument to merge and the document. -/
def appendArgumentExample : Int × ParsedDefinitions :=
  putStringArgument argumentsDocument (asciiBytes "withDog") (asciiBytes "true")

end parser

/-! ## Records added to the pools -/

namespace parser

open document lookup

/-- Modelled from the spec: records added to the pools, "AST pools grow
monotonically during parsing": the bytes and records of `added` are appended
to the input and to every pool, and the operation and fragment lists are
extended. -/
def appendParsed (d added : ParsedDefinitions) : ParsedDefinitions where
  Input := d.Input ++ added.Input
  Types := d.Types ++ added.Types
  Arguments := d.Arguments ++ added.Arguments
  ArgumentSets := d.ArgumentSets ++ added.ArgumentSets
  Fields := d.Fields ++ added.Fields
  SelectionSets := d.SelectionSets ++ added.SelectionSets
  FragmentSpreads := d.FragmentSpreads ++ added.FragmentSpreads
  InlineFragments := d.InlineFragments ++ added.InlineFragments
  OperationDefinitions := d.OperationDefinitions ++ added.OperationDefinitions
  FragmentDefinitions := d.FragmentDefinitions ++ added.FragmentDefinitions
  ExecutableDefinition :=
    ⟨d.ExecutableDefinition.OperationDefinitions ++ added.ExecutableDefinition.OperationDefinitions,
     d.ExecutableDefinition.FragmentDefinitions ++ added.ExecutableDefinition.FragmentDefinitions⟩
  FieldDefinitions := d.FieldDefinitions ++ added.FieldDefinitions
  ObjectTypeDefinitions := d.ObjectTypeDefinitions ++ added.ObjectTypeDefinitions
  Values := d.Values ++ added.Values
  ByteSliceReferences := d.ByteSliceReferences ++ added.ByteSliceReferences
  Directives := d.Directives ++ added.Directives
  DirectiveSets := d.DirectiveSets ++ added.DirectiveSets
  InputValueDefinitions := d.InputValueDefinitions ++ added.InputValueDefinitions
  DirectiveDefinitions := d.DirectiveDefinitions ++ added.DirectiveDefinitions
  ListValues := d.ListValues ++ added.ListValues
  ObjectValues := d.ObjectValues ++ added.ObjectValues
  ObjectFields := d.ObjectFields ++ added.ObjectFields
  SchemaDefinitions := d.SchemaDefinitions ++ added.SchemaDefinitions
  ScalarTypeDefinitions := d.ScalarTypeDefinitions ++ added.ScalarTypeDefinitions
  InterfaceTypeDefinitions := d.InterfaceTypeDefinitions ++ added.InterfaceTypeDefinitions
  UnionTypeDefinitions := d.UnionTypeDefinitions ++ added.UnionTypeDefinitions
  EnumTypeDefinitions := d.EnumTypeDefinitions ++ added.EnumTypeDefinitions
  EnumValueDefinitions := d.EnumValueDefinitions ++ added.EnumValueDefinitions
  InputObjectTypeDefinitions := d.InputObjectTypeDefinitions ++ added.InputObjectTypeDefinitions
  VariableDefinitions := d.VariableDefinitions ++ added.VariableDefinitions

end parser

/-! ## The keywords of the lexer -/

namespace keyword

/-- The constants of keyword.go, in the order of their declaration. -/
inductive Keyword where
  | UNDEFINED
  | IDENT
  | EXTEND
  | COMMENT
  | EOF
  | COLON
  | BANG
  | LINETERMINATOR
  | TAB
  | SPACE
  | COMMA
  | AT
  | DOT
  | SPREAD
  | PIPE
  | SLASH
  | EQUALS
  | NEGATIVESIGN
  | AND
  | ON
  | QUOTE
  | IMPLEMENTS
  | SCHEMA
  | SCALAR
  | TYPE
  | INTERFACE
  | UNION
  | ENUM
  | INPUT
  | DIRECTIVE
  | VARIABLE
  | STRING
  | INTEGER
  | FLOAT
  | TRUE
  | FALSE
  | NULL
  | QUERY
  | MUTATION
  | SUBSCRIPTION
  | FRAGMENT
  | BRACKETOPEN
  | BRACKETCLOSE
  | SQUAREBRACKETOPEN
  | SQUAREBRACKETCLOSE
  | CURLYBRACKETOPEN
  | CURLYBRACKETCLOSE
deriving DecidableEq, Repr, Inhabited

end keyword

namespace token

open document

/-- Modelled from the spec: the `lexing/token` package is not among the
sources; a token is `{keyword, literal_ref, position}`. -/
structure Token where
  Keyword : keyword.Keyword
  Literal : ByteSliceReference
  TextPosition : position.Position
deriving DecidableEq, Repr

end token

/-! ## Parsing of type references

The parser is not among the sources (only its test helpers are).  The lexer is
the list of the tokens it has still to deliver: `Read` takes the head, `Peek`
looks at it, and the empty list is the end of the input. -/

namespace parser

open document lookup keyword token

/-- Modelled from the spec: `add_<Entity>(record) -> index` for types, an append
to the pool. -/
def putType (d : ParsedDefinitions) (t : Type') : Int × ParsedDefinitions :=
  ((d.Types.length : Int), { d with Types := d.Types ++ [t] })

/-- The end of `parseType`: the type read so far is put into the pool, inside a
non-null record when a `!` follows. -/
def finishType (firstType : Type') (ts : List Token) (d : ParsedDefinitions) :
    (Int × List Token) × ParsedDefinitions :=
  match ts with
  | [] => (((putType d firstType).1, []), (putType d firstType).2)
  | next :: rest =>
    if next.Keyword = .BANG then
      (((putType (putType d firstType).2 ⟨.NonNull, ⟨0, 0⟩, (putType d firstType).1⟩).1, rest),
       (putType (putType d firstType).2 ⟨.NonNull, ⟨0, 0⟩, (putType d firstType).1⟩).2)
    else (((putType d firstType).1, next :: rest), (putType d firstType).2)

/-- Modelled from the spec: `parseType(&index)`, "`[T]`, `T!`, and nested
combinations parse into a chain of `Type` records; `NonNull` is applied atop
`Named` or `List`": by recursive descent an identifier is a named type, `[`
type `]` a list of the type inside, and one `!` after either makes it non-null.
Returns the index of the outermost record and the tokens left, with the pools
as they are then (also after an error).  `fuel` bounds the depth of the
recursion. -/
def parseTypeFuel : Nat → List Token → ParsedDefinitions →
    Except String (Int × List Token) × ParsedDefinitions
  | 0, _, d => (.error "nesting too deep", d)
  | _ + 1, [], d => (.error "unexpected end of input", d)
  | fuel + 1, first :: rest, d =>
    if first.Keyword = .IDENT then
      (.ok (finishType ⟨.Named, first.Literal, -1⟩ rest d).1,
       (finishType ⟨.Named, first.Literal, -1⟩ rest d).2)
    else if first.Keyword = .SQUAREBRACKETOPEN then
      match parseTypeFuel fuel rest d with
      | (.error e, d') => (.error e, d')
      | (.ok (_, []), d') => (.error "unexpected end of input", d')
      | (.ok (ofType, closing :: rest'), d') =>
        if closing.Keyword = .SQUAREBRACKETCLOSE then
          (.ok (finishType ⟨.List, ⟨0, 0⟩, ofType⟩ rest' d').1,
           (finishType ⟨.List, ⟨0, 0⟩, ofType⟩ rest' d').2)
        else (.error "unexpected token", d')
    else (.error "unexpected token", d)

/-- Modelled from the spec: `parseType`; every level of nesting reads a token,
so more fuel than there are tokens is enough. -/
def parseType (ts : List Token) (d : ParsedDefinitions) :
    Except String (Int × List Token) × ParsedDefinitions :=
  parseTypeFuel (ts.length + 1) ts d

/-- The type record at `i` wraps as the data model allows: a named type wraps
nothing, a list or non-null type wraps a record at a smaller index that is not
older than `base`, and a non-null type does not wrap a non-null type. -/
def wrapsBelow (d : ParsedDefinitions) (base : Nat) (i : Int) : Bool :=
  match (d.Type' i).Kind with
  | .Named => (d.Type' i).OfType == -1
  | .List => decide ((base : Int) ≤ (d.Type' i).OfType ∧ (d.Type' i).OfType < i)
  | .NonNull =>
    decide ((base : Int) ≤ (d.Type' i).OfType ∧ (d.Type' i).OfType < i) &&
      (d.Type' (d.Type' i).OfType).Kind != .NonNull

/-- All type records from `base` on wrap as `wrapsBelow` asks. -/
def TypesWrapBelow (d : ParsedDefinitions) (base : Nat) : Prop :=
  ∀ i : Int, (base : Int) ≤ i → i < (d.Types.length : Int) → wrapsBelow d base i = true

/-- The tokens of a text of type references; a letter is an identifier spanning
that one byte. -/
def typeTokens (s : String) : List Token :=
  (s.toList.enum.filter (fun p => p.2 ≠ ' ')).map (fun p =>
    if p.2 = '[' then ⟨.SQUAREBRACKETOPEN, ⟨p.1, p.1 + 1⟩, ⟨0, 0, 0, 0⟩⟩
    else if p.2 = ']' then ⟨.SQUAREBRACKETCLOSE, ⟨p.1, p.1 + 1⟩, ⟨0, 0, 0, 0⟩⟩
    else if p.2 = '!' then ⟨.BANG, ⟨p.1, p.1 + 1⟩, ⟨0, 0, 0, 0⟩⟩
    else ⟨.IDENT, ⟨p.1, p.1 + 1⟩, ⟨0, 0, 0, 0⟩⟩)

/-- The pools before anything is parsed. -/
def emptyDefinitions : ParsedDefinitions where
  Input := []
  Types := []
  Arguments := []
  ArgumentSets := []
  Fields := []
  SelectionSets := []
  FragmentSpreads := []
  InlineFragments := []
  OperationDefinitions := []
  FragmentDefinitions := []
  ExecutableDefinition := ⟨[], []⟩
  FieldDefinitions := []
  ObjectTypeDefinitions := []

end parser

/-! ## Merging of inline fragments

The normalization `mergeInlineFragments` is not among the sources (only its
test is), nor is the schema `testDefinition` of that test.  It is modelled on
the document as the test writes it: a tree of selections in source order, the
names as text. -/

namespace astnormalization

open document

/-- A selection as written in the source: a field with its alias (empty when it
has none), name and selections, a fragment spread, or an inline fragment with
its type condition, if any, and selections.  Arguments and directives are left
out. -/
inductive Selection where
  | field (Alias Name : String) (selections : List Selection)
  | fragmentSpread (Name : String)
  | inlineFragment (typeCondition : Option String) (selections : List Selection)
deriving Repr

/-- What the normalization reads of the schema: the root type of an operation
type, the unwrapped named type of a field of a type (the empty name when there
is none), and whether a type implements an interface. -/
structure Schema where
  rootType : OperationType → String
  fieldType : String → String → String
  implementsInterface : String → String → Bool

/-- An operation: its type, its name and its selections. -/
structure Operation where
  OperationType : OperationType
  Name : String
  selections : List Selection
deriving Repr

/-- An inline fragment with this type condition is merged into a selection set
of a field of type `enclosing`: it has no type condition, or its type
condition is that type or an interface that type implements. -/
def mergeable (schema : Schema) (enclosing : String) : Option String → Bool
  | none => true
  | some t => t == enclosing || schema.implementsInterface enclosing t

mutual
/-- Modelled from the spec: the step of `mergeInlineFragments` at one selection
of a selection set of a field of type `enclosing`: a mergeable inline fragment
gives way to its own normalized selections, as `... { name }` and
`... on Dog { nick }` do in the scenario of the spec; any other selection
stays, its selections normalized. -/
def normalizeSelection (schema : Schema) (enclosing : String) : Selection → List Selection
  | .field a n sels =>
    [.field a n (normalizeSelections schema (schema.fieldType enclosing n) sels)]
  | .fragmentSpread n => [.fragmentSpread n]
  | .inlineFragment cond sels =>
    if mergeable schema enclosing cond then normalizeSelections schema enclosing sels
    else [.inlineFragment cond (normalizeSelections schema enclosing sels)]
/-- The selections of a selection set, each replaced by what takes its place,
in source order. -/
def normalizeSelections (schema : Schema) (enclosing : String) : List Selection → List Selection
  | [] => []
  | s :: rest =>
    normalizeSelection schema enclosing s ++ normalizeSelections schema enclosing rest
end

/-- Modelled from the spec: the normalization `mergeInlineFragments`,
"`{ dog { ... { name } ... on Dog { nick } } }` → `{ dog { name nick } }`", and
the two cases of its test: every selection set of the operation is
normalized, starting from the root type of the operation. -/
def mergeInlineFragments (schema : Schema) (op : Operation) : Operation :=
  { op with
    selections := normalizeSelections schema (schema.rootType op.OperationType) op.selections }

mutual
/-- The fields of a selection, itself first, in source order, with their
aliases and names. -/
def fieldsOfSelection : Selection → List (String × String)
  | .field a n sels => (a, n) :: fieldsOfSelections sels
  | .fragmentSpread _ => []
  | .inlineFragment _ sels => fieldsOfSelections sels
/-- The fields of the selections of a selection set, in source order. -/
def fieldsOfSelections : List Selection → List (String × String)
  | [] => []
  | s :: rest => fieldsOfSelection s ++ fieldsOfSelections rest
end

mutual
/-- Some inline fragment of the selection, at any depth, is mergeable into the
selection set of its enclosing field. -/
def hasMergeableSelection (schema : Schema) (enclosing : String) : Selection → Bool
  | .field _ n sels => hasMergeableSelections schema (schema.fieldType enclosing n) sels
  | .fragmentSpread _ => false
  | .inlineFragment cond sels =>
    mergeable schema enclosing cond || hasMergeableSelections schema enclosing sels
/-- Some inline fragment of the selections, at any depth, is mergeable. -/
def hasMergeableSelections (schema : Schema) (enclosing : String) : List Selection → Bool
  | [] => false
  | s :: rest =>
    hasMergeableSelection schema enclosing s || hasMergeableSelections schema enclosing rest
end

mutual
/-- The selection is or holds an inline fragment. -/
def hasInlineFragment : Selection → Bool
  | .field _ _ sels => hasInlineFragments sels
  | .fragmentSpread _ => false
  | .inlineFragment _ _ => true
/-- One of the selections is or holds an inline fragment. -/
def hasInlineFragments : List Selection → Bool
  | [] => false
  | s :: rest => hasInlineFragment s || hasInlineFragments rest
end

/-- The direct fields of a selection set, with their aliases and names, in
source order. -/
def directFields : List Selection → List (String × String)
  | [] => []
  | .field a n _ :: rest => (a, n) :: directFields rest
  | _ :: rest => directFields rest

/-- What the tests need of the schema `testDefinition`: the query type has the
field `dog` of type `Dog`, and `Dog` implements the interface `Pet`. -/
def testDefinition : Schema where
  rootType := fun t =>
    match t with
    | .Query => "Query"
    | .Mutation => "Mutation"
    | .Subscription => "Subscription"
  fieldType := fun t f => if t = "Query" ∧ f = "dog" then "Dog" else ""
  implementsInterface := fun t i => t == "Dog" && i == "Pet"

/-- A field without alias and selections. -/
def leaf (name : String) : Selection := .field "" name []

/-- The operation `{ dog { ... { name } ... on Dog { nick } } }` of the
spec. -/
def scenarioOperation : Operation :=
  ⟨.Query, "", [.field "" "dog"
    [.inlineFragment none [leaf "name"], .inlineFragment (some "Dog") [leaf "nick"]]]⟩

/-- The operation of the test "simple". -/
def simpleOperation : Operation :=
  ⟨.Query, "conflictingBecauseAlias", [.field "" "dog"
    [.inlineFragment none [leaf "name"],
     .inlineFragment (some "Dog") [leaf "nickName"],
     .inlineFragment none [.inlineFragment none
       [leaf "doubleNested", .inlineFragment (some "Dog") [leaf "nestedDogName"]]],
     .field "" "extra" [leaf "string"],
     .field "" "extra" [.field "string" "noString" []]]]⟩

/-- The operation of the test "with interface type". -/
def interfaceOperation : Operation :=
  ⟨.Query, "conflictingBecauseAlias", [.field "" "dog"
    [.inlineFragment (some "Pet") [leaf "name"]]]⟩

end astnormalization

/-! ## The numbering of the keywords -/

namespace keyword

/-- The constants of the `const` block of keyword.go, in the order of their
declaration. -/
def constants : List Keyword :=
  [.UNDEFINED, .IDENT, .EXTEND, .COMMENT, .EOF,
   .COLON, .BANG, .LINETERMINATOR, .TAB, .SPACE, .COMMA, .AT, .DOT, .SPREAD, .PIPE, .SLASH,
   .EQUALS, .NEGATIVESIGN, .AND, .ON, .QUOTE,
   .IMPLEMENTS, .SCHEMA, .SCALAR, .TYPE, .INTERFACE, .UNION, .ENUM, .INPUT, .DIRECTIVE,
   .VARIABLE, .STRING, .INTEGER, .FLOAT, .TRUE, .FALSE, .NULL, .QUERY, .MUTATION,
   .SUBSCRIPTION, .FRAGMENT,
   .BRACKETOPEN, .BRACKETCLOSE, .SQUAREBRACKETOPEN, .SQUAREBRACKETCLOSE, .CURLYBRACKETOPEN,
   .CURLYBRACKETCLOSE]

/-- Go: the `int` value of a constant of the block `UNDEFINED Keyword = iota`:
`iota` is the index of the line of the constant in the block. -/
def Keyword.value (k : Keyword) : Int :=
  (constants.indexOf k : Nat)

/-- Go: the conversion `Keyword(n)` read backwards: the constant whose value is
`n`, if there is one. -/
def Keyword.ofValue (n : Int) : Option Keyword :=
  if n < 0 then none else constants.get? n.toNat

/-- The keywords as the spec lists them, in its words and order: "identifiers
(IDENT), punctuators (`:`, `!`, `,`, `@`, `.`, `...`, `|`, `/`, `=`, `-`, `&`,
`"`, `(`, `)`, `[`, `]`, `{`, `}`), reserved words (`on`, `extend`, `schema`,
`scalar`, `type`, `interface`, `union`, `enum`, `input`, `directive`, `true`,
`false`, `null`, `query`, `mutation`, `subscription`, `fragment`,
`implements`), literal classes (STRING, INTEGER, FLOAT, VARIABLE), plus COMMENT
and EOF", each by the constant of keyword.go that stands for it. -/
def specKeywords : List Keyword :=
  [.IDENT,
   .COLON, .BANG, .COMMA, .AT, .DOT, .SPREAD, .PIPE, .SLASH, .EQUALS, .NEGATIVESIGN, .AND,
   .QUOTE, .BRACKETOPEN, .BRACKETCLOSE, .SQUAREBRACKETOPEN, .SQUAREBRACKETCLOSE,
   .CURLYBRACKETOPEN, .CURLYBRACKETCLOSE,
   .ON, .EXTEND, .SCHEMA, .SCALAR, .TYPE, .INTERFACE, .UNION, .ENUM, .INPUT, .DIRECTIVE,
   .TRUE, .FALSE, .NULL, .QUERY, .MUTATION, .SUBSCRIPTION, .FRAGMENT, .IMPLEMENTS,
   .STRING, .INTEGER, .FLOAT, .VARIABLE,
   .COMMENT, .EOF]

end keyword

/-! ## The correlation id of the AMQP data source

`randInt` and `randomString` of amqp_datasource.go.  Go's `int` is taken as the
64-bit two's complement integer of the 64-bit platforms; the random source is
given by the outcomes it delivers. -/

namespace amqp_datasource

/-- Go: the value of an `int` expression whose mathematical value is `x`, on a
64-bit platform: `x` wrapped into `-2^63 .. 2^63 - 1`. -/
def wrapInt (x : Int) : Int :=
  (x + 2 ^ 63) % 2 ^ 64 - 2 ^ 63

/-- Go: `rand.Intn` of the standard library, by its documentation: "Intn returns,
as an int, a non-negative pseudo-random number in the half-open interval
[0,n).  It panics if n <= 0."  The outcome `raw` of the random source is reduced
to the interval. -/
def Intn (raw : Nat) (n : Int) : Except String Int :=
  if n ≤ 0 then .error "invalid argument to Intn" else .ok ((raw : Int) % n)

/-- Go: `randInt`, `min + rand.Intn(max-min)`. -/
def randInt (raw : Nat) (min max : Int) : Except String Int := do
  let r ← Intn raw (wrapInt (max - min))
  pure (wrapInt (min + r))

/-- Go: the conversion `byte(x)` of an `int`, its lowest eight bits. -/
def toByte (x : Int) : Nat :=
  (x % 256).toNat

/-- Go: the loop of `randomString` from index `i` on, `n` bytes still to be set:
`b[i] = byte(randInt(65, 90))`; the call for index `i` gets the outcome `src i`
of the random source. -/
def randomStringFrom (src : Nat → Nat) : Nat → Nat → Except String (List Nat)
  | _, 0 => .ok []
  | i, n + 1 => do
    let x ← randInt (src i) 65 90
    let rest ← randomStringFrom src (i + 1) n
    pure (toByte x :: rest)

/-- Go: `randomString`; `make([]byte, l)` panics for a negative `l`. -/
def randomString (src : Nat → Nat) (l : Int) : Except String (List Nat) :=
  if l < 0 then .error "makeslice: len out of range" else randomStringFrom src 0 l.toNat

end amqp_datasource

/-! ## `Source.Load` of the AMQP data source

The AMQP client library and the broker behind it are not part of the
repository; a connection is given by what its calls return.  The deliveries
that arrive on the callback queue are a list, in the order of arrival, up to
the closing of the channel (a loop over a channel that neither delivers nor
closes blocks, which a list cannot say). -/

namespace amqp_datasource

/-- The fields of `amqp.Publishing` that `Load` sets. -/
structure Publishing where
  ContentType : String
  CorrelationId : List Nat
  ReplyTo : String
  Body : List Nat
deriving DecidableEq, Repr

/-- A call of `ch.Publish`: exchange, routing key, the two flags and the
message. -/
structure Published where
  Exchange : String
  Key : String
  Mandatory : Bool
  Immediate : Bool
  Msg : Publishing
deriving DecidableEq, Repr

/-- The fields of `amqp.Delivery` that `Load` reads. -/
structure Delivery where
  CorrelationId : List Nat
  Body : List Nat
deriving DecidableEq, Repr

/-- What the calls on an `amqp.Connection` and its channel return: the error of
`conn.Channel()`, the name of the queue that `ch.QueueDeclare` declares or its
error, and the deliveries that `ch.Consume` on a queue yields after a
publishing. -/
structure Connection where
  Channel : Except String Unit
  QueueDeclare : Except String String
  Consume : String → Published → List Delivery

/-- Go: `Source`. -/
structure Source where
  conn : Connection

/-- Go: the loop `for d := range msgs` of `Load`: the first delivery with the
correlation id is copied to the buffer and ends the loop, with the error of the
copy if it has one; `copy` is `io.Copy` into `bufPair.Data`, giving the buffer
after it and its error. -/
def awaitReply (copy : List Nat → List Nat → List Nat × Option String)
    (correlationId : List Nat) : List Delivery → List Nat → Option String × List Nat
  | [], data => (none, data)
  | d :: msgs, data =>
    if correlationId = d.CorrelationId then
      ((copy data d.Body).2, (copy data d.Body).1)
    else awaitReply copy correlationId msgs data

/-- Go: `(*Source).Load`; the result is the returned error (`none` for `nil`)
and the content of `bufPair.Data` after the call, `data` being its content
before; the outer error is a panic, which `randomString(32)` never raises.
The errors of `Publish` and `Consume` are dropped as in the source. -/
def Source.Load (s : Source) (src : Nat → Nat)
    (copy : List Nat → List Nat → List Nat × Option String) (input data : List Nat) :
    Except String (Option String × List Nat) :=
  match s.conn.Channel with
  | .error err => .ok (some err, data)
  | .ok () =>
    match s.conn.QueueDeclare with
    | .error err => .ok (some err, data)
    | .ok cb =>
      match randomString src 32 with
      | .error e => .error e
      | .ok correlationId =>
        .ok (awaitReply copy correlationId
          (s.conn.Consume cb
            ⟨"", "rpc_queue", false, false, ⟨"application/json", correlationId, cb, input⟩⟩)
          data)

/-- Modelled from the spec: `resolve.BufPair` is not among the sources;
`bufPair.Data` is a byte buffer, to which `io.Copy` appends all bytes of the
reader without error. -/
def bufferCopy (data body : List Nat) : List Nat × Option String :=
  (data ++ body, none)

/-- The test's `echoServer` behind a connection: the channel opens, the callback
queue `cb` is declared, and a message published to `rpc_queue` on the default
exchange comes back once on the queue named in its `ReplyTo`, with the
correlation id and the body of the request. -/
def echoConnection (cb : String) : Connection where
  Channel := .ok ()
  QueueDeclare := .ok cb
  Consume := fun queue sent =>
    if sent.Exchange = "" ∧ sent.Key = "rpc_queue" ∧ sent.Msg.ReplyTo = queue then
      [⟨sent.Msg.CorrelationId, sent.Msg.Body⟩]
    else []

/-- The bytes of an ASCII text. -/
def bytesOf (s : String) : List Nat := s.toList.map Char.toNat

end amqp_datasource

/-! ## Validation rules on the directives of a type-system document

The rules of the package `validation/rules/typesystem` are not among the
sources (only their test is), and neither are `lookup.Lookup`, the walker and
the record `result.Result`.  A rule reads the pools through the flat iteration
over the directive sets ("flat iterators across the AST for rule engines that
don't need tree context") and gives the `Valid` flag of its result. -/

namespace lookup

open document

/-- Modelled from the spec: `get_Directive(index)`. -/
def ParsedDefinitions.Directive (d : ParsedDefinitions) (ref : Int) : document.Directive :=
  (getAt d.Directives ref).getD ⟨⟨0, 0⟩, -1⟩

/-- Modelled from the spec: `get_DirectiveSet(index)`. -/
def ParsedDefinitions.DirectiveSet (d : ParsedDefinitions) (ref : Int) : List Int :=
  (getAt d.DirectiveSets ref).getD []

/-- Modelled from the spec: `get_Value(index)`; outside the pool a null value. -/
def ParsedDefinitions.Value (d : ParsedDefinitions) (ref : Int) : document.Value :=
  (getAt d.Values ref).getD ⟨.Null, -1, ⟨0, 0, 0, 0⟩, ⟨0, 0⟩⟩

/-- Modelled from the spec: `get_ListValue(index)`. -/
def ParsedDefinitions.ListValue (d : ParsedDefinitions) (ref : Int) : List Int :=
  (getAt d.ListValues ref).getD []

/-- Modelled from the spec: `get_ObjectValue(index)`. -/
def ParsedDefinitions.ObjectValue (d : ParsedDefinitions) (ref : Int) : List Int :=
  (getAt d.ObjectValues ref).getD []

/-- Modelled from the spec: `get_ObjectField(index)`. -/
def ParsedDefinitions.ObjectField (d : ParsedDefinitions) (ref : Int) : document.ObjectField :=
  (getAt d.ObjectFields ref).getD ⟨⟨0, 0⟩, -1⟩

/-- Modelled from the spec: `get_InputValueDefinition(index)`. -/
def ParsedDefinitions.InputValueDefinition (d : ParsedDefinitions) (ref : Int) :
    document.InputValueDefinition :=
  (getAt d.InputValueDefinitions ref).getD ⟨⟨0, 0⟩, ⟨0, 0⟩, -1, -1, -1, ⟨0, 0, 0, 0⟩, -1⟩

/-- Modelled from the spec: `get_EnumValueDefinition(index)`. -/
def ParsedDefinitions.EnumValueDefinition (d : ParsedDefinitions) (ref : Int) :
    document.EnumValueDefinition :=
  (getAt d.EnumValueDefinitions ref).getD ⟨⟨0, 0⟩, ⟨0, 0⟩, -1, ⟨0, 0, 0, 0⟩, -1⟩

end lookup

namespace typesystem

open document lookup

/-- Modelled from the spec: `result.Result`, of which the test reads `Valid`. -/
structure Result where
  Valid : Bool
deriving DecidableEq, Repr

/-- Some directive of the set has the name of a directive after it in the
set. -/
def hasDuplicateName (d : ParsedDefinitions) : List Int → Bool
  | [] => false
  | ref :: rest =>
    rest.any (fun other =>
      d.ByteSliceReferenceContentsEquals (d.Directive ref).Name (d.Directive other).Name) ||
    hasDuplicateName d rest

/-- Modelled from the spec: the rule `DirectivesAreUniquePerLocation`, "two
directives with identical names at the same AST position are detected by the
validation collaborator using the walker's directive-set iteration": invalid
when a directive set has two directives whose names have the same bytes. -/
def DirectivesAreUniquePerLocation (d : ParsedDefinitions) : Result :=
  ⟨!d.DirectiveSets.any (hasDuplicateName d)⟩

/-- The value at `ref` is a variable, or a list or object value with a variable
in it; `fuel` bounds the depth. -/
def valueHasVariable (d : ParsedDefinitions) : Nat → Int → Bool
  | 0, _ => false
  | fuel + 1, ref =>
    match (d.Value ref).ValueType with
    | .Variable => true
    | .List => (d.ListValue (d.Value ref).Reference).any (fun v => valueHasVariable d fuel v)
    | .Object =>
      (d.ObjectValue (d.Value ref).Reference).any
        (fun f => valueHasVariable d fuel (d.ObjectField f).Value)
    | _ => false

/-- Modelled from the spec: the rule `DirectiveArgumentsAreConstants`, "only
constant values are accepted ...; validation of this constraint lives in the
'directive arguments are constants' rule": valid when no argument of a
directive of any directive set has a variable as or in its value.  A value
holds values of smaller reference only, so the size of the pool is enough
fuel. -/
def DirectiveArgumentsAreConstants (d : ParsedDefinitions) : Result :=
  ⟨d.DirectiveSets.all (fun set => set.all (fun ref =>
    (d.ArgumentSet (d.Directive ref).ArgumentSet).all (fun arg =>
      !valueHasVariable d (d.Values.length + 1) (d.Argument arg).Value)))⟩

/-- The document of the test "directives are unique per location", first valid case.  The text is written on one line. -/
def uniqueOneDocument : ParsedDefinitions where
  Input := asciiBytes "type Query \x7b documents: [Document] @foo \x7d"
  Types := [
      ⟨.Named, ⟨25, 33⟩, -1⟩,
      ⟨.List, ⟨0, 0⟩, 0⟩]
  Arguments := []
  ArgumentSets := []
  Fields := []
  SelectionSets := []
  FragmentSpreads := []
  InlineFragments := []
  OperationDefinitions := []
  FragmentDefinitions := []
  ExecutableDefinition := ⟨[], []⟩
  FieldDefinitions := [
      ⟨⟨0, 0⟩, ⟨13, 22⟩, -1, 1, 0, ⟨0, 0, 0, 0⟩, -1⟩]
  ObjectTypeDefinitions := [
      ⟨⟨0, 0⟩, ⟨5, 10⟩, NewFieldDefinitions (0), -1, ⟨0, 0, 0, 0⟩, false⟩]
  Values := []
  ByteSliceReferences := []
  Directives := [
      ⟨⟨36, 39⟩, -1⟩]
  DirectiveSets := [
      [0]]
  InputValueDefinitions := []
  DirectiveDefinitions := []

/-- The document of the test "directives are unique per location", first invalid case.  The text is written on one line. -/
def uniqueFieldTwiceDocument : ParsedDefinitions where
  Input := asciiBytes "type Query \x7b documents: [Document] @foo @foo \x7d"
  Types := [
      ⟨.Named, ⟨25, 33⟩, -1⟩,
      ⟨.List, ⟨0, 0⟩, 0⟩]
  Arguments := []
  ArgumentSets := []
  Fields := []
  SelectionSets := []
  FragmentSpreads := []
  InlineFragments := []
  OperationDefinitions := []
  FragmentDefinitions := []
  ExecutableDefinition := ⟨[], []⟩
  FieldDefinitions := [
      ⟨⟨0, 0⟩, ⟨13, 22⟩, -1, 1, 0, ⟨0, 0, 0, 0⟩, -1⟩]
  ObjectTypeDefinitions := [
      ⟨⟨0, 0⟩, ⟨5, 10⟩, NewFieldDefinitions (0), -1, ⟨0, 0, 0, 0⟩, false⟩]
  Values := []
  ByteSliceReferences := []
  Directives := [
      ⟨⟨36, 39⟩, -1⟩,
      ⟨⟨41, 44⟩, -1⟩]
  DirectiveSets := [
      [0, 1]]
  InputValueDefinitions := []
  DirectiveDefinitions := []

/-- The document of the test "directives are unique per location", second invalid case.  The text is written on one line. -/
def uniqueTypeTwiceDocument : ParsedDefinitions where
  Input := asciiBytes "type Query @foo @foo \x7b documents: [Document] \x7d"
  Types := [
      ⟨.Named, ⟨35, 43⟩, -1⟩,
      ⟨.List, ⟨0, 0⟩, 0⟩]
  Arguments := []
  ArgumentSets := []
  Fields := []
  SelectionSets := []
  FragmentSpreads := []
  InlineFragments := []
  OperationDefinitions := []
  FragmentDefinitions := []
  ExecutableDefinition := ⟨[], []⟩
  FieldDefinitions := [
      ⟨⟨0, 0⟩, ⟨23, 32⟩, -1, 1, -1, ⟨0, 0, 0, 0⟩, -1⟩]
  ObjectTypeDefinitions := [
      ⟨⟨0, 0⟩, ⟨5, 10⟩, NewFieldDefinitions (0), 0, ⟨0, 0, 0, 0⟩, false⟩]
  Values := []
  ByteSliceReferences := []
  Directives := [
      ⟨⟨12, 15⟩, -1⟩,
      ⟨⟨17, 20⟩, -1⟩]
  DirectiveSets := [
      [0, 1]]
  InputValueDefinitions := []
  DirectiveDefinitions := []

/-- The document of the test "directives are unique per location", second valid case.  The text is written on one line. -/
def uniqueTwoNamesDocument : ParsedDefinitions where
  Input := asciiBytes "type Query \x7b documents: [Document] @foo @bar \x7d"
  Types := [
      ⟨.Named, ⟨25, 33⟩, -1⟩,
      ⟨.List, ⟨0, 0⟩, 0⟩]
  Arguments := []
  ArgumentSets := []
  Fields := []
  SelectionSets := []
  FragmentSpreads := []
  InlineFragments := []
  OperationDefinitions := []
  FragmentDefinitions := []
  ExecutableDefinition := ⟨[], []⟩
  FieldDefinitions := [
      ⟨⟨0, 0⟩, ⟨13, 22⟩, -1, 1, 0, ⟨0, 0, 0, 0⟩, -1⟩]
  ObjectTypeDefinitions := [
      ⟨⟨0, 0⟩, ⟨5, 10⟩, NewFieldDefinitions (0), -1, ⟨0, 0, 0, 0⟩, false⟩]
  Values := []
  ByteSliceReferences := []
  Directives := [
      ⟨⟨36, 39⟩, -1⟩,
      ⟨⟨41, 44⟩, -1⟩]
  DirectiveSets := [
      [0, 1]]
  InputValueDefinitions := []
  DirectiveDefinitions := []

/-- The document of the test "directives are unique per location", third valid case.  The text is written on one line. -/
def uniqueTwoLocationsDocument : ParsedDefinitions where
  Input := asciiBytes "type Query @foo \x7b documents: [Document] @foo \x7d"
  Types := [
      ⟨.Named, ⟨30, 38⟩, -1⟩,
      ⟨.List, ⟨0, 0⟩, 0⟩]
  Arguments := []
  ArgumentSets := []
  Fields := []
  SelectionSets := []
  FragmentSpreads := []
  InlineFragments := []
  OperationDefinitions := []
  FragmentDefinitions := []
  ExecutableDefinition := ⟨[], []⟩
  FieldDefinitions := [
      ⟨⟨0, 0⟩, ⟨18, 27⟩, -1, 1, 1, ⟨0, 0, 0, 0⟩, -1⟩]
  ObjectTypeDefinitions := [
      ⟨⟨0, 0⟩, ⟨5, 10⟩, NewFieldDefinitions (0), 0, ⟨0, 0, 0, 0⟩, false⟩]
  Values := []
  ByteSliceReferences := []
  Directives := [
      ⟨⟨12, 15⟩, -1⟩,
      ⟨⟨41, 44⟩, -1⟩]
  DirectiveSets := [
      [0],
      [1]]
  InputValueDefinitions := []
  DirectiveDefinitions := []

end typesystem

/-! ## Constant values and values of a type -/

namespace typesystem

open document lookup

/-- The value at `ref` is a variable or holds one, at any depth of list and
object values. -/
inductive ContainsVariable (d : ParsedDefinitions) : Int → Prop where
  | isVariable (ref : Int) (h : (d.Value ref).ValueType = .Variable) : ContainsVariable d ref
  | inList (ref item : Int) (h : (d.Value ref).ValueType = .List)
    (hitem : item ∈ d.ListValue (d.Value ref).Reference)
    (hrec : ContainsVariable d item) : ContainsVariable d ref
  | inObject (ref field : Int) (h : (d.Value ref).ValueType = .Object)
    (hfield : field ∈ d.ObjectValue (d.Value ref).Reference)
    (hrec : ContainsVariable d (d.ObjectField field).Value) : ContainsVariable d ref

end typesystem

/-! ## Parsing steps

The parser is not among the sources (only its test helpers are).  Its steps
are modelled from the specification: a step reads the pools, adds records at
the end of pools ("append-only arena") and may fail, and the pools are then as
it left them ("partial pools remain"). -/

namespace parser

open document lookup keyword token

/-- No record of a type-system definition is among the records `added`. -/
def NoDefinitions (added : ParsedDefinitions) : Prop :=
  added.SchemaDefinitions = [] ∧ added.ScalarTypeDefinitions = [] ∧
  added.ObjectTypeDefinitions = [] ∧ added.InterfaceTypeDefinitions = [] ∧
  added.UnionTypeDefinitions = [] ∧ added.EnumTypeDefinitions = [] ∧
  added.InputObjectTypeDefinitions = [] ∧ added.DirectiveDefinitions = []

/-- The pools `d'` are the pools `d` with records added at the end of pools,
none of them the record of a type-system definition: what the parsing of a
part of a definition makes of the pools. -/
def Within (d d' : ParsedDefinitions) : Prop :=
  ∃ added : ParsedDefinitions, d' = appendParsed d added ∧ NoDefinitions added

/-- The pools `d'` are the pools `d` with records added at the end of pools:
"AST pools grow monotonically during parsing". -/
def Grows (d d' : ParsedDefinitions) : Prop :=
  ∃ added : ParsedDefinitions, d' = appendParsed d added

/-- A parsing step for a part of a definition: from the pools it gives a result
or an error, and the pools as they are then. -/
def Parse (α : Type) : Type :=
  { step : ParsedDefinitions → Except String α × ParsedDefinitions //
    ∀ d, Within d (step d).2 }

/-- The step run on the pools `d`. -/
def Parse.run {α : Type} (p : Parse α) (d : ParsedDefinitions) :
    Except String α × ParsedDefinitions :=
  p.1 d

/-- A step that fails: "an error aborts the document". -/
def abort {α : Type} (e : String) : Parse α :=
  ⟨fun d => (.error e, d),
   fun d => ⟨emptyDefinitions, by simp [appendParsed, emptyDefinitions],
     by simp [NoDefinitions, emptyDefinitions]⟩⟩

/-- The pools as they are. -/
def pools : Parse ParsedDefinitions :=
  ⟨fun d => (.ok d, d),
   fun d => ⟨emptyDefinitions, by simp [appendParsed, emptyDefinitions],
     by simp [NoDefinitions, emptyDefinitions]⟩⟩

/-- Modelled from the spec: `add_<Entity>(record) -> index`, "append-only": the
records `added` are put at the end of their pools. -/
def add (added : ParsedDefinitions) (h : NoDefinitions added) : Parse Unit :=
  ⟨fun d => (.ok (), appendParsed d added), fun _ => ⟨added, rfl, h⟩⟩

instance : Monad Parse where
  pure a :=
    ⟨fun d => (.ok a, d),
     fun d => ⟨emptyDefinitions, by simp [appendParsed, emptyDefinitions],
       by simp [NoDefinitions, emptyDefinitions]⟩⟩
  bind x f :=
    ⟨fun d =>
      match x.1 d with
      | (.ok a, d') => (f a).1 d'
      | (.error e, d') => (.error e, d'),
     by
      intro d
      obtain ⟨a1, h1, n1⟩ := x.2 d
      cases hx : x.1 d with
      | mk r d' =>
        rw [hx] at h1
        simp only [hx]
        cases r with
        | error e => exact ⟨a1, h1, n1⟩
        | ok a =>
          obtain ⟨a2, h2, n2⟩ := (f a).2 d'
          refine ⟨appendParsed a1 a2, ?_, ?_⟩
          · simp only [h2]
            simp only at h1
            rw [h1]
            simp [appendParsed, List.append_assoc]
          · simp only [NoDefinitions] at n1 n2 ⊢
            simp [appendParsed, n1, n2]⟩

end parser

/-! ## Parsing of values, arguments and directives -/

namespace parser

open document lookup keyword token

/-- Go: `parseType` as a parsing step; it adds type records only. -/
def parseTypeStep (ts : List Token) : Parse (Int × List Token) :=
  ⟨fun d => parseType ts d, by
    have hrefl : ∀ d : ParsedDefinitions, Within d d := fun d =>
      ⟨emptyDefinitions, by simp [appendParsed, emptyDefinitions],
        by simp [NoDefinitions, emptyDefinitions]⟩
    have htrans : ∀ d1 d2 d3 : ParsedDefinitions, Within d1 d2 → Within d2 d3 →
        Within d1 d3 := by
      rintro d1 d2 d3 ⟨a1, h1, n1⟩ ⟨a2, h2, n2⟩
      refine ⟨appendParsed a1 a2, ?_, ?_⟩
      · rw [h2, h1]
        simp [appendParsed, List.append_assoc]
      · simp only [NoDefinitions] at n1 n2 ⊢
        simp [appendParsed, n1, n2]
    have hput : ∀ (d : ParsedDefinitions) (t : Type'), Within d (putType d t).2 := fun d t =>
      ⟨{ emptyDefinitions with Types := [t] },
        by simp [putType, appendParsed, emptyDefinitions],
        by simp [NoDefinitions, emptyDefinitions]⟩
    have hfinish : ∀ (t : Type') (ts : List Token) (d : ParsedDefinitions),
        Within d (finishType t ts d).2 := by
      intro t ts d
      unfold finishType
      split
      · exact hput d t
      · split
        · exact htrans _ _ _ (hput d t) (hput _ _)
        · exact hput d t
    have hfuel : ∀ (fuel : Nat) (ts : List Token) (d : ParsedDefinitions),
        Within d (parseTypeFuel fuel ts d).2 := by
      intro fuel
      induction fuel with
      | zero => intro ts d; exact hrefl d
      | succ fuel ih =>
        intro ts d
        cases ts with
        | nil => exact hrefl d
        | cons first rest =>
          unfold parseTypeFuel
          split
          · exact hfinish _ _ _
          · split
            · have hrec := ih rest d
              split
              · rename_i hp
                rw [hp] at hrec
                exact hrec
              · rename_i hp
                rw [hp] at hrec
                exact hrec
              · rename_i hp
                rw [hp] at hrec
                split
                · exact htrans _ _ _ hrec (hfinish _ _ _)
                · exact hrec
            · exact hrefl d
    intro d
    exact hfuel _ ts d⟩

/-- Modelled from the spec: `add_<Entity>(record) -> index` for the cached byte
slices. -/
def putByteSliceReference (r : ByteSliceReference) : Parse Int := do
  let d ← pools
  add { emptyDefinitions with ByteSliceReferences := [r] }
    (by simp [NoDefinitions, emptyDefinitions])
  pure (d.ByteSliceReferences.length : Int)

/-- Modelled from the spec: `add_<Entity>(record) -> index` for values. -/
def putValue (v : Value) : Parse Int := do
  let d ← pools
  add { emptyDefinitions with Values := [v] } (by simp [NoDefinitions, emptyDefinitions])
  pure (d.Values.length : Int)

/-- Modelled from the spec: `add_<Entity>(record) -> index` for list values. -/
def putListValue (items : List Int) : Parse Int := do
  let d ← pools
  add { emptyDefinitions with ListValues := [items] }
    (by simp [NoDefinitions, emptyDefinitions])
  pure (d.ListValues.length : Int)

/-- Modelled from the spec: `add_<Entity>(record) -> index` for object values. -/
def putObjectValue (fields : List Int) : Parse Int := do
  let d ← pools
  add { emptyDefinitions with ObjectValues := [fields] }
    (by simp [NoDefinitions, emptyDefinitions])
  pure (d.ObjectValues.length : Int)

/-- Modelled from the spec: `add_<Entity>(record) -> index` for the fields of
object values. -/
def putObjectField (f : ObjectField) : Parse Int := do
  let d ← pools
  add { emptyDefinitions with ObjectFields := [f] }
    (by simp [NoDefinitions, emptyDefinitions])
  pure (d.ObjectFields.length : Int)

/-- Modelled from the spec: `add_<Entity>(record) -> index` for arguments. -/
def putArgument (a : Argument) : Parse Int := do
  let d ← pools
  add { emptyDefinitions with Arguments := [a] } (by simp [NoDefinitions, emptyDefinitions])
  pure (d.Arguments.length : Int)

/-- Modelled from the spec: `add_<Entity>(record) -> index` for argument sets. -/
def putArgumentSet (set : List Int) : Parse Int := do
  let d ← pools
  add { emptyDefinitions with ArgumentSets := [set] }
    (by simp [NoDefinitions, emptyDefinitions])
  pure (d.ArgumentSets.length : Int)

/-- Modelled from the spec: `add_<Entity>(record) -> index` for directives. -/
def putDirective (directive : Directive) : Parse Int := do
  let d ← pools
  add { emptyDefinitions with Directives := [directive] }
    (by simp [NoDefinitions, emptyDefinitions])
  pure (d.Directives.length : Int)

/-- Modelled from the spec: `add_<Entity>(record) -> index` for directive sets. -/
def putDirectiveSet (set : List Int) : Parse Int := do
  let d ← pools
  add { emptyDefinitions with DirectiveSets := [set] }
    (by simp [NoDefinitions, emptyDefinitions])
  pure (d.DirectiveSets.length : Int)

/-- A value that is one token: its kind and the literal as raw reference ("the
parser records both the kind and the raw reference"); a string and the name of
a variable are cached and referred to, the tables of the decoded numbers and
booleans are left out. -/
def putLiteralValue (kind : ValueType) (t : Token) : Parse Int :=
  if kind = .String ∨ kind = .Variable then do
    let cached ← putByteSliceReference t.Literal
    putValue ⟨kind, cached, t.TextPosition, t.Literal⟩
  else
    putValue ⟨kind, -1, t.TextPosition, t.Literal⟩

/-- The kind of the value that a one-token value is, if the token is one. -/
def literalValueType : Keyword → Option ValueType
  | .VARIABLE => some .Variable
  | .STRING => some .String
  | .INTEGER => some .Int
  | .FLOAT => some .Float
  | .TRUE => some .Boolean
  | .FALSE => some .Boolean
  | .NULL => some .Null
  | .IDENT => some .Enum
  | _ => none

mutual
/-- Modelled from the spec: the parsing of a value, by recursive descent: a
variable, a literal, a list `[` values `]` or an object `{` name `:` value ...
`}`; a variable is read wherever a value is read.  Gives the reference of the
value and the tokens left. -/
def parseValueFuel : Nat → List Token → Parse (Int × List Token)
  | 0, _ => abort "nesting too deep"
  | _ + 1, [] => abort "unexpected end of input"
  | fuel + 1, t :: rest =>
    match literalValueType t.Keyword with
    | some kind => do
      let ref ← putLiteralValue kind t
      pure (ref, rest)
    | none =>
      if t.Keyword = .SQUAREBRACKETOPEN then do
        let r ← parseListValueFuel fuel [] rest
        let list ← putListValue r.1
        let ref ← putValue ⟨.List, list, t.TextPosition, ⟨0, 0⟩⟩
        pure (ref, r.2)
      else if t.Keyword = .CURLYBRACKETOPEN then do
        let r ← parseObjectValueFuel fuel [] rest
        let object ← putObjectValue r.1
        let ref ← putValue ⟨.Object, object, t.TextPosition, ⟨0, 0⟩⟩
        pure (ref, r.2)
      else abort "unexpected token"
/-- The values of a list up to its `]`, after the values `items`. -/
def parseListValueFuel : Nat → List Int → List Token → Parse (List Int × List Token)
  | 0, _, _ => abort "nesting too deep"
  | _ + 1, _, [] => abort "unexpected end of input"
  | fuel + 1, items, t :: rest =>
    if t.Keyword = .SQUAREBRACKETCLOSE then pure (items, rest)
    else do
      let r ← parseValueFuel fuel (t :: rest)
      parseListValueFuel fuel (items ++ [r.1]) r.2
/-- The fields of an object value up to its `}`, after the fields `fields`. -/
def parseObjectValueFuel : Nat → List Int → List Token → Parse (List Int × List Token)
  | 0, _, _ => abort "nesting too deep"
  | _ + 1, _, [] => abort "unexpected end of input"
  | fuel + 1, fields, t :: rest =>
    if t.Keyword = .CURLYBRACKETCLOSE then pure (fields, rest)
    else
      match rest with
      | [] => abort "unexpected end of input"
      | colon :: rest' =>
        if t.Keyword = .IDENT ∧ colon.Keyword = .COLON then do
          let r ← parseValueFuel fuel rest'
          let field ← putObjectField ⟨t.Literal, r.1⟩
          parseObjectValueFuel fuel (fields ++ [field]) r.2
        else abort "unexpected token"
end

/-- Modelled from the spec: `parseValue`; every level of nesting reads a token,
so more fuel than there are tokens is enough. -/
def parseValue (ts : List Token) : Parse (Int × List Token) :=
  parseValueFuel (ts.length + 1) ts

/-- Modelled from the spec: the arguments of a field or directive after their
`(`: name `:` value, up to `)`; the values are parsed as everywhere. -/
def parseArgumentsFuel : Nat → List Int → List Token → Parse (List Int × List Token)
  | 0, _, _ => abort "out of fuel"
  | _ + 1, _, [] => abort "unexpected end of input"
  | fuel + 1, args, t :: rest =>
    if t.Keyword = .BRACKETCLOSE then pure (args, rest)
    else
      match rest with
      | [] => abort "unexpected end of input"
      | colon :: rest' =>
        if t.Keyword = .IDENT ∧ colon.Keyword = .COLON then do
          let r ← parseValue rest'
          let arg ← putArgument ⟨t.Literal, r.1⟩
          parseArgumentsFuel fuel (args ++ [arg]) r.2
        else abort "unexpected token"

/-- Modelled from the spec: `parseArgumentSet`, the argument set of a field or
directive: `-1` when no `(` follows, else the set of the arguments up to
`)`. -/
def parseArgumentSet : List Token → Parse (Int × List Token)
  | [] => pure (-1, [])
  | t :: rest =>
    if t.Keyword = .BRACKETOPEN then do
      let r ← parseArgumentsFuel (rest.length + 1) [] rest
      let set ← putArgumentSet r.1
      pure (set, r.2)
    else pure (-1, t :: rest)

/-- The directives `@` name arguments from the head of the tokens on, after the
directives `directives`. -/
def parseDirectivesFuel : Nat → List Int → List Token → Parse (List Int × List Token)
  | 0, _, _ => abort "out of fuel"
  | _ + 1, directives, [] => pure (directives, [])
  | _ + 1, directives, [t] =>
    if t.Keyword = .AT then abort "unexpected end of input" else pure (directives, [t])
  | fuel + 1, directives, t :: name :: rest =>
    if t.Keyword = .AT then
      if name.Keyword = .IDENT then do
        let r ← parseArgumentSet rest
        let directive ← putDirective ⟨name.Literal, r.1⟩
        parseDirectivesFuel fuel (directives ++ [directive]) r.2
      else abort "unexpected token"
    else pure (directives, t :: name :: rest)

/-- Modelled from the spec: `parseDirectives`, the directive set of a definition,
field definition, field, ...: `-1` when no directive stands there, else the set
of the directives that stand there.  It is the same in a type-system document
and in an executable document. -/
def parseDirectives (ts : List Token) : Parse (Int × List Token) := do
  let r ← parseDirectivesFuel (ts.length + 1) [] ts
  if r.1 = [] then pure (-1, r.2)
  else do
    let set ← putDirectiveSet r.1
    pure (set, r.2)

end parser

/-! ## Parsing of type-system definitions

Each kind of definition has its parsing function, called as the test helpers
call them, `parseScalarTypeDefinition(hasDescription, isExtend, description)`:
with whether a description stands before the definition, whether `extend`
introduces it, and the token of the description.  The function reads the
definition from its keyword on and puts one record into the pool of its kind. -/

namespace parser

open document lookup keyword token

/-- Modelled from the spec: `add_<Entity>(record) -> index` for argument
definitions and input fields. -/
def putInputValueDefinition (definition : InputValueDefinition) : Parse Int := do
  let d ← pools
  add { emptyDefinitions with InputValueDefinitions := [definition] }
    (by simp [NoDefinitions, emptyDefinitions])
  pure (d.InputValueDefinitions.length : Int)

/-- Modelled from the spec: `add_<Entity>(record) -> index` for field
definitions. -/
def putFieldDefinition (definition : FieldDefinition) : Parse Int := do
  let d ← pools
  add { emptyDefinitions with FieldDefinitions := [definition] }
    (by simp [NoDefinitions, emptyDefinitions])
  pure (d.FieldDefinitions.length : Int)

/-- Modelled from the spec: `add_<Entity>(record) -> index` for the values of
enum types. -/
def putEnumValueDefinition (definition : EnumValueDefinition) : Parse Int := do
  let d ← pools
  add { emptyDefinitions with EnumValueDefinitions := [definition] }
    (by simp [NoDefinitions, emptyDefinitions])
  pure (d.EnumValueDefinitions.length : Int)

/-- Modelled from the spec: `parseDefaultValue`, the default value of an
argument definition: `-1` when no `=` follows, else the value after it. -/
def parseDefaultValue : List Token → Parse (Int × List Token)
  | [] => pure (-1, [])
  | t :: rest =>
    if t.Keyword = .EQUALS then parseValue rest
    else pure (-1, t :: rest)

/-- Modelled from the spec: `parseInputValueDefinitions`, the argument
definitions or input fields up to the token `closing`, "Fields carry argument
definitions and directives": name `:` type, default value and directives; they
are chained by `NextRef`, and the reference of the first is returned (`-1` when
there is none). -/
def parseInputValueDefinitionsFuel (closing : Keyword) :
    Nat → List Token → Parse (Int × List Token)
  | 0, _ => abort "out of fuel"
  | _ + 1, [] => abort "unexpected end of input"
  | fuel + 1, t :: rest =>
    if t.Keyword = closing then pure (-1, rest)
    else
      match rest with
      | [] => abort "unexpected end of input"
      | colon :: rest' =>
        if t.Keyword = .IDENT ∧ colon.Keyword = .COLON then do
          let type ← parseTypeStep rest'
          let value ← parseDefaultValue type.2
          let directives ← parseDirectives value.2
          let next ← parseInputValueDefinitionsFuel closing fuel directives.2
          let ref ← putInputValueDefinition
            ⟨⟨0, 0⟩, t.Literal, type.1, value.1, directives.1, t.TextPosition, next.1⟩
          pure (ref, next.2)
        else abort "unexpected token"

/-- Modelled from the spec: `parseArgumentsDefinition`, the arguments definition
of a field definition or directive definition: `-1` when no `(` follows. -/
def parseArgumentsDefinition : List Token → Parse (Int × List Token)
  | [] => pure (-1, [])
  | t :: rest =>
    if t.Keyword = .BRACKETOPEN then
      parseInputValueDefinitionsFuel .BRACKETCLOSE (rest.length + 1) rest
    else pure (-1, t :: rest)

/-- Modelled from the spec: `parseInputFieldsDefinition`, the input fields of an
input object type in `{` `}`: `-1` when no `{` follows. -/
def parseInputFieldsDefinition : List Token → Parse (Int × List Token)
  | [] => pure (-1, [])
  | t :: rest =>
    if t.Keyword = .CURLYBRACKETOPEN then
      parseInputValueDefinitionsFuel .CURLYBRACKETCLOSE (rest.length + 1) rest
    else pure (-1, t :: rest)

/-- Modelled from the spec: the field definitions of a type after their `{`:
name, arguments definition, `:` type and directives, up to `}`; chained by
`NextRef`, the reference of the first is returned. -/
def parseFieldDefinitionsFuel : Nat → List Token → Parse (Int × List Token)
  | 0, _ => abort "out of fuel"
  | _ + 1, [] => abort "unexpected end of input"
  | fuel + 1, t :: rest =>
    if t.Keyword = .CURLYBRACKETCLOSE then pure (-1, rest)
    else if t.Keyword = .IDENT then do
      let arguments ← parseArgumentsDefinition rest
      match arguments.2 with
      | [] => abort "unexpected end of input"
      | colon :: rest' =>
        if colon.Keyword = .COLON then do
          let type ← parseTypeStep rest'
          let directives ← parseDirectives type.2
          let next ← parseFieldDefinitionsFuel fuel directives.2
          let ref ← putFieldDefinition
            ⟨⟨0, 0⟩, t.Literal, arguments.1, type.1, directives.1, t.TextPosition, next.1⟩
          pure (ref, next.2)
        else abort "unexpected token"
    else abort "unexpected token"

/-- Modelled from the spec: `parseFieldDefinitions`, the field definitions of an
object or interface type in `{` `}`: `-1` when no `{` follows. -/
def parseFieldDefinitions : List Token → Parse (Int × List Token)
  | [] => pure (-1, [])
  | t :: rest =>
    if t.Keyword = .CURLYBRACKETOPEN then parseFieldDefinitionsFuel (rest.length + 1) rest
    else pure (-1, t :: rest)

/-- The values of an enum type after their `{`: name and directives, up to `}`;
chained by `NextRef`, the reference of the first is returned. -/
def parseEnumValuesFuel : Nat → List Token → Parse (Int × List Token)
  | 0, _ => abort "out of fuel"
  | _ + 1, [] => abort "unexpected end of input"
  | fuel + 1, t :: rest =>
    if t.Keyword = .CURLYBRACKETCLOSE then pure (-1, rest)
    else if t.Keyword = .IDENT then do
      let directives ← parseDirectives rest
      let next ← parseEnumValuesFuel fuel directives.2
      let ref ← putEnumValueDefinition
        ⟨⟨0, 0⟩, t.Literal, directives.1, t.TextPosition, next.1⟩
      pure (ref, next.2)
    else abort "unexpected token"

/-- Modelled from the spec: the values of an enum type in `{` `}`: `-1` when no
`{` follows. -/
def parseEnumValuesDefinition : List Token → Parse (Int × List Token)
  | [] => pure (-1, [])
  | t :: rest =>
    if t.Keyword = .CURLYBRACKETOPEN then parseEnumValuesFuel (rest.length + 1) rest
    else pure (-1, t :: rest)

/-- Modelled from the spec: `parseImplementsInterfaces`, the interfaces
`implements` A `&` B ... of an object type, which are read over. -/
def parseImplementsInterfaces : Nat → List Token → List Token
  | 0, ts => ts
  | _ + 1, [] => []
  | _ + 1, [t] => [t]
  | fuel + 1, t :: name :: rest =>
    if (t.Keyword = .IMPLEMENTS ∨ t.Keyword = .AND) ∧ name.Keyword = .IDENT then
      parseImplementsInterfaces fuel rest
    else t :: name :: rest

/-- Names separated by `|`, "`|`-separated identifiers", after the names
`names`: the locations of a directive definition or the member types of a
union. -/
def parseNames : Nat → List ByteSliceReference → List Token →
    List ByteSliceReference × List Token
  | 0, names, ts => (names, ts)
  | _ + 1, names, [] => (names, [])
  | _ + 1, names, [t] => (names, [t])
  | fuel + 1, names, t :: name :: rest =>
    if t.Keyword = .PIPE ∧ name.Keyword = .IDENT then
      parseNames fuel (names ++ [name.Literal]) rest
    else (names, t :: name :: rest)

/-- The root operation types of a schema definition after their `{`: `query`,
`mutation` or `subscription`, `:` and the name of the type, up to `}`. -/
def parseRootOperationTypes : Nat → SchemaDefinition → List Token →
    Except String (SchemaDefinition × List Token)
  | 0, _, _ => .error "out of fuel"
  | _ + 1, _, [] => .error "unexpected end of input"
  | fuel + 1, schema, t :: rest =>
    if t.Keyword = .CURLYBRACKETCLOSE then .ok (schema, rest)
    else
      match rest with
      | colon :: name :: rest' =>
        if colon.Keyword = .COLON ∧ name.Keyword = .IDENT then
          if t.Keyword = .QUERY then
            parseRootOperationTypes fuel { schema with Query := name.Literal } rest'
          else if t.Keyword = .MUTATION then
            parseRootOperationTypes fuel { schema with Mutation := name.Literal } rest'
          else if t.Keyword = .SUBSCRIPTION then
            parseRootOperationTypes fuel { schema with Subscription := name.Literal } rest'
          else .error "unexpected token"
        else .error "unexpected token"
      | _ => .error "unexpected end of input"

/-- The description of a definition: the literal of the description token when
there is one. -/
def descriptionOf (hasDescription : Bool) (description : Token) : ByteSliceReference :=
  if hasDescription then description.Literal else ⟨0, 0⟩

/-- Modelled from the spec: `parseSchemaDefinition(isExtend, description)`:
`schema`, directives and the root operation types in `{` `}`; the record goes
into the pool of schema definitions with the flag `isExtend`. -/
def parseSchemaDefinition (isExtend : Bool) (_description : Token) (ts : List Token)
    (d : ParsedDefinitions) : Except String (List Token) × ParsedDefinitions :=
  match ts with
  | [] => (.error "unexpected end of input", d)
  | start :: rest =>
    match (parseDirectives rest).run d with
    | (.error e, d') => (.error e, d')
    | (.ok (_, []), d') => (.error "unexpected end of input", d')
    | (.ok (directives, t :: rest'), d') =>
      if t.Keyword = .CURLYBRACKETOPEN then
        match parseRootOperationTypes (rest'.length + 1)
            ⟨⟨0, 0⟩, ⟨0, 0⟩, ⟨0, 0⟩, directives, start.TextPosition, isExtend⟩ rest' with
        | .error e => (.error e, d')
        | .ok (schema, rest'') =>
          (.ok rest'', { d' with SchemaDefinitions := d'.SchemaDefinitions ++ [schema] })
      else (.error "unexpected token", d')

/-- Modelled from the spec: `parseScalarTypeDefinition(hasDescription, isExtend,
description)`: `scalar`, name and directives; the record goes into the pool of
scalar type definitions with the flag `isExtend`. -/
def parseScalarTypeDefinition (hasDescription isExtend : Bool) (description : Token)
    (ts : List Token) (d : ParsedDefinitions) : Except String (List Token) × ParsedDefinitions :=
  match ts with
  | _ :: name :: rest =>
    if name.Keyword = .IDENT then
      match (parseDirectives rest).run d with
      | (.error e, d') => (.error e, d')
      | (.ok (directives, rest'), d') =>
        (.ok rest', { d' with
          ScalarTypeDefinitions := d'.ScalarTypeDefinitions ++
            [⟨descriptionOf hasDescription description, name.Literal, directives,
              name.TextPosition, isExtend⟩] })
    else (.error "unexpected token", d)
  | _ => (.error "unexpected end of input", d)

/-- Modelled from the spec: `parseObjectTypeDefinition(hasDescription, isExtend,
description)`: `type`, name, implemented interfaces, directives and the field
definitions in `{` `}`, if any; the record goes into the pool of object type
definitions with the flag `isExtend`. -/
def parseObjectTypeDefinition (hasDescription isExtend : Bool) (description : Token)
    (ts : List Token) (d : ParsedDefinitions) : Except String (List Token) × ParsedDefinitions :=
  match ts with
  | _ :: name :: rest =>
    if name.Keyword = .IDENT then
      match (parseDirectives (parseImplementsInterfaces rest.length rest)).run d with
      | (.error e, d') => (.error e, d')
      | (.ok (directives, rest'), d') =>
        match (parseFieldDefinitions rest').run d' with
        | (.error e, d'') => (.error e, d'')
        | (.ok (fields, rest''), d'') =>
          (.ok rest'', { d'' with
            ObjectTypeDefinitions := d''.ObjectTypeDefinitions ++
              [⟨descriptionOf hasDescription description, name.Literal,
                NewFieldDefinitions fields, directives, name.TextPosition, isExtend⟩] })
    else (.error "unexpected token", d)
  | _ => (.error "unexpected end of input", d)

/-- Modelled from the spec: `parseInterfaceTypeDefinition(hasDescription,
isExtend, description)`: `interface`, name, directives and the field
definitions in `{` `}`, if any; the record goes into the pool of interface type
definitions with the flag `isExtend`. -/
def parseInterfaceTypeDefinition (hasDescription isExtend : Bool) (description : Token)
    (ts : List Token) (d : ParsedDefinitions) : Except String (List Token) × ParsedDefinitions :=
  match ts with
  | _ :: name :: rest =>
    if name.Keyword = .IDENT then
      match (parseDirectives rest).run d with
      | (.error e, d') => (.error e, d')
      | (.ok (directives, rest'), d') =>
        match (parseFieldDefinitions rest').run d' with
        | (.error e, d'') => (.error e, d'')
        | (.ok (fields, rest''), d'') =>
          (.ok rest'', { d'' with
            InterfaceTypeDefinitions := d''.InterfaceTypeDefinitions ++
              [⟨descriptionOf hasDescription description, name.Literal,
                NewFieldDefinitions fields, directives, name.TextPosition, isExtend⟩] })
    else (.error "unexpected token", d)
  | _ => (.error "unexpected end of input", d)

/-- The member types of a union after its directives: none when no `=` follows,
else the names after it, separated by `|`, the first of which a `|` may
precede. -/
def parseUnionMemberTypes : List Token → Except String (List ByteSliceReference × List Token)
  | [] => .ok ([], [])
  | t :: rest =>
    if t.Keyword = .EQUALS then
      match rest with
      | [] => .error "unexpected end of input"
      | first :: rest' =>
        if first.Keyword = .IDENT then .ok (parseNames rest'.length [first.Literal] rest')
        else if first.Keyword = .PIPE then .ok (parseNames rest.length [] rest)
        else .error "unexpected token"
    else .ok ([], t :: rest)

/-- Modelled from the spec: `parseUnionTypeDefinition(hasDescription, isExtend,
description)`: `union`, name, directives and the member types; the record goes
into the pool of union type definitions with the flag `isExtend`. -/
def parseUnionTypeDefinition (hasDescription isExtend : Bool) (description : Token)
    (ts : List Token) (d : ParsedDefinitions) : Except String (List Token) × ParsedDefinitions :=
  match ts with
  | _ :: name :: rest =>
    if name.Keyword = .IDENT then
      match (parseDirectives rest).run d with
      | (.error e, d') => (.error e, d')
      | (.ok (directives, rest'), d') =>
        match parseUnionMemberTypes rest' with
        | .error e => (.error e, d')
        | .ok (members, rest'') =>
          (.ok rest'', { d' with
            UnionTypeDefinitions := d'.UnionTypeDefinitions ++
              [⟨descriptionOf hasDescription description, name.Literal, members, directives,
                name.TextPosition, isExtend⟩] })
    else (.error "unexpected token", d)
  | _ => (.error "unexpected end of input", d)

/-- Modelled from the spec: `parseEnumTypeDefinition(hasDescription, isExtend,
description)`: `enum`, name, directives and the values in `{` `}`, if any; the
record goes into the pool of enum type definitions with the flag `isExtend`. -/
def parseEnumTypeDefinition (hasDescription isExtend : Bool) (description : Token)
    (ts : List Token) (d : ParsedDefinitions) : Except String (List Token) × ParsedDefinitions :=
  match ts with
  | _ :: name :: rest =>
    if name.Keyword = .IDENT then
      match (parseDirectives rest).run d with
      | (.error e, d') => (.error e, d')
      | (.ok (directives, rest'), d') =>
        match (parseEnumValuesDefinition rest').run d' with
        | (.error e, d'') => (.error e, d'')
        | (.ok (values, rest''), d'') =>
          (.ok rest'', { d'' with
            EnumTypeDefinitions := d''.EnumTypeDefinitions ++
              [⟨descriptionOf hasDescription description, name.Literal, values, directives,
                name.TextPosition, isExtend⟩] })
    else (.error "unexpected token", d)
  | _ => (.error "unexpected end of input", d)

/-- Modelled from the spec: `parseInputObjectTypeDefinition(hasDescription,
isExtend, description)`: `input`, name, directives and the input fields in `{`
`}`, if any; the record goes into the pool of input object type definitions
with the flag `isExtend`. -/
def parseInputObjectTypeDefinition (hasDescription isExtend : Bool) (description : Token)
    (ts : List Token) (d : ParsedDefinitions) : Except String (List Token) × ParsedDefinitions :=
  match ts with
  | _ :: name :: rest =>
    if name.Keyword = .IDENT then
      match (parseDirectives rest).run d with
      | (.error e, d') => (.error e, d')
      | (.ok (directives, rest'), d') =>
        match (parseInputFieldsDefinition rest').run d' with
        | (.error e, d'') => (.error e, d'')
        | (.ok (fields, rest''), d'') =>
          (.ok rest'', { d'' with
            InputObjectTypeDefinitions := d''.InputObjectTypeDefinitions ++
              [⟨descriptionOf hasDescription description, name.Literal, fields, directives,
                name.TextPosition, isExtend⟩] })
    else (.error "unexpected token", d)
  | _ => (.error "unexpected end of input", d)

/-- Modelled from the spec: `parseDirectiveDefinition(hasDescription, isExtend,
description)`: `directive`, `@` name, arguments definition, `on` and the
locations, "`|`-separated identifiers"; the record goes into the pool of
directive definitions with the flag `isExtend`. -/
def parseDirectiveDefinition (hasDescription isExtend : Bool) (description : Token)
    (ts : List Token) (d : ParsedDefinitions) : Except String (List Token) × ParsedDefinitions :=
  match ts with
  | _ :: sign :: name :: rest =>
    if sign.Keyword = .AT ∧ name.Keyword = .IDENT then
      match (parseArgumentsDefinition rest).run d with
      | (.error e, d') => (.error e, d')
      | (.ok (arguments, word :: location :: rest'), d') =>
        if word.Keyword = .ON ∧ location.Keyword = .IDENT then
          (.ok (parseNames rest'.length [location.Literal] rest').2, { d' with
            DirectiveDefinitions := d'.DirectiveDefinitions ++
              [⟨descriptionOf hasDescription description, name.Literal, arguments,
                (parseNames rest'.length [location.Literal] rest').1,
                name.TextPosition, isExtend⟩] })
        else (.error "unexpected token", d')
      | (.ok _, d') => (.error "unexpected end of input", d')
    else (.error "unexpected token", d)
  | _ => (.error "unexpected end of input", d)

end parser

/-! ## Parsing of type-system documents -/

namespace parser

open document lookup keyword token

/-- The kind of definition that a keyword starts: "a sequence of definitions
(`schema`, `scalar`, `type`, `interface`, `union`, `enum`, `input`,
`directive`)". -/
def definitionKind : Keyword → Option DefinitionKind
  | .SCHEMA => some .Schema
  | .SCALAR => some .Scalar
  | .TYPE => some .Object
  | .INTERFACE => some .Interface
  | .UNION => some .Union
  | .ENUM => some .Enum
  | .INPUT => some .InputObject
  | .DIRECTIVE => some .Directive
  | _ => none

/-- The parsing function of the kind of definition, called with the description
and the `extend` flag that the loop has read. -/
def parseDefinition (kind : DefinitionKind) (hasDescription isExtend : Bool)
    (description : Token) (ts : List Token) (d : ParsedDefinitions) :
    Except String (List Token) × ParsedDefinitions :=
  match kind with
  | .Schema => parseSchemaDefinition isExtend description ts d
  | .Scalar => parseScalarTypeDefinition hasDescription isExtend description ts d
  | .Object => parseObjectTypeDefinition hasDescription isExtend description ts d
  | .Interface => parseInterfaceTypeDefinition hasDescription isExtend description ts d
  | .Union => parseUnionTypeDefinition hasDescription isExtend description ts d
  | .Enum => parseEnumTypeDefinition hasDescription isExtend description ts d
  | .InputObject => parseInputObjectTypeDefinition hasDescription isExtend description ts d
  | .Directive => parseDirectiveDefinition hasDescription isExtend description ts d

/-- The token `token.Token{}` of Go, all zero. -/
def noToken : Token := ⟨.UNDEFINED, ⟨0, 0⟩, ⟨0, 0, 0, 0⟩⟩

/-- Modelled from the spec: the loop of `parseTypeSystemDefinition`, "a sequence
of definitions, each optionally prefixed by a block-string description and the
`extend` keyword": a string is kept as the description of the definition that
follows, `extend` sets the flag of the definition that follows, at a definition
keyword the parsing function of its kind is called with the description and the
flag, which are then cleared; any other token is an error.  An error "aborts
the document; partial pools remain": the records read before it stay in the
pools.  `fuel` bounds the number of turns of the loop. -/
def parseTypeSystemLoop : Nat → Bool → Bool → Token → List Token → ParsedDefinitions →
    Except String Unit × ParsedDefinitions
  | 0, _, _, _, _, d => (.error "out of fuel", d)
  | _ + 1, _, _, _, [], d => (.ok (), d)
  | fuel + 1, hasDescription, isExtend, description, next :: rest, d =>
    if next.Keyword = .STRING then parseTypeSystemLoop fuel true isExtend next rest d
    else if next.Keyword = .EXTEND then
      parseTypeSystemLoop fuel hasDescription true description rest d
    else
      match definitionKind next.Keyword with
      | none => (.error "invalid keyword", d)
      | some kind =>
        match parseDefinition kind hasDescription isExtend description (next :: rest) d with
        | (.error e, d') => (.error e, d')
        | (.ok rest', d') => parseTypeSystemLoop fuel false false noToken rest' d'

/-- Modelled from the spec: `parseTypeSystemDefinition`, the loop from a state
without description and `extend`; each turn of the loop reads a token, so more
fuel than there are tokens is enough. -/
def parseTypeSystemDefinition (ts : List Token) (d : ParsedDefinitions) :
    Except String Unit × ParsedDefinitions :=
  parseTypeSystemLoop (ts.length + 1) false false noToken ts d

/-- Modelled from the spec: the pools "rolled back to [their] prior
append-count": every pool of `d` cut to the length it has in `prior`. -/
def rollback (prior d : ParsedDefinitions) : ParsedDefinitions where
  Input := d.Input.take prior.Input.length
  Types := d.Types.take prior.Types.length
  Arguments := d.Arguments.take prior.Arguments.length
  ArgumentSets := d.ArgumentSets.take prior.ArgumentSets.length
  Fields := d.Fields.take prior.Fields.length
  SelectionSets := d.SelectionSets.take prior.SelectionSets.length
  FragmentSpreads := d.FragmentSpreads.take prior.FragmentSpreads.length
  InlineFragments := d.InlineFragments.take prior.InlineFragments.length
  OperationDefinitions := d.OperationDefinitions.take prior.OperationDefinitions.length
  FragmentDefinitions := d.FragmentDefinitions.take prior.FragmentDefinitions.length
  ExecutableDefinition :=
    ⟨d.ExecutableDefinition.OperationDefinitions.take
      prior.ExecutableDefinition.OperationDefinitions.length,
     d.ExecutableDefinition.FragmentDefinitions.take
      prior.ExecutableDefinition.FragmentDefinitions.length⟩
  FieldDefinitions := d.FieldDefinitions.take prior.FieldDefinitions.length
  ObjectTypeDefinitions := d.ObjectTypeDefinitions.take prior.ObjectTypeDefinitions.length
  Values := d.Values.take prior.Values.length
  ByteSliceReferences := d.ByteSliceReferences.take prior.ByteSliceReferences.length
  Directives := d.Directives.take prior.Directives.length
  DirectiveSets := d.DirectiveSets.take prior.DirectiveSets.length
  InputValueDefinitions := d.InputValueDefinitions.take prior.InputValueDefinitions.length
  DirectiveDefinitions := d.DirectiveDefinitions.take prior.DirectiveDefinitions.length
  ListValues := d.ListValues.take prior.ListValues.length
  ObjectValues := d.ObjectValues.take prior.ObjectValues.length
  ObjectFields := d.ObjectFields.take prior.ObjectFields.length
  SchemaDefinitions := d.SchemaDefinitions.take prior.SchemaDefinitions.length
  ScalarTypeDefinitions := d.ScalarTypeDefinitions.take prior.ScalarTypeDefinitions.length
  InterfaceTypeDefinitions :=
    d.InterfaceTypeDefinitions.take prior.InterfaceTypeDefinitions.length
  UnionTypeDefinitions := d.UnionTypeDefinitions.take prior.UnionTypeDefinitions.length
  EnumTypeDefinitions := d.EnumTypeDefinitions.take prior.EnumTypeDefinitions.length
  EnumValueDefinitions := d.EnumValueDefinitions.take prior.EnumValueDefinitions.length
  InputObjectTypeDefinitions :=
    d.InputObjectTypeDefinitions.take prior.InputObjectTypeDefinitions.length
  VariableDefinitions := d.VariableDefinitions.take prior.VariableDefinitions.length

/-- Modelled from the spec: `ParseTypeSystemDefinition(input)`,
`parse_type_system(bytes) -> Result<ASTHandle, ParseError>`, by the tokens `ts`
of the input: the definitions are parsed into the pools, and "the handle is not
mutated on failure": after an error the pools are those before the call. -/
def ParseTypeSystemDefinition (ts : List Token) (d : ParsedDefinitions) :
    Except String Unit × ParsedDefinitions :=
  match parseTypeSystemDefinition ts d with
  | (.ok (), d') => (.ok (), d')
  | (.error e, _) => (.error e, d)

/-- Modelled from the spec: `ExtendTypeSystemDefinition(extension)`,
`extend_type_system(bytes, &mut ASTHandle)`, by the tokens `ts` of the
extension: its definitions are parsed into the pools that are there, and the
handle, "if mutated for `extend`, is rolled back to its prior append-count"
after an error. -/
def ExtendTypeSystemDefinition (ts : List Token) (d : ParsedDefinitions) :
    Except String Unit × ParsedDefinitions :=
  match parseTypeSystemDefinition ts d with
  | (.ok (), d') => (.ok (), d')
  | (.error e, d') => (.error e, rollback d d')

/-- A token that may stand before the keyword of a definition: a description or
`extend`. -/
def isBeforeDefinition (t : Token) : Bool :=
  t.Keyword = .STRING || t.Keyword = .EXTEND

/-- The description among the tokens before a definition: the last string, if
there is one. -/
def descriptionAmong (before : List Token) : Token :=
  ((before.filter (fun t => t.Keyword = .STRING)).getLast?).getD noToken

/-- The grammar of a type-system document, following the words of the spec,
with for each of its definitions the kind and whether the `extend` keyword
introduces it: a document is a sequence of definitions, each made of
descriptions and `extend` keywords, then, from the keyword of its kind on, what
the parsing function of the kind reads; it may end in descriptions and `extend`
keywords that no definition follows.  `d` are the pools before the document
and `d'` the pools after it. -/
inductive Introduces : List Token → ParsedDefinitions → ParsedDefinitions →
    List (DefinitionKind × Bool) → Prop where
  | done (before : List Token) (d : ParsedDefinitions)
    (hbefore : ∀ t ∈ before, isBeforeDefinition t = true) :
    Introduces before d d []
  | definition (before : List Token) (kw : Token) (rest rest' : List Token)
    (kind : DefinitionKind) (d d' d'' : ParsedDefinitions)
    (defs : List (DefinitionKind × Bool))
    (hbefore : ∀ t ∈ before, isBeforeDefinition t = true)
    (hkind : definitionKind kw.Keyword = some kind)
    (hparse : parseDefinition kind (before.any (fun t => t.Keyword = .STRING))
      (before.any (fun t => t.Keyword = .EXTEND)) (descriptionAmong before)
      (kw :: rest) d = (.ok rest', d'))
    (hrest : Introduces rest' d' d'' defs) :
    Introduces (before ++ kw :: rest) d d''
      ((kind, before.any (fun t => t.Keyword = .EXTEND)) :: defs)

/-- The pools `d'` are the pools `d` with one record more in the pool of the
kind of definition, a record with the flag `isExtend`. -/
def Records (kind : DefinitionKind) (isExtend : Bool) (d d' : ParsedDefinitions) : Prop :=
  match kind with
  | .Schema => ∃ r : SchemaDefinition, r.IsExtend = isExtend ∧
      d' = { d with SchemaDefinitions := d.SchemaDefinitions ++ [r] }
  | .Scalar => ∃ r : ScalarTypeDefinition, r.IsExtend = isExtend ∧
      d' = { d with ScalarTypeDefinitions := d.ScalarTypeDefinitions ++ [r] }
  | .Object => ∃ r : ObjectTypeDefinition, r.IsExtend = isExtend ∧
      d' = { d with ObjectTypeDefinitions := d.ObjectTypeDefinitions ++ [r] }
  | .Interface => ∃ r : InterfaceTypeDefinition, r.IsExtend = isExtend ∧
      d' = { d with InterfaceTypeDefinitions := d.InterfaceTypeDefinitions ++ [r] }
  | .Union => ∃ r : UnionTypeDefinition, r.IsExtend = isExtend ∧
      d' = { d with UnionTypeDefinitions := d.UnionTypeDefinitions ++ [r] }
  | .Enum => ∃ r : EnumTypeDefinition, r.IsExtend = isExtend ∧
      d' = { d with EnumTypeDefinitions := d.EnumTypeDefinitions ++ [r] }
  | .InputObject => ∃ r : InputObjectTypeDefinition, r.IsExtend = isExtend ∧
      d' = { d with InputObjectTypeDefinitions := d.InputObjectTypeDefinitions ++ [r] }
  | .Directive => ∃ r : DirectiveDefinition, r.IsExtend = isExtend ∧
      d' = { d with DirectiveDefinitions := d.DirectiveDefinitions ++ [r] }

/-- The `IsExtend` flags of the records in the pool of a kind of definition. -/
def extendFlags (d : ParsedDefinitions) : DefinitionKind → List Bool
  | .Schema => d.SchemaDefinitions.map (fun r => r.IsExtend)
  | .Scalar => d.ScalarTypeDefinitions.map (fun r => r.IsExtend)
  | .Object => d.ObjectTypeDefinitions.map (fun r => r.IsExtend)
  | .Interface => d.InterfaceTypeDefinitions.map (fun r => r.IsExtend)
  | .Union => d.UnionTypeDefinitions.map (fun r => r.IsExtend)
  | .Enum => d.EnumTypeDefinitions.map (fun r => r.IsExtend)
  | .InputObject => d.InputObjectTypeDefinitions.map (fun r => r.IsExtend)
  | .Directive => d.DirectiveDefinitions.map (fun r => r.IsExtend)

end parser

/-! ## Pools nested as recursive descent leaves them -/

namespace parser

open document lookup keyword token typesystem

end parser

/-! ## Parsing of executable documents

A field, a selection set and an inline fragment take their place in the pool
before what they hold is parsed, so that the records of a pool are in the order
of their appearance in the document; the place is filled when the record is
complete. -/

namespace parser

open document lookup keyword token

/-- Modelled from the spec: `add_<Entity>(record) -> index` for fields; the
record is the one that `body` gives, parsed after the place of the field in the
pool is taken. -/
def reserveField {α : Type} (body : Int → Parse (Field × α)) : Parse (Int × α) :=
  ⟨fun d =>
    match (body (d.Fields.length : Int)).1
        { d with Fields := d.Fields ++ [⟨⟨0, 0⟩, ⟨0, 0⟩, -1, -1, -1, ⟨0, 0, 0, 0⟩⟩] } with
    | (.ok (f, a), d') =>
      (.ok ((d.Fields.length : Int), a), { d' with Fields := d'.Fields.set d.Fields.length f })
    | (.error e, d') => (.error e, d'),
   by
    intro d
    obtain ⟨a2, h2, n2⟩ := (body (d.Fields.length : Int)).2
      { d with Fields := d.Fields ++ [⟨⟨0, 0⟩, ⟨0, 0⟩, -1, -1, -1, ⟨0, 0, 0, 0⟩⟩] }
    cases hb : (body (d.Fields.length : Int)).1
        { d with Fields := d.Fields ++ [⟨⟨0, 0⟩, ⟨0, 0⟩, -1, -1, -1, ⟨0, 0, 0, 0⟩⟩] } with
    | mk r d' =>
      rw [hb] at h2
      simp only [hb]
      simp only at h2
      cases r with
      | error e =>
        refine ⟨{ a2 with Fields := ⟨⟨0, 0⟩, ⟨0, 0⟩, -1, -1, -1, ⟨0, 0, 0, 0⟩⟩ :: a2.Fields },
          ?_, ?_⟩
        · rw [h2]
          simp [appendParsed]
        · simp only [NoDefinitions] at n2 ⊢
          exact n2
      | ok p =>
        refine ⟨{ a2 with Fields := p.1 :: a2.Fields }, ?_, ?_⟩
        · rw [h2]
          simp [appendParsed, List.set_append]
        · simp only [NoDefinitions] at n2 ⊢
          exact n2⟩

/-- Modelled from the spec: `add_<Entity>(record) -> index` for selection sets;
the record is the one that `body` gives, parsed after the place of the
selection set in the pool is taken. -/
def reserveSelectionSet {α : Type} (body : Int → Parse (SelectionSet × α)) : Parse (Int × α) :=
  ⟨fun d =>
    match (body (d.SelectionSets.length : Int)).1
        { d with SelectionSets := d.SelectionSets ++ [⟨[], [], []⟩] } with
    | (.ok (s, a), d') =>
      (.ok ((d.SelectionSets.length : Int), a),
        { d' with SelectionSets := d'.SelectionSets.set d.SelectionSets.length s })
    | (.error e, d') => (.error e, d'),
   by
    intro d
    obtain ⟨a2, h2, n2⟩ := (body (d.SelectionSets.length : Int)).2
      { d with SelectionSets := d.SelectionSets ++ [⟨[], [], []⟩] }
    cases hb : (body (d.SelectionSets.length : Int)).1
        { d with SelectionSets := d.SelectionSets ++ [⟨[], [], []⟩] } with
    | mk r d' =>
      rw [hb] at h2
      simp only [hb]
      simp only at h2
      cases r with
      | error e =>
        refine ⟨{ a2 with SelectionSets := ⟨[], [], []⟩ :: a2.SelectionSets }, ?_, ?_⟩
        · rw [h2]
          simp [appendParsed]
        · simp only [NoDefinitions] at n2 ⊢
          exact n2
      | ok p =>
        refine ⟨{ a2 with SelectionSets := p.1 :: a2.SelectionSets }, ?_, ?_⟩
        · rw [h2]
          simp [appendParsed, List.set_append]
        · simp only [NoDefinitions] at n2 ⊢
          exact n2⟩

/-- Modelled from the spec: `add_<Entity>(record) -> index` for inline
fragments; the record is the one that `body` gives, parsed after the place of
the inline fragment in the pool is taken. -/
def reserveInlineFragment {α : Type} (body : Int → Parse (InlineFragment × α)) :
    Parse (Int × α) :=
  ⟨fun d =>
    match (body (d.InlineFragments.length : Int)).1
        { d with InlineFragments := d.InlineFragments ++ [⟨-1, -1, -1, ⟨0, 0, 0, 0⟩⟩] } with
    | (.ok (f, a), d') =>
      (.ok ((d.InlineFragments.length : Int), a),
        { d' with InlineFragments := d'.InlineFragments.set d.InlineFragments.length f })
    | (.error e, d') => (.error e, d'),
   by
    intro d
    obtain ⟨a2, h2, n2⟩ := (body (d.InlineFragments.length : Int)).2
      { d with InlineFragments := d.InlineFragments ++ [⟨-1, -1, -1, ⟨0, 0, 0, 0⟩⟩] }
    cases hb : (body (d.InlineFragments.length : Int)).1
        { d with InlineFragments := d.InlineFragments ++ [⟨-1, -1, -1, ⟨0, 0, 0, 0⟩⟩] } with
    | mk r d' =>
      rw [hb] at h2
      simp only [hb]
      simp only at h2
      cases r with
      | error e =>
        refine ⟨{ a2 with InlineFragments := ⟨-1, -1, -1, ⟨0, 0, 0, 0⟩⟩ :: a2.InlineFragments },
          ?_, ?_⟩
        · rw [h2]
          simp [appendParsed]
        · simp only [NoDefinitions] at n2 ⊢
          exact n2
      | ok p =>
        refine ⟨{ a2 with InlineFragments := p.1 :: a2.InlineFragments }, ?_, ?_⟩
        · rw [h2]
          simp [appendParsed, List.set_append]
        · simp only [NoDefinitions] at n2 ⊢
          exact n2⟩

/-- Modelled from the spec: `add_<Entity>(record) -> index` for fragment
spreads. -/
def putFragmentSpread (spread : FragmentSpread) : Parse Int := do
  let d ← pools
  add { emptyDefinitions with FragmentSpreads := [spread] }
    (by simp [NoDefinitions, emptyDefinitions])
  pure (d.FragmentSpreads.length : Int)

/-- Modelled from the spec: `add_<Entity>(record) -> index` for variable
definitions. -/
def putVariableDefinition (definition : VariableDefinition) : Parse Int := do
  let d ← pools
  add { emptyDefinitions with VariableDefinitions := [definition] }
    (by simp [NoDefinitions, emptyDefinitions])
  pure (d.VariableDefinitions.length : Int)

/-- Modelled from the spec: `add_<Entity>(record) -> index` for operation
definitions; the operation is also put on the list of the operations of the
document. -/
def putOperationDefinition (operation : OperationDefinition) : Parse Int := do
  let d ← pools
  add { emptyDefinitions with
        OperationDefinitions := [operation]
        ExecutableDefinition := ⟨[(d.OperationDefinitions.length : Int)], []⟩ }
    (by simp [NoDefinitions, emptyDefinitions])
  pure (d.OperationDefinitions.length : Int)

/-- Modelled from the spec: `add_<Entity>(record) -> index` for fragment
definitions; the fragment is also put on the list of the fragments of the
document. -/
def putFragmentDefinition (fragment : FragmentDefinition) : Parse Int := do
  let d ← pools
  add { emptyDefinitions with
        FragmentDefinitions := [fragment]
        ExecutableDefinition := ⟨[], [(d.FragmentDefinitions.length : Int)]⟩ }
    (by simp [NoDefinitions, emptyDefinitions])
  pure (d.FragmentDefinitions.length : Int)

/-- The alias and the name of a field and the tokens after them: `alias: name`
or the name alone. -/
def fieldNames (first : Token) (rest : List Token) :
    ByteSliceReference × ByteSliceReference × List Token :=
  match rest with
  | colon :: name :: rest' =>
    if colon.Keyword = .COLON ∧ name.Keyword = .IDENT then (first.Literal, name.Literal, rest')
    else (⟨0, 0⟩, first.Literal, rest)
  | _ => (⟨0, 0⟩, first.Literal, rest)

mutual
/-- Modelled from the spec: `parseSelectionSet`, "arrays of field,
fragment-spread, and inline-fragment indices": the selections in `{` `}`.
`fuel` bounds the depth of the nesting and the number of selections. -/
def parseSelectionSetFuel : Nat → List Token → Parse (Int × List Token)
  | 0, _ => abort "nesting too deep"
  | _ + 1, [] => abort "unexpected end of input"
  | fuel + 1, t :: rest =>
    if t.Keyword = .CURLYBRACKETOPEN then
      reserveSelectionSet (fun _ => parseSelectionsFuel fuel ⟨[], [], []⟩ rest)
    else abort "unexpected token"
/-- The selections of a selection set up to its `}`, after the selections of
`set`: a field, a fragment spread `...` name, or an inline fragment `...` with
or without type condition. -/
def parseSelectionsFuel : Nat → SelectionSet → List Token → Parse (SelectionSet × List Token)
  | 0, _, _ => abort "nesting too deep"
  | _ + 1, _, [] => abort "unexpected end of input"
  | fuel + 1, set, t :: rest =>
    if t.Keyword = .CURLYBRACKETCLOSE then pure (set, rest)
    else if t.Keyword = .SPREAD then
      match rest with
      | [] => abort "unexpected end of input"
      | next :: rest' =>
        if next.Keyword = .ON then do
          let type ← parseTypeStep rest'
          let r ← parseInlineFragmentFuel fuel type.1 t.TextPosition type.2
          parseSelectionsFuel fuel
            { set with InlineFragments := set.InlineFragments ++ [r.1] } r.2
        else if next.Keyword = .IDENT then do
          let directives ← parseDirectives rest'
          let ref ← putFragmentSpread ⟨next.Literal, directives.1, t.TextPosition⟩
          parseSelectionsFuel fuel
            { set with FragmentSpreads := set.FragmentSpreads ++ [ref] } directives.2
        else do
          let r ← parseInlineFragmentFuel fuel (-1) t.TextPosition (next :: rest')
          parseSelectionsFuel fuel
            { set with InlineFragments := set.InlineFragments ++ [r.1] } r.2
    else if t.Keyword = .IDENT then do
      let r ← parseFieldFuel fuel t rest
      parseSelectionsFuel fuel { set with Fields := set.Fields ++ [r.1] } r.2
    else abort "unexpected token"
/-- Modelled from the spec: `parseInlineFragment`, after `...` and the type
condition `type` (`-1` when there is none): directives and the selection
set. -/
def parseInlineFragmentFuel : Nat → Int → position.Position → List Token →
    Parse (Int × List Token)
  | 0, _, _, _ => abort "nesting too deep"
  | fuel + 1, type, position, ts =>
    reserveInlineFragment (fun _ => do
      let directives ← parseDirectives ts
      let set ← parseSelectionSetFuel fuel directives.2
      pure (⟨type, directives.1, set.1, position⟩, set.2))
/-- Modelled from the spec: `parseField`, `{alias, name, argument_set,
directive_set, selection_set, position}`: alias and name, arguments, directives
and the selection set, if a `{` follows. -/
def parseFieldFuel : Nat → Token → List Token → Parse (Int × List Token)
  | 0, _, _ => abort "nesting too deep"
  | fuel + 1, first, rest =>
    reserveField (fun _ => do
      let arguments ← parseArgumentSet (fieldNames first rest).2.2
      let directives ← parseDirectives arguments.2
      let set ← (match directives.2 with
        | [] => pure (-1, [])
        | t :: rest' =>
          if t.Keyword = .CURLYBRACKETOPEN then parseSelectionSetFuel fuel (t :: rest')
          else pure (-1, t :: rest') : Parse (Int × List Token))
      pure (⟨(fieldNames first rest).1, (fieldNames first rest).2.1, arguments.1,
        directives.1, set.1, first.TextPosition⟩, set.2))
end

/-- Modelled from the spec: `parseSelectionSet`; every selection and every
level of nesting reads a token, so more fuel than there are tokens is enough. -/
def parseSelectionSet (ts : List Token) : Parse (Int × List Token) :=
  parseSelectionSetFuel (ts.length + 1) ts

/-- The variable definitions of an operation after their `(`: variable `:`
type and default value, up to `)`. -/
def parseVariableDefinitionsFuel : Nat → List Int → List Token → Parse (List Int × List Token)
  | 0, _, _ => abort "out of fuel"
  | _ + 1, _, [] => abort "unexpected end of input"
  | fuel + 1, definitions, t :: rest =>
    if t.Keyword = .BRACKETCLOSE then pure (definitions, rest)
    else
      match rest with
      | [] => abort "unexpected end of input"
      | colon :: rest' =>
        if t.Keyword = .VARIABLE ∧ colon.Keyword = .COLON then do
          let type ← parseTypeStep rest'
          let value ← parseDefaultValue type.2
          let ref ← putVariableDefinition ⟨t.Literal, type.1, value.1, t.TextPosition⟩
          parseVariableDefinitionsFuel fuel (definitions ++ [ref]) value.2
        else abort "unexpected token"

/-- Modelled from the spec: `parseVariableDefinitions`, the variable definitions
of an operation: none when no `(` follows. -/
def parseVariableDefinitions : List Token → Parse (List Int × List Token)
  | [] => pure ([], [])
  | t :: rest =>
    if t.Keyword = .BRACKETOPEN then parseVariableDefinitionsFuel (rest.length + 1) [] rest
    else pure ([], t :: rest)

/-- The operation type that a keyword names. -/
def operationType : Keyword → Option OperationType
  | .QUERY => some .Query
  | .MUTATION => some .Mutation
  | .SUBSCRIPTION => some .Subscription
  | _ => none

/-- The name of an operation and the tokens after it: the identifier that
stands there, or no name. -/
def operationName : List Token → ByteSliceReference × List Token
  | [] => (⟨0, 0⟩, [])
  | t :: rest => if t.Keyword = .IDENT then (t.Literal, rest) else (⟨0, 0⟩, t :: rest)

/-- Modelled from the spec: `parseOperationDefinition`, `{operation_type, name,
variable_definitions, directive_set, selection_set}`: a selection set alone is
a query without name; else the operation type, a name, variable definitions
and directives, if any, and the selection set. -/
def parseOperationDefinition : List Token → Parse (Int × List Token)
  | [] => abort "unexpected end of input"
  | t :: rest =>
    if t.Keyword = .CURLYBRACKETOPEN then do
      let set ← parseSelectionSet (t :: rest)
      let ref ← putOperationDefinition ⟨.Query, ⟨0, 0⟩, [], -1, set.1⟩
      pure (ref, set.2)
    else
      match operationType t.Keyword with
      | none => abort "unexpected token"
      | some type => do
        let vars ← parseVariableDefinitions (operationName rest).2
        let directives ← parseDirectives vars.2
        let set ← parseSelectionSet directives.2
        let ref ← putOperationDefinition
          ⟨type, (operationName rest).1, vars.1, directives.1, set.1⟩
        pure (ref, set.2)

/-- Modelled from the spec: `parseFragmentDefinition`, `{name, type_condition,
directive_set, selection_set}`: `fragment` name `on` type, directives and the
selection set. -/
def parseFragmentDefinition : List Token → Parse (Int × List Token)
  | _ :: name :: word :: rest =>
    if name.Keyword = .IDENT ∧ word.Keyword = .ON then do
      let type ← parseTypeStep rest
      let directives ← parseDirectives type.2
      let set ← parseSelectionSet directives.2
      let ref ← putFragmentDefinition ⟨name.Literal, type.1, directives.1, set.1⟩
      pure (ref, set.2)
    else abort "unexpected token"
  | _ => abort "unexpected end of input"

/-- Modelled from the spec: the loop of `parseExecutableDefinition`, "operations
(query, mutation, subscription) and fragments": at `fragment` a fragment
definition, else an operation definition, up to the end of the input. -/
def parseExecutableLoop : Nat → List Token → Parse Unit
  | 0, _ => abort "out of fuel"
  | _ + 1, [] => pure ()
  | fuel + 1, t :: rest =>
    if t.Keyword = .FRAGMENT then do
      let r ← parseFragmentDefinition (t :: rest)
      parseExecutableLoop fuel r.2
    else do
      let r ← parseOperationDefinition (t :: rest)
      parseExecutableLoop fuel r.2

/-- Modelled from the spec: `parseExecutableDefinition`; each definition reads a
token, so more fuel than there are tokens is enough. -/
def parseExecutableDefinition (ts : List Token) (d : ParsedDefinitions) :
    Except String Unit × ParsedDefinitions :=
  (parseExecutableLoop (ts.length + 1) ts).run d

/-- Modelled from the spec: `ParseExecutableDefinition(input)`,
`parse_executable(bytes, &mut ASTHandle)`, by the tokens `ts` of the input: the
definitions are parsed into the pools, and "the handle is not mutated on
failure": after an error the pools are those before the call. -/
def ParseExecutableDefinition (ts : List Token) (d : ParsedDefinitions) :
    Except String Unit × ParsedDefinitions :=
  match parseExecutableDefinition ts d with
  | (.ok (), d') => (.ok (), d')
  | (.error e, _) => (.error e, d)

end parser



/-! ## Example documents for the parser -/

namespace parser

open document lookup keyword token

/-- The token of keyword `k` whose literal is the bytes of the input from
`start` up to `stop`; the position in lines and columns is left zero. -/
def tokenOf (k : Keyword) (start stop : Nat) : Token :=
  ⟨k, ⟨start, stop⟩, ⟨0, 0, 0, 0⟩⟩

/-- The pools of a parser that has its input and has parsed nothing yet. -/
def withInput (input : List Nat) : ParsedDefinitions :=
  { emptyDefinitions with Input := input }

/-- A type-system document with a definition and an extension of each of the
eight kinds; the two directive definitions have descriptions. -/
def allKindsInput : List Nat :=
  asciiBytes "schema \x7b query: Query \x7d extend schema @a \x7b mutation: M \x7d scalar A extend scalar B @b type Query implements I & J \x7b a(x: Int = 1): [A!]! @c \x7d extend type Query \x7b b: B \x7d interface I \x7b a: A \x7d extend interface I @c union U = Query | M extend union U = | X enum E \x7b X Y @d \x7d extend enum E \x7b Z \x7d input In \x7b a: Int = 1 \x7d extend input In \x7b b: String \x7d \"the directive d\" directive @d(x: Int) on FIELD | SCALAR \"more\" extend directive @e on FIELD"

/-- The tokens of `allKindsInput`. -/
def allKindsTokens : List Token :=
  [tokenOf .SCHEMA 0 6, tokenOf .CURLYBRACKETOPEN 7 8, tokenOf .QUERY 9 14,
   tokenOf .COLON 14 15, tokenOf .IDENT 16 21, tokenOf .CURLYBRACKETCLOSE 22 23,
   tokenOf .EXTEND 24 30, tokenOf .SCHEMA 31 37, tokenOf .AT 38 39, tokenOf .IDENT 39 40,
   tokenOf .CURLYBRACKETOPEN 41 42, tokenOf .MUTATION 43 51, tokenOf .COLON 51 52,
   tokenOf .IDENT 53 54, tokenOf .CURLYBRACKETCLOSE 55 56, tokenOf .SCALAR 57 63,
   tokenOf .IDENT 64 65, tokenOf .EXTEND 66 72, tokenOf .SCALAR 73 79, tokenOf .IDENT 80 81,
   tokenOf .AT 82 83, tokenOf .IDENT 83 84, tokenOf .TYPE 85 89, tokenOf .IDENT 90 95,
   tokenOf .IMPLEMENTS 96 106, tokenOf .IDENT 107 108, tokenOf .AND 109 110,
   tokenOf .IDENT 111 112, tokenOf .CURLYBRACKETOPEN 113 114, tokenOf .IDENT 115 116,
   tokenOf .BRACKETOPEN 116 117, tokenOf .IDENT 117 118, tokenOf .COLON 118 119,
   tokenOf .IDENT 120 123, tokenOf .EQUALS 124 125, tokenOf .INTEGER 126 127,
   tokenOf .BRACKETCLOSE 127 128, tokenOf .COLON 128 129, tokenOf .SQUAREBRACKETOPEN 130 131,
   tokenOf .IDENT 131 132, tokenOf .BANG 132 133, tokenOf .SQUAREBRACKETCLOSE 133 134,
   tokenOf .BANG 134 135, tokenOf .AT 136 137, tokenOf .IDENT 137 138,
   tokenOf .CURLYBRACKETCLOSE 139 140, tokenOf .EXTEND 141 147, tokenOf .TYPE 148 152,
   tokenOf .IDENT 153 158, tokenOf .CURLYBRACKETOPEN 159 160, tokenOf .IDENT 161 162,
   tokenOf .COLON 162 163, tokenOf .IDENT 164 165, tokenOf .CURLYBRACKETCLOSE 166 167,
   tokenOf .INTERFACE 168 177, tokenOf .IDENT 178 179, tokenOf .CURLYBRACKETOPEN 180 181,
   tokenOf .IDENT 182 183, tokenOf .COLON 183 184, tokenOf .IDENT 185 186,
   tokenOf .CURLYBRACKETCLOSE 187 188, tokenOf .EXTEND 189 195, tokenOf .INTERFACE 196 205,
   tokenOf .IDENT 206 207, tokenOf .AT 208 209, tokenOf .IDENT 209 210, tokenOf .UNION 211 216,
   tokenOf .IDENT 217 218, tokenOf .EQUALS 219 220, tokenOf .IDENT 221 226,
   tokenOf .PIPE 227 228, tokenOf .IDENT 229 230, tokenOf .EXTEND 231 237,
   tokenOf .UNION 238 243, tokenOf .IDENT 244 245, tokenOf .EQUALS 246 247,
   tokenOf .PIPE 248 249, tokenOf .IDENT 250 251, tokenOf .ENUM 252 256,
   tokenOf .IDENT 257 258, tokenOf .CURLYBRACKETOPEN 259 260, tokenOf .IDENT 261 262,
   tokenOf .IDENT 263 264, tokenOf .AT 265 266, tokenOf .IDENT 266 267,
   tokenOf .CURLYBRACKETCLOSE 268 269, tokenOf .EXTEND 270 276, tokenOf .ENUM 277 281,
   tokenOf .IDENT 282 283, tokenOf .CURLYBRACKETOPEN 284 285, tokenOf .IDENT 286 287,
   tokenOf .CURLYBRACKETCLOSE 288 289, tokenOf .INPUT 290 295, tokenOf .IDENT 296 298,
   tokenOf .CURLYBRACKETOPEN 299 300, tokenOf .IDENT 301 302, tokenOf .COLON 302 303,
   tokenOf .IDENT 304 307, tokenOf .EQUALS 308 309, tokenOf .INTEGER 310 311,
   tokenOf .CURLYBRACKETCLOSE 312 313, tokenOf .EXTEND 314 320, tokenOf .INPUT 321 326,
   tokenOf .IDENT 327 329, tokenOf .CURLYBRACKETOPEN 330 331, tokenOf .IDENT 332 333,
   tokenOf .COLON 333 334, tokenOf .IDENT 335 341, tokenOf .CURLYBRACKETCLOSE 342 343,
   tokenOf .STRING 345 360, tokenOf .DIRECTIVE 362 371, tokenOf .AT 372 373,
   tokenOf .IDENT 373 374, tokenOf .BRACKETOPEN 374 375, tokenOf .IDENT 375 376,
   tokenOf .COLON 376 377, tokenOf .IDENT 378 381, tokenOf .BRACKETCLOSE 381 382,
   tokenOf .ON 383 385, tokenOf .IDENT 386 391, tokenOf .PIPE 392 393, tokenOf .IDENT 394 400,
   tokenOf .STRING 402 406, tokenOf .EXTEND 408 414, tokenOf .DIRECTIVE 415 424,
   tokenOf .AT 425 426, tokenOf .IDENT 426 427, tokenOf .ON 428 430, tokenOf .IDENT 431 436]

/-- The tokens of `scalar A extend scalar B`. -/
def scalarTokens : List Token :=
  [tokenOf .SCALAR 0 6, tokenOf .IDENT 7 8, tokenOf .EXTEND 9 15, tokenOf .SCALAR 16 22,
   tokenOf .IDENT 23 24]

/-- The tokens of `extend scalar C @a(x: 1) scalar`, a document whose second definition
has no name. -/
def brokenScalarTokens : List Token :=
  [tokenOf .EXTEND 0 6, tokenOf .SCALAR 7 13, tokenOf .IDENT 14 15, tokenOf .AT 16 17,
   tokenOf .IDENT 17 18, tokenOf .BRACKETOPEN 18 19, tokenOf .IDENT 19 20,
   tokenOf .COLON 20 21, tokenOf .INTEGER 22 23, tokenOf .BRACKETCLOSE 23 24,
   tokenOf .SCALAR 25 31]

/-- The tokens of `{ dog { name(x: 1) owner }`, a query whose outer selection set is not
closed. -/
def brokenQueryTokens : List Token :=
  [tokenOf .CURLYBRACKETOPEN 0 1, tokenOf .IDENT 2 5, tokenOf .CURLYBRACKETOPEN 6 7,
   tokenOf .IDENT 8 12, tokenOf .BRACKETOPEN 12 13, tokenOf .IDENT 13 14, tokenOf .COLON 14 15,
   tokenOf .INTEGER 16 17, tokenOf .BRACKETCLOSE 17 18, tokenOf .IDENT 19 24,
   tokenOf .CURLYBRACKETCLOSE 25 26]

/-- The tokens of `aliasPathDocument`. -/
def aliasPathTokens : List Token :=
  [tokenOf .CURLYBRACKETOPEN 0 1, tokenOf .IDENT 1 4, tokenOf .CURLYBRACKETOPEN 4 5,
   tokenOf .IDENT 5 12, tokenOf .COLON 12 13, tokenOf .IDENT 13 18,
   tokenOf .CURLYBRACKETOPEN 18 19, tokenOf .IDENT 19 23, tokenOf .CURLYBRACKETCLOSE 23 24,
   tokenOf .CURLYBRACKETCLOSE 24 25, tokenOf .CURLYBRACKETCLOSE 25 26]

/-- The tokens of `inlinePathDocument`. -/
def inlinePathTokens : List Token :=
  [tokenOf .CURLYBRACKETOPEN 0 1, tokenOf .IDENT 2 5, tokenOf .CURLYBRACKETOPEN 6 7,
   tokenOf .SPREAD 8 11, tokenOf .ON 12 14, tokenOf .IDENT 15 18,
   tokenOf .CURLYBRACKETOPEN 19 20, tokenOf .SPREAD 21 24, tokenOf .CURLYBRACKETOPEN 25 26,
   tokenOf .IDENT 27 32, tokenOf .CURLYBRACKETOPEN 33 34, tokenOf .IDENT 35 39,
   tokenOf .CURLYBRACKETCLOSE 40 41, tokenOf .CURLYBRACKETCLOSE 42 43,
   tokenOf .CURLYBRACKETCLOSE 44 45, tokenOf .CURLYBRACKETCLOSE 46 47,
   tokenOf .CURLYBRACKETCLOSE 48 49]
end parser

/-! ## The documents of the validation tests, as the parser leaves them -/

namespace typesystem

open document lookup keyword token parser

/-- The text of the first valid case of the test "directives have required arguments", which is also the
valid case of the test "directive arguments are constants", written on one line. -/
def requiredValidInput : List Nat :=
  asciiBytes "directive @addArgumentFromContext(name: String! contextKey: String!) on FIELD_DEFINITION type Query \x7b documents: [Document] @addArgumentFromContext(name: \"user\",contextKey: \"user\") \x7d"

/-- The tokens of `requiredValidInput`. -/
def requiredValidTokens : List Token :=
  [tokenOf .DIRECTIVE 0 9, tokenOf .AT 10 11, tokenOf .IDENT 11 33, tokenOf .BRACKETOPEN 33 34,
   tokenOf .IDENT 34 38, tokenOf .COLON 38 39, tokenOf .IDENT 40 46, tokenOf .BANG 46 47,
   tokenOf .IDENT 48 58, tokenOf .COLON 58 59, tokenOf .IDENT 60 66, tokenOf .BANG 66 67,
   tokenOf .BRACKETCLOSE 67 68, tokenOf .ON 69 71, tokenOf .IDENT 72 88, tokenOf .TYPE 89 93,
   tokenOf .IDENT 94 99, tokenOf .CURLYBRACKETOPEN 100 101, tokenOf .IDENT 102 111,
   tokenOf .COLON 111 112, tokenOf .SQUAREBRACKETOPEN 113 114, tokenOf .IDENT 114 122,
   tokenOf .SQUAREBRACKETCLOSE 122 123, tokenOf .AT 124 125, tokenOf .IDENT 125 147,
   tokenOf .BRACKETOPEN 147 148, tokenOf .IDENT 148 152, tokenOf .COLON 152 153,
   tokenOf .STRING 155 159, tokenOf .IDENT 161 171, tokenOf .COLON 171 172,
   tokenOf .STRING 174 178, tokenOf .BRACKETCLOSE 179 180, tokenOf .CURLYBRACKETCLOSE 181 182]

/-- The text of the case "variable value" of the test "directive arguments are constants", written on one line. -/
def variableValueInput : List Nat :=
  asciiBytes "directive @addArgumentFromContext(name: String! contextKey: String!) on FIELD_DEFINITION type Query \x7b documents: [Document] @addArgumentFromContext(name: \"user\",contextKey: $user) \x7d"

/-- The tokens of `variableValueInput`. -/
def variableValueTokens : List Token :=
  [tokenOf .DIRECTIVE 0 9, tokenOf .AT 10 11, tokenOf .IDENT 11 33, tokenOf .BRACKETOPEN 33 34,
   tokenOf .IDENT 34 38, tokenOf .COLON 38 39, tokenOf .IDENT 40 46, tokenOf .BANG 46 47,
   tokenOf .IDENT 48 58, tokenOf .COLON 58 59, tokenOf .IDENT 60 66, tokenOf .BANG 66 67,
   tokenOf .BRACKETCLOSE 67 68, tokenOf .ON 69 71, tokenOf .IDENT 72 88, tokenOf .TYPE 89 93,
   tokenOf .IDENT 94 99, tokenOf .CURLYBRACKETOPEN 100 101, tokenOf .IDENT 102 111,
   tokenOf .COLON 111 112, tokenOf .SQUAREBRACKETOPEN 113 114, tokenOf .IDENT 114 122,
   tokenOf .SQUAREBRACKETCLOSE 122 123, tokenOf .AT 124 125, tokenOf .IDENT 125 147,
   tokenOf .BRACKETOPEN 147 148, tokenOf .IDENT 148 152, tokenOf .COLON 152 153,
   tokenOf .STRING 155 159, tokenOf .IDENT 161 171, tokenOf .COLON 171 172,
   tokenOf .VARIABLE 174 178, tokenOf .BRACKETCLOSE 178 179,
   tokenOf .CURLYBRACKETCLOSE 180 181]

/-- The pools that `ParseTypeSystemDefinition` leaves for `variableValueInput`. -/
def variableValueDocument : ParsedDefinitions :=
  (ParseTypeSystemDefinition variableValueTokens (withInput variableValueInput)).2

/-- The text of a document with a variable inside a list inside a list, written on one line. -/
def variableInListInput : List Nat :=
  asciiBytes "type Query \x7b documents: [Document] @tags(names: [\"a\", [$b]]) \x7d"

/-- The tokens of `variableInListInput`. -/
def variableInListTokens : List Token :=
  [tokenOf .TYPE 0 4, tokenOf .IDENT 5 10, tokenOf .CURLYBRACKETOPEN 11 12,
   tokenOf .IDENT 13 22, tokenOf .COLON 22 23, tokenOf .SQUAREBRACKETOPEN 24 25,
   tokenOf .IDENT 25 33, tokenOf .SQUAREBRACKETCLOSE 33 34, tokenOf .AT 35 36,
   tokenOf .IDENT 36 40, tokenOf .BRACKETOPEN 40 41, tokenOf .IDENT 41 46,
   tokenOf .COLON 46 47, tokenOf .SQUAREBRACKETOPEN 48 49, tokenOf .STRING 50 51,
   tokenOf .SQUAREBRACKETOPEN 54 55, tokenOf .VARIABLE 56 57,
   tokenOf .SQUAREBRACKETCLOSE 57 58, tokenOf .SQUAREBRACKETCLOSE 58 59,
   tokenOf .BRACKETCLOSE 59 60, tokenOf .CURLYBRACKETCLOSE 61 62]

/-- The pools that `ParseTypeSystemDefinition` leaves for `variableInListInput`. -/
def variableInListDocument : ParsedDefinitions :=
  (ParseTypeSystemDefinition variableInListTokens (withInput variableInListInput)).2
end typesystem

/-! ## Sequences of parses and mutations -/

namespace parser

open document lookup keyword token

/-- A parse call, by the tokens of its input, or a call of the manual mutation
API. -/
inductive Mutation where
  | ParseTypeSystemDefinition (ts : List Token)
  | ParseExecutableDefinition (ts : List Token)
  | ExtendTypeSystemDefinition (ts : List Token)
  | PutLiteralString (b : List Nat)
  | PutField (f : Field)
  | PutValue (v : Value)
  | PutArgument (a : Argument)
  | AppendFieldToSelectionSet (fieldRef setRef : Int)
  | DeleteFieldFromSelectionSet (fieldRef setRef : Int)
  | MergeArgIntoFieldArguments (argRef fieldRef : Int)

/-- The pools after one call; an error when the call panics.  A parse call that
returns an error does not panic: the sequence goes on with the pools it
leaves. -/
def applyMutation (d : ParsedDefinitions) : Mutation → Except String ParsedDefinitions
  | .ParseTypeSystemDefinition ts => .ok (ParseTypeSystemDefinition ts d).2
  | .ParseExecutableDefinition ts => .ok (ParseExecutableDefinition ts d).2
  | .ExtendTypeSystemDefinition ts => .ok (ExtendTypeSystemDefinition ts d).2
  | .PutLiteralString b => .ok (PutLiteralString d b).2
  | .PutField f => .ok (PutField d f).2
  | .PutValue v => .ok (PutValue d v).2
  | .PutArgument a => .ok (PutArgument d a).2
  | .AppendFieldToSelectionSet fieldRef setRef => AppendFieldToSelectionSet d fieldRef setRef
  | .DeleteFieldFromSelectionSet fieldRef setRef => DeleteFieldFromSelectionSet d fieldRef setRef
  | .MergeArgIntoFieldArguments argRef fieldRef => MergeArgIntoFieldArguments d argRef fieldRef

/-- The pools after a sequence of calls, the first panic ending it. -/
def applyAll (d : ParsedDefinitions) : List Mutation → Except String ParsedDefinitions
  | [] => .ok d
  | m :: ms =>
    match applyMutation d m with
    | .ok d' => applyAll d' ms
    | .error e => .error e

/-- The records that calls of the mutation API were made on: the fields that an
argument was merged into, the selection sets that a field was appended to or
deleted from, and the argument sets of the fields that an argument was merged
into. -/
structure Rewrites where
  Fields : List Int
  SelectionSets : List Int
  ArgumentSets : List Int
deriving DecidableEq, Repr

/-- The records that one call is made on, with the pools as they are before
it. -/
def Mutation.rewrites (d : ParsedDefinitions) : Mutation → Rewrites
  | .AppendFieldToSelectionSet _ setRef => ⟨[], [setRef], []⟩
  | .DeleteFieldFromSelectionSet _ setRef => ⟨[], [setRef], []⟩
  | .MergeArgIntoFieldArguments _ fieldRef => ⟨[fieldRef], [], [(d.Field fieldRef).ArgumentSet]⟩
  | _ => ⟨[], [], []⟩

/-- The records that the calls of a sequence are made on. -/
def rewrittenBy (d : ParsedDefinitions) : List Mutation → Rewrites
  | [] => ⟨[], [], []⟩
  | m :: ms =>
    match applyMutation d m with
    | .ok d' =>
      ⟨(m.rewrites d).Fields ++ (rewrittenBy d' ms).Fields,
       (m.rewrites d).SelectionSets ++ (rewrittenBy d' ms).SelectionSets,
       (m.rewrites d).ArgumentSets ++ (rewrittenBy d' ms).ArgumentSets⟩
    | .error _ => m.rewrites d

/-- What the pools `d'` keep of the pools `d`, when calls of the mutation API
were made on the records `touched` in between: the input and every pool of records
that are never rewritten only grow at their end, so an index into them resolves
to the same record; the pools of fields, selection sets and argument sets are
not shorter and keep their entries in place: an index of a field resolves to
the same record, but for the argument-set link of a field that an argument was
merged into; an index of a selection set resolves to the same record, but for
the field list of a set that a field was appended to or deleted from; an index
of an argument set resolves to the same set, unless it is the set of a field
that an argument was merged into. -/
structure Stable (touched : Rewrites) (d d' : ParsedDefinitions) : Prop where
  input : d.Input <+: d'.Input
  types : d.Types <+: d'.Types
  arguments : d.Arguments <+: d'.Arguments
  fragmentSpreads : d.FragmentSpreads <+: d'.FragmentSpreads
  inlineFragments : d.InlineFragments <+: d'.InlineFragments
  operationDefinitions : d.OperationDefinitions <+: d'.OperationDefinitions
  fragmentDefinitions : d.FragmentDefinitions <+: d'.FragmentDefinitions
  operations : d.ExecutableDefinition.OperationDefinitions <+:
    d'.ExecutableDefinition.OperationDefinitions
  fragments : d.ExecutableDefinition.FragmentDefinitions <+:
    d'.ExecutableDefinition.FragmentDefinitions
  fieldDefinitions : d.FieldDefinitions <+: d'.FieldDefinitions
  objectTypeDefinitions : d.ObjectTypeDefinitions <+: d'.ObjectTypeDefinitions
  values : d.Values <+: d'.Values
  byteSliceReferences : d.ByteSliceReferences <+: d'.ByteSliceReferences
  directives : d.Directives <+: d'.Directives
  directiveSets : d.DirectiveSets <+: d'.DirectiveSets
  inputValueDefinitions : d.InputValueDefinitions <+: d'.InputValueDefinitions
  directiveDefinitions : d.DirectiveDefinitions <+: d'.DirectiveDefinitions
  listValues : d.ListValues <+: d'.ListValues
  objectValues : d.ObjectValues <+: d'.ObjectValues
  objectFields : d.ObjectFields <+: d'.ObjectFields
  schemaDefinitions : d.SchemaDefinitions <+: d'.SchemaDefinitions
  scalarTypeDefinitions : d.ScalarTypeDefinitions <+: d'.ScalarTypeDefinitions
  interfaceTypeDefinitions : d.InterfaceTypeDefinitions <+: d'.InterfaceTypeDefinitions
  unionTypeDefinitions : d.UnionTypeDefinitions <+: d'.UnionTypeDefinitions
  enumTypeDefinitions : d.EnumTypeDefinitions <+: d'.EnumTypeDefinitions
  enumValueDefinitions : d.EnumValueDefinitions <+: d'.EnumValueDefinitions
  inputObjectTypeDefinitions : d.InputObjectTypeDefinitions <+: d'.InputObjectTypeDefinitions
  variableDefinitions : d.VariableDefinitions <+: d'.VariableDefinitions
  fieldsLength : d.Fields.length ≤ d'.Fields.length
  fields : ∀ i : Int, 0 ≤ i → i < (d.Fields.length : Int) →
    (d'.Field i).Alias = (d.Field i).Alias ∧ (d'.Field i).Name = (d.Field i).Name ∧
    (d'.Field i).DirectiveSet = (d.Field i).DirectiveSet ∧
    (d'.Field i).SelectionSet = (d.Field i).SelectionSet ∧
    (d'.Field i).Position = (d.Field i).Position ∧
    (i ∉ touched.Fields → (d'.Field i).ArgumentSet = (d.Field i).ArgumentSet)
  selectionSetsLength : d.SelectionSets.length ≤ d'.SelectionSets.length
  selectionSets : ∀ i : Int, 0 ≤ i → i < (d.SelectionSets.length : Int) →
    (d'.SelectionSet i).FragmentSpreads = (d.SelectionSet i).FragmentSpreads ∧
    (d'.SelectionSet i).InlineFragments = (d.SelectionSet i).InlineFragments ∧
    (i ∉ touched.SelectionSets → (d'.SelectionSet i).Fields = (d.SelectionSet i).Fields)
  argumentSetsLength : d.ArgumentSets.length ≤ d'.ArgumentSets.length
  argumentSets : ∀ i : Int, 0 ≤ i → i < (d.ArgumentSets.length : Int) →
    i ∉ touched.ArgumentSets → d'.ArgumentSet i = d.ArgumentSet i

/-- A sequence of all seven mutations and of parse calls, for the document
`{dog{renamed:owner{name}}}`: a field `id` is created and put in the place of
the field `name`, then given the argument `id`; two scalars and a query are
parsed; a query that is not closed is parsed, which gives an error. -/
def exampleMutations : List Mutation :=
  [.PutLiteralString (asciiBytes "id"),
   .PutField ⟨⟨0, 0⟩, ⟨26, 28⟩, -1, -1, -1, ⟨0, 0, 0, 0⟩⟩,
   .AppendFieldToSelectionSet 3 2,
   .DeleteFieldFromSelectionSet 2 2,
   .PutValue ⟨.Int, 0, ⟨0, 0, 0, 0⟩, ⟨26, 28⟩⟩,
   .PutArgument ⟨⟨26, 28⟩, 0⟩,
   .MergeArgIntoFieldArguments 0 3,
   .ExtendTypeSystemDefinition scalarTokens,
   .ParseExecutableDefinition aliasPathTokens,
   .ParseExecutableDefinition brokenQueryTokens,
   .ParseTypeSystemDefinition brokenScalarTokens]

end parser

/-! ## The planner of the AMQP data source

`plan.Visitor`, `ast.Document`, `httpclient`, `jsonparser` and `regexp` are not
among the sources.  The visitor and the operation document are given by what
their calls return, and what the planner does to the visitor is the list of the
calls it makes.  The one regular expression of the package is matched by hand,
on bytes.  A byte slice is a list of bytes; where the source hands a slice that
may be `nil` to a package outside, it is an `Option`. -/

namespace ast

/-- The fields of `ast.Value` that the planner reads. -/
structure Value where
  Kind : Nat
  Ref : Int
deriving DecidableEq, Repr

/-- The fields of `ast.Node` that the planner reads. -/
structure Node where
  Ref : Int
deriving DecidableEq, Repr

/-- What the calls of the planner on the operation `ast.Document` return: the
methods by their names, `VariableDefinitionType ref` for
`VariableDefinitions[ref].Type`, `TypeIsScalar` with the definition document of
the visitor already passed, and the constant `ast.ValueKindVariable`. -/
structure Document where
  FieldArgument : Int → List Nat → Option Int
  ArgumentValue : Int → Value
  VariableValueNameBytes : Int → List Nat
  VariableDefinitionByNameAndOperation : Int → List Nat → Option Int
  VariableDefinitionType : Int → Int
  TypeIsScalar : Int → Bool
  ValueKindVariable : Nat

end ast

namespace amqp_datasource

/-- Go: the class `\s` of `regexp`: tab, line feed, form feed, carriage return
and space. -/
def isSpace (c : Nat) : Bool :=
  c = 9 || c = 10 || c = 12 || c = 13 || c = 32

/-- Go: the part `(.*?)\s}}"` of `selectorRegex` at the start of the bytes: the
shortest group after which a space byte and `}}"` follow; `.` takes any byte
but the line feed. -/
def selectorTail : List Nat → Option (List Nat)
  | [] => none
  | c :: s =>
    if isSpace c && [125, 125, 34].isPrefixOf s then some []
    else if c = 10 then none
    else (selectorTail s).map (c :: ·)

/-- Go: `selectorRegex`, the pattern `"{{\s(.*?)\s}}"`, at the start of the
bytes: the group of the match, which is `group.length + 8` bytes long. -/
def selectorMatch : List Nat → Option (List Nat)
  | 34 :: 123 :: 123 :: c :: s => if isSpace c then selectorTail s else none
  | _ => none

/-- Go: `selectorRegex.FindSubmatch`: the leftmost match and its group, `none`
for `nil`. -/
def FindSubmatch : List Nat → Option (List (List Nat))
  | [] => none
  | c :: s =>
    match selectorMatch (c :: s) with
    | some group => some [(c :: s).take (group.length + 8), group]
    | none => FindSubmatch s

/-- Go: `selectorRegex.ReplaceAllFunc` from a position on, `skip` bytes of the
last match still to be passed: every match, from left to right and without
overlap, is replaced by what `repl` returns for it. -/
def ReplaceAllFuncFrom {m : Type → Type} [Monad m] (repl : List Nat → m (List Nat)) :
    Nat → List Nat → m (List Nat)
  | _, [] => pure []
  | skip + 1, _ :: s => ReplaceAllFuncFrom repl skip s
  | 0, c :: s =>
    match selectorMatch (c :: s) with
    | some group => do
      let r ← repl ((c :: s).take (group.length + 8))
      let rest ← ReplaceAllFuncFrom repl (group.length + 7) s
      pure (r ++ rest)
    | none => do
      let rest ← ReplaceAllFuncFrom repl 0 s
      pure (c :: rest)

/-- Go: `selectorRegex.ReplaceAllFunc`. -/
def ReplaceAllFunc {m : Type → Type} [Monad m] (src : List Nat)
    (repl : List Nat → m (List Nat)) : m (List Nat) :=
  ReplaceAllFuncFrom repl 0 src

/-- Go: `bytes.TrimPrefix`. -/
def TrimPrefix (s pre : List Nat) : List Nat :=
  if pre.isPrefixOf s then s.drop pre.length else s

/-- Go: `strings.Split` with a separator of one byte. -/
def Split (sep : Nat) : List Nat → List (List Nat)
  | [] => [[]]
  | c :: s =>
    if c = sep then [] :: Split sep s
    else
      match Split sep s with
      | [] => [[c]]
      | segment :: segments => (c :: segment) :: segments

/-- Go: `bytes.Join`. -/
def Join (sep : List Nat) : List (List Nat) → List Nat
  | [] => []
  | [v] => v
  | v :: w :: values => v ++ sep ++ Join sep (w :: values)

/-- Go: `literal.COMMA` of the package `lexer/literal`, which is not among the
sources: the comma that separates the elements of a JSON array. -/
def COMMA : List Nat := [44]

/-- What the calls of the planner on `plan.DataSourceConfiguration` return:
`ValueForKey key` for `config.Attributes.ValueForKey(key)`, `none` for `nil`. -/
structure DataSourceConfiguration where
  ValueForKey : String → Option (List Nat)

/-- What the calls of the planner on `plan.Visitor` return, and the fields of
the visitor it reads. -/
structure Visitor where
  IsRootField : Int → Bool × DataSourceConfiguration
  NextBufferID : Int
  Operation : ast.Document
  Ancestors : List ast.Node

/-- Go: `Planner`. -/
structure Planner where
  conn : Connection
  v : Visitor

/-- Go: the function that `prepareQueryParams` passes to `ReplaceAllFunc` for
`values[i]`; the state is `deleteIndices`, the error a panic. -/
def selectorReplace (p : Planner) (field : Int) (i : Nat) (b : List Nat) :
    StateT (List Nat) (Except String) (List Nat) :=
  match FindSubmatch b with
  | some [_, sub] =>
    match Split 46 (TrimPrefix sub [46]) with
    | segment0 :: argName :: _ =>
      if segment0 ≠ bytesOf "arguments" then pure b
      else
        match p.v.Operation.FieldArgument field argName with
        | none => do
          modify (· ++ [i])
          pure b
        | some argRef =>
          let value := p.v.Operation.ArgumentValue argRef
          if value.Kind = p.v.Operation.ValueKindVariable then
            let variableName := p.v.Operation.VariableValueNameBytes value.Ref
            match p.v.Ancestors with
            | [] => throw "index out of range [0] with length 0"
            | ancestor :: _ =>
              match p.v.Operation.VariableDefinitionByNameAndOperation ancestor.Ref
                  variableName with
              | some variableDefinition =>
                if p.v.Operation.TypeIsScalar
                    (p.v.Operation.VariableDefinitionType variableDefinition) then
                  pure b
                else if b.length < 2 then throw "slice bounds out of range"
                else pure ((b.drop 1).take (b.length - 2))
              | none => pure b
          else pure b
    | _ => pure b
  | _ => pure b

/-- Go: the first loop of `prepareQueryParams` from index `i` on:
`values[i] = selectorRegex.ReplaceAllFunc(values[i], ...)`. -/
def replaceValues (p : Planner) (field : Int) :
    Nat → List (List Nat) → StateT (List Nat) (Except String) (List (List Nat))
  | _, [] => pure []
  | i, value :: values => do
    let value ← ReplaceAllFunc value (selectorReplace p field i)
    let values ← replaceValues p field (i + 1) values
    pure (value :: values)

/-- Go: `values = append(values[:del], values[del+1:]...)`; the slice expression
`values[del+1:]` panics when `del+1` is above the length. -/
def removeIndex (values : List (List Nat)) (del : Nat) : Except String (List (List Nat)) :=
  if values.length < del + 1 then
    .error "slice bounds out of range"
  else .ok (values.take del ++ values.drop (del + 1))

/-- Go: the second loop of `prepareQueryParams`, over the indices in the order
in which the loop takes them (the last of `deleteIndices` first). -/
def removeIndices : List Nat → List (List Nat) → Except String (List (List Nat))
  | [], values => .ok values
  | del :: rest, values => do
    let values ← removeIndex values del
    removeIndices rest values

/-- Go: `(*Planner).prepareQueryParams`; `ArrayEach params` is what
`jsonparser.ArrayEach` hands to its callback for `params`, element by element,
or its error; the error of the result is a panic. -/
def Planner.prepareQueryParams (p : Planner)
    (ArrayEach : Option (List Nat) → Except String (List (List Nat)))
    (field : Int) (params : Option (List Nat)) : Except String (Option (List Nat)) :=
  match ArrayEach params with
  | .error _ => .ok params
  | .ok values => do
    let (values, deleteIndices) ← (replaceValues p field 0 values).run []
    let values ← removeIndices deleteIndices.reverse values
    pure (some ([91] ++ (Join COMMA values ++ [93])))

end amqp_datasource

namespace httpclient

/-- What the planner takes from the package `httpclient`, which is not among the
sources: the keys of the attributes and the functions that write one part of
the input of a fetch each. -/
structure Package where
  PATH : String
  BASEURL : String
  METHOD : String
  BODY : String
  HEADERS : String
  QUERYPARAMS : String
  SetInputURL : Option (List Nat) → Option (List Nat) → Option (List Nat)
  SetInputMethod : Option (List Nat) → Option (List Nat) → Option (List Nat)
  SetInputBody : Option (List Nat) → Option (List Nat) → Option (List Nat)
  SetInputHeaders : Option (List Nat) → Option (List Nat) → Option (List Nat)
  SetInputQueryParams : Option (List Nat) → Option (List Nat) → Option (List Nat)

end httpclient

namespace resolve

/-- The fields of `resolve.SingleFetch` that the planner sets. -/
structure SingleFetch where
  BufferId : Int
  Input : List Nat
  DataSource : amqp_datasource.Source
  DisallowSingleFlight : Bool

end resolve

namespace amqp_datasource

/-- A call of the planner that changes the `plan.Visitor`. -/
inductive VisitorCall where
  | NextBufferID
  | SetBufferIDForCurrentFieldSet (bufferID : Int)
  | SetCurrentObjectFetch (fetch : resolve.SingleFetch) (config : DataSourceConfiguration)

/-- Go: `bytes.Equal`, for which a `nil` slice is an empty one. -/
def bytesEqual (a b : Option (List Nat)) : Bool :=
  a.getD [] = b.getD []

/-- Go: `(*Planner).EnterField`: the calls that change the visitor, in their
order; the error is a panic. -/
def Planner.EnterField (p : Planner) (h : httpclient.Package)
    (ArrayEach : Option (List Nat) → Except String (List (List Nat))) (ref : Int) :
    Except String (List VisitorCall) :=
  let (rootField, config) := p.v.IsRootField ref
  if !rootField then .ok []
  else do
    let path := config.ValueForKey h.PATH
    let baseURL := config.ValueForKey h.BASEURL
    let method := config.ValueForKey h.METHOD
    let body := config.ValueForKey h.BODY
    let headers := config.ValueForKey h.HEADERS
    let queryParams := config.ValueForKey h.QUERYPARAMS
    let queryParams ← p.prepareQueryParams ArrayEach ref queryParams
    let input : Option (List Nat) := none
    let url := some (baseURL.getD [] ++ path.getD [])
    let input := h.SetInputURL input url
    let input := h.SetInputMethod input method
    let input := h.SetInputBody input body
    let input := h.SetInputHeaders input headers
    let input := h.SetInputQueryParams input queryParams
    let bufferID := p.v.NextBufferID
    pure [.NextBufferID, .SetBufferIDForCurrentFieldSet bufferID,
      .SetCurrentObjectFetch
        ⟨bufferID, input.getD [], ⟨p.conn⟩, !bytesEqual method (some (bytesOf "GET"))⟩ config]

end amqp_datasource

/-! ## The HTTP proxy

The packages `proxy` and `middleware` are not among the sources, and `context`,
`net/http` and `encoding/json` are the standard library.  A Go string is the
list of its bytes.  A context is one that the proxy is given, known by its
`Value` method, or one made by `context.WithValue`; a header is the map under
`http.Header`; the pools, the invoker, the client and the response writer are
given by what their calls return. -/

namespace context

/-- The values of `interface{}` that are keys and values of a context: `nil`,
a string, or any other comparable value, told apart by a number. -/
inductive Any where
  | nil
  | string (s : List Nat)
  | other (tag : Nat)
deriving DecidableEq, Repr

/-- Go: `context.Context` by its `Value` method: a context given from outside
with the function that its `Value` is, or the `valueCtx` of `WithValue`. -/
inductive Context where
  | given (value : Any → Any)
  | valueCtx (parent : Context) (key val : Any)

/-- Go: `Context.Value`: a `valueCtx` answers for its own key and asks its parent
for every other. -/
def Context.Value : Context → Any → Any
  | .given value, key => value key
  | .valueCtx parent k val, key => if k = key then val else parent.Value key

/-- Go: `context.WithValue`, which panics for a `nil` key. -/
def WithValue (parent : Context) (key val : Any) : Except String Context :=
  if key = .nil then .error "nil key" else .ok (.valueCtx parent key val)

end context

namespace http

/-- Go: `http.Header`, a `map[string][]string`; `none` for a key that the map
does not have. -/
structure Header where
  values : List Nat → Option (List (List Nat))

/-- Go: `Header.Get`: the first value under the canonical form of the key, the
empty string without one; `canonical` is `textproto.CanonicalMIMEHeaderKey`. -/
def Header.Get (canonical : List Nat → List Nat) (h : Header) (key : List Nat) : List Nat :=
  match h.values (canonical key) with
  | some (v :: _) => v
  | _ => []

/-- Go: `Header.Set`: the one value under the canonical form of the key. -/
def Header.Set (canonical : List Nat → List Nat) (h : Header) (key value : List Nat) : Header :=
  ⟨fun k => if k = canonical key then some [value] else h.values k⟩

/-- Go: `(*Proxy).SetContextValues`, which does not read its receiver; the error
is a panic. -/
def SetContextValues (canonical : List Nat → List Nat) (ctx : context.Context)
    (header : Header) : List (List Nat) → Except String context.Context
  | [] => .ok ctx
  | key :: addHeaders => do
    let ctx ← context.WithValue ctx (.string key) (.string (header.Get canonical key))
    SetContextValues canonical ctx header addHeaders

end http

namespace http

/-- Go: `GraphqlJsonRequest`. -/
structure GraphqlJsonRequest where
  OperationName : List Nat
  Query : List Nat
deriving DecidableEq, Repr

/-- Go: what `encoding/json` writes for a `GraphqlJsonRequest`, by the tags of
its fields: `operationName` is left out when empty (`omitempty`), `query` is
always written; `encodeString` is the encoding of a string as a JSON string. -/
def GraphqlJsonRequest.Marshal (encodeString : List Nat → List Nat)
    (req : GraphqlJsonRequest) : List Nat :=
  [123] ++
    (if req.OperationName = [] then []
      else amqp_datasource.bytesOf "\"operationName\":" ++ encodeString req.OperationName ++ [44]) ++
    amqp_datasource.bytesOf "\"query\":" ++ encodeString req.Query ++ [125]

/-- Go: `json.NewEncoder(&out).Encode(req)`, which ends the encoding with a line
feed; for a struct of two strings it has no error. -/
def GraphqlJsonRequest.Encode (encodeString : List Nat → List Nat)
    (req : GraphqlJsonRequest) : List Nat :=
  req.Marshal encodeString ++ [10]

/-- The fields of `http.Request` that `DispatchRequest` sets; the body is the
content of its reader. -/
structure Request where
  Method : String
  URL : List Nat
  Header : Header
  Body : List Nat

/-- The `http.Response` of the backend: what `ioutil.ReadAll` gives for its
body. -/
structure Response where
  Body : Except String (List Nat)

/-- What `Do` of a `*http.Client` returns. -/
structure Client where
  Do : Request → Except String Response

/-- The fields of `proxy.RequestConfig` that the proxy reads; `none` is a `nil`
pointer or a `nil` map. -/
structure RequestConfig where
  Schema : Option (List Nat)
  BackendURL : List Nat
  BackendHeaders : Option Header
  AddHeadersToContext : List (List Nat)

/-- What the calls on an invoker of the package `middleware` return, the invoker
being in a state of the type `σ` that its calls change. -/
structure Invoker (σ : Type) where
  SetSchema : σ → List Nat → Option String × σ
  InvokeMiddleWares : σ → context.Context → List Nat → Option String × σ
  RewriteRequest : σ → List Nat → (Option String × List Nat) × σ

/-- Go: `Proxy` with the fields of the embedded `proxy.Proxy` that are read.  A
pool is what its `Get` hands out: the invoker and its state, the content of the
buffer (`none` for what is not a `*bytes.Buffer`), the client (`none` for what
is not a `*http.Client`).  `HandleError` may panic, as a `nil` function does. -/
structure Proxy (σ : Type) where
  InvokerPool : Invoker σ × σ
  BufferPool : Option (List Nat)
  ClientPool : Option Client
  GetRequestConfig : context.Context → RequestConfig
  HandleError : String → Except String Unit

/-- Go: `ProxyRequest` with the fields of the embedded `proxy.Request` that are
read; the body is the content of its reader. -/
structure ProxyRequest (σ : Type) where
  Config : RequestConfig
  RequestURL : List Nat
  Body : List Nat
  Context : context.Context
  Proxy : Proxy σ

/-- Go: `(*ProxyRequest).AcceptRequest`: the returned error and the content of
the buffer after the call; the outer error is a panic.  `Decode` is the decoding
of the body by `encoding/json`. -/
def ProxyRequest.AcceptRequest {σ : Type} (pr : ProxyRequest σ)
    (Decode : List Nat → Except String GraphqlJsonRequest) (buff : List Nat) :
    Except String (Option String × List Nat) :=
  let (invoker, s) := pr.Proxy.InvokerPool
  match pr.Config.Schema with
  | none => .error "invalid memory address or nil pointer dereference"
  | some schema =>
    match invoker.SetSchema s schema with
    | (some err, _) => .ok (some err, buff)
    | (none, s) =>
      match Decode pr.Body with
      | .error err => .ok (some err, buff)
      | .ok graphqlJsonRequest =>
        let query := graphqlJsonRequest.Query
        match invoker.InvokeMiddleWares s pr.Context query with
        | (some err, _) => .ok (some err, buff)
        | (none, s) => .ok (invoker.RewriteRequest s buff).1

/-- Go: `(*ProxyRequest).DispatchRequest`: the returned error, the content of the
buffer after the call and the requests sent to the backend; the outer error is
a panic.  `buff.String()` is the content of the buffer and `buff.Write` appends
to it. -/
def ProxyRequest.DispatchRequest {σ : Type} (pr : ProxyRequest σ)
    (canonical encodeString : List Nat → List Nat) (buff : List Nat) :
    Except String (Option String × List Nat × List Request) :=
  let req : GraphqlJsonRequest := ⟨[], buff⟩
  let out := req.Encode encodeString
  match pr.Proxy.ClientPool with
  | none => .error "interface conversion: interface is not *http.Client"
  | some client =>
    let headers : Header :=
      match pr.Config.BackendHeaders with
      | some backendHeaders => backendHeaders
      | none => ⟨fun _ => none⟩
    let request : Request := ⟨"POST", pr.Config.BackendURL, headers, out⟩
    let request : Request :=
      { request with
        Header := request.Header.Set canonical (amqp_datasource.bytesOf "Content-Type")
          (amqp_datasource.bytesOf "application/json") }
    match client.Do request with
    | .error err => .ok (some err, buff, [request])
    | .ok response =>
      match response.Body with
      | .error err => .ok (some err, buff, [request])
      | .ok rBytes => .ok (none, buff ++ rBytes, [request])

/-- Go: `(*ProxyRequest).AcceptResponse`. -/
def ProxyRequest.AcceptResponse {σ : Type} (_pr : ProxyRequest σ) (_buff : List Nat) :
    Except String (Option String) :=
  .error "implement me"

/-- Go: `(*ProxyRequest).DispatchResponse`. -/
def ProxyRequest.DispatchResponse {σ : Type} (_pr : ProxyRequest σ) : Except String Unit :=
  .error "implement me"

end http

namespace http

/-- What `ServeHTTP` does to the pool of buffers, the error handler, the
response writer and the body of the request, call by call. -/
inductive Event where
  | Put (buff : List Nat)
  | HandleError (err : String)
  | Copy (buff : List Nat)
  | Close
deriving DecidableEq, Repr

/-- The fields of the incoming `*http.Request` that `ServeHTTP` reads; the body
is the content of its reader. -/
structure ServerRequest where
  Context : context.Context
  Header : Header
  URL : List Nat
  Body : List Nat

/-- The `http.ResponseWriter` by what `io.Copy(w, buff)` does with it: what is
left in the buffer, and the returned error. -/
structure ResponseWriter where
  Copy : List Nat → List Nat × Option String

/-- Go: the three lines `p.BufferPool.Put(buff)`, `p.HandleError(err, w)`,
`return` of `ServeHTTP`: whether the handler returns or panics, and the two
calls. -/
def Proxy.putAndHandle {σ : Type} (p : Proxy σ) (buff : List Nat) (err : String) :
    Except String Unit × List Event :=
  (p.HandleError err, [Event.Put buff, Event.HandleError err])

/-- Go: the body of `(*Proxy).ServeHTTP`, before the deferred call runs: whether
it returns or panics, and the calls it has made. -/
def Proxy.serve {σ : Type} (p : Proxy σ) (Decode : List Nat → Except String GraphqlJsonRequest)
    (canonical encodeString : List Nat → List Nat) (w : ResponseWriter) (r : ServerRequest) :
    Except String Unit × List Event :=
  match p.BufferPool with
  | none => (.error "interface conversion: interface is not *bytes.Buffer", [])
  | some _ =>
    let buff : List Nat := []
    let config := p.GetRequestConfig r.Context
    match SetContextValues canonical r.Context r.Header config.AddHeadersToContext with
    | .error msg => (.error msg, [])
    | .ok ctx =>
      let pr : ProxyRequest σ := ⟨config, r.URL, r.Body, ctx, p⟩
      match pr.AcceptRequest Decode buff with
      | .error msg => (.error msg, [])
      | .ok (some err, buff) => p.putAndHandle buff err
      | .ok (none, buff) =>
        match pr.DispatchRequest canonical encodeString buff with
        | .error msg => (.error msg, [])
        | .ok (some err, buff, _) => p.putAndHandle buff err
        | .ok (none, buff, _) =>
          match pr.AcceptResponse buff with
          | .error msg => (.error msg, [])
          | .ok (some err) => p.putAndHandle buff err
          | .ok none =>
            match w.Copy buff with
            | (rest, some err) =>
              ((p.putAndHandle rest err).1, Event.Copy buff :: (p.putAndHandle rest err).2)
            | (rest, none) => (.ok (), [Event.Copy buff, Event.Put rest])

/-- Go: `(*Proxy).ServeHTTP`: whether it returns or panics, and the calls it has
made, the deferred `r.Body.Close()` last. -/
def Proxy.ServeHTTP {σ : Type} (p : Proxy σ) (Decode : List Nat → Except String GraphqlJsonRequest)
    (canonical encodeString : List Nat → List Nat) (w : ResponseWriter) (r : ServerRequest) :
    Except String Unit × List Event :=
  ((p.serve Decode canonical encodeString w r).1,
    (p.serve Decode canonical encodeString w r).2 ++ [Event.Close])

end http

/-! ## Examples for the planner and the proxy -/

namespace amqp_datasource

/-- The operation `argumentOperation` of the test as the planner reads it: the
field `withArgument` (reference 0) has the arguments `id`, the variable
`$idVariable` of the scalar type `String!`, and `name`, the string `"foo"`; the
argument `optional` of the schema is not given. -/
def argumentOperation : ast.Document where
  FieldArgument := fun field name =>
    if field = 0 ∧ name = bytesOf "id" then some 0
    else if field = 0 ∧ name = bytesOf "name" then some 1
    else none
  ArgumentValue := fun ref => if ref = 0 then ⟨5, 0⟩ else ⟨1, 0⟩
  VariableValueNameBytes := fun _ => bytesOf "idVariable"
  VariableDefinitionByNameAndOperation := fun operation name =>
    if operation = 0 ∧ name = bytesOf "idVariable" then some 0 else none
  VariableDefinitionType := fun _ => 0
  TypeIsScalar := fun _ => true
  ValueKindVariable := 5

/-- A query parameter without a template. -/
def staticParam : List Nat :=
  bytesOf "\x7b\"name\":\"static\",\"value\":\"staticValue\"\x7d"

/-- A query parameter whose value is the argument `id`. -/
def idParam : List Nat :=
  bytesOf "\x7b\"name\":\"id\",\"value\":\"\x7b\x7b .arguments.id \x7d\x7d\"\x7d"

/-- A query parameter whose value is the argument `optional`. -/
def optionalParam : List Nat :=
  bytesOf "\x7b\"name\":\"id\",\"value\":\"\x7b\x7b .arguments.optional \x7d\x7d\"\x7d"

/-- A query parameter whose name and value are both the argument `optional`. -/
def optionalTwiceParam : List Nat :=
  bytesOf ("\x7b\"name\":\"\x7b\x7b .arguments.optional \x7d\x7d\"," ++
    "\"value\":\"\x7b\x7b .arguments.optional \x7d\x7d\"\x7d")

/-- The JSON array of the given elements. -/
def arrayOf (values : List (List Nat)) : List Nat :=
  [91] ++ (Join COMMA values ++ [93])

/-- What `jsonparser.ArrayEach` hands out for the arrays of the examples, which
are arrays of objects: their elements. -/
def exampleArrayEach (params : Option (List Nat)) : Except String (List (List Nat)) :=
  if params = some (arrayOf [staticParam, idParam, optionalParam]) then
    .ok [staticParam, idParam, optionalParam]
  else if params = some (arrayOf [optionalTwiceParam, staticParam]) then
    .ok [optionalTwiceParam, staticParam]
  else if params = some (arrayOf [staticParam, optionalTwiceParam]) then
    .ok [staticParam, optionalTwiceParam]
  else .error "Value is not an array"

/-- The keys of the attributes as the configurations of the test spell them,
with setters that append the part to the input. -/
def exampleHttpclient : httpclient.Package where
  PATH := "path"
  BASEURL := "base_url"
  METHOD := "method"
  BODY := "body"
  HEADERS := "headers"
  QUERYPARAMS := "query_params"
  SetInputURL := fun input v => some (input.getD [] ++ v.getD [])
  SetInputMethod := fun input v => some (input.getD [] ++ v.getD [])
  SetInputBody := fun input v => some (input.getD [] ++ v.getD [])
  SetInputHeaders := fun input v => some (input.getD [] ++ v.getD [])
  SetInputQueryParams := fun input v => some (input.getD [] ++ v.getD [])

/-- A configuration with the path of the test, the given method and the given
query parameters. -/
def exampleConfiguration (method queryParams : Option (List Nat)) : DataSourceConfiguration where
  ValueForKey := fun key =>
    if key = "path" then some (bytesOf "https://example.com/friend")
    else if key = "method" then method
    else if key = "query_params" then queryParams
    else none

/-- A planner in the operation `argumentOperation`: the field 0 is a root field
with the given configuration, the field 1 is not one. -/
def examplePlanner (method queryParams : Option (List Nat)) : Planner where
  conn := echoConnection "cb"
  v :=
    { IsRootField := fun ref => (ref = 0, exampleConfiguration method queryParams)
      NextBufferID := 0
      Operation := argumentOperation
      Ancestors := [⟨0⟩] }

end amqp_datasource

namespace http

/-- An invoker whose state is the query it was given last: every schema and
every query are accepted, and `RewriteRequest` writes the query to the buffer
as it is. -/
def exampleInvoker : Invoker (List Nat) where
  SetSchema := fun s _ => (none, s)
  InvokeMiddleWares := fun _ _ query => (none, query)
  RewriteRequest := fun s buff => ((none, buff ++ s), s)

/-- A backend that answers every request with the same body. -/
def exampleClient : Client where
  Do := fun _ => .ok ⟨.ok (amqp_datasource.bytesOf "\x7b\"data\":null\x7d")⟩

/-- The decoding of the two bodies of the examples: a request with the query
`{friend}`, and a body that breaks off. -/
def exampleDecode (body : List Nat) : Except String GraphqlJsonRequest :=
  if body = amqp_datasource.bytesOf "\x7b\"query\":\"\x7bfriend\x7d\"\x7d" then
    .ok ⟨[], amqp_datasource.bytesOf "\x7bfriend\x7d"⟩
  else .error "unexpected EOF"

/-- The JSON string of a text without a character that JSON escapes: the text
between quotes. -/
def exampleEncodeString (s : List Nat) : List Nat :=
  [34] ++ s ++ [34]

/-- The canonical form of the header keys of the examples, which are in this
form already. -/
def exampleCanonical (key : List Nat) : List Nat :=
  key

/-- A proxy with the invoker, the client and an empty buffer in its pools, a
configuration that adds the header `X-User` to the context, and an error
handler that returns. -/
def exampleProxy : Proxy (List Nat) where
  InvokerPool := (exampleInvoker, [])
  BufferPool := some []
  ClientPool := some exampleClient
  GetRequestConfig := fun _ =>
    ⟨some (amqp_datasource.bytesOf "type Query \x7bfriend: String\x7d"),
      amqp_datasource.bytesOf "https://example.com/graphql", none,
      [amqp_datasource.bytesOf "X-User"]⟩
  HandleError := fun _ => .ok ()

/-- A context without values. -/
def exampleContext : context.Context :=
  .given fun _ => .nil

/-- A header with the one entry `X-User: jens`. -/
def exampleHeader : Header where
  values := fun key =>
    if key = amqp_datasource.bytesOf "X-User" then some [amqp_datasource.bytesOf "jens"]
    else none

/-- A request with the query `{friend}`. -/
def exampleRequest : ServerRequest where
  Context := exampleContext
  Header := exampleHeader
  URL := amqp_datasource.bytesOf "/graphql"
  Body := amqp_datasource.bytesOf "\x7b\"query\":\"\x7bfriend\x7d\"\x7d"

/-- A request whose body breaks off. -/
def brokenRequest : ServerRequest where
  Context := exampleContext
  Header := exampleHeader
  URL := amqp_datasource.bytesOf "/graphql"
  Body := amqp_datasource.bytesOf "\x7b\"query\":"

/-- A response writer that takes all bytes. -/
def exampleWriter : ResponseWriter where
  Copy := fun _ => ([], none)

/-- The `ProxyRequest` that `ServeHTTP` makes for the request with the query
`{friend}`. -/
def exampleProxyRequest : ProxyRequest (List Nat) where
  Config := exampleProxy.GetRequestConfig exampleContext
  RequestURL := exampleRequest.URL
  Body := exampleRequest.Body
  Context :=
    .valueCtx exampleContext (.string (amqp_datasource.bytesOf "X-User"))
      (.string (amqp_datasource.bytesOf "jens"))
  Proxy := exampleProxy

end http

/-! # Theorems -/

namespace document

theorem NextPure_of_ne (pool : Int → FieldDefinition) (i : FieldDefinitions) (h : i.nextRef ≠ -1) :
    FieldDefinitions.NextPure pool i =
      (true, { nextRef := (pool i.nextRef).NextRef, currentRef := i.nextRef,
               current := pool i.nextRef }) := by
  simp [FieldDefinitions.NextPure, FieldDefinitions.Next, h, Id.run]

theorem NextPure_of_eq (pool : Int → FieldDefinition) (i : FieldDefinitions) (h : i.nextRef = -1) :
    FieldDefinitions.NextPure pool i = (false, i) := by
  simp [FieldDefinitions.NextPure, FieldDefinitions.Next, h, Id.run]

theorem afterNext_succ_left (pool : Int → FieldDefinition) (i : FieldDefinitions) (k : Nat) :
    FieldDefinitions.afterNext pool i (k + 1) =
      FieldDefinitions.afterNext pool (FieldDefinitions.NextPure pool i).2 k := by
  induction k with
  | zero => rfl
  | succ k ih =>
    rw [FieldDefinitions.afterNext, ih]
    rfl

theorem chain_iterates (pool : Int → FieldDefinition) (rs : List Int) :
    ∀ (i : FieldDefinitions), chainFrom pool i.nextRef rs = true →
      (∀ k, (FieldDefinitions.NextPure pool (FieldDefinitions.afterNext pool i k)).1 = true ↔
          k < rs.length) ∧
      (∀ k (hk : k < rs.length),
          (FieldDefinitions.afterNext pool i (k + 1)).Value = (pool (rs.get ⟨k, hk⟩), rs.get ⟨k, hk⟩)) := by
  induction rs with
  | nil =>
    intro i hc
    have h1 : i.nextRef = -1 := by simpa [chainFrom] using hc
    have hfix : ∀ k, FieldDefinitions.afterNext pool i k = i := by
      intro k
      induction k with
      | zero => rfl
      | succ k ih => rw [FieldDefinitions.afterNext, ih, NextPure_of_eq pool i h1]
    refine ⟨?_, ?_⟩
    · intro k
      rw [hfix k, NextPure_of_eq pool i h1]
      simp
    · intro k hk
      simp at hk
  | cons r rs ih =>
    intro i hc
    simp only [chainFrom, Bool.and_eq_true, beq_iff_eq, bne_iff_ne, ne_eq] at hc
    obtain ⟨⟨h1, h2⟩, h3⟩ := hc
    have hne : i.nextRef ≠ -1 := by rw [h1]; exact h2
    have hstep := NextPure_of_ne pool i hne
    have ih1 := ih (FieldDefinitions.NextPure pool i).2 (by rw [hstep]; simpa [h1] using h3)
    refine ⟨?_, ?_⟩
    · intro k
      cases k with
      | zero => simp [FieldDefinitions.afterNext, hstep]
      | succ k =>
        rw [afterNext_succ_left, ih1.1 k]
        simp
    · intro k hk
      cases k with
      | zero =>
        simp [FieldDefinitions.afterNext, hstep, FieldDefinitions.Value, h1]
      | succ k =>
        rw [afterNext_succ_left]
        have := ih1.2 k (by simpa using hk)
        simpa using this

/-- C6: when following `NextRef` from the head `h` through the pool visits
`r0, ..., r(n-1)` and then `-1`, the iterator of `NewFieldDefinitions h` returns
`true` from exactly its first `n` calls of `Next` (call number `k`, counted from
0, succeeds iff `k < n`, so call `n + 1` fails), and after the `(k+1)`-th call
`Value` is the pool record at `r(k)` together with `r(k)`. -/
theorem FieldDefinitions_enumerates_chain (pool : Int → FieldDefinition) (h : Int)
    (rs : List Int) (hc : chainFrom pool h rs = true) :
    (∀ k, (FieldDefinitions.NextPure pool
        (FieldDefinitions.afterNext pool (NewFieldDefinitions h) k)).1 = true ↔ k < rs.length) ∧
    (∀ k (hk : k < rs.length),
        (FieldDefinitions.afterNext pool (NewFieldDefinitions h) (k + 1)).Value =
          (pool (rs.get ⟨k, hk⟩), rs.get ⟨k, hk⟩)) :=
  chain_iterates pool rs (NewFieldDefinitions h) hc

/-- C7: with `nextRef = -1`, `Next` is `pure (false, i)` in every monad and for
every getter: it returns `false`, performs no effect of the getter (with the
logging getter the log of requested references is unchanged) and leaves
`nextRef`, `currentRef` and `current` as they were, so `Value` is unchanged, and
any number `k` of further calls returns `false` each time with the same state. -/
theorem Next_exhausted_is_noop {m : Type → Type} [Monad m] [LawfulMonad m]
    (getter : Int → m FieldDefinition) (pool : Int → FieldDefinition) (log : List Int)
    (i : FieldDefinitions) (h : i.nextRef = -1) :
    FieldDefinitions.Next getter i = pure (false, i) ∧
    FieldDefinitions.Next (loggingGetter pool) i log = ((false, i), log) ∧
    (∀ k, FieldDefinitions.NextTimes getter k i = pure (List.replicate k false, i)) := by
  have h0 : ∀ {n : Type → Type} [Monad n] (g : Int → n FieldDefinition),
      FieldDefinitions.Next g i = pure (false, i) := by
    intro n _ g
    simp [FieldDefinitions.Next, h]
  refine ⟨h0 getter, ?_, ?_⟩
  · rw [h0 (loggingGetter pool)]
    rfl
  · intro k
    induction k with
    | zero => rfl
    | succ k ih =>
      simp [FieldDefinitions.NextTimes, h0 getter, ih, List.replicate_succ]

/-- Witness of C6 on the pool chained 0 → 2 → 1 → -1. -/
theorem FieldDefinitions_enumerates_chain_witness :
    chainFrom examplePool 0 [0, 2, 1] = true ∧
    ((∀ k, (FieldDefinitions.NextPure examplePool
        (FieldDefinitions.afterNext examplePool (NewFieldDefinitions 0) k)).1 = true ↔
          k < [(0 : Int), 2, 1].length) ∧
     (∀ k (hk : k < [(0 : Int), 2, 1].length),
        (FieldDefinitions.afterNext examplePool (NewFieldDefinitions 0) (k + 1)).Value =
          (examplePool ([(0 : Int), 2, 1].get ⟨k, hk⟩), [(0 : Int), 2, 1].get ⟨k, hk⟩))) :=
  ⟨by decide, FieldDefinitions_enumerates_chain examplePool 0 [0, 2, 1] (by decide)⟩

/-- Witness of C7 on the exhausted iterator `NewFieldDefinitions (-1)` in the
identity monad. -/
theorem Next_exhausted_is_noop_witness :
    (NewFieldDefinitions (-1)).nextRef = -1 ∧
    (FieldDefinitions.Next (fun ref => (pure (examplePool ref) : Id FieldDefinition))
        (NewFieldDefinitions (-1)) = pure (false, NewFieldDefinitions (-1)) ∧
     FieldDefinitions.Next (loggingGetter examplePool) (NewFieldDefinitions (-1)) [] =
        ((false, NewFieldDefinitions (-1)), []) ∧
     (∀ k, FieldDefinitions.NextTimes (fun ref => (pure (examplePool ref) : Id FieldDefinition)) k
        (NewFieldDefinitions (-1)) = pure (List.replicate k false, NewFieldDefinitions (-1)))) :=
  ⟨rfl, Next_exhausted_is_noop (fun ref => (pure (examplePool ref) : Id FieldDefinition))
    examplePool [] (NewFieldDefinitions (-1)) rfl⟩

/-- C8, counterexample: on the zero records the three accessors named by the
claim do not return a reference, they panic. -/
theorem absent_property_panics_counterexample :
    ¬ ((∃ r, FieldDefinition.NodeAlias FieldDefinition.zero = .ok r) ∧
       (∃ r, ScalarTypeDefinition.NodeSelectionSet ⟨⟨0, 0⟩, ⟨0, 0⟩, 0, ⟨0, 0, 0, 0⟩, false⟩ = .ok r) ∧
       (∃ r, Value.NodeName ⟨ValueType.Null, 0, ⟨0, 0, 0, 0⟩, ⟨0, 0⟩⟩ = .ok r)) := by
  rintro ⟨⟨r, hr⟩, -, -⟩
  cases hr

/-- C8, amended: `FieldDefinition.NodeAlias`, `ScalarTypeDefinition.NodeSelectionSet`
and `Value.NodeName` read a property their entity does not have, and for every
receiver they panic with "implement me"; none of them returns a value, so no
sentinel reference is produced. -/
theorem absent_property_panics (f : FieldDefinition) (s : ScalarTypeDefinition) (v : Value) :
    FieldDefinition.NodeAlias f = .error "implement me" ∧
    ScalarTypeDefinition.NodeSelectionSet s = .error "implement me" ∧
    Value.NodeName v = .error "implement me" ∧
    (∀ r, FieldDefinition.NodeAlias f ≠ .ok r) ∧
    (∀ r, ScalarTypeDefinition.NodeSelectionSet s ≠ .ok r) ∧
    (∀ r, Value.NodeName v ≠ .ok r) := by
  refine ⟨rfl, rfl, rfl, ?_, ?_, ?_⟩ <;> intro r hr <;> cases hr

/-- C9: the Node accessors of `FieldDefinition`, `ScalarTypeDefinition` and `Value` that
correspond to a stored field return that field unchanged for every receiver, and
every other Node accessor of the three types panics ("implement me") for every
receiver, whatever its result type `T`. -/
theorem node_accessors_total_or_panic (f : FieldDefinition) (s : ScalarTypeDefinition)
    (v : Value) (T : Type) :
    (FieldDefinition.NodePosition f = .ok f.Position ∧
     FieldDefinition.NodeArgumentsDefinition f = .ok f.ArgumentsDefinition ∧
     FieldDefinition.NodeName f = .ok f.Name ∧
     FieldDefinition.NodeDescription f = .ok f.Description ∧
     FieldDefinition.NodeDirectiveSet f = .ok f.DirectiveSet ∧
     FieldDefinition.NodeType f = .ok f.Type' ∧
     ScalarTypeDefinition.NodePosition s = .ok s.Position ∧
     ScalarTypeDefinition.NodeName s = .ok s.Name ∧
     ScalarTypeDefinition.NodeDescription s = .ok s.Description ∧
     ScalarTypeDefinition.NodeDirectiveSet s = .ok s.DirectiveSet ∧
     Value.NodePosition v = .ok v.Position ∧
     Value.NodeValueType v = .ok v.ValueType ∧
     Value.NodeValueReference v = .ok v.Reference) ∧
    (FieldDefinition.NodeSelectionSet f = .error "implement me" ∧
     FieldDefinition.NodeInputFieldsDefinition f = .error "implement me" ∧
     FieldDefinition.NodeInputValueDefinitions T f = .error "implement me" ∧
     FieldDefinition.NodeValueType f = .error "implement me" ∧
     FieldDefinition.NodeValueReference f = .error "implement me" ∧
     FieldDefinition.NodeUnionMemberTypes f = .error "implement me" ∧
     FieldDefinition.NodeSchemaDefinition T f = .error "implement me" ∧
     FieldDefinition.NodeScalarTypeDefinitions f = .error "implement me" ∧
     FieldDefinition.NodeObjectTypeDefinitions f = .error "implement me" ∧
     FieldDefinition.NodeInterfaceTypeDefinitions f = .error "implement me" ∧
     FieldDefinition.NodeUnionTypeDefinitions f = .error "implement me" ∧
     FieldDefinition.NodeEnumTypeDefinitions f = .error "implement me" ∧
     FieldDefinition.NodeInputObjectTypeDefinitions f = .error "implement me" ∧
     FieldDefinition.NodeDirectiveDefinitions f = .error "implement me" ∧
     FieldDefinition.NodeImplementsInterfaces T f = .error "implement me" ∧
     FieldDefinition.NodeValue f = .error "implement me" ∧
     FieldDefinition.NodeDefaultValue f = .error "implement me" ∧
     FieldDefinition.NodeFieldsDefinition f = .error "implement me" ∧
     FieldDefinition.NodeAlias f = .error "implement me" ∧
     FieldDefinition.NodeArgumentSet f = .error "implement me" ∧
     FieldDefinition.NodeEnumValuesDefinition T f = .error "implement me" ∧
     FieldDefinition.NodeFields f = .error "implement me" ∧
     FieldDefinition.NodeFragmentSpreads f = .error "implement me" ∧
     FieldDefinition.NodeInlineFragments f = .error "implement me" ∧
     FieldDefinition.NodeVariableDefinitions f = .error "implement me" ∧
     FieldDefinition.NodeOperationType f = .error "implement me" ∧
     ScalarTypeDefinition.NodeSelectionSet s = .error "implement me" ∧
     ScalarTypeDefinition.NodeInputFieldsDefinition s = .error "implement me" ∧
     ScalarTypeDefinition.NodeInputValueDefinitions T s = .error "implement me" ∧
     ScalarTypeDefinition.NodeValueType s = .error "implement me" ∧
     ScalarTypeDefinition.NodeValueReference s = .error "implement me" ∧
     ScalarTypeDefinition.NodeUnionMemberTypes s = .error "implement me" ∧
     ScalarTypeDefinition.NodeSchemaDefinition T s = .error "implement me" ∧
     ScalarTypeDefinition.NodeScalarTypeDefinitions s = .error "implement me" ∧
     ScalarTypeDefinition.NodeObjectTypeDefinitions s = .error "implement me" ∧
     ScalarTypeDefinition.NodeInterfaceTypeDefinitions s = .error "implement me" ∧
     ScalarTypeDefinition.NodeUnionTypeDefinitions s = .error "implement me" ∧
     ScalarTypeDefinition.NodeEnumTypeDefinitions s = .error "implement me" ∧
     ScalarTypeDefinition.NodeInputObjectTypeDefinitions s = .error "implement me" ∧
     ScalarTypeDefinition.NodeDirectiveDefinitions s = .error "implement me" ∧
     ScalarTypeDefinition.NodeAlias s = .error "implement me" ∧
     ScalarTypeDefinition.NodeArgumentSet s = .error "implement me" ∧
     ScalarTypeDefinition.NodeArgumentsDefinition s = .error "implement me" ∧
     ScalarTypeDefinition.NodeEnumValuesDefinition T s = .error "implement me" ∧
     ScalarTypeDefinition.NodeFields s = .error "implement me" ∧
     ScalarTypeDefinition.NodeFieldsDefinition s = .error "implement me" ∧
     ScalarTypeDefinition.NodeFragmentSpreads s = .error "implement me" ∧
     ScalarTypeDefinition.NodeInlineFragments s = .error "implement me" ∧
     ScalarTypeDefinition.NodeVariableDefinitions s = .error "implement me" ∧
     ScalarTypeDefinition.NodeType s = .error "implement me" ∧
     ScalarTypeDefinition.NodeOperationType s = .error "implement me" ∧
     ScalarTypeDefinition.NodeValue s = .error "implement me" ∧
     ScalarTypeDefinition.NodeDefaultValue s = .error "implement me" ∧
     ScalarTypeDefinition.NodeImplementsInterfaces T s = .error "implement me" ∧
     Value.NodeSelectionSet v = .error "implement me" ∧
     Value.NodeInputFieldsDefinition v = .error "implement me" ∧
     Value.NodeInputValueDefinitions T v = .error "implement me" ∧
     Value.NodeName v = .error "implement me" ∧
     Value.NodeAlias v = .error "implement me" ∧
     Value.NodeDescription v = .error "implement me" ∧
     Value.NodeArgumentSet v = .error "implement me" ∧
     Value.NodeArgumentsDefinition v = .error "implement me" ∧
     Value.NodeDirectiveSet v = .error "implement me" ∧
     Value.NodeEnumValuesDefinition T v = .error "implement me" ∧
     Value.NodeFields v = .error "implement me" ∧
     Value.NodeFieldsDefinition v = .error "implement me" ∧
     Value.NodeFragmentSpreads v = .error "implement me" ∧
     Value.NodeInlineFragments v = .error "implement me" ∧
     Value.NodeVariableDefinitions v = .error "implement me" ∧
     Value.NodeType v = .error "implement me" ∧
     Value.NodeOperationType v = .error "implement me" ∧
     Value.NodeValue v = .error "implement me" ∧
     Value.NodeDefaultValue v = .error "implement me" ∧
     Value.NodeImplementsInterfaces T v = .error "implement me" ∧
     Value.NodeSchemaDefinition T v = .error "implement me" ∧
     Value.NodeScalarTypeDefinitions v = .error "implement me" ∧
     Value.NodeObjectTypeDefinitions v = .error "implement me" ∧
     Value.NodeInterfaceTypeDefinitions v = .error "implement me" ∧
     Value.NodeUnionTypeDefinitions v = .error "implement me" ∧
     Value.NodeEnumTypeDefinitions v = .error "implement me" ∧
     Value.NodeInputObjectTypeDefinitions v = .error "implement me" ∧
     Value.NodeDirectiveDefinitions v = .error "implement me" ∧
     Value.NodeUnionMemberTypes v = .error "implement me") := by
  refine ⟨?_, ?_⟩ <;> repeat' constructor

end document

namespace lookup

open document

theorem getAt_append_left {α : Type} (pre ext : List α) (p : Int) (hp : p < (pre.length : Int)) :
    getAt (pre ++ ext) p = getAt pre p := by
  unfold getAt
  split
  · rfl
  · have h2 : p.toNat < pre.length := by omega
    simp [List.getElem?_append_left h2]

theorem getAt_some {α : Type} {xs : List α} {p : Int} {x : α} (h : getAt xs p = some x) :
    0 ≤ p ∧ xs.get? p.toNat = some x := by
  unfold getAt at h
  split at h
  · cases h
  · exact ⟨by omega, h⟩

theorem getAt_length_append {α : Type} (pre ext : List α) (x : α) :
    getAt (pre ++ x :: ext) (pre.length : Int) = some x := by
  unfold getAt
  have : ¬ ((pre.length : Int) < 0) := by omega
  simp [this, List.getElem_append_right]

theorem backward_parent_lt {nodes : List Node} (hB : Backward nodes) {p : Int} {node : Node}
    (h : getAt nodes p = some node) : node.Parent < p := by
  obtain ⟨h0, h1⟩ := getAt_some h
  have := hB p.toNat node h1
  omega

theorem walkUp_append {σ : Type} (step : NodeKind → Int → σ → σ) (init : σ)
    (pre ext : List Node) (hB : Backward pre) :
    ∀ (fuel : Nat) (p : Int), p < (pre.length : Int) →
      walkUp step init (pre ++ ext) fuel p = walkUp step init pre fuel p := by
  intro fuel
  induction fuel with
  | zero => intro p _; rfl
  | succ fuel ih =>
    intro p hp
    simp only [walkUp]
    rw [getAt_append_left _ _ _ hp]
    cases h : getAt pre p with
    | none => rfl
    | some node =>
      have := backward_parent_lt hB h
      simp only
      rw [ih node.Parent (by omega)]

theorem walkUp_fuel {σ : Type} (step : NodeKind → Int → σ → σ) (init : σ)
    (nodes : List Node) (hB : Backward nodes) :
    ∀ (n m : Nat) (p : Int), p < (n : Int) → p < (m : Int) →
      walkUp step init nodes n p = walkUp step init nodes m p := by
  intro n
  induction n with
  | zero =>
    intro m p hn _
    cases m with
    | zero => rfl
    | succ m =>
      have : getAt nodes p = none := by
        unfold getAt
        simp at hn
        simp [hn]
      simp [walkUp, this]
  | succ n ih =>
    intro m p hn hm
    cases m with
    | zero =>
      have : getAt nodes p = none := by
        unfold getAt
        simp at hm
        simp [hm]
      simp [walkUp, this]
    | succ m =>
      simp only [walkUp]
      cases h : getAt nodes p with
      | none => rfl
      | some node =>
        have := backward_parent_lt hB h
        simp only
        rw [ih m node.Parent (by omega) (by omega)]

theorem valueAt_append {σ : Type} (step : NodeKind → Int → σ → σ) (init : σ)
    (pre ext : List Node) (hB : Backward pre) (p : Int) (hp : p < (pre.length : Int)) :
    valueAt step init (pre ++ ext) p = valueAt step init pre p := by
  unfold valueAt
  rw [walkUp_append step init pre ext hB _ p hp]
  exact walkUp_fuel step init pre hB _ _ p (by simp; omega) hp

theorem valueAt_node {σ : Type} (step : NodeKind → Int → σ → σ) (init : σ)
    (pre ext : List Node) (node : Node) (hB : Backward (pre ++ [node])) :
    valueAt step init (pre ++ node :: ext) (pre.length : Int) =
      step node.Kind node.Ref (valueAt step init pre node.Parent) := by
  have hBpre : Backward pre := by
    intro i n hi
    apply hB i n
    have hlt : i < pre.length := by
      by_contra hc
      simp [List.get?_eq_getElem?, List.getElem?_eq_none (not_lt.mp hc)] at hi
    simpa [List.get?_eq_getElem?, List.getElem?_append_left hlt] using hi
  have hpar : node.Parent < (pre.length : Int) := by
    exact hB pre.length node (by simp [List.get?_eq_getElem?])
  have e : pre ++ node :: ext = (pre ++ [node]) ++ ext := by simp
  rw [e, valueAt_append step init (pre ++ [node]) ext hB _ (by simp)]
  unfold valueAt
  have hlen : (pre ++ [node]).length = pre.length + 1 := by simp
  rw [hlen]
  simp only [walkUp]
  rw [getAt_length_append pre [] node]
  simp only
  rw [walkUp_append step init pre [node] hBpre _ _ hpar]

theorem backward_append {pre seg : List Node} (hB : Backward pre)
    (h : ∀ (j : Nat) (node : Node), seg.get? j = some node →
      node.Parent < ((pre.length + j : Nat) : Int)) :
    Backward (pre ++ seg) := by
  intro i node hi
  by_cases hlt : i < pre.length
  · apply hB i node
    simpa [List.get?_eq_getElem?, List.getElem?_append_left hlt] using hi
  · have hge : pre.length ≤ i := not_lt.mp hlt
    have := h (i - pre.length) node
      (by simpa [List.get?_eq_getElem?, List.getElem?_append_right hge] using hi)
    have e : pre.length + (i - pre.length) = i := by omega
    rw [e] at this
    exact this

theorem backward_left {pre seg : List Node} (hB : Backward (pre ++ seg)) : Backward pre := by
  intro i n hi
  apply hB i n
  have hlt : i < pre.length := by
    by_contra hc
    simp [List.get?_eq_getElem?, List.getElem?_eq_none (not_lt.mp hc)] at hi
  simpa [List.get?_eq_getElem?, List.getElem?_append_left hlt] using hi

theorem backward_parent_lt_length {pre seg : List Node} (hB : Backward (pre ++ seg))
    {node : Node} (hm : node ∈ seg) : node.Parent < ((pre ++ seg).length : Int) := by
  obtain ⟨j, hj, rfl⟩ := List.getElem_of_mem hm
  have := hB (pre.length + j) seg[j]
    (by
      rw [List.get?_eq_getElem?, List.getElem?_append_right (Nat.le_add_right _ _)]
      simp [hj])
  simp only [List.length_append]
  omega

theorem fieldEntries_append {σ : Type} (step : NodeKind → Int → σ → σ) (init : σ)
    (nodes post seg : List Node) (hB : Backward nodes)
    (h : ∀ node ∈ seg, node.Parent < (nodes.length : Int)) :
    fieldEntries step init (nodes ++ post) seg = fieldEntries step init nodes seg := by
  unfold fieldEntries
  apply List.filterMap_congr
  intro node hm
  rw [valueAt_append step init nodes post hB _ (h node hm)]

theorem segOK_nil {σ : Type} (step : NodeKind → Int → σ → σ) (init : σ) (pre : List Node)
    (hB : Backward pre) : SegOK step init pre [] [] := by
  refine ⟨by simpa using hB, rfl⟩

theorem segOK_append {σ : Type} {step : NodeKind → Int → σ → σ} {init : σ}
    {pre seg1 seg2 : List Node} {e1 e2 : List (Int × σ)}
    (h1 : SegOK step init pre seg1 e1) (h2 : SegOK step init (pre ++ seg1) seg2 e2) :
    SegOK step init pre (seg1 ++ seg2) (e1 ++ e2) := by
  obtain ⟨hB1, he1⟩ := h1
  obtain ⟨hB2, he2⟩ := h2
  have e : pre ++ (seg1 ++ seg2) = pre ++ seg1 ++ seg2 := by simp
  refine ⟨by rw [e]; exact hB2, ?_⟩
  rw [e]
  unfold fieldEntries
  rw [List.filterMap_append]
  congr 1
  · rw [← he1]
    exact fieldEntries_append step init (pre ++ seg1) seg2 seg1 hB1
      (fun node hm => backward_parent_lt_length hB1 hm)

theorem segOK_single {σ : Type} (step : NodeKind → Int → σ → σ) (init : σ)
    (pre : List Node) (node : Node) (hB : Backward pre)
    (hp : node.Parent < (pre.length : Int)) :
    SegOK step init pre [node]
      (if node.Kind = .FIELD then [(node.Ref, valueAt step init pre node.Parent)] else []) := by
  refine ⟨?_, ?_⟩
  · apply backward_append hB
    intro j n hj
    cases j with
    | zero =>
      simp at hj
      subst hj
      simpa using hp
    | succ j => simp at hj
  · unfold fieldEntries
    by_cases hk : node.Kind = .FIELD
    · simp [hk, valueAt_append step init pre [node] hB _ hp]
    · simp [hk]

theorem segOK_leaves {σ : Type} (step : NodeKind → Int → σ → σ) (init : σ)
    (pre seg : List Node) (hB : Backward pre)
    (h : ∀ node ∈ seg, node.Kind ≠ .FIELD ∧ node.Parent < (pre.length : Int)) :
    SegOK step init pre seg [] := by
  refine ⟨?_, ?_⟩
  · apply backward_append hB
    intro j n hj
    have hm : n ∈ seg := List.get?_mem hj
    have := (h n hm).2
    omega
  · unfold fieldEntries
    rw [List.filterMap_eq_nil_iff]
    intro node hm
    simp [(h node hm).1]


theorem valueAt_node_append {σ : Type} (step : NodeKind → Int → σ → σ) (init : σ)
    (pre ext : List Node) (node : Node) (hB : Backward (pre ++ [node])) :
    valueAt step init (pre ++ [node] ++ ext) (pre.length : Int) =
      step node.Kind node.Ref (valueAt step init pre node.Parent) := by
  have := valueAt_node step init pre ext node hB
  simpa using this

theorem segOK_cons {σ : Type} {step : NodeKind → Int → σ → σ} {init : σ}
    {pre seg : List Node} {node : Node} {e1 e2 : List (Int × σ)}
    (h1 : SegOK step init pre [node] e1) (h2 : SegOK step init (pre ++ [node]) seg e2) :
    SegOK step init pre (node :: seg) (e1 ++ e2) := by
  have := segOK_append h1 h2
  simpa using this

theorem segOK_cons_quiet {σ : Type} {step : NodeKind → Int → σ → σ} {init : σ}
    {pre seg : List Node} {node : Node} {e : List (Int × σ)}
    (h1 : SegOK step init pre [node] []) (h2 : SegOK step init (pre ++ [node]) seg e) :
    SegOK step init pre (node :: seg) e := by
  have := segOK_cons h1 h2
  simpa using this

theorem segOK_append_quiet_left {σ : Type} {step : NodeKind → Int → σ → σ} {init : σ}
    {pre seg1 seg2 : List Node} {e : List (Int × σ)}
    (h1 : SegOK step init pre seg1 []) (h2 : SegOK step init (pre ++ seg1) seg2 e) :
    SegOK step init pre (seg1 ++ seg2) e := by
  have := segOK_append h1 h2
  simpa using this

theorem segOK_append_quiet_right {σ : Type} {step : NodeKind → Int → σ → σ} {init : σ}
    {pre seg1 seg2 : List Node} {e : List (Int × σ)}
    (h1 : SegOK step init pre seg1 e) (h2 : SegOK step init (pre ++ seg1) seg2 []) :
    SegOK step init pre (seg1 ++ seg2) e := by
  have := segOK_append h1 h2
  simpa using this

theorem segOK_append_then {σ : Type} {step : NodeKind → Int → σ → σ} {init : σ}
    {pre seg1 seg2 : List Node} {e1 e2 : List (Int × σ)}
    (h1 : SegOK step init pre seg1 e1)
    (h2 : Backward (pre ++ seg1) → SegOK step init (pre ++ seg1) seg2 e2) :
    SegOK step init pre (seg1 ++ seg2) (e1 ++ e2) :=
  segOK_append h1 (h2 h1.1)

theorem segOK_append_quiet_right_then {σ : Type} {step : NodeKind → Int → σ → σ} {init : σ}
    {pre seg1 seg2 : List Node} {e : List (Int × σ)}
    (h1 : SegOK step init pre seg1 e)
    (h2 : Backward (pre ++ seg1) → SegOK step init (pre ++ seg1) seg2 []) :
    SegOK step init pre (seg1 ++ seg2) e :=
  segOK_append_quiet_right h1 (h2 h1.1)

theorem segOK_quiet_node {σ : Type} (step : NodeKind → Int → σ → σ) (init : σ)
    (pre : List Node) (node : Node) (hB : Backward pre)
    (hp : node.Parent < (pre.length : Int)) (hk : node.Kind ≠ .FIELD) :
    SegOK step init pre [node] [] := by
  have := segOK_single step init pre node hB hp
  simpa [hk] using this

theorem segOK_field_node {σ : Type} (step : NodeKind → Int → σ → σ) (init : σ)
    (pre : List Node) (parent ref : Int) (hB : Backward pre)
    (hp : parent < (pre.length : Int)) :
    SegOK step init pre [⟨parent, .FIELD, ref⟩] [(ref, valueAt step init pre parent)] := by
  have := segOK_single step init pre ⟨parent, .FIELD, ref⟩ hB hp
  simpa using this

theorem walkEach_segOK {σ : Type} (step : NodeKind → Int → σ → σ) (init : σ)
    (f : Int → Nat → List Node) (g : Int → List (Int × σ)) (xs : List Int) :
    ∀ (pre : List Node) (base : Nat), base = pre.length → Backward pre →
      (∀ x ∈ xs, ∀ ext, Backward (pre ++ ext) →
        SegOK step init (pre ++ ext) (f x (pre ++ ext).length) (g x)) →
      SegOK step init pre (walkEach f xs base) (xs.flatMap g) := by
  induction xs with
  | nil =>
    intro pre base _ hB _
    exact segOK_nil step init pre hB
  | cons x xs ih =>
    intro pre base hb hB h
    subst hb
    have h1 := h x (List.mem_cons_self _ _) [] (by simpa using hB)
    simp only [List.append_nil] at h1
    have h2 := ih (pre ++ f x pre.length) (pre.length + (f x pre.length).length) (by simp) h1.1
      (fun y hy ext hBe => by
        have := h y (List.mem_cons_of_mem _ hy) (f x pre.length ++ ext)
          (by simpa [List.append_assoc] using hBe)
        simpa [List.append_assoc] using this)
    have := segOK_append h1 h2
    simpa [walkEach] using this

theorem walkArgumentSet_segOK {σ : Type} (step : NodeKind → Int → σ → σ) (init : σ)
    (d : ParsedDefinitions) (setRef parent : Int) (pre : List Node) (base : Nat)
    (hb : base = pre.length) (hB : Backward pre) (hp : parent < (pre.length : Int)) :
    SegOK step init pre (walkArgumentSet d setRef parent base) [] := by
  unfold walkArgumentSet
  split
  · exact segOK_nil step init pre hB
  · have h1 := segOK_quiet_node step init pre ⟨parent, .ARGUMENT_SET, setRef⟩ hB hp (by simp)
    refine segOK_cons_quiet h1 (segOK_leaves step init _ _ h1.1 ?_)
    intro node hm
    simp only [List.mem_map] at hm
    obtain ⟨ref, _, rfl⟩ := hm
    refine ⟨by simp, ?_⟩
    simp [hb]

theorem walkSelectionSet_segOK {σ : Type} (step : NodeKind → Int → σ → σ) (init : σ)
    (d : ParsedDefinitions) :
    ∀ (depth : Nat) (setRef parent : Int) (pre : List Node) (base : Nat) (s : σ),
      base = pre.length → Backward pre → parent < (pre.length : Int) →
      valueAt step init pre parent = s →
      SegOK step init pre (walkSelectionSet d depth setRef parent base)
        (descendSet d step depth setRef s) := by
  intro depth
  induction depth with
  | zero =>
    intro setRef parent pre base s _ hB _ _
    exact segOK_nil step init pre hB
  | succ depth ih =>
    intro setRef parent pre base s hb hB hp hv
    subst hb
    simp only [walkSelectionSet, descendSet]
    split
    · exact segOK_nil step init pre hB
    · -- the node of the set itself
      have h0 := segOK_quiet_node step init pre ⟨parent, .SELECTION_SET, setRef⟩ hB hp (by simp)
      -- the value at the set node, in every extension
      have hv1 : ∀ ext, valueAt step init (pre ++ [⟨parent, .SELECTION_SET, setRef⟩] ++ ext)
          (pre.length : Int) = step .SELECTION_SET setRef s := by
        intro ext
        rw [valueAt_node_append step init pre ext ⟨parent, .SELECTION_SET, setRef⟩ h0.1, hv]
      refine segOK_cons_quiet h0 (segOK_append_then (segOK_append_quiet_right_then ?_ ?_) ?_)
      · -- the fields
        refine walkEach_segOK step init _ _ _ _ _ (by simp) h0.1 ?_
        intro ref _ ext hBe
        dsimp only
        have hf := segOK_field_node step init _ (pre.length : Int) ref hBe
          (by simp only [List.length_append, List.length_cons, List.length_nil]; omega)
        rw [hv1 ext] at hf
        have ha := walkArgumentSet_segOK step init d (d.Field ref).ArgumentSet
          ((pre ++ [(⟨parent, .SELECTION_SET, setRef⟩ : Node)] ++ ext).length : Nat) _
          ((pre ++ [(⟨parent, .SELECTION_SET, setRef⟩ : Node)] ++ ext).length + 1)
          (by simp only [List.length_append, List.length_cons, List.length_nil])
          hf.1 (by simp only [List.length_append, List.length_cons, List.length_nil]; omega)
        refine segOK_cons hf (segOK_append_quiet_left ha ?_)
        refine ih _ _ _ _ _
          (by simp only [List.length_append, List.length_cons, List.length_nil]) ha.1
          (by simp only [List.length_append, List.length_cons, List.length_nil]; omega) ?_
        rw [valueAt_node_append step init _ _ _ hf.1]
        dsimp only
        rw [hv1 ext]
      · -- the fragment spreads
        intro hBF
        refine segOK_leaves step init _ _ hBF ?_
        intro node hm
        simp only [List.mem_map] at hm
        obtain ⟨ref, _, rfl⟩ := hm
        refine ⟨by simp, ?_⟩
        simp only [List.length_append, List.length_cons, List.length_nil]
        omega
      · -- the inline fragments
        intro hBS
        refine walkEach_segOK step init _ _ _ _ _
          (by simp only [List.length_append, List.length_cons, List.length_nil, List.length_map]
              omega) hBS ?_
        intro ref _ ext hBe
        dsimp only
        have hi := segOK_quiet_node step init _ ⟨(pre.length : Int), .INLINE_FRAGMENT, ref⟩ hBe
          (by simp only [List.length_append, List.length_cons, List.length_nil]; omega) (by simp)
        refine segOK_cons_quiet hi ?_
        refine ih _ _ _ _ _
          (by simp only [List.length_append, List.length_cons, List.length_nil]) hi.1
          (by simp only [List.length_append, List.length_cons, List.length_nil]; omega) ?_
        have hvi := valueAt_node_append step init _ [] _ hi.1
        rw [List.append_nil] at hvi
        rw [hvi]
        dsimp only
        rw [List.append_assoc, hv1]


theorem valueAt_root {σ : Type} (step : NodeKind → Int → σ → σ) (init : σ)
    (nodes : List Node) : valueAt step init nodes (-1) = init := by
  unfold valueAt
  cases nodes.length with
  | zero => rfl
  | succ n => simp [walkUp, getAt]

theorem walkDefinitions_segOK {σ : Type} (step : NodeKind → Int → σ → σ) (init : σ)
    (d : ParsedDefinitions) (depth : Nat) (kind : NodeKind) (hk : kind ≠ .FIELD)
    (setOf : Int → Int) (refs : List Int) (pre : List Node) (base : Nat)
    (hb : base = pre.length) (hB : Backward pre) :
    SegOK step init pre
      (walkEach (fun ref b => ⟨-1, kind, ref⟩ :: walkSelectionSet d depth (setOf ref) b (b + 1))
        refs base)
      (refs.flatMap (fun ref => descendSet d step depth (setOf ref) (step kind ref init))) := by
  refine walkEach_segOK step init _ _ _ _ _ hb hB ?_
  intro ref _ ext hBe
  dsimp only
  have hr := segOK_quiet_node step init _ ⟨-1, kind, ref⟩ hBe (by show (-1 : Int) < _; omega) hk
  refine segOK_cons_quiet hr ?_
  refine walkSelectionSet_segOK step init d depth _ _ _ _ _
    (by simp only [List.length_append, List.length_cons, List.length_nil]) hr.1
    (by simp only [List.length_append, List.length_cons, List.length_nil]; omega) ?_
  have hv := valueAt_node_append step init _ [] _ hr.1
  rw [List.append_nil] at hv
  rw [hv]
  dsimp only
  rw [valueAt_root]

theorem walkExecutableNodes_segOK {σ : Type} (step : NodeKind → Int → σ → σ) (init : σ)
    (d : ParsedDefinitions) (depth : Nat) :
    SegOK step init [] (walkExecutableNodes d depth) (descendDocument d step init depth) := by
  unfold walkExecutableNodes descendDocument
  have hnil : Backward [] := by
    intro i node h
    simp at h
  refine segOK_append_then
    (walkDefinitions_segOK step init d depth .OPERATION_DEFINITION (by simp)
      (fun ref => (d.OperationDefinition ref).SelectionSet) _ [] 0 rfl hnil) ?_
  intro hB
  exact walkDefinitions_segOK step init d depth .FRAGMENT_DEFINITION (by simp)
      (fun ref => (d.FragmentDefinition ref).SelectionSet) _ _ _ (by simp) hB

/-- The walked fields of a document, each with the upward fold at its parent
node, are the fields of the document with the downward fold to their set. -/
theorem walkExecutable_fieldEntries {σ : Type} (step : NodeKind → Int → σ → σ) (init : σ)
    (d : ParsedDefinitions) (depth : Nat) :
    fieldEntries step init (walkExecutableNodes d depth) (walkExecutableNodes d depth) =
      descendDocument d step init depth := by
  have := (walkExecutableNodes_segOK step init d depth).2
  simpa using this

theorem enclosedFields_descend (d : ParsedDefinitions) :
    ∀ (depth : Nat) (setRef : Int) (enclosing : List Int),
      (enclosedFields d depth setRef enclosing).map
          (fun x => (x.1, x.2.reverse.map (fun ref => aliasOrName (d.Field ref)))) =
        descendSet d (fieldPathStep d) depth setRef
          (enclosing.reverse.map (fun ref => aliasOrName (d.Field ref))) := by
  intro depth
  induction depth with
  | zero => intro _ _; rfl
  | succ depth ih =>
    intro setRef enclosing
    simp only [enclosedFields, descendSet]
    split
    · rfl
    · simp only [List.map_append, List.map_flatMap, List.map_cons, ih, fieldPathStep,
        reduceCtorEq, if_false, if_true, List.reverse_append, List.reverse_cons,
        List.reverse_nil, List.nil_append, List.singleton_append]

theorem fieldPath_eq_enclosing (d : ParsedDefinitions) (depth : Nat) :
    (WalkExecutable d depth).FieldsIterable.map
        (fun x => (x.2.1, (WalkExecutable d depth).FieldPath x.2.2)) =
      (documentFields d depth).map
        (fun x => (x.1, x.2.reverse.map (fun ref => aliasOrName (d.Field ref)))) := by
  have h := walkExecutable_fieldEntries (fieldPathStep d) [] d depth
  have hl : (WalkExecutable d depth).FieldsIterable.map
        (fun x => (x.2.1, (WalkExecutable d depth).FieldPath x.2.2)) =
      fieldEntries (fieldPathStep d) [] (walkExecutableNodes d depth)
        (walkExecutableNodes d depth) := by
    unfold Walker.FieldsIterable fieldEntries WalkExecutable Walker.FieldPath valueAt
    rw [List.map_filterMap]
    apply List.filterMap_congr
    intro node _
    by_cases hk : node.Kind = .FIELD <;> simp [hk]
  rw [hl, h]
  unfold documentFields descendDocument
  simp only [List.map_append, List.map_flatMap, enclosedFields_descend, fieldPathStep,
    reduceCtorEq, if_false, List.reverse_nil, List.map_nil]

theorem wrapsNamed_nil_of_named (d : ParsedDefinitions) (ref named : Int) (ws : List Int)
    (h : wrapsNamed d ref ws named = true) (hk : (d.Type' ref).Kind = .Named) : ws = [] := by
  cases ws with
  | nil => rfl
  | cons w ws =>
    simp only [wrapsNamed, Bool.and_eq_true, beq_iff_eq, bne_iff_ne, ne_eq] at h
    obtain ⟨⟨h1, h2⟩, _⟩ := h
    subst h1
    exact absurd hk h2

theorem wrapsNamed_length_unique (d : ParsedDefinitions) :
    ∀ (ws1 ws2 : List Int) (ref n1 n2 : Int), wrapsNamed d ref ws1 n1 = true →
      wrapsNamed d ref ws2 n2 = true → ws1.length = ws2.length := by
  intro ws1
  induction ws1 with
  | nil =>
    intro ws2 ref n1 n2 h1 h2
    simp only [wrapsNamed, Bool.and_eq_true, beq_iff_eq] at h1
    obtain ⟨h1a, h1b⟩ := h1
    subst h1a
    rw [wrapsNamed_nil_of_named d ref n2 ws2 h2 h1b]
  | cons w ws1 ih =>
    intro ws2 ref n1 n2 h1 h2
    simp only [wrapsNamed, Bool.and_eq_true, beq_iff_eq, bne_iff_ne, ne_eq] at h1
    obtain ⟨⟨h1a, h1b⟩, h1c⟩ := h1
    subst h1a
    cases ws2 with
    | nil =>
      simp only [wrapsNamed, Bool.and_eq_true, beq_iff_eq] at h2
      obtain ⟨h2a, h2b⟩ := h2
      subst h2a
      exact absurd h2b h1b
    | cons w2 ws2 =>
      simp only [wrapsNamed, Bool.and_eq_true, beq_iff_eq, bne_iff_ne, ne_eq] at h2
      obtain ⟨⟨h2a, _⟩, h2c⟩ := h2
      subst h2a
      simp only [List.length_cons]
      rw [ih ws2 _ n1 n2 h1c h2c]

theorem wrapsNamed_suffix (d : ParsedDefinitions) :
    ∀ (ws : List Int) (ref named x : Int), wrapsNamed d ref ws named = true → x ∈ ws →
      ∃ ws2, ws2.length < ws.length + 1 ∧ ws2.length ≠ 0 ∧ wrapsNamed d x ws2 named = true ∧
        (x ≠ ref → ws2.length < ws.length) := by
  intro ws
  induction ws with
  | nil => intro _ _ _ _ hx; simp at hx
  | cons w ws ih =>
    intro ref named x h hx
    have h' := h
    simp only [wrapsNamed, Bool.and_eq_true, beq_iff_eq, bne_iff_ne, ne_eq] at h'
    obtain ⟨⟨ha, _⟩, hc⟩ := h'
    subst ha
    by_cases hxr : x = ref
    · subst hxr
      exact ⟨x :: ws, by simp, by simp, h, fun hne => absurd rfl hne⟩
    · have hx2 : x ∈ ws := by
        rcases List.mem_cons.mp hx with h1 | h1
        · exact absurd h1 hxr
        · exact h1
      obtain ⟨ws2, hl, hn, hw, _⟩ := ih _ named x hc hx2
      exact ⟨ws2, by simp only [List.length_cons]; omega, hn, hw,
        fun _ => by simp only [List.length_cons]; omega⟩

theorem wrapsNamed_nodup (d : ParsedDefinitions) :
    ∀ (ws : List Int) (ref named : Int), wrapsNamed d ref ws named = true → ws.Nodup := by
  intro ws
  induction ws with
  | nil => intro _ _ _; exact List.nodup_nil
  | cons w ws ih =>
    intro ref named h
    have h' := h
    simp only [wrapsNamed, Bool.and_eq_true, beq_iff_eq, bne_iff_ne, ne_eq] at h'
    obtain ⟨⟨ha, _⟩, hc⟩ := h'
    subst ha
    refine List.nodup_cons.mpr ⟨?_, ih _ named hc⟩
    intro hmem
    -- a later occurrence of `ref` starts a chain that is shorter than the whole
    by_cases hself : ref = (d.Type' ref).OfType
    · have := wrapsNamed_length_unique d (ref :: ws) ws ref named named h (by rw [← hself] at hc; exact hc)
      simp at this
    · obtain ⟨ws2, hl, _, hw, hlt⟩ := wrapsNamed_suffix d ws _ named ref hc hmem
      have := wrapsNamed_length_unique d (ref :: ws) ws2 ref named named h hw
      have := hlt hself
      simp only [List.length_cons] at *
      omega

theorem wrapsNamed_valid (d : ParsedDefinitions) :
    ∀ (ws : List Int) (ref named : Int), wrapsNamed d ref ws named = true →
      ∀ x ∈ ws, 0 ≤ x ∧ x < (d.Types.length : Int) := by
  intro ws
  induction ws with
  | nil => intro _ _ _ x hx; simp at hx
  | cons w ws ih =>
    intro ref named h x hx
    simp only [wrapsNamed, Bool.and_eq_true, beq_iff_eq, bne_iff_ne, ne_eq] at h
    obtain ⟨⟨ha, hb⟩, hc⟩ := h
    subst ha
    rcases List.mem_cons.mp hx with h1 | h1
    · subst h1
      by_contra hcon
      apply hb
      unfold ParsedDefinitions.Type' getAt
      split
      · rfl
      · have hge : d.Types.length ≤ x.toNat := by omega
        simp [List.get?_eq_getElem?, List.getElem?_eq_none hge]
    · exact ih _ named hc x h1

theorem wrapsNamed_length_le (d : ParsedDefinitions) (ws : List Int) (ref named : Int)
    (h : wrapsNamed d ref ws named = true) : ws.length ≤ d.Types.length := by
  have hnd := wrapsNamed_nodup d ws ref named h
  have hv := wrapsNamed_valid d ws ref named h
  have hsub : ws.toFinset ⊆ (Finset.range d.Types.length).image (fun n : Nat => (n : Int)) := by
    intro x hx
    have := hv x (List.mem_toFinset.mp hx)
    refine Finset.mem_image.mpr ⟨x.toNat, Finset.mem_range.mpr (by omega), by omega⟩
  calc ws.length = ws.toFinset.card := (List.toFinset_card_of_nodup hnd).symm
    _ ≤ ((Finset.range d.Types.length).image (fun n : Nat => (n : Int))).card :=
        Finset.card_le_card hsub
    _ ≤ (Finset.range d.Types.length).card := Finset.card_image_le
    _ = d.Types.length := Finset.card_range _

theorem unwrapType_of_wrapsNamed (d : ParsedDefinitions) :
    ∀ (ws : List Int) (fuel : Nat) (ref named : Int), wrapsNamed d ref ws named = true →
      ws.length < fuel → unwrapType d fuel ref = d.Type' named := by
  intro ws
  induction ws with
  | nil =>
    intro fuel ref named h hf
    simp only [wrapsNamed, Bool.and_eq_true, beq_iff_eq] at h
    obtain ⟨ha, hb⟩ := h
    subst ha
    cases fuel with
    | zero => simp at hf
    | succ fuel => simp [unwrapType, hb]
  | cons w ws ih =>
    intro fuel ref named h hf
    simp only [wrapsNamed, Bool.and_eq_true, beq_iff_eq, bne_iff_ne, ne_eq] at h
    obtain ⟨⟨ha, hb⟩, hc⟩ := h
    subst ha
    cases fuel with
    | zero => simp at hf
    | succ fuel =>
      simp only [unwrapType, hb, if_false]
      exact ih fuel _ named hc (by simpa using hf)

/-- Unwrapping a named type inside any list and non-null wrappers gives the
named type. -/
theorem UnwrappedNamedType_of_wrapsNamed (d : ParsedDefinitions) (ws : List Int)
    (ref named : Int) (h : wrapsNamed d ref ws named = true) :
    d.UnwrappedNamedType ref = d.Type' named := by
  unfold ParsedDefinitions.UnwrappedNamedType
  exact unwrapType_of_wrapsNamed d ws _ ref named h
    (Nat.lt_succ_of_le (wrapsNamed_length_le d ws ref named h))


/-- C1: for every executable document, walked to any depth, the fields that
`FieldsIterable` delivers are the fields of the document in document order, and
for each of them `FieldPath` called with its parent is the list of the aliases
(where present) or else names of its enclosing fields, innermost first: the
enclosing fields `f1..fn`, outermost first and with inline fragments ignored,
give `[n(fn), ..., n(f1)]`, exactly `n` references.  For `name` in
`{dog{renamed:owner{name}}}` the path resolves to `[renamed, dog]` and in
`{ dog { ... on Dog { ... { owner { name } } } } }` to `[owner, dog]`. -/
theorem FieldPath_enclosing_fields :
    (∀ (d : ParsedDefinitions) (depth : Nat),
      (WalkExecutable d depth).FieldsIterable.map
          (fun x => (x.2.1, (WalkExecutable d depth).FieldPath x.2.2)) =
        (documentFields d depth).map
          (fun x => (x.1, x.2.reverse.map (fun ref => aliasOrName (d.Field ref))))) ∧
    ((WalkExecutable aliasPathDocument 3).FieldsIterable.map (fun x =>
        (aliasPathDocument.ByteSlice x.1.Name,
         ((WalkExecutable aliasPathDocument 3).FieldPath x.2.2).map aliasPathDocument.ByteSlice)) =
      [(asciiBytes "dog", []), (asciiBytes "owner", [asciiBytes "dog"]),
       (asciiBytes "name", [asciiBytes "renamed", asciiBytes "dog"])]) ∧
    ((WalkExecutable inlinePathDocument 5).FieldsIterable.map (fun x =>
        (inlinePathDocument.ByteSlice x.1.Name,
         ((WalkExecutable inlinePathDocument 5).FieldPath x.2.2).map inlinePathDocument.ByteSlice)) =
      [(asciiBytes "dog", []), (asciiBytes "owner", [asciiBytes "dog"]),
       (asciiBytes "name", [asciiBytes "owner", asciiBytes "dog"])]) :=
  ⟨fieldPath_eq_enclosing, by decide, by decide⟩

theorem mem_keepFirst (l : List Int) (x : Int) : x ∈ keepFirst l ↔ x ∈ l := by
  induction l with
  | nil => simp [keepFirst]
  | cons y ys ih =>
    simp only [keepFirst, List.mem_cons, List.mem_filter, ih, decide_eq_true_eq]
    constructor
    · rintro (h | ⟨h, _⟩)
      · exact Or.inl h
      · exact Or.inr h
    · rintro (h | h)
      · exact Or.inl h
      · by_cases hxy : x = y
        · exact Or.inl hxy
        · exact Or.inr ⟨h, hxy⟩

theorem nodup_keepFirst (l : List Int) : (keepFirst l).Nodup := by
  induction l with
  | nil => simp [keepFirst]
  | cons y ys ih =>
    simp only [keepFirst]
    refine List.nodup_cons.mpr ⟨?_, ih.filter _⟩
    simp [List.mem_filter]

theorem usedInOperations_nodup (w : Walker) (fuel : Nat) (n : Int) :
    (w.usedInOperations fuel n).Nodup := by
  cases fuel with
  | zero => simp [Walker.usedInOperations]
  | succ fuel =>
    unfold Walker.usedInOperations
    cases w.rootNode n with
    | none => simp
    | some root =>
      simp only
      split
      · simp
      · exact nodup_keepFirst _
      · simp

theorem usedInOperations_complete (w : Walker) (O n : Int) (h : w.Reaches O n) :
    ∃ N, ∀ fuel, N ≤ fuel → O ∈ w.usedInOperations fuel n := by
  induction h with
  | operation n root hroot hkind =>
    refine ⟨1, ?_⟩
    intro fuel hf
    obtain ⟨f, rfl⟩ : ∃ f, fuel = f + 1 := ⟨fuel - 1, by omega⟩
    unfold Walker.usedInOperations
    simp only [hroot]
    split
    · simp
    · rename_i hk; rw [hkind] at hk; cases hk
    · rename_i h1 _; exact absurd hkind h1
  | spread O n s root hroot hkind hs _ ih =>
    obtain ⟨N, hN⟩ := ih
    refine ⟨N + 1, ?_⟩
    intro fuel hf
    obtain ⟨f, rfl⟩ : ∃ f, fuel = f + 1 := ⟨fuel - 1, by omega⟩
    unfold Walker.usedInOperations
    simp only [hroot]
    split
    · rename_i hk; rw [hkind] at hk; cases hk
    · rw [mem_keepFirst, List.mem_flatMap]
      exact ⟨s, hs, hN f (by omega)⟩
    · rename_i _ h2; exact absurd hkind h2


theorem mem_walkEach (f : Int → Nat → List Node) (node : Node) :
    ∀ (xs : List Int) (base : Nat), node ∈ walkEach f xs base →
      ∃ x ∈ xs, ∃ b, node ∈ f x b := by
  intro xs
  induction xs with
  | nil => intro base h; simp [walkEach] at h
  | cons x xs ih =>
    intro base h
    simp only [walkEach, List.mem_append] at h
    rcases h with h | h
    · exact ⟨x, List.mem_cons_self _ _, base, h⟩
    · obtain ⟨y, hy, b, hb⟩ := ih _ h
      exact ⟨y, List.mem_cons_of_mem _ hy, b, hb⟩

theorem walkSelectionSet_no_root (d : ParsedDefinitions) (node : Node) :
    ∀ (depth : Nat) (setRef parent : Int) (base : Nat),
      node ∈ walkSelectionSet d depth setRef parent base →
      node.Kind ≠ .OPERATION_DEFINITION ∧ node.Kind ≠ .FRAGMENT_DEFINITION := by
  intro depth
  induction depth with
  | zero => intro _ _ _ h; simp [walkSelectionSet] at h
  | succ depth ih =>
    intro setRef parent base h
    simp only [walkSelectionSet] at h
    split at h
    · simp at h
    · simp only [List.mem_cons, List.mem_append, List.mem_map] at h
      rcases h with h | (h | h) | h
      · subst h; simp
      · obtain ⟨ref, _, b, hb⟩ := mem_walkEach _ node _ _ h
        simp only [List.mem_cons, List.mem_append] at hb
        rcases hb with hb | hb | hb
        · subst hb; simp
        · unfold walkArgumentSet at hb
          split at hb
          · simp at hb
          · simp only [List.mem_cons, List.mem_map] at hb
            rcases hb with hb | ⟨_, _, hb⟩
            · subst hb; simp
            · subst hb; simp
        · exact ih _ _ _ hb
      · obtain ⟨ref, _, hb⟩ := h
        subst hb; simp
      · obtain ⟨ref, _, b, hb⟩ := mem_walkEach _ node _ _ h
        simp only [List.mem_cons] at hb
        rcases hb with hb | hb
        · subst hb; simp
        · exact ih _ _ _ hb

theorem walkExecutable_operation_nodes (d : ParsedDefinitions) (depth : Nat) (node : Node)
    (hm : node ∈ (WalkExecutable d depth).nodes) (hk : node.Kind = .OPERATION_DEFINITION) :
    node.Ref ∈ d.ExecutableDefinition.OperationDefinitions := by
  simp only [WalkExecutable, walkExecutableNodes, List.mem_append] at hm
  rcases hm with hm | hm
  · obtain ⟨ref, hr, b, hb⟩ := mem_walkEach _ node _ _ hm
    simp only [List.mem_cons] at hb
    rcases hb with hb | hb
    · subst hb; exact hr
    · exact absurd hk (walkSelectionSet_no_root d node _ _ _ _ hb).1
  · obtain ⟨ref, hr, b, hb⟩ := mem_walkEach _ node _ _ hm
    simp only [List.mem_cons] at hb
    rcases hb with hb | hb
    · subst hb; simp at hk
    · exact absurd hk (walkSelectionSet_no_root d node _ _ _ _ hb).1

theorem walkUp_root_mem (nodes : List Node) :
    ∀ (fuel : Nat) (p : Int) (root : Node),
      walkUp (fun kind r (above : Option Node) =>
          if kind = .OPERATION_DEFINITION ∨ kind = .FRAGMENT_DEFINITION then some ⟨-1, kind, r⟩
          else above) none nodes fuel p = some root →
      ∃ node ∈ nodes, node.Kind = root.Kind ∧ node.Ref = root.Ref := by
  intro fuel
  induction fuel with
  | zero => intro p root h; simp [walkUp] at h
  | succ fuel ih =>
    intro p root h
    simp only [walkUp] at h
    cases hg : getAt nodes p with
    | none => simp [hg] at h
    | some node =>
      simp only [hg] at h
      split at h
      · cases h
        exact ⟨node, List.get?_mem (getAt_some hg).2, rfl, rfl⟩
      · exact ih _ root h

theorem rootNode_mem (w : Walker) (n : Int) (root : Node) (h : w.rootNode n = some root) :
    ∃ node ∈ w.nodes, node.Kind = root.Kind ∧ node.Ref = root.Ref :=
  walkUp_root_mem w.nodes _ n root h

theorem reaches_operation_node (w : Walker) (O n : Int) (h : w.Reaches O n) :
    ∃ node ∈ w.nodes, node.Kind = .OPERATION_DEFINITION ∧ node.Ref = O := by
  induction h with
  | operation n root hroot hkind =>
    obtain ⟨node, hm, hk, hr⟩ := rootNode_mem w n root hroot
    exact ⟨node, hm, hk.trans hkind, hr⟩
  | spread O n s root _ _ _ _ ih => exact ih

theorem eq_singleton_of_nodup (l : List Int) (O : Int) (hnd : l.Nodup) (hO : O ∈ l)
    (hall : ∀ x ∈ l, x = O) : l = [O] := by
  cases l with
  | nil => simp at hO
  | cons a t =>
    have ha : a = O := hall a (List.mem_cons_self _ _)
    subst ha
    cases t with
    | nil => rfl
    | cons b t =>
      have hb : b = a := hall b (List.mem_cons_of_mem _ (List.mem_cons_self _ _))
      subst hb
      simp at hnd

theorem mem_usageInOperations (w : Walker) (fuel : Nat) (n O : Int) :
    O ∈ w.usageInOperations fuel n ↔
      O ∈ w.l.ExecutableDefinition.OperationDefinitions ∧ O ∈ w.usedInOperations fuel n := by
  unfold Walker.usageInOperations
  rw [mem_keepFirst, List.mem_filter]
  simp

/-- C2: when operation `O` reaches a node of a walked document through fragment
spreads, however many spreads of the fragment there are, then with enough fuel
for the walk back the iterator yields `O` exactly once; and when `O` is the only
operation of the document, the first `Next` returns true with value `O` and the
second `Next` returns false. -/
theorem NodeUsage_yields_operation_once (d : ParsedDefinitions) (depth : Nat) (O n : Int)
    (h : (WalkExecutable d depth).Reaches O n) :
    ∃ N, ∀ fuel, N ≤ fuel →
      ((WalkExecutable d depth).NodeUsageInOperationsIterator fuel n).refs.count O = 1 ∧
      (d.ExecutableDefinition.OperationDefinitions = [O] →
        ((WalkExecutable d depth).NodeUsageInOperationsIterator fuel n).Next.1 = true ∧
        ((WalkExecutable d depth).NodeUsageInOperationsIterator fuel n).Next.2.Value = some O ∧
        ((WalkExecutable d depth).NodeUsageInOperationsIterator fuel n).Next.2.Next.1 = false) := by
  obtain ⟨N, hN⟩ := usedInOperations_complete _ O n h
  refine ⟨N, ?_⟩
  intro fuel hf
  obtain ⟨node, hm, hk, hr⟩ := reaches_operation_node _ O n h
  have hops := walkExecutable_operation_nodes d depth node hm hk
  rw [hr] at hops
  have hmem : O ∈ (WalkExecutable d depth).usageInOperations fuel n :=
    (mem_usageInOperations _ fuel n O).mpr ⟨hops, hN fuel hf⟩
  have hnd : ((WalkExecutable d depth).usageInOperations fuel n).Nodup := nodup_keepFirst _
  refine ⟨List.count_eq_one_of_mem hnd hmem, ?_⟩
  intro honly
  have hall : ∀ x ∈ (WalkExecutable d depth).usageInOperations fuel n, x = O := by
    intro x hx
    have := ((mem_usageInOperations _ fuel n x).mp hx).1
    change x ∈ d.ExecutableDefinition.OperationDefinitions at this
    rw [honly] at this
    simpa using this
  have hl := eq_singleton_of_nodup _ O hnd hmem hall
  simp only [Walker.NodeUsageInOperationsIterator, NodeUsageInOperationsIterator.Next,
    NodeUsageInOperationsIterator.Value, hl]
  refine ⟨by simp, by simp [getAt], by simp⟩


/-- Witness of C2: in the test document that spreads `argOnOptional` three
times, the argument `atOtherHomes` (node 11) lies in the fragment definition,
the query reaches it through the spread at node 4, and the iterator yields the
query `argOnRequiredArg` once and then nothing. -/
theorem NodeUsage_yields_operation_once_witness :
    (WalkExecutable spreadTwiceDocument 3).Reaches 0 11 ∧
    (WalkExecutable spreadTwiceDocument 3).spreadsOf
      (spreadTwiceDocument.FragmentDefinition 0).FragmentName = [4, 5, 6] ∧
    (∃ N, ∀ fuel, N ≤ fuel →
      ((WalkExecutable spreadTwiceDocument 3).NodeUsageInOperationsIterator fuel 11).refs.count 0 = 1 ∧
      (spreadTwiceDocument.ExecutableDefinition.OperationDefinitions = [0] →
        ((WalkExecutable spreadTwiceDocument 3).NodeUsageInOperationsIterator fuel 11).Next.1 = true ∧
        ((WalkExecutable spreadTwiceDocument 3).NodeUsageInOperationsIterator fuel 11).Next.2.Value =
          some 0 ∧
        ((WalkExecutable spreadTwiceDocument 3).NodeUsageInOperationsIterator fuel 11).Next.2.Next.1 =
          false)) ∧
    ((WalkExecutable spreadTwiceDocument 3).NodeUsageInOperationsIterator 12 11).refs = [0] ∧
    spreadTwiceDocument.ByteSlice (spreadTwiceDocument.OperationDefinition 0).Name =
      asciiBytes "argOnRequiredArg" :=
  have hreach : (WalkExecutable spreadTwiceDocument 3).Reaches 0 11 :=
    Walker.Reaches.spread 0 11 4 ⟨-1, .FRAGMENT_DEFINITION, 0⟩ (by decide) rfl (by decide)
      (Walker.Reaches.operation 4 ⟨-1, .OPERATION_DEFINITION, 0⟩ (by decide) rfl)
  ⟨hreach, by decide, NodeUsage_yields_operation_once spreadTwiceDocument 3 0 11 hreach,
    by decide, by decide⟩

end lookup

namespace astinspect

open document lookup

/-- C10: `FieldsCanMerge` is true for two fields whose response keys (alias if
present, otherwise name) differ, true for two fields with the same name and no
alias, and false for two fields with the same response key and different
names; for the fields 0 and 1 of `{a b}` and of `{a a}` it is true, of
`{a: b a}` it is false. -/
theorem FieldsCanMerge_by_response_key :
    (∀ (d : ParsedDefinitions) (left right : Int),
      (d.ByteSliceReferenceContentsEquals (aliasOrName (d.Field left))
          (aliasOrName (d.Field right)) = false →
        FieldsCanMerge d left right = true) ∧
      (d.ByteSliceReferenceContentsEquals (d.Field left).Name (d.Field right).Name = true →
        (d.Field left).Alias.Length = 0 → (d.Field right).Alias.Length = 0 →
        FieldsCanMerge d left right = true) ∧
      (d.ByteSliceReferenceContentsEquals (aliasOrName (d.Field left))
          (aliasOrName (d.Field right)) = true →
        d.ByteSliceReferenceContentsEquals (d.Field left).Name (d.Field right).Name = false →
        FieldsCanMerge d left right = false)) ∧
    FieldsCanMerge mergeDifferentDocument 0 1 = true ∧
    FieldsCanMerge mergeSameDocument 0 1 = true ∧
    FieldsCanMerge mergeAliasedDocument 0 1 = false ∧
    mergeAliasedDocument.ByteSlice (aliasOrName (mergeAliasedDocument.Field 0)) = asciiBytes "a" ∧
    mergeAliasedDocument.ByteSlice (mergeAliasedDocument.Field 0).Name = asciiBytes "b" ∧
    mergeAliasedDocument.ByteSlice (aliasOrName (mergeAliasedDocument.Field 1)) = asciiBytes "a" := by
  refine ⟨?_, by decide, by decide, by decide, by decide, by decide, by decide⟩
  intro d left right
  refine ⟨?_, ?_, ?_⟩
  · intro h
    simp [FieldsCanMerge, h]
  · intro hn hl hr
    simp [FieldsCanMerge, aliasOrName, hl, hr, hn]
  · intro hk hn
    simp [FieldsCanMerge, hk, hn]

end astinspect

namespace parser

open document lookup

theorem setAt_ok {α : Type} (xs : List α) (i : Int) (x : α)
    (h : 0 ≤ i ∧ i < (xs.length : Int)) : setAt xs i x = .ok (xs.set i.toNat x) := by
  simp [setAt, h]

theorem setAt_error {α : Type} (xs : List α) (i : Int) (x : α)
    (h : ¬ (0 ≤ i ∧ i < (xs.length : Int))) : setAt xs i x = .error "index out of range" := by
  simp only [setAt, h, if_false]

theorem getAt_set_self {α : Type} (xs : List α) (i : Int) (x : α)
    (h : 0 ≤ i ∧ i < (xs.length : Int)) : getAt (xs.set i.toNat x) i = some x := by
  unfold getAt
  have h1 : ¬ i < 0 := by omega
  have h2 : i.toNat < xs.length := by omega
  simp [h1, List.get?_eq_getElem?, h2]

theorem getAt_set_other {α : Type} (xs : List α) (i j : Int) (x : α)
    (hi : 0 ≤ i) (hne : j ≠ i) : getAt (xs.set i.toNat x) j = getAt xs j := by
  unfold getAt
  split
  · rfl
  · have : i.toNat ≠ j.toNat := by omega
    simp [List.get?_eq_getElem?, List.getElem?_set_ne this]

theorem getAt_length_append_one {α : Type} (xs : List α) (x : α) :
    getAt (xs ++ [x]) (xs.length : Int) = some x := by
  unfold getAt
  have : ¬ ((xs.length : Int) < 0) := by omega
  simp [this, List.get?_eq_getElem?]

theorem selectionSet_after_set (d : ParsedDefinitions) (s : Int) (x : SelectionSet)
    (hs : 0 ≤ s ∧ s < (d.SelectionSets.length : Int)) :
    ({ d with SelectionSets := d.SelectionSets.set s.toNat x } : ParsedDefinitions).SelectionSet s = x ∧
    ∀ s', s' ≠ s →
      ({ d with SelectionSets := d.SelectionSets.set s.toNat x } : ParsedDefinitions).SelectionSet s' =
        d.SelectionSet s' := by
  refine ⟨?_, ?_⟩
  · simp [ParsedDefinitions.SelectionSet, getAt_set_self _ _ _ hs]
  · intro s' hne
    simp [ParsedDefinitions.SelectionSet, getAt_set_other _ _ _ _ hs.1 hne]

/-- C13: for a selection set index `s` inside the pool, `DeleteFieldFromSelectionSet`
returns normally and changes only the field list of set `s`: that list becomes
the former list with `f` omitted, the rest in its order; the fragment spreads
and inline fragments of `s`, every other selection set, the `Fields` pool (its
length, the record at `f` and every other record) and all other pools are
unchanged. -/
theorem DeleteFieldFromSelectionSet_frame (d : ParsedDefinitions) (f s : Int)
    (hs : 0 ≤ s ∧ s < (d.SelectionSets.length : Int)) :
    ∃ d', DeleteFieldFromSelectionSet d f s = .ok d' ∧
      (d'.SelectionSet s).Fields = (d.SelectionSet s).Fields.filter (fun ref => ref ≠ f) ∧
      f ∉ (d'.SelectionSet s).Fields ∧
      List.Sublist (d'.SelectionSet s).Fields (d.SelectionSet s).Fields ∧
      (d'.SelectionSet s).FragmentSpreads = (d.SelectionSet s).FragmentSpreads ∧
      (d'.SelectionSet s).InlineFragments = (d.SelectionSet s).InlineFragments ∧
      (∀ s', s' ≠ s → d'.SelectionSet s' = d.SelectionSet s') ∧
      d'.SelectionSets.length = d.SelectionSets.length ∧
      d'.Fields = d.Fields ∧ d'.Field f = d.Field f ∧
      d' = { d with SelectionSets := d'.SelectionSets } := by
  refine ⟨_, by simp only [DeleteFieldFromSelectionSet, setAt_ok _ _ _ hs]; rfl, ?_⟩
  obtain ⟨h1, h2⟩ := selectionSet_after_set d s
    { d.SelectionSet s with
      Fields := (d.SelectionSet s).Fields.filter (fun ref => ref ≠ f) } hs
  refine ⟨by rw [h1], ?_, ?_, by rw [h1], by rw [h1], h2, by simp, rfl, rfl, rfl⟩
  · rw [h1]
    simp [List.mem_filter]
  · rw [h1]
    exact List.filter_sublist _

/-- C14: for a selection set index `s` inside the pool, `AppendFieldToSelectionSet`
returns normally and makes the field list of set `s` its former list followed
by `f`; the fragment spreads and inline fragments of `s`, every other selection
set, every record of the `Fields` pool and all other pools are unchanged. -/
theorem AppendFieldToSelectionSet_frame (d : ParsedDefinitions) (f s : Int)
    (hs : 0 ≤ s ∧ s < (d.SelectionSets.length : Int)) :
    ∃ d', AppendFieldToSelectionSet d f s = .ok d' ∧
      (d'.SelectionSet s).Fields = (d.SelectionSet s).Fields ++ [f] ∧
      (d'.SelectionSet s).FragmentSpreads = (d.SelectionSet s).FragmentSpreads ∧
      (d'.SelectionSet s).InlineFragments = (d.SelectionSet s).InlineFragments ∧
      (∀ s', s' ≠ s → d'.SelectionSet s' = d.SelectionSet s') ∧
      d'.SelectionSets.length = d.SelectionSets.length ∧
      d'.Fields = d.Fields ∧
      d' = { d with SelectionSets := d'.SelectionSets } := by
  refine ⟨_, by simp only [AppendFieldToSelectionSet, setAt_ok _ _ _ hs]; rfl, ?_⟩
  obtain ⟨h1, h2⟩ := selectionSet_after_set d s
    { d.SelectionSet s with Fields := (d.SelectionSet s).Fields ++ [f] } hs
  exact ⟨by rw [h1], by rw [h1], by rw [h1], h2, by simp, rfl, rfl⟩

end parser

namespace parser

open document lookup

theorem sameArgumentName_self (d : ParsedDefinitions) (a : Int) :
    sameArgumentName d a a = true := by
  simp [sameArgumentName, ParsedDefinitions.ByteSliceReferenceContentsEquals]

theorem mem_mergeArgument (d : ParsedDefinitions) (a : Int) (xs : List Int) :
    a ∈ mergeArgument d a xs := by
  induction xs with
  | nil => simp [mergeArgument]
  | cons x xs ih =>
    simp only [mergeArgument]
    split
    · exact List.mem_cons_self _ _
    · exact List.mem_cons_of_mem _ ih

theorem mergeArgument_append (d : ParsedDefinitions) (a : Int) (xs : List Int)
    (h : ∀ x ∈ xs, sameArgumentName d a x = false) : mergeArgument d a xs = xs ++ [a] := by
  induction xs with
  | nil => rfl
  | cons x xs ih =>
    simp only [mergeArgument, h x (List.mem_cons_self _ _), Bool.false_eq_true, if_false,
      List.cons_append]
    rw [ih (fun y hy => h y (List.mem_cons_of_mem _ hy))]

theorem mergeArgument_replace (d : ParsedDefinitions) (a : Int) (xs : List Int)
    (h : ∃ x ∈ xs, sameArgumentName d a x = true) :
    ∃ pre x post, xs = pre ++ x :: post ∧ sameArgumentName d a x = true ∧
      (∀ y ∈ pre, sameArgumentName d a y = false) ∧
      mergeArgument d a xs = pre ++ a :: post := by
  induction xs with
  | nil => obtain ⟨x, hx, _⟩ := h; simp at hx
  | cons x xs ih =>
    by_cases hx : sameArgumentName d a x = true
    · exact ⟨[], x, xs, rfl, hx, by simp, by simp [mergeArgument, hx]⟩
    · have hx' : sameArgumentName d a x = false := by simpa using hx
      obtain ⟨y, hy, hsame⟩ := h
      have hy' : y ∈ xs := by
        rcases List.mem_cons.mp hy with h1 | h1
        · subst h1; rw [hx'] at hsame; cases hsame
        · exact h1
      obtain ⟨pre, z, post, he, hz, hpre, hm⟩ := ih ⟨y, hy', hsame⟩
      refine ⟨x :: pre, z, post, by simp [he], hz, ?_, by simp [mergeArgument, hx', hm]⟩
      intro w hw
      rcases List.mem_cons.mp hw with h1 | h1
      · subst h1; exact hx'
      · exact hpre w h1

theorem mergeArgument_filter (d : ParsedDefinitions) (a : Int) (xs : List Int) :
    (mergeArgument d a xs).filter (fun x => !sameArgumentName d a x) =
      xs.filter (fun x => !sameArgumentName d a x) := by
  induction xs with
  | nil => simp [mergeArgument, sameArgumentName_self]
  | cons x xs ih =>
    simp only [mergeArgument]
    split
    · rename_i hx
      simp [List.filter_cons, hx, sameArgumentName_self]
    · rename_i hx
      simp [List.filter_cons, hx, ih]

theorem mergeArgument_length (d : ParsedDefinitions) (a : Int) (xs : List Int)
    (h : ∃ x ∈ xs, sameArgumentName d a x = true) :
    (mergeArgument d a xs).length = xs.length := by
  obtain ⟨pre, x, post, he, _, _, hm⟩ := mergeArgument_replace d a xs h
  rw [hm, he]
  simp

theorem sameArgumentName_iff (d : ParsedDefinitions) (a x : Int) :
    sameArgumentName d a x = true ↔
      d.ByteSlice (d.Argument x).Name = d.ByteSlice (d.Argument a).Name := by
  simp [sameArgumentName, ParsedDefinitions.ByteSliceReferenceContentsEquals]

theorem sameArgumentName_false_iff (d : ParsedDefinitions) (a x : Int) :
    sameArgumentName d a x = false ↔
      d.ByteSlice (d.Argument x).Name ≠ d.ByteSlice (d.Argument a).Name := by
  simp [sameArgumentName, ParsedDefinitions.ByteSliceReferenceContentsEquals]

/-- C12: for a field `f` inside the pool whose argument set is absent (`-1`) or
inside the pool, `MergeArgIntoFieldArguments a f` returns normally, changes no
argument record and no byte of the input, and leaves `f` with an argument set
that contains `a`: the new set `[a]` when `f` had none; the former arguments
followed by `a` when none of them has a name with the bytes of the name of `a`;
and otherwise the former set with its first argument of these name bytes
replaced by `a`, the number of arguments unchanged.  The arguments with other
name bytes are the same, in the same order, before and after. -/
theorem MergeArgIntoFieldArguments_merges (d : ParsedDefinitions) (a f : Int)
    (hf : 0 ≤ f ∧ f < (d.Fields.length : Int))
    (hset : (d.Field f).ArgumentSet = -1 ∨
      (0 ≤ (d.Field f).ArgumentSet ∧ (d.Field f).ArgumentSet < (d.ArgumentSets.length : Int))) :
    ∃ d', MergeArgIntoFieldArguments d a f = .ok d' ∧
      d'.Arguments = d.Arguments ∧ d'.Input = d.Input ∧
      a ∈ d'.ArgumentSet (d'.Field f).ArgumentSet ∧
      ((d.Field f).ArgumentSet = -1 → d'.ArgumentSet (d'.Field f).ArgumentSet = [a]) ∧
      ((d.Field f).ArgumentSet ≠ -1 →
        (∀ x ∈ d.ArgumentSet (d.Field f).ArgumentSet,
          d.ByteSlice (d.Argument x).Name ≠ d.ByteSlice (d.Argument a).Name) →
        d'.ArgumentSet (d'.Field f).ArgumentSet = d.ArgumentSet (d.Field f).ArgumentSet ++ [a]) ∧
      ((d.Field f).ArgumentSet ≠ -1 →
        (∃ x ∈ d.ArgumentSet (d.Field f).ArgumentSet,
          d.ByteSlice (d.Argument x).Name = d.ByteSlice (d.Argument a).Name) →
        (d'.ArgumentSet (d'.Field f).ArgumentSet).length =
          (d.ArgumentSet (d.Field f).ArgumentSet).length ∧
        ∃ pre x post, d.ArgumentSet (d.Field f).ArgumentSet = pre ++ x :: post ∧
          d.ByteSlice (d.Argument x).Name = d.ByteSlice (d.Argument a).Name ∧
          (∀ y ∈ pre, d.ByteSlice (d.Argument y).Name ≠ d.ByteSlice (d.Argument a).Name) ∧
          d'.ArgumentSet (d'.Field f).ArgumentSet = pre ++ a :: post) ∧
      (d'.ArgumentSet (d'.Field f).ArgumentSet).filter
          (fun x => decide (d.ByteSlice (d.Argument x).Name ≠ d.ByteSlice (d.Argument a).Name)) =
        (d.ArgumentSet (d.Field f).ArgumentSet).filter
          (fun x => decide (d.ByteSlice (d.Argument x).Name ≠ d.ByteSlice (d.Argument a).Name)) := by
  have hpred : (fun x => decide (d.ByteSlice (d.Argument x).Name ≠
      d.ByteSlice (d.Argument a).Name)) = (fun x => !sameArgumentName d a x) := by
    funext x
    rw [Bool.eq_iff_iff]
    simp [sameArgumentName, ParsedDefinitions.ByteSliceReferenceContentsEquals]
  rw [hpred]
  simp only [← sameArgumentName_iff, ← sameArgumentName_false_iff]
  by_cases hnone : (d.Field f).ArgumentSet = -1
  · -- the field gets its first argument set
    refine ⟨_,
      by simp only [MergeArgIntoFieldArguments, hnone, if_true, setAt_ok _ _ _ hf]; rfl, ?_⟩
    refine ⟨rfl, rfl, ?_⟩
    have hfield : ({ d with
          Fields := d.Fields.set f.toNat
            { d.Field f with ArgumentSet := (d.ArgumentSets.length : Int) }
          ArgumentSets := d.ArgumentSets ++ [[a]] } : ParsedDefinitions).Field f =
        { d.Field f with ArgumentSet := (d.ArgumentSets.length : Int) } := by
      simp [ParsedDefinitions.Field, getAt_set_self _ _ _ hf]
    have hnew : ({ d with
          Fields := d.Fields.set f.toNat
            { d.Field f with ArgumentSet := (d.ArgumentSets.length : Int) }
          ArgumentSets := d.ArgumentSets ++ [[a]] } : ParsedDefinitions).ArgumentSet
          (d.ArgumentSets.length : Int) = [a] := by
      simp [ParsedDefinitions.ArgumentSet, getAt_length_append_one]
    have hold : d.ArgumentSet (d.Field f).ArgumentSet = [] := by
      rw [hnone]
      simp [ParsedDefinitions.ArgumentSet, getAt]
    rw [hfield]
    simp only [hnew, hold]
    simp [hnone, sameArgumentName_self]
  · -- the argument is merged into the set of the field
    have hin : 0 ≤ (d.Field f).ArgumentSet ∧
        (d.Field f).ArgumentSet < (d.ArgumentSets.length : Int) := by
      rcases hset with h | h
      · exact absurd h hnone
      · exact h
    refine ⟨_,
      by simp only [MergeArgIntoFieldArguments, hnone, if_false, setAt_ok _ _ _ hin]; rfl, ?_⟩
    refine ⟨rfl, rfl, ?_⟩
    have hfield : ({ d with
          ArgumentSets := d.ArgumentSets.set (d.Field f).ArgumentSet.toNat
            (mergeArgument d a (d.ArgumentSet (d.Field f).ArgumentSet)) } :
          ParsedDefinitions).Field f = d.Field f := rfl
    have hnew : ({ d with
          ArgumentSets := d.ArgumentSets.set (d.Field f).ArgumentSet.toNat
            (mergeArgument d a (d.ArgumentSet (d.Field f).ArgumentSet)) } :
          ParsedDefinitions).ArgumentSet (d.Field f).ArgumentSet =
        mergeArgument d a (d.ArgumentSet (d.Field f).ArgumentSet) := by
      simp [ParsedDefinitions.ArgumentSet, getAt_set_self _ _ _ hin]
    rw [hfield, hnew]
    exact ⟨mem_mergeArgument d a _, fun h => absurd h hnone,
      fun _ h => mergeArgument_append d a _ h,
      fun _ h => ⟨mergeArgument_length d a _ h, mergeArgument_replace d a _ h⟩,
      mergeArgument_filter d a _⟩

/-- C16: `PutLiteralString b` returns a reference whose bytes, read from the
grown input, are `b`, and a cache index at which that reference is stored; the
former input is a prefix of the grown input, and every reference that ended
inside the former input reads the same bytes after the call as before. -/
theorem PutLiteralString_interns (d : ParsedDefinitions) (b : List Nat) :
    (PutLiteralString d b).2.ByteSlice (PutLiteralString d b).1.1 = b ∧
    getAt (PutLiteralString d b).2.ByteSliceReferences (PutLiteralString d b).1.2 =
      some (PutLiteralString d b).1.1 ∧
    (PutLiteralString d b).2.Input = d.Input ++ b ∧
    (∀ r : ByteSliceReference, r.End ≤ d.Input.length →
      (PutLiteralString d b).2.ByteSlice r = d.ByteSlice r) := by
  refine ⟨?_, ?_, rfl, ?_⟩
  · simp [PutLiteralString, ParsedDefinitions.ByteSlice]
  · simp only [PutLiteralString]
    exact getAt_length_append_one _ _
  · intro r hr
    simp only [PutLiteralString, ParsedDefinitions.ByteSlice]
    by_cases hs : r.Start ≤ d.Input.length
    · rw [List.drop_append_of_le_length hs, List.take_append_of_le_length]
      simp only [List.length_drop]
      omega
    · have h0 : r.End - r.Start = 0 := by omega
      simp [h0]

end parser

namespace parser

open document lookup

theorem setAt_eq_ok {α : Type} {xs ys : List α} {i : Int} {x : α}
    (h : setAt xs i x = .ok ys) : (0 ≤ i ∧ i < (xs.length : Int)) ∧ ys = xs.set i.toNat x := by
  unfold setAt at h
  split at h
  · rename_i hv
    cases h
    exact ⟨hv, rfl⟩
  · cases h

/-- Witness of C13: deleting field 1 from selection set 1 of the document
`{dog{renamed:owner{name}}}` empties that set and leaves set 0 as it was. -/
theorem DeleteFieldFromSelectionSet_frame_witness :
    (0 ≤ (1 : Int) ∧ (1 : Int) < (aliasPathDocument.SelectionSets.length : Int)) ∧
    ∃ d', DeleteFieldFromSelectionSet aliasPathDocument 1 1 = .ok d' ∧
      (d'.SelectionSet 1).Fields = [] ∧ d'.SelectionSet 0 = ⟨[0], [], []⟩ ∧
      d'.Fields = aliasPathDocument.Fields := by
  refine ⟨by decide, ?_⟩
  obtain ⟨d', h1, h2, _, _, _, _, h7, _, h9, _⟩ :=
    DeleteFieldFromSelectionSet_frame aliasPathDocument 1 1 (by decide)
  refine ⟨d', h1, ?_, ?_, h9⟩
  · rw [h2]
    decide
  · rw [h7 0 (by decide)]
    decide

/-- Witness of C14: appending field 2 to selection set 0 of the document
`{dog{renamed:owner{name}}}` makes its field list `[0, 2]` and leaves set 1 as
it was. -/
theorem AppendFieldToSelectionSet_frame_witness :
    (0 ≤ (0 : Int) ∧ (0 : Int) < (aliasPathDocument.SelectionSets.length : Int)) ∧
    ∃ d', AppendFieldToSelectionSet aliasPathDocument 2 0 = .ok d' ∧
      (d'.SelectionSet 0).Fields = [0, 2] ∧ d'.SelectionSet 1 = ⟨[1], [], []⟩ ∧
      d'.Fields = aliasPathDocument.Fields := by
  refine ⟨by decide, ?_⟩
  obtain ⟨d', h1, h2, _, _, h5, _, h7, _⟩ :=
    AppendFieldToSelectionSet_frame aliasPathDocument 2 0 (by decide)
  refine ⟨d', h1, ?_, ?_, h7⟩
  · rw [h2]
    decide
  · rw [h5 1 (by decide)]
    decide

/-- Witness of C12 on `{dog{isHousetrained(atOtherHomes: $a, withCat: $b)}}`:
merging a new argument `withDog` into `isHousetrained` appends it after the two
arguments; merging a new argument `withCat`, its name interned anew, replaces
the second argument and leaves the first in its place; merging it into `dog`,
which has no argument set, gives `dog` the set of this one argument. -/
theorem MergeArgIntoFieldArguments_merges_witness :
    (∃ d', MergeArgIntoFieldArguments appendArgumentExample.2 appendArgumentExample.1 1 =
        .ok d' ∧ d'.ArgumentSet (d'.Field 1).ArgumentSet = [0, 1, 2]) ∧
    (∃ d', MergeArgIntoFieldArguments replaceArgumentExample.2 replaceArgumentExample.1 1 =
        .ok d' ∧ d'.ArgumentSet (d'.Field 1).ArgumentSet = [0, 2]) ∧
    (∃ d', MergeArgIntoFieldArguments replaceArgumentExample.2 replaceArgumentExample.1 0 =
        .ok d' ∧ d'.ArgumentSet (d'.Field 0).ArgumentSet = [2]) := by
  refine ⟨?_, ?_, ?_⟩
  · obtain ⟨d', h1, _, _, _, _, happend, _⟩ :=
      MergeArgIntoFieldArguments_merges appendArgumentExample.2 appendArgumentExample.1 1
        (by decide) (Or.inr (by decide))
    exact ⟨d', h1, by rw [happend (by decide) (by decide)]; decide⟩
  · obtain ⟨d', h1, _, _, _, _, _, hreplace, _⟩ :=
      MergeArgIntoFieldArguments_merges replaceArgumentExample.2 replaceArgumentExample.1 1
        (by decide) (Or.inr (by decide))
    obtain ⟨_, pre, x, post, he, hx, hpre, hnew⟩ :=
      hreplace (by decide) ⟨1, by decide, by decide⟩
    refine ⟨d', h1, ?_⟩
    rw [hnew]
    have hold : replaceArgumentExample.2.ArgumentSet
        (replaceArgumentExample.2.Field 1).ArgumentSet = [0, 1] := by decide
    rw [hold] at he
    match pre, he, hpre with
    | [], he, _ =>
      simp only [List.nil_append, List.cons.injEq] at he
      obtain ⟨hx0, _⟩ := he
      subst hx0
      exact absurd hx (by decide)
    | [p], he, _ =>
      simp only [List.singleton_append, List.cons.injEq] at he
      obtain ⟨hp, _, hpost⟩ := he
      subst hp
      rw [← hpost]
      rfl
    | p :: q :: r, he, hpre =>
      simp only [List.cons_append, List.cons.injEq] at he
      obtain ⟨_, hq, hr⟩ := he
      cases r <;> simp at hr
  · obtain ⟨d', h1, _, _, _, hnone, _⟩ :=
      MergeArgIntoFieldArguments_merges replaceArgumentExample.2 replaceArgumentExample.1 0
        (by decide) (Or.inl (by decide))
    exact ⟨d', h1, by rw [hnone (by decide)]; rfl⟩

/-- Witness of C16: after interning `owner` into the document
`{dog{renamed:owner{name}}}` the returned reference reads `owner` and the name
of the field `dog`, bytes 1 to 4, still reads `dog`. -/
theorem PutLiteralString_interns_witness :
    (PutLiteralString aliasPathDocument (asciiBytes "owner")).2.ByteSlice
        (PutLiteralString aliasPathDocument (asciiBytes "owner")).1.1 = asciiBytes "owner" ∧
    (4 ≤ aliasPathDocument.Input.length ∧
      (PutLiteralString aliasPathDocument (asciiBytes "owner")).2.ByteSlice ⟨1, 4⟩ =
        asciiBytes "dog") := by
  obtain ⟨h1, _, _, h4⟩ := PutLiteralString_interns aliasPathDocument (asciiBytes "owner")
  refine ⟨h1, by decide, ?_⟩
  rw [h4 ⟨1, 4⟩ (by decide)]
  decide

end parser


namespace parser

open document lookup keyword token

theorem type_putType_old (d : ParsedDefinitions) (t : Type') (i : Int)
    (hi : i < (d.Types.length : Int)) : (putType d t).2.Type' i = d.Type' i := by
  simp only [putType, ParsedDefinitions.Type']
  rw [getAt_append_left _ _ _ hi]

theorem type_putType_new (d : ParsedDefinitions) (t : Type') :
    (putType d t).2.Type' (d.Types.length : Int) = t := by
  simp only [putType, ParsedDefinitions.Type']
  rw [getAt_length_append_one]
  rfl

theorem wrapsBelow_putType_old (d : ParsedDefinitions) (t : Type') (base : Nat) (i : Int)
    (hi : i < (d.Types.length : Int)) (h : wrapsBelow d base i = true) :
    wrapsBelow (putType d t).2 base i = true := by
  unfold wrapsBelow at h ⊢
  rw [type_putType_old d t i hi]
  cases hk : (d.Type' i).Kind with
  | Named => rw [hk] at h; exact h
  | List => rw [hk] at h; exact h
  | NonNull =>
    rw [hk] at h
    simp only [Bool.and_eq_true, decide_eq_true_eq, bne_iff_ne, ne_eq] at h ⊢
    rw [type_putType_old d t _ (by omega)]
    exact h

theorem typesWrapBelow_putType (d : ParsedDefinitions) (t : Type') (base : Nat)
    (hinv : TypesWrapBelow d base)
    (hnew : wrapsBelow (putType d t).2 base (d.Types.length : Int) = true) :
    TypesWrapBelow (putType d t).2 base := by
  intro i hb hi
  have hlen : ((putType d t).2.Types.length : Int) = (d.Types.length : Int) + 1 := by
    simp [putType]
  by_cases hlt : i < (d.Types.length : Int)
  · exact wrapsBelow_putType_old d t base i hlt (hinv i hb hlt)
  · have : i = (d.Types.length : Int) := by omega
    rw [this]
    exact hnew

/-- What `finishType` leaves: the pools grown by one or two type records, the
last of them returned. -/
theorem finishType_spec (firstType : Type') (ts : List Token) (d : ParsedDefinitions) (base : Nat)
    (hbase : base ≤ d.Types.length) (hinv : TypesWrapBelow d base)
    (hk : firstType.Kind ≠ .NonNull)
    (hnamed : firstType.Kind = .Named → firstType.OfType = -1)
    (hlist : firstType.Kind = .List →
      (base : Int) ≤ firstType.OfType ∧ firstType.OfType < (d.Types.length : Int)) :
    (∃ ext, (finishType firstType ts d).2.Types = d.Types ++ ext ∧ ext ≠ []) ∧
    (finishType firstType ts d).2 = { d with Types := (finishType firstType ts d).2.Types } ∧
    (finishType firstType ts d).1.1 = ((finishType firstType ts d).2.Types.length : Int) - 1 ∧
    TypesWrapBelow (finishType firstType ts d).2 base ∧
    (finishType firstType ts d).1.2.length ≤ ts.length := by
  have hfirst : wrapsBelow (putType d firstType).2 base (d.Types.length : Int) = true := by
    unfold wrapsBelow
    rw [type_putType_new]
    cases hkind : firstType.Kind with
    | Named => simp [hnamed hkind]
    | List =>
      have := hlist hkind
      simp only [decide_eq_true_eq]
      omega
    | NonNull => exact absurd hkind hk
  have hinv1 := typesWrapBelow_putType d firstType base hinv hfirst
  have hnonnull : TypesWrapBelow
      (putType (putType d firstType).2 ⟨.NonNull, ⟨0, 0⟩, (putType d firstType).1⟩).2 base := by
    apply typesWrapBelow_putType _ _ _ hinv1
    unfold wrapsBelow
    rw [type_putType_new]
    simp only [Bool.and_eq_true, decide_eq_true_eq, bne_iff_ne, ne_eq]
    have h1 : (putType d firstType).1 = (d.Types.length : Int) := rfl
    have h2 : ((putType d firstType).2.Types.length : Int) = (d.Types.length : Int) + 1 := by
      simp [putType]
    refine ⟨by omega, ?_⟩
    rw [h1, type_putType_old _ _ _ (by omega), type_putType_new]
    exact hk
  cases ts with
  | nil =>
    refine ⟨⟨[firstType], rfl, by simp⟩, rfl, ?_, hinv1, Nat.le_refl _⟩
    simp [finishType, putType]
  | cons next rest =>
    by_cases hb : next.Keyword = .BANG
    · simp only [finishType, hb, if_true]
      refine ⟨⟨[firstType, ⟨.NonNull, ⟨0, 0⟩, (putType d firstType).1⟩], ?_, by simp⟩, rfl, ?_,
        hnonnull, ?_⟩
      · simp [putType]
      · simp only [putType, List.length_append, List.length_cons, List.length_nil]
        push_cast
        omega
      · simp
    · simp only [finishType, hb, if_false]
      refine ⟨⟨[firstType], rfl, by simp⟩, rfl, ?_, hinv1, Nat.le_refl _⟩
      simp [putType]

end parser

namespace parser

open document lookup keyword token

/-- What an accepted `parseTypeFuel` leaves: the pool of types grown at its end,
the other pools as they were, the last new record returned, every new record
wrapping as `wrapsBelow` asks, and at least one token read. -/
theorem parseTypeFuel_spec (base : Nat) :
    ∀ (fuel : Nat) (ts : List Token) (d : ParsedDefinitions) (ref : Int) (rest : List Token)
      (d' : ParsedDefinitions), base ≤ d.Types.length → TypesWrapBelow d base →
      parseTypeFuel fuel ts d = (.ok (ref, rest), d') →
      (∃ ext, d'.Types = d.Types ++ ext ∧ ext ≠ []) ∧ d' = { d with Types := d'.Types } ∧
      ref = (d'.Types.length : Int) - 1 ∧ TypesWrapBelow d' base ∧ rest.length < ts.length := by
  intro fuel
  induction fuel with
  | zero =>
    intro ts d ref rest d' _ _ h
    simp [parseTypeFuel] at h
  | succ fuel ih =>
    intro ts d ref rest d' hbase hinv h
    cases ts with
    | nil => simp [parseTypeFuel] at h
    | cons first tl =>
      simp only [parseTypeFuel] at h
      split at h
      · -- a named type
        simp only [Prod.mk.injEq, Except.ok.injEq] at h
        obtain ⟨h1, h2⟩ := h
        obtain ⟨e1, e2, e3, e4, e5⟩ := finishType_spec ⟨.Named, first.Literal, -1⟩ tl d base
          hbase hinv (by simp) (fun _ => rfl) (by simp)
        rw [h2] at e1 e2 e3 e4
        rw [h1] at e3 e5
        exact ⟨e1, e2, e3, e4, by simp only [List.length_cons]; exact Nat.lt_succ_of_le e5⟩
      · split at h
        · -- a list type
          split at h
          · simp at h
          · simp at h
          · rename_i ofType closing rest' d1 hrec
            split at h
            · simp only [Prod.mk.injEq, Except.ok.injEq] at h
              obtain ⟨h1, h2⟩ := h
              obtain ⟨⟨ext1, r1, r1'⟩, r2, r3, r4, r5⟩ := ih tl d ofType (closing :: rest') d1
                hbase hinv hrec
              have hlen1 : d1.Types.length = d.Types.length + ext1.length := by
                rw [r1, List.length_append]
              have hext1 : 0 < ext1.length := List.length_pos.mpr r1'
              obtain ⟨⟨ext2, e1, _⟩, e2, e3, e4, e5⟩ :=
                finishType_spec ⟨.List, ⟨0, 0⟩, ofType⟩ rest' d1 base (by omega) r4 (by simp)
                  (by simp) (fun _ => ⟨by simp only; omega, by simp only; omega⟩)
              rw [h2] at e1 e2 e3 e4
              rw [h1] at e3 e5
              refine ⟨⟨ext1 ++ ext2, ?_, ?_⟩, ?_, e3, e4, ?_⟩
              · rw [e1, r1, List.append_assoc]
              · intro hnil
                rw [List.append_eq_nil] at hnil
                exact r1' hnil.1
              · rw [e2, r2]
              · have e5' : rest.length ≤ rest'.length := e5
                simp only [List.length_cons] at r5 ⊢
                omega
            · simp at h
        · simp at h

/-- Every type record from `base` on is the outermost of a finite chain of
wrappers around a named type, all of them records from `base` on. -/
theorem wrapsNamed_of_typesWrapBelow (d : ParsedDefinitions) (base : Nat)
    (hinv : TypesWrapBelow d base) :
    ∀ (n : Nat) (ref : Int), (base : Int) ≤ ref → ref < (d.Types.length : Int) →
      ref - (base : Int) < (n : Int) →
      ∃ ws named, wrapsNamed d ref ws named = true ∧ (ws.length : Int) ≤ ref - (base : Int) ∧
        (base : Int) ≤ named ∧ named ≤ ref ∧ ∀ w ∈ ws, (base : Int) ≤ w ∧ w ≤ ref := by
  intro n
  induction n with
  | zero => intro ref h1 _ h3; omega
  | succ n ih =>
    intro ref h1 h2 h3
    have hw := hinv ref h1 h2
    unfold wrapsBelow at hw
    cases hk : (d.Type' ref).Kind with
    | Named =>
      refine ⟨[], ref, ?_, by simp only [List.length_nil]; omega, h1, Int.le_refl _, by simp⟩
      simp [wrapsNamed, hk]
    | List =>
      rw [hk] at hw
      simp only [decide_eq_true_eq] at hw
      obtain ⟨ws, named, c1, c2, c3, c4, c5⟩ := ih (d.Type' ref).OfType hw.1 (by omega) (by omega)
      refine ⟨ref :: ws, named, ?_, by simp only [List.length_cons]; push_cast; omega, c3,
        by omega, ?_⟩
      · simp [wrapsNamed, hk, c1]
      · intro w hmem
        rcases List.mem_cons.mp hmem with rfl | hmem
        · exact ⟨h1, Int.le_refl _⟩
        · have := c5 w hmem
          omega
    | NonNull =>
      rw [hk] at hw
      simp only [Bool.and_eq_true, decide_eq_true_eq] at hw
      obtain ⟨ws, named, c1, c2, c3, c4, c5⟩ :=
        ih (d.Type' ref).OfType hw.1.1 (by omega) (by omega)
      refine ⟨ref :: ws, named, ?_, by simp only [List.length_cons]; push_cast; omega, c3,
        by omega, ?_⟩
      · simp [wrapsNamed, hk, c1]
      · intro w hmem
        rcases List.mem_cons.mp hmem with rfl | hmem
        · exact ⟨h1, Int.le_refl _⟩
        · have := c5 w hmem
          omega

end parser

namespace parser

open document lookup keyword token

/-- More fuel than there are tokens never changes what `parseTypeFuel` does. -/
theorem parseTypeFuel_enough :
    ∀ (f1 f2 : Nat) (ts : List Token) (d : ParsedDefinitions), ts.length < f1 → ts.length < f2 →
      parseTypeFuel f1 ts d = parseTypeFuel f2 ts d := by
  intro f1
  induction f1 with
  | zero => intro f2 ts d h; omega
  | succ f1 ih =>
    intro f2 ts d h1 h2
    cases f2 with
    | zero => omega
    | succ f2 =>
      cases ts with
      | nil => rfl
      | cons first tl =>
        simp only [List.length_cons] at h1 h2
        simp only [parseTypeFuel]
        rw [ih f2 tl d (by omega) (by omega)]

/-- C18: when `parseType` accepts a type reference, whatever the tokens and the
pools before, it has read at least one token and appended records to the pool
of types only; the returned index is one of the new records and is the
outermost of a finite chain of list and non-null wrappers, shorter than the
number of new records, around a named type, which `UnwrappedNamedType` reaches;
and every new record of kind `NonNull` wraps a new record at a smaller index
whose kind is `Named` or `List`.  More fuel gives the same result. -/
theorem parseType_chain_finite (ts : List Token) (d : ParsedDefinitions) (ref : Int)
    (rest : List Token) (h : (parseType ts d).1 = .ok (ref, rest)) :
    d.Types <+: (parseType ts d).2.Types ∧
    (parseType ts d).2 = { d with Types := (parseType ts d).2.Types } ∧
    rest.length < ts.length ∧
    ((d.Types.length : Int) ≤ ref ∧ ref < ((parseType ts d).2.Types.length : Int)) ∧
    (∃ ws named, wrapsNamed (parseType ts d).2 ref ws named = true ∧
      ws.length < (parseType ts d).2.Types.length - d.Types.length ∧
      (∀ w ∈ ws, (d.Types.length : Int) ≤ w) ∧ (d.Types.length : Int) ≤ named ∧
      ((parseType ts d).2.Type' named).Kind = .Named ∧
      (parseType ts d).2.UnwrappedNamedType ref = (parseType ts d).2.Type' named) ∧
    (∀ i : Int, (d.Types.length : Int) ≤ i → i < ((parseType ts d).2.Types.length : Int) →
      ((parseType ts d).2.Type' i).Kind = .NonNull →
      ((d.Types.length : Int) ≤ ((parseType ts d).2.Type' i).OfType ∧
        ((parseType ts d).2.Type' i).OfType < i) ∧
      (((parseType ts d).2.Type' ((parseType ts d).2.Type' i).OfType).Kind = .Named ∨
        ((parseType ts d).2.Type' ((parseType ts d).2.Type' i).OfType).Kind = .List)) ∧
    (∀ fuel, ts.length < fuel → parseTypeFuel fuel ts d = parseType ts d) := by
  have hpair : parseTypeFuel (ts.length + 1) ts d = (.ok (ref, rest), (parseType ts d).2) := by
    have : parseType ts d = ((parseType ts d).1, (parseType ts d).2) := rfl
    rw [h] at this
    exact this
  obtain ⟨⟨ext, e1, e1'⟩, e2, e3, e4, e5⟩ := parseTypeFuel_spec d.Types.length (ts.length + 1) ts d
    ref rest (parseType ts d).2 (Nat.le_refl _) (fun i h1 h2 => by omega) hpair
  have hlen : (parseType ts d).2.Types.length = d.Types.length + ext.length := by
    rw [e1, List.length_append]
  have hext : 0 < ext.length := List.length_pos.mpr e1'
  have href : (d.Types.length : Int) ≤ ref ∧ ref < ((parseType ts d).2.Types.length : Int) := by
    omega
  refine ⟨⟨ext, e1.symm⟩, e2, e5, href, ?_, ?_, ?_⟩
  · obtain ⟨ws, named, c1, c2, c3, _, c5⟩ := wrapsNamed_of_typesWrapBelow _ _ e4
      ((ref - (d.Types.length : Int)).toNat + 1) ref href.1 href.2 (by omega)
    refine ⟨ws, named, c1, by omega, fun w hw => (c5 w hw).1, c3, ?_,
      UnwrappedNamedType_of_wrapsNamed _ ws ref named c1⟩
    have hlast : ∀ (l : List Int) (r : Int), wrapsNamed (parseType ts d).2 r l named = true →
        ((parseType ts d).2.Type' named).Kind = .Named := by
      intro l
      induction l with
      | nil =>
        intro r hr
        simp only [wrapsNamed, Bool.and_eq_true, beq_iff_eq] at hr
        exact hr.2
      | cons w l ihl =>
        intro r hr
        simp only [wrapsNamed, Bool.and_eq_true] at hr
        exact ihl _ hr.2
    exact hlast ws ref c1
  · intro i h1 h2 hk
    have hw := e4 i h1 h2
    unfold wrapsBelow at hw
    rw [hk] at hw
    simp only [Bool.and_eq_true, decide_eq_true_eq, bne_iff_ne, ne_eq] at hw
    refine ⟨hw.1, ?_⟩
    cases hk2 : ((parseType ts d).2.Type' ((parseType ts d).2.Type' i).OfType).Kind with
    | Named => exact Or.inl rfl
    | List => exact Or.inr rfl
    | NonNull => exact absurd hk2 hw.2
  · intro fuel hf
    exact parseTypeFuel_enough fuel (ts.length + 1) ts d hf (Nat.lt_succ_self _)

/-- Witness of C18: `[a!]!` is accepted and gives four records, the non-null
list at index 3 outermost. -/
theorem parseType_chain_finite_witness :
    (parseType (typeTokens "[a!]!") emptyDefinitions).1 = .ok (3, []) ∧
    (parseType (typeTokens "[a!]!") emptyDefinitions).2.Types =
      [⟨.Named, ⟨1, 2⟩, -1⟩, ⟨.NonNull, ⟨0, 0⟩, 0⟩, ⟨.List, ⟨0, 0⟩, 1⟩, ⟨.NonNull, ⟨0, 0⟩, 2⟩] ∧
    ∃ ws named, wrapsNamed (parseType (typeTokens "[a!]!") emptyDefinitions).2 3 ws named = true :=
  ⟨rfl, by decide,
    match (parseType_chain_finite (typeTokens "[a!]!") emptyDefinitions 3 [] rfl).2.2.2.2.1 with
    | ⟨ws, named, h, _⟩ => ⟨ws, named, h⟩⟩

end parser

namespace parser

open document lookup keyword token

theorem appendParsed_empty (d : ParsedDefinitions) : appendParsed d emptyDefinitions = d := by
  simp [appendParsed, emptyDefinitions]

theorem appendParsed_assoc (d a b : ParsedDefinitions) :
    appendParsed (appendParsed d a) b = appendParsed d (appendParsed a b) := by
  simp [appendParsed, List.append_assoc]

theorem grows_refl (d : ParsedDefinitions) : Grows d d :=
  ⟨emptyDefinitions, (appendParsed_empty d).symm⟩

theorem grows_trans {d1 d2 d3 : ParsedDefinitions} (h1 : Grows d1 d2) (h2 : Grows d2 d3) :
    Grows d1 d3 := by
  obtain ⟨a1, rfl⟩ := h1
  obtain ⟨a2, rfl⟩ := h2
  exact ⟨appendParsed a1 a2, appendParsed_assoc d1 a1 a2⟩

theorem grows_of_within {d d' : ParsedDefinitions} (h : Within d d') : Grows d d' := by
  obtain ⟨a, h, _⟩ := h
  exact ⟨a, h⟩

theorem within_refl (d : ParsedDefinitions) : Within d d :=
  ⟨emptyDefinitions, (appendParsed_empty d).symm, by simp [NoDefinitions, emptyDefinitions]⟩

theorem within_trans {d1 d2 d3 : ParsedDefinitions} (h1 : Within d1 d2) (h2 : Within d2 d3) :
    Within d1 d3 := by
  obtain ⟨a1, rfl, n1⟩ := h1
  obtain ⟨a2, rfl, n2⟩ := h2
  refine ⟨appendParsed a1 a2, appendParsed_assoc d1 a1 a2, ?_⟩
  simp only [NoDefinitions] at n1 n2 ⊢
  simp [appendParsed, n1, n2]

/-- What a parsing step leaves, whatever its result: the pools it started from
with records added, none of them a type-system definition. -/
theorem within_of_run {α : Type} (p : Parse α) (d d' : ParsedDefinitions)
    (r : Except String α) (h : p.run d = (r, d')) : Within d d' := by
  have := p.2 d
  unfold Parse.run at h
  rw [h] at this
  exact this

theorem within_of_runs {α β : Type} (p : Parse α) (q : Parse β) (d d1 d2 : ParsedDefinitions)
    (r1 : Except String α) (r2 : Except String β) (h1 : p.run d = (r1, d1))
    (h2 : q.run d1 = (r2, d2)) : Within d d2 :=
  within_trans (within_of_run p d d1 r1 h1) (within_of_run q d1 d2 r2 h2)

/-- The type-system definitions are not touched by the parsing of a part of a
definition. -/
theorem extendFlags_of_within {d d' : ParsedDefinitions} (h : Within d d')
    (kind : DefinitionKind) : extendFlags d' kind = extendFlags d kind := by
  obtain ⟨a, rfl, n⟩ := h
  simp only [NoDefinitions] at n
  cases kind <;> simp [extendFlags, appendParsed, n]

theorem grows_of_records {kind : DefinitionKind} {isExtend : Bool} {d d' : ParsedDefinitions}
    (h : Records kind isExtend d d') : Grows d d' := by
  cases kind <;> obtain ⟨r, _, rfl⟩ := h
  · exact ⟨{ emptyDefinitions with SchemaDefinitions := [r] },
      by simp [appendParsed, emptyDefinitions]⟩
  · exact ⟨{ emptyDefinitions with ScalarTypeDefinitions := [r] },
      by simp [appendParsed, emptyDefinitions]⟩
  · exact ⟨{ emptyDefinitions with ObjectTypeDefinitions := [r] },
      by simp [appendParsed, emptyDefinitions]⟩
  · exact ⟨{ emptyDefinitions with InterfaceTypeDefinitions := [r] },
      by simp [appendParsed, emptyDefinitions]⟩
  · exact ⟨{ emptyDefinitions with UnionTypeDefinitions := [r] },
      by simp [appendParsed, emptyDefinitions]⟩
  · exact ⟨{ emptyDefinitions with EnumTypeDefinitions := [r] },
      by simp [appendParsed, emptyDefinitions]⟩
  · exact ⟨{ emptyDefinitions with InputObjectTypeDefinitions := [r] },
      by simp [appendParsed, emptyDefinitions]⟩
  · exact ⟨{ emptyDefinitions with DirectiveDefinitions := [r] },
      by simp [appendParsed, emptyDefinitions]⟩

/-- One record more in the pool of a kind: its flag is the last of the flags of
that kind, and the flags of the other kinds are as they were. -/
theorem extendFlags_of_records {kind : DefinitionKind} {isExtend : Bool}
    {d d' : ParsedDefinitions} (h : Records kind isExtend d d') (k : DefinitionKind) :
    extendFlags d' k = extendFlags d k ++ (if k = kind then [isExtend] else []) := by
  cases kind <;> obtain ⟨r, hr, rfl⟩ := h <;> cases k <;> simp [extendFlags, hr]

theorem parseRootOperationTypes_flag :
    ∀ (fuel : Nat) (schema schema' : SchemaDefinition) (ts rest : List Token),
      parseRootOperationTypes fuel schema ts = .ok (schema', rest) →
      schema'.IsExtend = schema.IsExtend := by
  intro fuel
  induction fuel with
  | zero => intro _ _ _ _ h; simp [parseRootOperationTypes] at h
  | succ fuel ih =>
    intro schema schema' ts rest h
    cases ts with
    | nil => simp [parseRootOperationTypes] at h
    | cons t ts =>
      simp only [parseRootOperationTypes] at h
      repeat' split at h
      all_goals first
        | (cases h; rfl)
        | (have e := ih _ _ _ _ h; exact e)
        | cases h

/-- What the parsing function of a kind of definition does to the pools: after
an error, records of parts of the definition are added; after a definition is
read, one record with the flag `isExtend` is put into the pool of the kind, on
top of the records of the parts. -/
theorem parseDefinition_result (kind : DefinitionKind) (hasDescription isExtend : Bool)
    (description : Token) (ts : List Token) (d d' : ParsedDefinitions)
    (r : Except String (List Token))
    (h : parseDefinition kind hasDescription isExtend description ts d = (r, d')) :
    (∃ e, r = .error e ∧ Within d d') ∨
    (∃ rest' d1, r = .ok rest' ∧ Within d d1 ∧ Records kind isExtend d1 d') := by
  cases kind <;> simp only [parseDefinition] at h
  case Schema =>
    unfold parseSchemaDefinition at h
    repeat' split at h
    all_goals cases h
    all_goals first
      | exact Or.inl ⟨_, rfl, within_refl _⟩
      | (refine Or.inl ⟨_, rfl, ?_⟩; apply within_of_run; assumption)
      | (refine Or.inr ⟨_, ?_, rfl, ?_, ?_⟩
         rotate_left
         · apply within_of_run; assumption
         · refine ⟨_, ?_, rfl⟩
           rename_i hroot
           exact parseRootOperationTypes_flag _ _ _ _ _ hroot)
  case Scalar =>
    unfold parseScalarTypeDefinition at h
    repeat' split at h
    all_goals cases h
    all_goals first
      | exact Or.inl ⟨_, rfl, within_refl _⟩
      | (refine Or.inl ⟨_, rfl, ?_⟩; apply within_of_run; assumption)
      | (refine Or.inr ⟨_, ?_, rfl, ?_, ?_⟩
         rotate_left
         · apply within_of_run; assumption
         · exact ⟨_, rfl, rfl⟩)
  case Object =>
    unfold parseObjectTypeDefinition at h
    repeat' split at h
    all_goals cases h
    all_goals first
      | exact Or.inl ⟨_, rfl, within_refl _⟩
      | (refine Or.inl ⟨_, rfl, ?_⟩; apply within_of_run; assumption)
      | (refine Or.inl ⟨_, rfl, ?_⟩; apply within_of_runs; assumption; assumption)
      | (refine Or.inr ⟨_, ?_, rfl, ?_, ?_⟩
         rotate_left
         · apply within_of_runs; assumption; assumption
         · exact ⟨_, rfl, rfl⟩)
  case Interface =>
    unfold parseInterfaceTypeDefinition at h
    repeat' split at h
    all_goals cases h
    all_goals first
      | exact Or.inl ⟨_, rfl, within_refl _⟩
      | (refine Or.inl ⟨_, rfl, ?_⟩; apply within_of_run; assumption)
      | (refine Or.inl ⟨_, rfl, ?_⟩; apply within_of_runs; assumption; assumption)
      | (refine Or.inr ⟨_, ?_, rfl, ?_, ?_⟩
         rotate_left
         · apply within_of_runs; assumption; assumption
         · exact ⟨_, rfl, rfl⟩)
  case Union =>
    unfold parseUnionTypeDefinition at h
    repeat' split at h
    all_goals cases h
    all_goals first
      | exact Or.inl ⟨_, rfl, within_refl _⟩
      | (refine Or.inl ⟨_, rfl, ?_⟩; apply within_of_run; assumption)
      | (refine Or.inr ⟨_, ?_, rfl, ?_, ?_⟩
         rotate_left
         · apply within_of_run; assumption
         · exact ⟨_, rfl, rfl⟩)
  case Enum =>
    unfold parseEnumTypeDefinition at h
    repeat' split at h
    all_goals cases h
    all_goals first
      | exact Or.inl ⟨_, rfl, within_refl _⟩
      | (refine Or.inl ⟨_, rfl, ?_⟩; apply within_of_run; assumption)
      | (refine Or.inl ⟨_, rfl, ?_⟩; apply within_of_runs; assumption; assumption)
      | (refine Or.inr ⟨_, ?_, rfl, ?_, ?_⟩
         rotate_left
         · apply within_of_runs; assumption; assumption
         · exact ⟨_, rfl, rfl⟩)
  case InputObject =>
    unfold parseInputObjectTypeDefinition at h
    repeat' split at h
    all_goals cases h
    all_goals first
      | exact Or.inl ⟨_, rfl, within_refl _⟩
      | (refine Or.inl ⟨_, rfl, ?_⟩; apply within_of_run; assumption)
      | (refine Or.inl ⟨_, rfl, ?_⟩; apply within_of_runs; assumption; assumption)
      | (refine Or.inr ⟨_, ?_, rfl, ?_, ?_⟩
         rotate_left
         · apply within_of_runs; assumption; assumption
         · exact ⟨_, rfl, rfl⟩)
  case Directive =>
    unfold parseDirectiveDefinition at h
    repeat' split at h
    all_goals cases h
    all_goals first
      | exact Or.inl ⟨_, rfl, within_refl _⟩
      | (refine Or.inl ⟨_, rfl, ?_⟩; apply within_of_run; assumption)
      | (refine Or.inr ⟨_, ?_, rfl, ?_, ?_⟩
         rotate_left
         · apply within_of_run; assumption
         · exact ⟨_, rfl, rfl⟩)

theorem parseDefinition_grows (kind : DefinitionKind) (hasDescription isExtend : Bool)
    (description : Token) (ts : List Token) (d : ParsedDefinitions) :
    Grows d (parseDefinition kind hasDescription isExtend description ts d).2 := by
  rcases parseDefinition_result kind hasDescription isExtend description ts d _ _ rfl with
    ⟨_, _, w⟩ | ⟨_, d1, _, w, hr⟩
  · exact grows_of_within w
  · exact grows_trans (grows_of_within w) (grows_of_records hr)

/-- Parsing a type-system document only adds records at the end of pools,
whether it ends in an error or not. -/
theorem parseTypeSystemLoop_grows :
    ∀ (fuel : Nat) (hasDescription isExtend : Bool) (description : Token) (ts : List Token)
      (d : ParsedDefinitions),
      Grows d (parseTypeSystemLoop fuel hasDescription isExtend description ts d).2 := by
  intro fuel
  induction fuel with
  | zero => intro _ _ _ _ d; exact grows_refl d
  | succ fuel ih =>
    intro hasDescription isExtend description ts d
    cases ts with
    | nil => exact grows_refl d
    | cons next rest =>
      simp only [parseTypeSystemLoop]
      split
      · exact ih _ _ _ _ _
      · split
        · exact ih _ _ _ _ _
        · split
          · exact grows_refl d
          · rename_i kind _
            have g := parseDefinition_grows kind hasDescription isExtend description
              (next :: rest) d
            split
            · rename_i hp
              rw [hp] at g
              exact g
            · rename_i hp
              rw [hp] at g
              exact grows_trans g (ih _ _ _ _ _)

theorem definitionKind_not_before (t : Token) (kind : DefinitionKind)
    (h : definitionKind t.Keyword = some kind) : isBeforeDefinition t = false := by
  cases hk : t.Keyword <;> rw [hk] at h <;> simp [definitionKind] at h <;>
    simp [isBeforeDefinition, hk]

/-- What an accepted loop has done: it has read the definitions of the grammar,
the first of them with the description and the `extend` flag that the loop
started with, and has put one record for each into the pool of its kind, with
the flag of the definition. -/
theorem parseTypeSystemLoop_sound :
    ∀ (fuel : Nat) (hasDescription isExtend : Bool) (description : Token) (ts : List Token)
      (d d' : ParsedDefinitions),
      parseTypeSystemLoop fuel hasDescription isExtend description ts d = (.ok (), d') →
      ∀ before : List Token, (∀ t ∈ before, isBeforeDefinition t = true) →
        hasDescription = before.any (fun t => t.Keyword = .STRING) →
        isExtend = before.any (fun t => t.Keyword = .EXTEND) →
        description = descriptionAmong before →
        ∃ defs, Introduces (before ++ ts) d d' defs ∧
          ∀ kind, extendFlags d' kind =
            extendFlags d kind ++ (defs.filter (fun p => p.1 = kind)).map (fun p => p.2) := by
  intro fuel
  induction fuel with
  | zero =>
    intro _ _ _ ts d d' h
    simp [parseTypeSystemLoop] at h
  | succ fuel ih =>
    intro hasDescription isExtend description ts d d' h before hbefore hd he hdesc
    cases ts with
    | nil =>
      simp only [parseTypeSystemLoop, Prod.mk.injEq, true_and] at h
      subst h
      exact ⟨[], by simpa using Introduces.done before d hbefore, by simp⟩
    | cons next rest =>
      simp only [parseTypeSystemLoop] at h
      split at h
      · -- a description
        rename_i hs
        obtain ⟨defs, r1, r2⟩ := ih _ _ _ _ _ _ h (before ++ [next])
          (by
            intro t ht
            rcases List.mem_append.mp ht with ht | ht
            · exact hbefore t ht
            · simp only [List.mem_singleton] at ht
              subst ht
              simp [isBeforeDefinition, hs])
          (by simp [hs])
          (by simp [he, hs])
          (by simp [descriptionAmong, List.filter_append, hs])
        exact ⟨defs, by simpa using r1, r2⟩
      · split at h
        · -- the keyword extend
          rename_i hs hx
          obtain ⟨defs, r1, r2⟩ := ih _ _ _ _ _ _ h (before ++ [next])
            (by
              intro t ht
              rcases List.mem_append.mp ht with ht | ht
              · exact hbefore t ht
              · simp only [List.mem_singleton] at ht
                subst ht
                simp [isBeforeDefinition, hx])
            (by simp [hd, hx])
            (by simp [hx])
            (by simp [descriptionAmong, List.filter_append, hx, hdesc])
          exact ⟨defs, by simpa using r1, r2⟩
        · split at h
          · cases h
          · rename_i kind hkind
            split at h
            · cases h
            · rename_i rest' d1 hp
              obtain ⟨defs, r1, r2⟩ := ih _ _ _ _ _ _ h [] (by simp) (by simp) (by simp)
                (by simp [descriptionAmong])
              rcases parseDefinition_result kind hasDescription isExtend description
                  (next :: rest) d d1 _ hp with ⟨_, hne, _⟩ | ⟨_, d0, _, w, hr⟩
              · cases hne
              · subst hd he hdesc
                refine ⟨(kind, before.any (fun t => t.Keyword = .EXTEND)) :: defs,
                  Introduces.definition before next rest rest' kind d d1 d' defs hbefore hkind hp
                    (by simpa using r1), ?_⟩
                intro k
                rw [r2 k, extendFlags_of_records hr k, extendFlags_of_within w k]
                by_cases hk : k = kind
                · subst hk
                  simp
                · have hk' : ¬ kind = k := fun e => hk e.symm
                  simp [hk, hk']

theorem introduces_cases {ts : List Token} {d d' : ParsedDefinitions}
    {defs : List (DefinitionKind × Bool)} (h : Introduces ts d d' defs) :
    (defs = [] ∧ d' = d ∧ ∀ t ∈ ts, isBeforeDefinition t = true) ∨
    (∃ before kw rest rest' kind d1 defs1,
      ts = before ++ kw :: rest ∧ (∀ t ∈ before, isBeforeDefinition t = true) ∧
      definitionKind kw.Keyword = some kind ∧
      parseDefinition kind (before.any (fun t => t.Keyword = .STRING))
        (before.any (fun t => t.Keyword = .EXTEND)) (descriptionAmong before)
        (kw :: rest) d = (.ok rest', d1) ∧
      Introduces rest' d1 d' defs1 ∧
      defs = (kind, before.any (fun t => t.Keyword = .EXTEND)) :: defs1) := by
  cases h with
  | done before d hbefore => exact Or.inl ⟨rfl, rfl, hbefore⟩
  | definition before kw rest rest' kind d d1 d' defs1 hbefore hkind hparse hrest =>
    exact Or.inr ⟨before, kw, rest, rest', kind, d1, defs1, rfl, hbefore, hkind, hparse, hrest,
      rfl⟩

/-- Where the first definition keyword of a document stands is determined by
the document. -/
theorem before_unique :
    ∀ (b1 b2 : List Token) (k1 k2 : Token) (r1 r2 : List Token),
      b1 ++ k1 :: r1 = b2 ++ k2 :: r2 →
      (∀ t ∈ b1, isBeforeDefinition t = true) → (∀ t ∈ b2, isBeforeDefinition t = true) →
      isBeforeDefinition k1 = false → isBeforeDefinition k2 = false →
      b1 = b2 ∧ k1 = k2 ∧ r1 = r2 := by
  intro b1
  induction b1 with
  | nil =>
    intro b2 k1 k2 r1 r2 h _ h2 n1 _
    cases b2 with
    | nil =>
      simp only [List.nil_append, List.cons.injEq] at h
      exact ⟨rfl, h.1, h.2⟩
    | cons t b2 =>
      simp only [List.nil_append, List.cons_append, List.cons.injEq] at h
      have := h2 t (by simp)
      rw [← h.1, n1] at this
      cases this
  | cons t b1 ih =>
    intro b2 k1 k2 r1 r2 h h1 h2 n1 n2
    cases b2 with
    | nil =>
      simp only [List.nil_append, List.cons_append, List.cons.injEq] at h
      have := h1 t (by simp)
      rw [h.1, n2] at this
      cases this
    | cons t2 b2 =>
      simp only [List.cons_append, List.cons.injEq] at h
      obtain ⟨e1, e2, e3⟩ := ih b2 k1 k2 r1 r2 h.2
        (fun x hx => h1 x (by simp [hx])) (fun x hx => h2 x (by simp [hx])) n1 n2
      exact ⟨by rw [h.1, e1], e2, e3⟩

/-- A document has one sequence of definitions. -/
theorem introduces_unique {ts : List Token} {d d1 : ParsedDefinitions}
    {defs1 : List (DefinitionKind × Bool)} (h1 : Introduces ts d d1 defs1) :
    ∀ (d2 : ParsedDefinitions) (defs2 : List (DefinitionKind × Bool)),
      Introduces ts d d2 defs2 → defs2 = defs1 ∧ d2 = d1 := by
  induction h1 with
  | done before d hbefore =>
    intro d2 defs2 h2
    rcases introduces_cases h2 with ⟨e1, e2, _⟩ |
      ⟨b2, kw, rest, rest', kind, dm, defs', hts, _, hkind, _, _, _⟩
    · exact ⟨e1, e2⟩
    · have := hbefore kw (by rw [hts]; simp)
      rw [definitionKind_not_before kw kind hkind] at this
      cases this
  | definition before kw rest rest' kind d dm d1 defs hbefore hkind hparse _ ih =>
    intro d2 defs2 h2
    rcases introduces_cases h2 with ⟨_, _, hall⟩ |
      ⟨b2, kw2, rest2, rest2', kind2, dm2, defs', hts, hb2, hkind2, hparse2, hrest2, hdefs⟩
    · have := hall kw (by simp)
      rw [definitionKind_not_before kw kind hkind] at this
      cases this
    · obtain ⟨e1, e2, e3⟩ := before_unique before b2 kw kw2 rest rest2 hts hbefore hb2
        (definitionKind_not_before kw kind hkind) (definitionKind_not_before kw2 kind2 hkind2)
      subst e1 e2 e3
      rw [hkind] at hkind2
      cases hkind2
      rw [hparse] at hparse2
      cases hparse2
      obtain ⟨i1, i2⟩ := ih d2 defs' hrest2
      exact ⟨by rw [hdefs, i1], i2⟩

theorem rollback_appendParsed (d added : ParsedDefinitions) :
    rollback d (appendParsed d added) = d := by
  simp [rollback, appendParsed]

/-- C19: when `ParseTypeSystemDefinition` or `ExtendTypeSystemDefinition`
accepts a type-system document, the document is a sequence of definitions as
the grammar has them (in one way only), each with the tokens before its keyword
(descriptions and `extend` keywords), and for each of the eight kinds (schema,
scalar, object, interface, union, enum, input object, directive) the `IsExtend`
flags of the records that the call has put into the pool of the kind are, in
order, whether the `extend` keyword stands before the keyword of the
definitions of that kind: a record has the flag if and only if `extend`
introduces its definition.  The records that were in the pools before the call
keep their flags. -/
theorem IsExtend_iff_extend_keyword (ts : List Token) (d d' : ParsedDefinitions)
    (h : ParseTypeSystemDefinition ts d = (.ok (), d') ∨
      ExtendTypeSystemDefinition ts d = (.ok (), d')) :
    ∃ defs, Introduces ts d d' defs ∧
      (∀ d2 defs2, Introduces ts d d2 defs2 → defs2 = defs ∧ d2 = d') ∧
      ∀ kind, extendFlags d' kind =
        extendFlags d kind ++ (defs.filter (fun p => p.1 = kind)).map (fun p => p.2) := by
  have hloop : parseTypeSystemDefinition ts d = (.ok (), d') := by
    rcases h with h | h
    · unfold ParseTypeSystemDefinition at h
      split at h
      · rename_i hp
        cases h
        exact hp
      · cases h
    · unfold ExtendTypeSystemDefinition at h
      split at h
      · rename_i hp
        cases h
        exact hp
      · cases h
  obtain ⟨defs, r1, r2⟩ := parseTypeSystemLoop_sound _ _ _ _ _ _ _ hloop [] (by simp)
    (by simp) (by simp) (by simp [descriptionAmong])
  exact ⟨defs, by simpa using r1, introduces_unique (by simpa using r1), r2⟩

set_option maxRecDepth 100000 in
/-- Witness of C19: the document with a definition and an extension of each
kind is accepted, and in the pool of every kind the first record has the flag
`false` and the second the flag `true`. -/
theorem IsExtend_iff_extend_keyword_witness :
    (ParseTypeSystemDefinition allKindsTokens (withInput allKindsInput)).1 = .ok () ∧
    (∀ kind, extendFlags (ParseTypeSystemDefinition allKindsTokens (withInput allKindsInput)).2
      kind = [false, true]) ∧
    ∃ defs, Introduces allKindsTokens (withInput allKindsInput)
        (ParseTypeSystemDefinition allKindsTokens (withInput allKindsInput)).2 defs ∧
      (∀ d2 defs2, Introduces allKindsTokens (withInput allKindsInput) d2 defs2 →
        defs2 = defs ∧
        d2 = (ParseTypeSystemDefinition allKindsTokens (withInput allKindsInput)).2) ∧
      ∀ kind,
        extendFlags (ParseTypeSystemDefinition allKindsTokens (withInput allKindsInput)).2 kind =
        extendFlags (withInput allKindsInput) kind ++
          (defs.filter (fun p => p.1 = kind)).map (fun p => p.2) :=
  ⟨rfl, by intro kind; cases kind <;> rfl,
    IsExtend_iff_extend_keyword allKindsTokens (withInput allKindsInput) _ (Or.inl rfl)⟩

/-- C20: when `ParseTypeSystemDefinition`, `ParseExecutableDefinition` or
`ExtendTypeSystemDefinition` returns an error, the pools after the call are the
pools before the call: the input and every pool are what they were, so every
pool has its prior length and no record of a partially parsed definition is
there.  The first two calls give the pools back as they were; the extension
has added records to the pools up to the error (the loop over
`extend scalar C @a(x: 1) scalar` has put the scalar `C`, its directive, the
argument and its value into the pools) and cuts every pool to its prior
length, which restores the pools because parsing only adds records at the end
of pools.  On the pools left by `scalar A extend scalar B` the broken
extension returns an error and these pools; the unclosed query returns an
error and the pools it was given. -/
theorem parse_error_rolls_back :
    (∀ (ts : List Token) (d d' : ParsedDefinitions) (e : String),
      ParseTypeSystemDefinition ts d = (.error e, d') → d' = d) ∧
    (∀ (ts : List Token) (d d' : ParsedDefinitions) (e : String),
      ParseExecutableDefinition ts d = (.error e, d') → d' = d) ∧
    (∀ (ts : List Token) (d d' : ParsedDefinitions) (e : String),
      ExtendTypeSystemDefinition ts d = (.error e, d') → d' = d) ∧
    (∀ (ts : List Token) (d : ParsedDefinitions),
      Grows d (parseTypeSystemDefinition ts d).2 ∧ Grows d (parseExecutableDefinition ts d).2) ∧
    (parseTypeSystemDefinition brokenScalarTokens
        (ParseTypeSystemDefinition scalarTokens (withInput [])).2).1 =
      .error "unexpected end of input" ∧
    ((parseTypeSystemDefinition brokenScalarTokens
        (ParseTypeSystemDefinition scalarTokens (withInput [])).2).2.ScalarTypeDefinitions.length,
     (parseTypeSystemDefinition brokenScalarTokens
        (ParseTypeSystemDefinition scalarTokens (withInput [])).2).2.Values.length) = (3, 1) ∧
    ExtendTypeSystemDefinition brokenScalarTokens
        (ParseTypeSystemDefinition scalarTokens (withInput [])).2 =
      (.error "unexpected end of input", (ParseTypeSystemDefinition scalarTokens (withInput [])).2) ∧
    ((ParseTypeSystemDefinition scalarTokens (withInput [])).2.ScalarTypeDefinitions.length,
     (ParseTypeSystemDefinition scalarTokens (withInput [])).2.Values.length) = (2, 0) ∧
    ParseTypeSystemDefinition brokenScalarTokens (withInput []) =
      (.error "unexpected end of input", withInput []) ∧
    (parseExecutableDefinition brokenQueryTokens (withInput [])).2.Fields.length = 3 ∧
    ParseExecutableDefinition brokenQueryTokens (withInput []) =
      (.error "unexpected end of input", withInput []) := by
  refine ⟨?_, ?_, ?_, ?_, rfl, rfl, rfl, rfl, rfl, rfl, rfl⟩
  · intro ts d d' e h
    unfold ParseTypeSystemDefinition at h
    split at h
    · cases h
    · cases h
      rfl
  · intro ts d d' e h
    unfold ParseExecutableDefinition at h
    split at h
    · cases h
    · cases h
      rfl
  · intro ts d d' e h
    unfold ExtendTypeSystemDefinition at h
    split at h
    · cases h
    · rename_i d1 hp
      cases h
      have g := parseTypeSystemLoop_grows (ts.length + 1) false false noToken ts d
      unfold parseTypeSystemDefinition at hp
      rw [hp] at g
      obtain ⟨added, rfl⟩ := g
      exact rollback_appendParsed d added
  · intro ts d
    exact ⟨parseTypeSystemLoop_grows _ _ _ _ _ _,
      grows_of_within (within_of_run _ _ _ _ rfl)⟩

end parser

namespace parser

open document lookup keyword token

theorem stable_refl (d : ParsedDefinitions) : Stable ⟨[], [], []⟩ d d where
  input := List.prefix_refl _
  types := List.prefix_refl _
  arguments := List.prefix_refl _
  fragmentSpreads := List.prefix_refl _
  inlineFragments := List.prefix_refl _
  operationDefinitions := List.prefix_refl _
  fragmentDefinitions := List.prefix_refl _
  operations := List.prefix_refl _
  fragments := List.prefix_refl _
  fieldDefinitions := List.prefix_refl _
  objectTypeDefinitions := List.prefix_refl _
  values := List.prefix_refl _
  byteSliceReferences := List.prefix_refl _
  directives := List.prefix_refl _
  directiveSets := List.prefix_refl _
  inputValueDefinitions := List.prefix_refl _
  directiveDefinitions := List.prefix_refl _
  listValues := List.prefix_refl _
  objectValues := List.prefix_refl _
  objectFields := List.prefix_refl _
  schemaDefinitions := List.prefix_refl _
  scalarTypeDefinitions := List.prefix_refl _
  interfaceTypeDefinitions := List.prefix_refl _
  unionTypeDefinitions := List.prefix_refl _
  enumTypeDefinitions := List.prefix_refl _
  enumValueDefinitions := List.prefix_refl _
  inputObjectTypeDefinitions := List.prefix_refl _
  variableDefinitions := List.prefix_refl _
  fieldsLength := Nat.le_refl _
  fields := fun _ _ _ => ⟨rfl, rfl, rfl, rfl, rfl, fun _ => rfl⟩
  selectionSetsLength := Nat.le_refl _
  selectionSets := fun _ _ _ => ⟨rfl, rfl, fun _ => rfl⟩
  argumentSetsLength := Nat.le_refl _
  argumentSets := fun _ _ _ _ => rfl

/-- Two stretches of a sequence, one after the other: what the first keeps and
the second keeps is kept, with the records that calls were made on in either
of them. -/
theorem stable_trans {r1 r2 : Rewrites} {d1 d2 d3 : ParsedDefinitions}
    (h1 : Stable r1 d1 d2) (h2 : Stable r2 d2 d3) :
    Stable ⟨r1.Fields ++ r2.Fields, r1.SelectionSets ++ r2.SelectionSets,
      r1.ArgumentSets ++ r2.ArgumentSets⟩ d1 d3 where
  input := h1.input.trans h2.input
  types := h1.types.trans h2.types
  arguments := h1.arguments.trans h2.arguments
  fragmentSpreads := h1.fragmentSpreads.trans h2.fragmentSpreads
  inlineFragments := h1.inlineFragments.trans h2.inlineFragments
  operationDefinitions := h1.operationDefinitions.trans h2.operationDefinitions
  fragmentDefinitions := h1.fragmentDefinitions.trans h2.fragmentDefinitions
  operations := h1.operations.trans h2.operations
  fragments := h1.fragments.trans h2.fragments
  fieldDefinitions := h1.fieldDefinitions.trans h2.fieldDefinitions
  objectTypeDefinitions := h1.objectTypeDefinitions.trans h2.objectTypeDefinitions
  values := h1.values.trans h2.values
  byteSliceReferences := h1.byteSliceReferences.trans h2.byteSliceReferences
  directives := h1.directives.trans h2.directives
  directiveSets := h1.directiveSets.trans h2.directiveSets
  inputValueDefinitions := h1.inputValueDefinitions.trans h2.inputValueDefinitions
  directiveDefinitions := h1.directiveDefinitions.trans h2.directiveDefinitions
  listValues := h1.listValues.trans h2.listValues
  objectValues := h1.objectValues.trans h2.objectValues
  objectFields := h1.objectFields.trans h2.objectFields
  schemaDefinitions := h1.schemaDefinitions.trans h2.schemaDefinitions
  scalarTypeDefinitions := h1.scalarTypeDefinitions.trans h2.scalarTypeDefinitions
  interfaceTypeDefinitions := h1.interfaceTypeDefinitions.trans h2.interfaceTypeDefinitions
  unionTypeDefinitions := h1.unionTypeDefinitions.trans h2.unionTypeDefinitions
  enumTypeDefinitions := h1.enumTypeDefinitions.trans h2.enumTypeDefinitions
  enumValueDefinitions := h1.enumValueDefinitions.trans h2.enumValueDefinitions
  inputObjectTypeDefinitions := h1.inputObjectTypeDefinitions.trans h2.inputObjectTypeDefinitions
  variableDefinitions := h1.variableDefinitions.trans h2.variableDefinitions
  fieldsLength := Nat.le_trans h1.fieldsLength h2.fieldsLength
  fields := by
    intro i h0 hi
    have a := h1.fields i h0 hi
    have b := h2.fields i h0 (by have := h1.fieldsLength; omega)
    refine ⟨b.1.trans a.1, b.2.1.trans a.2.1, b.2.2.1.trans a.2.2.1,
      b.2.2.2.1.trans a.2.2.2.1, b.2.2.2.2.1.trans a.2.2.2.2.1, ?_⟩
    intro hn
    simp only [List.mem_append, not_or] at hn
    exact (b.2.2.2.2.2 hn.2).trans (a.2.2.2.2.2 hn.1)
  selectionSetsLength := Nat.le_trans h1.selectionSetsLength h2.selectionSetsLength
  selectionSets := by
    intro i h0 hi
    have a := h1.selectionSets i h0 hi
    have b := h2.selectionSets i h0 (by have := h1.selectionSetsLength; omega)
    refine ⟨b.1.trans a.1, b.2.1.trans a.2.1, ?_⟩
    intro hn
    simp only [List.mem_append, not_or] at hn
    exact (b.2.2 hn.2).trans (a.2.2 hn.1)
  argumentSetsLength := Nat.le_trans h1.argumentSetsLength h2.argumentSetsLength
  argumentSets := by
    intro i h0 hi hn
    simp only [List.mem_append, not_or] at hn
    exact (h2.argumentSets i h0 (by have := h1.argumentSetsLength; omega) hn.2).trans
      (h1.argumentSets i h0 hi hn.1)

/-- Records added at the end of pools leave every index resolving to the same
record. -/
theorem stable_appendParsed (d added : ParsedDefinitions) :
    Stable ⟨[], [], []⟩ d (appendParsed d added) where
  input := List.prefix_append _ _
  types := List.prefix_append _ _
  arguments := List.prefix_append _ _
  fragmentSpreads := List.prefix_append _ _
  inlineFragments := List.prefix_append _ _
  operationDefinitions := List.prefix_append _ _
  fragmentDefinitions := List.prefix_append _ _
  operations := List.prefix_append _ _
  fragments := List.prefix_append _ _
  fieldDefinitions := List.prefix_append _ _
  objectTypeDefinitions := List.prefix_append _ _
  values := List.prefix_append _ _
  byteSliceReferences := List.prefix_append _ _
  directives := List.prefix_append _ _
  directiveSets := List.prefix_append _ _
  inputValueDefinitions := List.prefix_append _ _
  directiveDefinitions := List.prefix_append _ _
  listValues := List.prefix_append _ _
  objectValues := List.prefix_append _ _
  objectFields := List.prefix_append _ _
  schemaDefinitions := List.prefix_append _ _
  scalarTypeDefinitions := List.prefix_append _ _
  interfaceTypeDefinitions := List.prefix_append _ _
  unionTypeDefinitions := List.prefix_append _ _
  enumTypeDefinitions := List.prefix_append _ _
  enumValueDefinitions := List.prefix_append _ _
  inputObjectTypeDefinitions := List.prefix_append _ _
  variableDefinitions := List.prefix_append _ _
  fieldsLength := by simp [appendParsed]
  fields := by
    intro i _ hi
    have : (appendParsed d added).Field i = d.Field i := by
      simp only [ParsedDefinitions.Field, appendParsed]
      rw [getAt_append_left _ _ _ hi]
    rw [this]
    exact ⟨rfl, rfl, rfl, rfl, rfl, fun _ => rfl⟩
  selectionSetsLength := by simp [appendParsed]
  selectionSets := by
    intro i _ hi
    have : (appendParsed d added).SelectionSet i = d.SelectionSet i := by
      simp only [ParsedDefinitions.SelectionSet, appendParsed]
      rw [getAt_append_left _ _ _ hi]
    rw [this]
    exact ⟨rfl, rfl, fun _ => rfl⟩
  argumentSetsLength := by simp [appendParsed]
  argumentSets := by
    intro i _ hi _
    simp only [ParsedDefinitions.ArgumentSet, appendParsed]
    rw [getAt_append_left _ _ _ hi]

theorem stable_of_grows {d d' : ParsedDefinitions} (h : Grows d d') :
    Stable ⟨[], [], []⟩ d d' := by
  obtain ⟨added, rfl⟩ := h
  exact stable_appendParsed d added

/-- A call that changes at most the three pools that are rewritten in place is
stable when it keeps their lengths and what `Stable` says of their entries. -/
theorem stable_of_pools (r : Rewrites) (d d' : ParsedDefinitions)
    (hrest : d' =
      { d with
        Fields := d'.Fields
        SelectionSets := d'.SelectionSets
        ArgumentSets := d'.ArgumentSets })
    (hfl : d.Fields.length ≤ d'.Fields.length)
    (hf : ∀ i : Int, 0 ≤ i → i < (d.Fields.length : Int) →
      (d'.Field i).Alias = (d.Field i).Alias ∧ (d'.Field i).Name = (d.Field i).Name ∧
      (d'.Field i).DirectiveSet = (d.Field i).DirectiveSet ∧
      (d'.Field i).SelectionSet = (d.Field i).SelectionSet ∧
      (d'.Field i).Position = (d.Field i).Position ∧
      (i ∉ r.Fields → (d'.Field i).ArgumentSet = (d.Field i).ArgumentSet))
    (hsl : d.SelectionSets.length ≤ d'.SelectionSets.length)
    (hs : ∀ i : Int, 0 ≤ i → i < (d.SelectionSets.length : Int) →
      (d'.SelectionSet i).FragmentSpreads = (d.SelectionSet i).FragmentSpreads ∧
      (d'.SelectionSet i).InlineFragments = (d.SelectionSet i).InlineFragments ∧
      (i ∉ r.SelectionSets → (d'.SelectionSet i).Fields = (d.SelectionSet i).Fields))
    (hal : d.ArgumentSets.length ≤ d'.ArgumentSets.length)
    (ha : ∀ i : Int, 0 ≤ i → i < (d.ArgumentSets.length : Int) →
      i ∉ r.ArgumentSets → d'.ArgumentSet i = d.ArgumentSet i) : Stable r d d' where
  input := by rw [hrest]
  types := by rw [hrest]
  arguments := by rw [hrest]
  fragmentSpreads := by rw [hrest]
  inlineFragments := by rw [hrest]
  operationDefinitions := by rw [hrest]
  fragmentDefinitions := by rw [hrest]
  operations := by rw [hrest]
  fragments := by rw [hrest]
  fieldDefinitions := by rw [hrest]
  objectTypeDefinitions := by rw [hrest]
  values := by rw [hrest]
  byteSliceReferences := by rw [hrest]
  directives := by rw [hrest]
  directiveSets := by rw [hrest]
  inputValueDefinitions := by rw [hrest]
  directiveDefinitions := by rw [hrest]
  listValues := by rw [hrest]
  objectValues := by rw [hrest]
  objectFields := by rw [hrest]
  schemaDefinitions := by rw [hrest]
  scalarTypeDefinitions := by rw [hrest]
  interfaceTypeDefinitions := by rw [hrest]
  unionTypeDefinitions := by rw [hrest]
  enumTypeDefinitions := by rw [hrest]
  enumValueDefinitions := by rw [hrest]
  inputObjectTypeDefinitions := by rw [hrest]
  variableDefinitions := by rw [hrest]
  fieldsLength := hfl
  fields := hf
  selectionSetsLength := hsl
  selectionSets := hs
  argumentSetsLength := hal
  argumentSets := ha

end parser

namespace parser

open document lookup keyword token

theorem stable_PutLiteralString (d : ParsedDefinitions) (b : List Nat) :
    Stable ⟨[], [], []⟩ d (PutLiteralString d b).2 :=
  stable_of_grows
    ⟨{ emptyDefinitions with
        Input := b
        ByteSliceReferences := [⟨d.Input.length, d.Input.length + b.length⟩] },
      by simp [PutLiteralString, appendParsed, emptyDefinitions]⟩

theorem stable_PutValue (d : ParsedDefinitions) (v : Value) :
    Stable ⟨[], [], []⟩ d (PutValue d v).2 :=
  stable_of_grows ⟨{ emptyDefinitions with Values := [v] },
    by simp [PutValue, appendParsed, emptyDefinitions]⟩

theorem stable_PutArgument (d : ParsedDefinitions) (a : Argument) :
    Stable ⟨[], [], []⟩ d (PutArgument d a).2 :=
  stable_of_grows ⟨{ emptyDefinitions with Arguments := [a] },
    by simp [PutArgument, appendParsed, emptyDefinitions]⟩

theorem stable_PutField (d : ParsedDefinitions) (f : Field) :
    Stable ⟨[], [], []⟩ d (PutField d f).2 :=
  stable_of_grows ⟨{ emptyDefinitions with Fields := [f] },
    by simp [PutField, appendParsed, emptyDefinitions]⟩

theorem stable_ParseTypeSystemDefinition (ts : List Token) (d : ParsedDefinitions) :
    Stable ⟨[], [], []⟩ d (ParseTypeSystemDefinition ts d).2 := by
  unfold ParseTypeSystemDefinition
  split
  · rename_i hp
    have g := parseTypeSystemLoop_grows (ts.length + 1) false false noToken ts d
    unfold parseTypeSystemDefinition at hp
    rw [hp] at g
    exact stable_of_grows g
  · exact stable_refl d

theorem stable_ExtendTypeSystemDefinition (ts : List Token) (d : ParsedDefinitions) :
    Stable ⟨[], [], []⟩ d (ExtendTypeSystemDefinition ts d).2 := by
  have g := parseTypeSystemLoop_grows (ts.length + 1) false false noToken ts d
  unfold ExtendTypeSystemDefinition
  split
  · rename_i hp
    unfold parseTypeSystemDefinition at hp
    rw [hp] at g
    exact stable_of_grows g
  · rename_i hp
    unfold parseTypeSystemDefinition at hp
    rw [hp] at g
    obtain ⟨added, rfl⟩ := g
    simp only [rollback_appendParsed]
    exact stable_refl d

theorem stable_ParseExecutableDefinition (ts : List Token) (d : ParsedDefinitions) :
    Stable ⟨[], [], []⟩ d (ParseExecutableDefinition ts d).2 := by
  unfold ParseExecutableDefinition
  split
  · rename_i hp
    exact stable_of_grows (grows_of_within (within_of_run _ _ _ _ hp))
  · exact stable_refl d

theorem stable_set_selectionSet (d : ParsedDefinitions) (s : Int) (x : SelectionSet)
    (hs : 0 ≤ s ∧ s < (d.SelectionSets.length : Int))
    (h1 : x.FragmentSpreads = (d.SelectionSet s).FragmentSpreads)
    (h2 : x.InlineFragments = (d.SelectionSet s).InlineFragments) :
    Stable ⟨[], [s], []⟩ d { d with SelectionSets := d.SelectionSets.set s.toNat x } := by
  refine stable_of_pools _ d _ rfl (Nat.le_refl _)
    (fun _ _ _ => ⟨rfl, rfl, rfl, rfl, rfl, fun _ => rfl⟩) (by simp) ?_ (Nat.le_refl _)
    (fun _ _ _ _ => rfl)
  intro i _ _
  obtain ⟨e1, e2⟩ := selectionSet_after_set d s x hs
  by_cases hi : i = s
  · subst hi
    rw [e1]
    exact ⟨h1, h2, fun hn => absurd (List.mem_singleton.mpr rfl) hn⟩
  · rw [e2 i hi]
    exact ⟨rfl, rfl, fun _ => rfl⟩

theorem stable_AppendFieldToSelectionSet (d d' : ParsedDefinitions) (f s : Int)
    (h : AppendFieldToSelectionSet d f s = .ok d') : Stable ⟨[], [s], []⟩ d d' := by
  simp only [AppendFieldToSelectionSet] at h
  cases hset : setAt d.SelectionSets s
      { d.SelectionSet s with Fields := (d.SelectionSet s).Fields ++ [f] } with
  | error e => rw [hset] at h; cases h
  | ok sets =>
    rw [hset] at h
    obtain ⟨hv, rfl⟩ := setAt_eq_ok hset
    cases h
    exact stable_set_selectionSet d s _ hv rfl rfl

theorem stable_DeleteFieldFromSelectionSet (d d' : ParsedDefinitions) (f s : Int)
    (h : DeleteFieldFromSelectionSet d f s = .ok d') : Stable ⟨[], [s], []⟩ d d' := by
  simp only [DeleteFieldFromSelectionSet] at h
  cases hset : setAt d.SelectionSets s
      { d.SelectionSet s with
        Fields := (d.SelectionSet s).Fields.filter (fun ref => ref ≠ f) } with
  | error e => rw [hset] at h; cases h
  | ok sets =>
    rw [hset] at h
    obtain ⟨hv, rfl⟩ := setAt_eq_ok hset
    cases h
    exact stable_set_selectionSet d s _ hv rfl rfl

theorem stable_MergeArgIntoFieldArguments (d d' : ParsedDefinitions) (a f : Int)
    (h : MergeArgIntoFieldArguments d a f = .ok d') :
    Stable ⟨[f], [], [(d.Field f).ArgumentSet]⟩ d d' := by
  unfold MergeArgIntoFieldArguments at h
  split at h
  · cases hset : setAt d.Fields f
        { d.Field f with ArgumentSet := (d.ArgumentSets.length : Int) } with
    | error e => rw [hset] at h; cases h
    | ok fields =>
      rw [hset] at h
      obtain ⟨hv, rfl⟩ := setAt_eq_ok hset
      cases h
      refine stable_of_pools _ d _ rfl (by simp) ?_ (Nat.le_refl _)
        (fun _ _ _ => ⟨rfl, rfl, fun _ => rfl⟩) (by simp) ?_
      · intro i _ _
        by_cases hi : i = f
        · subst hi
          have : ({ d with
                Fields := d.Fields.set i.toNat
                  { d.Field i with ArgumentSet := (d.ArgumentSets.length : Int) }
                ArgumentSets := d.ArgumentSets ++ [[a]] } : ParsedDefinitions).Field i =
              { d.Field i with ArgumentSet := (d.ArgumentSets.length : Int) } := by
            simp [ParsedDefinitions.Field, getAt_set_self _ _ _ hv]
          rw [this]
          exact ⟨rfl, rfl, rfl, rfl, rfl, fun hn => absurd (List.mem_singleton.mpr rfl) hn⟩
        · have : ({ d with
                Fields := d.Fields.set f.toNat
                  { d.Field f with ArgumentSet := (d.ArgumentSets.length : Int) }
                ArgumentSets := d.ArgumentSets ++ [[a]] } : ParsedDefinitions).Field i =
              d.Field i := by
            simp [ParsedDefinitions.Field, getAt_set_other _ _ _ _ hv.1 hi]
          rw [this]
          exact ⟨rfl, rfl, rfl, rfl, rfl, fun _ => rfl⟩
      · intro i _ hi _
        simp only [ParsedDefinitions.ArgumentSet]
        rw [getAt_append_left _ _ _ hi]
  · cases hset : setAt d.ArgumentSets (d.Field f).ArgumentSet
        (mergeArgument d a (d.ArgumentSet (d.Field f).ArgumentSet)) with
    | error e => rw [hset] at h; cases h
    | ok sets =>
      rw [hset] at h
      obtain ⟨hv, rfl⟩ := setAt_eq_ok hset
      cases h
      refine stable_of_pools _ d _ rfl (Nat.le_refl _)
        (fun _ _ _ => ⟨rfl, rfl, rfl, rfl, rfl, fun _ => rfl⟩)
        (Nat.le_refl _) (fun _ _ _ => ⟨rfl, rfl, fun _ => rfl⟩) (by simp) ?_
      intro i _ _ hn
      simp only [List.mem_singleton] at hn
      simp only [ParsedDefinitions.ArgumentSet]
      rw [getAt_set_other _ _ _ _ hv.1 hn]

theorem stable_applyMutation (d d' : ParsedDefinitions) (m : Mutation)
    (h : applyMutation d m = .ok d') : Stable (m.rewrites d) d d' := by
  cases m with
  | ParseTypeSystemDefinition ts => cases h; exact stable_ParseTypeSystemDefinition ts d
  | ParseExecutableDefinition ts => cases h; exact stable_ParseExecutableDefinition ts d
  | ExtendTypeSystemDefinition ts => cases h; exact stable_ExtendTypeSystemDefinition ts d
  | PutLiteralString b => cases h; exact stable_PutLiteralString d b
  | PutField f => cases h; exact stable_PutField d f
  | PutValue v => cases h; exact stable_PutValue d v
  | PutArgument a => cases h; exact stable_PutArgument d a
  | AppendFieldToSelectionSet f s => exact stable_AppendFieldToSelectionSet d d' f s h
  | DeleteFieldFromSelectionSet f s => exact stable_DeleteFieldFromSelectionSet d d' f s h
  | MergeArgIntoFieldArguments a f => exact stable_MergeArgIntoFieldArguments d d' a f h

theorem stable_applyAll (ms : List Mutation) :
    ∀ (d d' : ParsedDefinitions), applyAll d ms = .ok d' → Stable (rewrittenBy d ms) d d' := by
  induction ms with
  | nil =>
    intro d d' h
    cases h
    exact stable_refl d
  | cons m ms ih =>
    intro d d' h
    simp only [applyAll] at h
    cases hm : applyMutation d m with
    | error e => rw [hm] at h; cases h
    | ok d1 =>
      rw [hm] at h
      simp only [rewrittenBy, hm]
      exact stable_trans (stable_applyMutation d d1 m hm) (ih d1 d' h)

theorem applyAll_append (ms1 ms2 : List Mutation) :
    ∀ (d d1 : ParsedDefinitions), applyAll d ms1 = .ok d1 →
      applyAll d (ms1 ++ ms2) = applyAll d1 ms2 := by
  induction ms1 with
  | nil =>
    intro d d1 h
    cases h
    rfl
  | cons m ms ih =>
    intro d d1 h
    simp only [applyAll, List.cons_append] at h ⊢
    cases hm : applyMutation d m with
    | error e => rw [hm] at h; cases h
    | ok d2 =>
      rw [hm] at h
      exact ih d2 d1 h

/-- C15: take any sequence of parse calls (`ParseTypeSystemDefinition`,
`ParseExecutableDefinition`, `ExtendTypeSystemDefinition`, also when they return
an error) and manual mutations (`PutLiteralString`, `PutField`, `PutValue`,
`PutArgument`, `AppendFieldToSelectionSet`, `DeleteFieldFromSelectionSet`,
`MergeArgIntoFieldArguments`) that returns normally, and any point of it: the
calls `ms1` lead from the pools `d` to the pools `d1`, in which an index was
created, and the calls `ms2` from there to the pools `d'`.  Then every index
into a pool of `d1` resolves in `d'` to the same record (and so does every
index of `d` in `d1` and in `d'`): no pool is shorter, no entry is removed or
moved, and every pool but those of fields, selection sets and argument sets has
the former pool as a prefix.  The three pools whose records the mutation calls
rewrite keep every record in its place: a field keeps its alias, name,
directive set, selection set and position, and its argument-set link unless one
of the calls merged an argument into it; a selection set keeps its fragment
spreads and inline fragments, and its field list unless one of the calls
appended a field to it or deleted a field from it; an argument set is the same
unless it is the set of a field that one of the calls merged an argument
into. -/
theorem index_stability (d d1 d' : ParsedDefinitions) (ms1 ms2 : List Mutation)
    (h1 : applyAll d ms1 = .ok d1) (h2 : applyAll d1 ms2 = .ok d') :
    applyAll d (ms1 ++ ms2) = .ok d' ∧ Stable (rewrittenBy d1 ms2) d1 d' ∧
      Stable (rewrittenBy d ms1) d d1 ∧ Stable (rewrittenBy d (ms1 ++ ms2)) d d' := by
  have h : applyAll d (ms1 ++ ms2) = .ok d' := by rw [applyAll_append ms1 ms2 d d1 h1, h2]
  exact ⟨h, stable_applyAll ms2 d1 d' h2, stable_applyAll ms1 d d1 h1,
    stable_applyAll (ms1 ++ ms2) d d' h⟩

set_option maxRecDepth 100000 in
/-- Witness of C15: a sequence of all seven mutations and of four parse calls,
two of which return an error, on the document `{dog{renamed:owner{name}}}`.
Its first two calls create field 3; the calls after them are made on field 3,
on selection set 2 and on no argument set that was there, so field 3 keeps its
name and gets an argument set, the name of field 0 and the record of selection
set 0 are what they were, and selection set 2 holds field 3 instead of field
2. -/
theorem index_stability_witness :
    ∃ d1 d', applyAll aliasPathDocument (exampleMutations.take 2) = .ok d1 ∧
      applyAll d1 (exampleMutations.drop 2) = .ok d' ∧
      applyAll aliasPathDocument exampleMutations = .ok d' ∧
      rewrittenBy d1 (exampleMutations.drop 2) = ⟨[3], [2, 2], [-1]⟩ ∧
      Stable ⟨[3], [2, 2], [-1]⟩ d1 d' ∧
      Stable ⟨[3], [2, 2], [-1]⟩ aliasPathDocument d' ∧
      (aliasPathDocument.Fields.length, d1.Fields.length, d'.Fields.length) = (3, 4, 7) ∧
      (d'.Field 3).Name = (d1.Field 3).Name ∧ (d1.Field 3).ArgumentSet = -1 ∧
      d'.ArgumentSet (d'.Field 3).ArgumentSet = [0] ∧
      (d1.SelectionSet 2).Fields = [2] ∧ (d'.SelectionSet 2).Fields = [3] ∧
      d'.SelectionSet 0 = aliasPathDocument.SelectionSet 0 ∧
      d'.Field 0 = aliasPathDocument.Field 0 ∧
      (aliasPathDocument.ScalarTypeDefinitions.length, d'.ScalarTypeDefinitions.length) =
        (0, 2) :=
  ⟨_, _, rfl, rfl, rfl, rfl,
    (index_stability aliasPathDocument _ _ (exampleMutations.take 2) (exampleMutations.drop 2)
      rfl rfl).2.1,
    (index_stability aliasPathDocument _ _ (exampleMutations.take 2) (exampleMutations.drop 2)
      rfl rfl).2.2.2,
    by decide, by decide, by decide, by decide, by decide, by decide, by decide, by decide,
    by decide⟩

end parser


namespace astnormalization

open document

theorem fieldsOfSelections_append (xs ys : List Selection) :
    fieldsOfSelections (xs ++ ys) = fieldsOfSelections xs ++ fieldsOfSelections ys := by
  induction xs with
  | nil => simp [fieldsOfSelections]
  | cons x xs ih => simp [fieldsOfSelections, ih]

theorem hasMergeableSelections_append (schema : Schema) (enclosing : String)
    (xs ys : List Selection) :
    hasMergeableSelections schema enclosing (xs ++ ys) =
      (hasMergeableSelections schema enclosing xs || hasMergeableSelections schema enclosing ys) := by
  induction xs with
  | nil => simp [hasMergeableSelections]
  | cons x xs ih => simp [hasMergeableSelections, ih, Bool.or_assoc]

mutual
/-- Normalizing keeps the fields of a selection in their order. -/
theorem fieldsOfSelection_normalize (schema : Schema) :
    ∀ (enclosing : String) (s : Selection),
      fieldsOfSelections (normalizeSelection schema enclosing s) = fieldsOfSelection s
  | enclosing, .field a n sels => by
    simp only [normalizeSelection, fieldsOfSelections, fieldsOfSelection, List.append_nil]
    rw [fieldsOfSelections_normalize schema (schema.fieldType enclosing n) sels]
  | _, .fragmentSpread n => by
    simp [normalizeSelection, fieldsOfSelections, fieldsOfSelection]
  | enclosing, .inlineFragment cond sels => by
    simp only [normalizeSelection]
    split
    · rw [fieldsOfSelections_normalize schema enclosing sels, fieldsOfSelection]
    · simp only [fieldsOfSelections, fieldsOfSelection, List.append_nil]
      exact fieldsOfSelections_normalize schema enclosing sels
/-- Normalizing keeps the fields of a selection set in their order. -/
theorem fieldsOfSelections_normalize (schema : Schema) :
    ∀ (enclosing : String) (sels : List Selection),
      fieldsOfSelections (normalizeSelections schema enclosing sels) = fieldsOfSelections sels
  | _, [] => by simp [normalizeSelections]
  | enclosing, s :: rest => by
    simp only [normalizeSelections, fieldsOfSelections, fieldsOfSelections_append]
    rw [fieldsOfSelection_normalize schema enclosing s,
      fieldsOfSelections_normalize schema enclosing rest]
end

mutual
/-- No mergeable inline fragment is left of a normalized selection. -/
theorem hasMergeableSelection_normalize (schema : Schema) :
    ∀ (enclosing : String) (s : Selection),
      hasMergeableSelections schema enclosing (normalizeSelection schema enclosing s) = false
  | enclosing, .field a n sels => by
    simp only [normalizeSelection, hasMergeableSelections, hasMergeableSelection, Bool.or_false]
    exact hasMergeableSelections_normalize schema (schema.fieldType enclosing n) sels
  | _, .fragmentSpread n => by
    simp [normalizeSelection, hasMergeableSelections, hasMergeableSelection]
  | enclosing, .inlineFragment cond sels => by
    simp only [normalizeSelection]
    split
    · exact hasMergeableSelections_normalize schema enclosing sels
    · rename_i h
      simp only [hasMergeableSelections, hasMergeableSelection, Bool.or_false, Bool.or_eq_false_iff]
      exact ⟨by simpa using h, hasMergeableSelections_normalize schema enclosing sels⟩
/-- No mergeable inline fragment is left in a normalized selection set. -/
theorem hasMergeableSelections_normalize (schema : Schema) :
    ∀ (enclosing : String) (sels : List Selection),
      hasMergeableSelections schema enclosing (normalizeSelections schema enclosing sels) = false
  | _, [] => by simp [normalizeSelections, hasMergeableSelections]
  | enclosing, s :: rest => by
    simp only [normalizeSelections, hasMergeableSelections_append, Bool.or_eq_false_iff]
    exact ⟨hasMergeableSelection_normalize schema enclosing s,
      hasMergeableSelections_normalize schema enclosing rest⟩
end

mutual
/-- A selection without inline fragments is left as it was. -/
theorem normalizeSelection_of_no_inlineFragment (schema : Schema) :
    ∀ (enclosing : String) (s : Selection), hasInlineFragment s = false →
      normalizeSelection schema enclosing s = [s]
  | enclosing, .field a n sels, h => by
    simp only [hasInlineFragment] at h
    simp only [normalizeSelection]
    rw [normalizeSelections_of_no_inlineFragment schema (schema.fieldType enclosing n) sels h]
  | _, .fragmentSpread n, _ => by simp [normalizeSelection]
  | _, .inlineFragment cond sels, h => by simp [hasInlineFragment] at h
/-- A selection set without inline fragments is left as it was. -/
theorem normalizeSelections_of_no_inlineFragment (schema : Schema) :
    ∀ (enclosing : String) (sels : List Selection), hasInlineFragments sels = false →
      normalizeSelections schema enclosing sels = sels
  | _, [], _ => by simp [normalizeSelections]
  | enclosing, s :: rest, h => by
    simp only [hasInlineFragments, Bool.or_eq_false_iff] at h
    simp only [normalizeSelections]
    rw [normalizeSelection_of_no_inlineFragment schema enclosing s h.1,
      normalizeSelections_of_no_inlineFragment schema enclosing rest h.2]
    rfl
end

end astnormalization

namespace astnormalization

open document

theorem normalizeSelections_append (schema : Schema) (enclosing : String)
    (xs ys : List Selection) :
    normalizeSelections schema enclosing (xs ++ ys) =
      normalizeSelections schema enclosing xs ++ normalizeSelections schema enclosing ys := by
  induction xs with
  | nil => simp [normalizeSelections]
  | cons x xs ih => simp [normalizeSelections, ih]

/-- C11: in the model of `mergeInlineFragments` on the selections as written in
the source, for every schema and operation: a mergeable inline fragment (no
type condition, or as type condition the type of the enclosing field or an
interface that this type implements) is replaced in its selection set, at its
place, by its own normalized selections; a field stays one field at its place,
with its alias and name; afterwards no mergeable inline fragment is left at
any depth, the fields of the operation are the same, with the same aliases and
names, in the same source order, and an operation without inline fragments is
left as it was.  On the scenario of the spec and on the two cases of the test
the result is the expected operation, the two fields `extra` of the test
staying two fields. -/
theorem mergeInlineFragments_normalizes (schema : Schema) (op : Operation) :
    (∀ (enclosing : String) (before after sels : List Selection) (cond : Option String),
      mergeable schema enclosing cond = true →
      normalizeSelections schema enclosing (before ++ .inlineFragment cond sels :: after) =
        normalizeSelections schema enclosing before ++
          (normalizeSelections schema enclosing sels ++
            normalizeSelections schema enclosing after)) ∧
    (∀ (enclosing : String) (before after sels : List Selection) (a n : String),
      normalizeSelections schema enclosing (before ++ .field a n sels :: after) =
        normalizeSelections schema enclosing before ++
          (.field a n (normalizeSelections schema (schema.fieldType enclosing n) sels) ::
            normalizeSelections schema enclosing after)) ∧
    hasMergeableSelections schema (schema.rootType op.OperationType)
      (mergeInlineFragments schema op).selections = false ∧
    fieldsOfSelections (mergeInlineFragments schema op).selections =
      fieldsOfSelections op.selections ∧
    (hasInlineFragments op.selections = false →
      (mergeInlineFragments schema op).selections = op.selections) ∧
    (mergeInlineFragments testDefinition scenarioOperation).selections =
      [.field "" "dog" [leaf "name", leaf "nick"]] ∧
    (mergeInlineFragments testDefinition simpleOperation).selections =
      [.field "" "dog" [leaf "name", leaf "nickName", leaf "doubleNested", leaf "nestedDogName",
        .field "" "extra" [leaf "string"], .field "" "extra" [.field "string" "noString" []]]] ∧
    (mergeInlineFragments testDefinition interfaceOperation).selections =
      [.field "" "dog" [leaf "name"]] := by
  refine ⟨?_, ?_, ?_, ?_, ?_, rfl, rfl, rfl⟩
  · intro enclosing before after sels cond h
    rw [normalizeSelections_append]
    simp only [normalizeSelections, normalizeSelection, h, if_true]
  · intro enclosing before after sels a n
    rw [normalizeSelections_append]
    simp only [normalizeSelections, normalizeSelection, List.singleton_append]
  · exact hasMergeableSelections_normalize schema _ _
  · exact fieldsOfSelections_normalize schema _ _
  · intro h
    exact normalizeSelections_of_no_inlineFragment schema _ _ h

/-- Witness of C11: in the selection set of `dog` in the scenario of the spec
the inline fragment `... on Dog { nick }` after `... { name }` gives way to
`nick`. -/
theorem mergeInlineFragments_normalizes_witness :
    mergeable testDefinition "Dog" (some "Dog") = true ∧
    normalizeSelections testDefinition "Dog"
      ([.inlineFragment none [leaf "name"]] ++ .inlineFragment (some "Dog") [leaf "nick"] :: []) =
      normalizeSelections testDefinition "Dog" [.inlineFragment none [leaf "name"]] ++
        (normalizeSelections testDefinition "Dog" [leaf "nick"] ++
          normalizeSelections testDefinition "Dog" []) ∧
    directFields (normalizeSelections testDefinition "Dog"
      [.inlineFragment none [leaf "name"], .inlineFragment (some "Dog") [leaf "nick"]]) =
      [("", "name"), ("", "nick")] :=
  ⟨by decide,
    (mergeInlineFragments_normalizes testDefinition scenarioOperation).1 "Dog"
      [.inlineFragment none [leaf "name"]] [] [leaf "nick"] (some "Dog") (by decide),
    by decide⟩

end astnormalization

namespace keyword

theorem mem_constants (k : Keyword) : k ∈ constants := by
  cases k <;> decide

theorem ofValue_value (k : Keyword) : Keyword.ofValue k.value = some k := by
  cases k <;> rfl

/-- C29: the constants of keyword.go are pairwise distinct and their values are
0, 1, ..., 46 in the order of declaration, `UNDEFINED` being 0 and
`CURLYBRACKETCLOSE` 46; every constant is found back from its value and no
value outside 0..46 is that of a constant; the zero value of `Keyword` is
`UNDEFINED`, and no other constant has the value 0. -/
theorem Keyword_values_consecutive :
    constants.map Keyword.value = (List.range 47).map Int.ofNat ∧
    constants.Nodup ∧ constants.length = 47 ∧
    (∀ a b : Keyword, a.value = b.value → a = b) ∧
    Keyword.UNDEFINED.value = 0 ∧ Keyword.CURLYBRACKETCLOSE.value = 46 ∧
    (∀ k : Keyword, 0 ≤ k.value ∧ k.value ≤ 46 ∧ Keyword.ofValue k.value = some k) ∧
    (∀ n : Int, (n < 0 ∨ 46 < n) → Keyword.ofValue n = none) ∧
    Keyword.ofValue 0 = some .UNDEFINED ∧ (default : Keyword) = .UNDEFINED ∧
    (∀ k : Keyword, k ≠ .UNDEFINED → k.value ≠ 0) := by
  refine ⟨by decide, by decide, rfl, ?_, rfl, rfl, ?_, ?_, rfl, rfl, ?_⟩
  · intro a b h
    have ha := ofValue_value a
    rw [h, ofValue_value b] at ha
    exact (Option.some.inj ha).symm
  · intro k
    refine ⟨?_, ?_, ofValue_value k⟩
    · cases k <;> decide
    · cases k <;> decide
  · intro n hn
    unfold Keyword.ofValue
    split
    · rfl
    · have : constants.length ≤ n.toNat := by
        have : constants.length = 47 := rfl
        omega
      exact List.get?_eq_none.mpr this
  · intro k hk
    cases k <;> first | exact absurd rfl hk | decide

/-- C21, as it is worded, fails: keyword.go declares 47 constants, not 43, and
`UNDEFINED`, `LINETERMINATOR`, `TAB` and `SPACE` are constants that are not
among the keywords the spec lists. -/
theorem Keyword_closed_set_counterexample :
    constants.length = 47 ∧ specKeywords.length = 43 ∧
    Keyword.UNDEFINED ∈ constants ∧ Keyword.UNDEFINED ∉ specKeywords ∧
    Keyword.LINETERMINATOR ∉ specKeywords ∧ Keyword.TAB ∉ specKeywords ∧
    Keyword.SPACE ∉ specKeywords := by
  decide

/-- C21, amended: the spec lists 43 different keywords and every one of them
has a constant in keyword.go; besides them keyword.go declares exactly four
more constants, `UNDEFINED`, `LINETERMINATOR`, `TAB` and `SPACE`, so that every
constant is a listed keyword or one of these four. -/
theorem Keyword_covers_spec_set :
    specKeywords.Nodup ∧ specKeywords.length = 43 ∧
    (∀ k ∈ specKeywords, k ∈ constants) ∧
    constants.filter (fun k => decide (k ∉ specKeywords)) =
      [.UNDEFINED, .LINETERMINATOR, .TAB, .SPACE] ∧
    (∀ k : Keyword, k ∈ specKeywords ∨ k = .UNDEFINED ∨ k = .LINETERMINATOR ∨ k = .TAB ∨
      k = .SPACE) ∧
    (∀ k : Keyword, k ∈ specKeywords →
      k ≠ .UNDEFINED ∧ k ≠ .LINETERMINATOR ∧ k ≠ .TAB ∧ k ≠ .SPACE) := by
  refine ⟨by decide, rfl, fun k _ => mem_constants k, by decide, ?_, ?_⟩
  · intro k
    cases k <;> decide
  · intro k
    cases k <;> decide

end keyword

namespace document

/-- What `Next` does with the logging getter of a pure pool. -/
theorem Next_loggingGetter (pool : Int → FieldDefinition) (i : FieldDefinitions)
    (log : List Int) :
    FieldDefinitions.Next (loggingGetter pool) i log =
      if i.nextRef = -1 then ((false, i), log)
      else ((true, { nextRef := (pool i.nextRef).NextRef, currentRef := i.nextRef,
                     current := pool i.nextRef }), log ++ [i.nextRef]) := by
  by_cases h : i.nextRef = -1
  · simp only [FieldDefinitions.Next, h, if_true]
    rfl
  · simp only [FieldDefinitions.Next, h, if_false]
    rfl

theorem NextTimes_loggingGetter_succ (pool : Int → FieldDefinition) (k : Nat)
    (i : FieldDefinitions) (log : List Int) :
    (FieldDefinitions.NextTimes (loggingGetter pool) (k + 1) i log).2 =
      (FieldDefinitions.NextTimes (loggingGetter pool) k
        (FieldDefinitions.Next (loggingGetter pool) i log).1.2
        (FieldDefinitions.Next (loggingGetter pool) i log).2).2 := by
  rfl

/-- The references asked of the getter stay inside a pool whose links stay
inside it. -/
theorem NextTimes_log_valid (pool : Int → FieldDefinition) (n : Nat)
    (hpool : ∀ r : Int, 0 ≤ r → r < (n : Int) →
      (pool r).NextRef = -1 ∨ (0 ≤ (pool r).NextRef ∧ (pool r).NextRef < (n : Int))) :
    ∀ (k : Nat) (i : FieldDefinitions) (log : List Int),
      (i.nextRef = -1 ∨ (0 ≤ i.nextRef ∧ i.nextRef < (n : Int))) →
      (∀ r ∈ log, 0 ≤ r ∧ r < (n : Int)) →
      ∀ r ∈ (FieldDefinitions.NextTimes (loggingGetter pool) k i log).2,
        0 ≤ r ∧ r < (n : Int) := by
  intro k
  induction k with
  | zero =>
    intro i log _ hlog r hr
    exact hlog r hr
  | succ k ih =>
    intro i log hi hlog r hr
    rw [NextTimes_loggingGetter_succ, Next_loggingGetter] at hr
    by_cases h : i.nextRef = -1
    · simp only [h, if_true] at hr
      exact ih i log hi hlog r hr
    · simp only [h, if_false] at hr
      have hv : 0 ≤ i.nextRef ∧ i.nextRef < (n : Int) := by
        rcases hi with hi | hi
        · exact absurd hi h
        · exact hi
      refine ih _ _ (hpool i.nextRef hv.1 hv.2) ?_ r hr
      intro r' hr'
      rcases List.mem_append.mp hr' with hr' | hr'
      · exact hlog r' hr'
      · simp only [List.mem_singleton] at hr'
        rw [hr']
        exact hv

/-- C26: when every record of a pool of `n` field definitions has a `NextRef`
that is `-1` or an index of the pool, and the head given to
`NewFieldDefinitions` is `-1` or an index of the pool, then after any number
`k` of calls of `Next` every reference that was passed to the getter (the log
of the logging getter, empty at the start) is an index of the pool, so it is
never `-1` and never out of range, and the iterator is left with a `nextRef`
that is again `-1` or an index of the pool. -/
theorem getter_called_with_valid_refs (pool : Int → FieldDefinition) (n : Nat) (h : Int)
    (hpool : ∀ r : Int, 0 ≤ r → r < (n : Int) →
      (pool r).NextRef = -1 ∨ (0 ≤ (pool r).NextRef ∧ (pool r).NextRef < (n : Int)))
    (hh : h = -1 ∨ (0 ≤ h ∧ h < (n : Int))) (k : Nat) :
    (∀ r ∈ (FieldDefinitions.NextTimes (loggingGetter pool) k (NewFieldDefinitions h) []).2,
      0 ≤ r ∧ r < (n : Int) ∧ r ≠ -1) ∧
    ((FieldDefinitions.afterNext pool (NewFieldDefinitions h) k).nextRef = -1 ∨
      (0 ≤ (FieldDefinitions.afterNext pool (NewFieldDefinitions h) k).nextRef ∧
        (FieldDefinitions.afterNext pool (NewFieldDefinitions h) k).nextRef < (n : Int))) := by
  constructor
  · intro r hr
    have := NextTimes_log_valid pool n hpool k (NewFieldDefinitions h) [] hh (by simp) r hr
    exact ⟨this.1, this.2, by omega⟩
  · induction k with
    | zero => exact hh
    | succ k ih =>
      simp only [FieldDefinitions.afterNext, FieldDefinitions.NextPure, FieldDefinitions.Next]
      by_cases hn : (FieldDefinitions.afterNext pool (NewFieldDefinitions h) k).nextRef = -1
      · simp only [hn, if_true]
        exact Or.inl hn
      · simp only [hn, if_false]
        rcases ih with ih | ih
        · exact absurd ih hn
        · exact hpool _ ih.1 ih.2

/-- Witness of C26: on the pool of three records chained 0 → 2 → 1, five calls
of `Next` from the head 0 ask the getter for 0, 2 and 1 and for nothing
else. -/
theorem getter_called_with_valid_refs_witness :
    (FieldDefinitions.NextTimes (loggingGetter examplePool) 5 (NewFieldDefinitions 0) []).2 =
      [0, 2, 1] ∧
    ∀ r ∈ (FieldDefinitions.NextTimes (loggingGetter examplePool) 5 (NewFieldDefinitions 0) []).2,
      0 ≤ r ∧ r < ((3 : Nat) : Int) ∧ r ≠ -1 :=
  ⟨by decide,
    (getter_called_with_valid_refs examplePool 3 0
      (by
        intro r h0 h3
        have : r = 0 ∨ r = 1 ∨ r = 2 := by omega
        rcases this with rfl | rfl | rfl <;> decide)
      (Or.inr (by decide)) 5).1⟩

/-- C27: for every iterator state and every getter, in whatever monad the
getter runs, the boolean that `Next` returns is the one that `HasNext` gives on
the state before the call; with a pool that is a pure lookup `Next` returns
`true` if and only if `HasNext` is `true` before, and so it does with the
logging getter, whatever was logged before.  `HasNext` is `nextRef ≠ -1`: it
only reads the state, which its embedding as a function to `Bool` records. -/
theorem HasNext_iff_Next {m : Type → Type} [Monad m] [LawfulMonad m]
    (getter : Int → m FieldDefinition) (pool : Int → FieldDefinition) (log : List Int)
    (i : FieldDefinitions) :
    Prod.fst <$> FieldDefinitions.Next getter i =
      (fun _ => i.HasNext) <$> FieldDefinitions.Next getter i ∧
    (i.HasNext = true ↔ (FieldDefinitions.NextPure pool i).1 = true) ∧
    (i.HasNext = true ↔ (FieldDefinitions.Next (loggingGetter pool) i log).1.1 = true) ∧
    (i.HasNext = true ↔ i.nextRef ≠ -1) := by
  by_cases h : i.nextRef = -1
  · have hn : i.HasNext = false := by simp [FieldDefinitions.HasNext, h]
    refine ⟨?_, ?_, ?_, ?_⟩
    · simp [FieldDefinitions.Next, h, hn]
    · simp [FieldDefinitions.NextPure, FieldDefinitions.Next, h, hn, Id.run]
    · rw [Next_loggingGetter]
      simp [h, hn]
    · simp [hn, h]
  · have hn : i.HasNext = true := by simp [FieldDefinitions.HasNext, h]
    refine ⟨?_, ?_, ?_, ?_⟩
    · simp [FieldDefinitions.Next, h, hn]
    · simp [FieldDefinitions.NextPure, FieldDefinitions.Next, h, hn, Id.run]
    · rw [Next_loggingGetter]
      simp [h, hn]
    · simp [hn, h]

/-- Witness of C27: on the pool chained 0 → 2 → 1 the iterator with head 0 has
a next element and `Next` returns `true`; the iterator with head `-1` has none
and `Next` returns `false`. -/
theorem HasNext_iff_Next_witness :
    ((NewFieldDefinitions 0).HasNext = true ∧
      (FieldDefinitions.NextPure examplePool (NewFieldDefinitions 0)).1 = true) ∧
    ((NewFieldDefinitions (-1)).HasNext = false ∧
      (FieldDefinitions.NextPure examplePool (NewFieldDefinitions (-1))).1 = false) :=
  ⟨⟨rfl, (HasNext_iff_Next (fun r => (pure (examplePool r) : Id FieldDefinition)) examplePool []
      (NewFieldDefinitions 0)).2.1.mp rfl⟩,
   ⟨rfl, rfl⟩⟩

/-- C28: for every head `h`, also `-1`, `Value` on the iterator of
`NewFieldDefinitions h` before any call of `Next` is the zero `FieldDefinition`
(all references and positions 0, also `NextRef`) together with the reference
0, which is not the absent sentinel `-1`; a call of `Next` that fails because
the head is `-1` leaves it so. -/
theorem Value_before_Next_is_zero (h : Int) (pool : Int → FieldDefinition) :
    (NewFieldDefinitions h).Value = (FieldDefinition.zero, 0) ∧
    (NewFieldDefinitions h).Value.2 ≠ -1 ∧
    (NewFieldDefinitions (-1)).Value = (FieldDefinition.zero, 0) ∧
    (FieldDefinitions.NextPure pool (NewFieldDefinitions (-1))).2.Value =
      (FieldDefinition.zero, 0) ∧
    FieldDefinition.zero =
      { Description := ⟨0, 0⟩, Name := ⟨0, 0⟩, ArgumentsDefinition := 0, Type' := 0,
        DirectiveSet := 0, Position := ⟨0, 0, 0, 0⟩, NextRef := 0 } := by
  refine ⟨rfl, ?_, rfl, rfl, rfl⟩
  show (0 : Int) ≠ -1
  decide

end document

namespace amqp_datasource

theorem wrapInt_of_inRange (x : Int) (h1 : -(2 ^ 63) ≤ x) (h2 : x < 2 ^ 63) : wrapInt x = x := by
  unfold wrapInt
  rw [Int.emod_eq_of_lt (by omega) (by omega)]
  omega

/-- The result of `randInt` when `max - min` does not overflow. -/
theorem randInt_eq (raw : Nat) (min max : Int) (hmin : -(2 ^ 63) ≤ min) (hmax : max < 2 ^ 63)
    (hlt : min < max) (hdiff : max - min < 2 ^ 63) :
    randInt raw min max = .ok (min + (raw : Int) % (max - min)) ∧
    min ≤ min + (raw : Int) % (max - min) ∧ min + (raw : Int) % (max - min) < max := by
  have hpos : 0 < max - min := by omega
  have h0 : 0 ≤ (raw : Int) % (max - min) := Int.emod_nonneg _ (by omega)
  have h1 : (raw : Int) % (max - min) < max - min := Int.emod_lt_of_pos _ hpos
  refine ⟨?_, by omega, by omega⟩
  have hw : wrapInt (max - min) = max - min := wrapInt_of_inRange _ (by omega) hdiff
  have hn : ¬ (max - min ≤ 0) := by omega
  simp only [randInt, Intn, hw, hn, if_false]
  show Except.ok (wrapInt (min + (raw : Int) % (max - min))) = _
  rw [wrapInt_of_inRange _ (by omega) (by omega)]

theorem randInt_65_90 (raw : Nat) :
    randInt raw 65 90 = .ok (65 + (raw : Int) % 25) ∧
    65 ≤ 65 + (raw : Int) % 25 ∧ 65 + (raw : Int) % 25 < 90 := by
  have := randInt_eq raw 65 90 (by norm_num) (by norm_num) (by norm_num) (by norm_num)
  simpa using this

theorem randomStringFrom_spec (src : Nat → Nat) :
    ∀ (n i : Nat), ∃ bs, randomStringFrom src i n = .ok bs ∧ bs.length = n ∧
      (∀ b ∈ bs, 65 ≤ b ∧ b ≤ 89) ∧
      ∀ k (hk : k < bs.length), bs.get ⟨k, hk⟩ = 65 + src (i + k) % 25 := by
  intro n
  induction n with
  | zero =>
    intro i
    exact ⟨[], rfl, rfl, by simp, fun k hk => absurd hk (by simp)⟩
  | succ n ih =>
    intro i
    obtain ⟨bs, h1, h2, h3, h4⟩ := ih (i + 1)
    obtain ⟨r1, r2, r3⟩ := randInt_65_90 (src i)
    have hb : toByte (65 + (src i : Int) % 25) = 65 + src i % 25 := by
      unfold toByte
      have : (65 + (src i : Int) % 25) % 256 = 65 + (src i : Int) % 25 :=
        Int.emod_eq_of_lt (by omega) (by omega)
      rw [this]
      omega
    refine ⟨(65 + src i % 25) :: bs, ?_, by simp [h2], ?_, ?_⟩
    · simp only [randomStringFrom, r1, h1]
      show Except.ok (toByte (65 + (src i : Int) % 25) :: bs) = _
      rw [hb]
    · intro b hmem
      rcases List.mem_cons.mp hmem with rfl | hmem
      · have := Nat.mod_lt (src i) (by norm_num : 0 < 25)
        omega
      · exact h3 b hmem
    · intro k hk
      cases k with
      | zero => simp
      | succ k =>
        simp only [List.length_cons] at hk
        have := h4 k (by omega)
        simp only [List.get_eq_getElem, List.getElem_cons_succ] at this ⊢
        rw [this]
        have e : i + 1 + k = i + (k + 1) := by omega
        rw [e]

end amqp_datasource

namespace amqp_datasource

/-- C30, as it is worded, fails in its general part: `-1 < 2^63 - 1` are two
values of a 64-bit `int`, but `max - min` overflows to `-2^63`, so `rand.Intn`
panics and `randInt(-1, 2^63 - 1)` returns no value, whatever the outcome of the
random source (here 0 and 7); the same with the least and the greatest
`int`. -/
theorem randInt_range_counterexample :
    (-1 : Int) < 2 ^ 63 - 1 ∧ wrapInt ((2 ^ 63 - 1) - (-1)) = -(2 ^ 63) ∧
    randInt 0 (-1) (2 ^ 63 - 1) = .error "invalid argument to Intn" ∧
    randInt 7 (-1) (2 ^ 63 - 1) = .error "invalid argument to Intn" ∧
    randInt 0 (-(2 ^ 63)) (2 ^ 63 - 1) = .error "invalid argument to Intn" := by
  refine ⟨by decide, by decide, rfl, rfl, rfl⟩

/-- C30, amended: for every `l ≥ 0` and every sequence of outcomes of the random
source, `randomString l` returns `l` bytes, each of them from 65 to 89 (`A` to
`Y`), so never 90 (`Z`); `randInt(65, 90)` returns a value `r` with
`65 ≤ r < 90`, and each of these values for some outcome; for 64-bit `int`
values `min < max` whose difference `max - min` is below `2^63`, `randInt`
returns `r` with `min ≤ r < max`; when the difference is `2^63` or more,
`max - min` overflows to a negative number and `randInt` panics. -/
theorem randomString_bytes_in_range :
    (∀ (src : Nat → Nat) (l : Int), 0 ≤ l →
      ∃ bs, randomString src l = .ok bs ∧ bs.length = l.toNat ∧
        (∀ b ∈ bs, 65 ≤ b ∧ b ≤ 89) ∧ 90 ∉ bs) ∧
    (∀ raw : Nat, ∃ r, randInt raw 65 90 = .ok r ∧ 65 ≤ r ∧ r < 90) ∧
    (∀ r : Int, 65 ≤ r → r < 90 → ∃ raw : Nat, randInt raw 65 90 = .ok r) ∧
    (∀ (raw : Nat) (min max : Int), -(2 ^ 63) ≤ min → max < 2 ^ 63 → min < max →
      max - min < 2 ^ 63 → ∃ r, randInt raw min max = .ok r ∧ min ≤ r ∧ r < max) ∧
    (∀ (raw : Nat) (min max : Int), -(2 ^ 63) ≤ min → max < 2 ^ 63 → min < max →
      2 ^ 63 ≤ max - min → randInt raw min max = .error "invalid argument to Intn") := by
  refine ⟨?_, ?_, ?_, ?_, ?_⟩
  · intro src l hl
    obtain ⟨bs, h1, h2, h3, _⟩ := randomStringFrom_spec src l.toNat 0
    refine ⟨bs, ?_, h2, h3, ?_⟩
    · have : ¬ l < 0 := by omega
      simp only [randomString, this, if_false]
      exact h1
    · intro h90
      have := h3 90 h90
      omega
  · intro raw
    exact ⟨_, randInt_65_90 raw⟩
  · intro r h1 h2
    refine ⟨(r - 65).toNat, ?_⟩
    have h := (randInt_65_90 (r - 65).toNat).1
    rw [h]
    have e : (((r - 65).toNat : Nat) : Int) = r - 65 := Int.toNat_of_nonneg (by omega)
    rw [e, Int.emod_eq_of_lt (by omega) (by omega)]
    congr 1
    omega
  · intro raw min max hmin hmax hlt hdiff
    exact ⟨_, randInt_eq raw min max hmin hmax hlt hdiff⟩
  · intro raw min max hmin hmax hlt hdiff
    have hw : wrapInt (max - min) = max - min - 2 ^ 64 := by
      unfold wrapInt
      have : (max - min + 2 ^ 63) % 2 ^ 64 = max - min + 2 ^ 63 - 2 ^ 64 := by
        rw [Int.emod_eq_sub_self_emod]
        exact Int.emod_eq_of_lt (by omega) (by omega)
      rw [this]
      omega
    have hn : wrapInt (max - min) ≤ 0 := by
      rw [hw]
      omega
    simp only [randInt, Intn, hn, if_true]
    rfl

/-- Witness of the amended C30: with the outcomes 0, 1, 2, ... of the random
source `randomString(3)` is `ABC`, and with the outcome 24 `randInt(65, 90)` is
89. -/
theorem randomString_bytes_in_range_witness :
    randomString (fun i => i) 3 = .ok [65, 66, 67] ∧
    randInt 24 65 90 = .ok 89 ∧
    ∃ bs, randomString (fun i => 25 * i + 24) 32 = .ok bs ∧ bs.length = 32 ∧
      (∀ b ∈ bs, 65 ≤ b ∧ b ≤ 89) ∧ 90 ∉ bs :=
  ⟨rfl, rfl,
    match randomString_bytes_in_range.1 (fun i => 25 * i + 24) 32 (by decide) with
    | ⟨bs, h1, h2, h3, h4⟩ => ⟨bs, h1, h2, h3, h4⟩⟩

end amqp_datasource

namespace amqp_datasource

theorem awaitReply_first (copy : List Nat → List Nat → List Nat × Option String)
    (cid : List Nat) (d : Delivery) (post : List Delivery) (data : List Nat)
    (hd : d.CorrelationId = cid) :
    ∀ pre : List Delivery, (∀ x ∈ pre, x.CorrelationId ≠ cid) →
      awaitReply copy cid (pre ++ d :: post) data = ((copy data d.Body).2, (copy data d.Body).1) := by
  intro pre
  induction pre with
  | nil =>
    intro _
    simp [awaitReply, hd]
  | cons x pre ih =>
    intro hpre
    have hx : ¬ cid = x.CorrelationId := fun h => hpre x (List.mem_cons_self _ _) h.symm
    simp only [List.cons_append, awaitReply, hx, if_false]
    exact ih (fun y hy => hpre y (List.mem_cons_of_mem _ hy))

theorem awaitReply_none (copy : List Nat → List Nat → List Nat × Option String)
    (cid : List Nat) (data : List Nat) :
    ∀ msgs : List Delivery, (∀ x ∈ msgs, x.CorrelationId ≠ cid) →
      awaitReply copy cid msgs data = (none, data) := by
  intro msgs
  induction msgs with
  | nil => intro _; rfl
  | cons x msgs ih =>
    intro h
    have hx : ¬ cid = x.CorrelationId := fun e => h x (List.mem_cons_self _ _) e.symm
    simp only [awaitReply, hx, if_false]
    exact ih (fun y hy => h y (List.mem_cons_of_mem _ hy))

theorem randomString_32 (src : Nat → Nat) :
    ∃ cid, randomString src 32 = .ok cid ∧ cid.length = 32 := by
  obtain ⟨bs, h1, h2, _⟩ := randomStringFrom_spec src 32 0
  exact ⟨bs, h1, h2⟩

/-- C25: whatever the outcomes of the random source, on a connection whose
channel opens and whose callback queue `cb` is declared, `Load` publishes one
message with a 32-byte correlation id `cid`, the callback queue as `ReplyTo`
and the input as body to `rpc_queue`, and then: when the deliveries on the
callback queue are `before`, none of them with the correlation id `cid`, then
`d` with the correlation id `cid`, then `after`, `Load` copies the body of `d`,
and nothing else, to the buffer and returns the error of that copy (`nil` with
a buffer that takes all bytes); when no delivery has the correlation id `cid`,
`Load` returns `nil` and leaves the buffer as it was.  Against the echo
responder `Load` returns `nil` and the buffer holds what it held before
followed by exactly the input bytes. -/
theorem Load_writes_matching_reply (s : Source) (src : Nat → Nat)
    (copy : List Nat → List Nat → List Nat × Option String) (input data : List Nat) (cb : String)
    (hch : s.conn.Channel = .ok ()) (hq : s.conn.QueueDeclare = .ok cb) :
    (∃ cid, randomString src 32 = .ok cid ∧ cid.length = 32 ∧
      (∀ (before after : List Delivery) (d : Delivery),
        s.conn.Consume cb
            ⟨"", "rpc_queue", false, false, ⟨"application/json", cid, cb, input⟩⟩ =
          before ++ d :: after →
        (∀ x ∈ before, x.CorrelationId ≠ cid) → d.CorrelationId = cid →
        s.Load src copy input data = .ok ((copy data d.Body).2, (copy data d.Body).1) ∧
        s.Load src bufferCopy input data = .ok (none, data ++ d.Body)) ∧
      ((∀ x ∈ s.conn.Consume cb
            ⟨"", "rpc_queue", false, false, ⟨"application/json", cid, cb, input⟩⟩,
          x.CorrelationId ≠ cid) →
        s.Load src copy input data = .ok (none, data))) ∧
    (Source.mk (echoConnection cb)).Load src bufferCopy input data = .ok (none, data ++ input) ∧
    (Source.mk (echoConnection cb)).Load src bufferCopy input [] = .ok (none, input) := by
  obtain ⟨cid, hcid, hlen⟩ := randomString_32 src
  have hLoad : ∀ (t : Source) (c : List Nat → List Nat → List Nat × Option String)
      (dat : List Nat), t.conn.Channel = .ok () → t.conn.QueueDeclare = .ok cb →
      t.Load src c input dat = .ok (awaitReply c cid
        (t.conn.Consume cb
          ⟨"", "rpc_queue", false, false, ⟨"application/json", cid, cb, input⟩⟩) dat) := by
    intro t c dat h1 h2
    simp only [Source.Load, h1, h2, hcid]
  have hecho : ∀ dat : List Nat,
      (Source.mk (echoConnection cb)).Load src bufferCopy input dat = .ok (none, dat ++ input) := by
    intro dat
    rw [hLoad _ _ _ rfl rfl]
    simp [echoConnection, awaitReply, bufferCopy]
  refine ⟨⟨cid, hcid, hlen, ?_, ?_⟩, hecho data, by simpa using hecho []⟩
  · intro before after d hmsgs hbefore hd
    rw [hLoad s copy data hch hq, hLoad s bufferCopy data hch hq, hmsgs,
      awaitReply_first copy cid d after data hd before hbefore,
      awaitReply_first bufferCopy cid d after data hd before hbefore]
    exact ⟨rfl, rfl⟩
  · intro hnone
    rw [hLoad s copy data hch hq, awaitReply_none copy cid data _ hnone]

/-- Witness of C25: against the echo responder, with the outcomes 0, 1, 2, ...
of the random source, `Load` of the input of the test "simple get" into an
empty buffer returns `nil` and fills the buffer with the input. -/
theorem Load_writes_matching_reply_witness :
    (Source.mk (echoConnection "amq.gen-1")).Load (fun i => i) bufferCopy
        (bytesOf "\x7b\"method\":\"GET\",\"url\":\"http://127.0.0.1:8080\"\x7d") [] =
      .ok (none, bytesOf "\x7b\"method\":\"GET\",\"url\":\"http://127.0.0.1:8080\"\x7d") :=
  (Load_writes_matching_reply (Source.mk (echoConnection "amq.gen-1")) (fun i => i) bufferCopy
    (bytesOf "\x7b\"method\":\"GET\",\"url\":\"http://127.0.0.1:8080\"\x7d") [] "amq.gen-1"
    rfl rfl).2.2

end amqp_datasource

namespace typesystem

open document lookup

/-- A directive set has no duplicate name exactly when the names of its
directives, as bytes, are pairwise different. -/
theorem hasDuplicateName_eq_false_iff (d : ParsedDefinitions) (set : List Int) :
    hasDuplicateName d set = false ↔
      (set.map (fun ref => d.ByteSlice (d.Directive ref).Name)).Nodup := by
  induction set with
  | nil => simp [hasDuplicateName]
  | cons ref rest ih =>
    simp only [hasDuplicateName, Bool.or_eq_false_iff, List.map_cons, List.nodup_cons, ih]
    constructor
    · rintro ⟨h1, h2⟩
      refine ⟨?_, h2⟩
      intro hmem
      obtain ⟨other, hother, heq⟩ := List.mem_map.mp hmem
      have hany : rest.any (fun other =>
          d.ByteSliceReferenceContentsEquals (d.Directive ref).Name (d.Directive other).Name) =
          true := by
        rw [List.any_eq_true]
        exact ⟨other, hother, by
          simp only [ParsedDefinitions.ByteSliceReferenceContentsEquals, beq_iff_eq]
          exact heq.symm⟩
      rw [h1] at hany
      exact Bool.false_ne_true hany
    · rintro ⟨h1, h2⟩
      refine ⟨?_, h2⟩
      rw [Bool.eq_false_iff]
      intro hany
      rw [List.any_eq_true] at hany
      obtain ⟨other, hother, heq⟩ := hany
      simp only [ParsedDefinitions.ByteSliceReferenceContentsEquals, beq_iff_eq] at heq
      exact h1 (List.mem_map.mpr ⟨other, hother, heq.symm⟩)

theorem not_nodup_iff_exists_lt {α : Type} (l : List α) :
    ¬ l.Nodup ↔ ∃ (i j : Fin l.length), i < j ∧ l.get i = l.get j := by
  unfold List.Nodup
  rw [List.pairwise_iff_get]
  constructor
  · intro h
    by_contra hne
    apply h
    intro i j hij heq
    exact hne ⟨i, j, hij, heq⟩
  · rintro ⟨i, j, hij, heq⟩ h
    exact h i j hij heq

/-- C22: the rule `DirectivesAreUniquePerLocation` returns `Valid = false` if and
only if some directive set of the document holds, at two different places, two
directives whose names have the same bytes; equivalently it returns
`Valid = true` if and only if in every directive set the names are pairwise
different, whatever names the other sets hold.  On the five documents of the
test it returns valid, invalid, invalid, valid and valid: `@foo` on the type
and `@foo` on its field are in two directive sets. -/
theorem DirectivesAreUniquePerLocation_iff (d : ParsedDefinitions) :
    ((DirectivesAreUniquePerLocation d).Valid = false ↔
      ∃ set ∈ d.DirectiveSets, ∃ (i j : Fin set.length), i < j ∧
        d.ByteSlice (d.Directive (set.get i)).Name =
          d.ByteSlice (d.Directive (set.get j)).Name) ∧
    ((DirectivesAreUniquePerLocation d).Valid = true ↔
      ∀ set ∈ d.DirectiveSets,
        (set.map (fun ref => d.ByteSlice (d.Directive ref).Name)).Nodup) ∧
    (DirectivesAreUniquePerLocation uniqueOneDocument).Valid = true ∧
    (DirectivesAreUniquePerLocation uniqueFieldTwiceDocument).Valid = false ∧
    (DirectivesAreUniquePerLocation uniqueTypeTwiceDocument).Valid = false ∧
    (DirectivesAreUniquePerLocation uniqueTwoNamesDocument).Valid = true ∧
    (DirectivesAreUniquePerLocation uniqueTwoLocationsDocument).Valid = true ∧
    uniqueTwoLocationsDocument.DirectiveSets = [[0], [1]] ∧
    uniqueTwoLocationsDocument.ByteSlice (uniqueTwoLocationsDocument.Directive 0).Name =
      uniqueTwoLocationsDocument.ByteSlice (uniqueTwoLocationsDocument.Directive 1).Name := by
  have hvalid : (DirectivesAreUniquePerLocation d).Valid = true ↔
      ∀ set ∈ d.DirectiveSets,
        (set.map (fun ref => d.ByteSlice (d.Directive ref).Name)).Nodup := by
    simp only [DirectivesAreUniquePerLocation, Bool.not_eq_true', List.any_eq_false]
    constructor
    · intro h set hset
      exact (hasDuplicateName_eq_false_iff d set).mp (by simpa using h set hset)
    · intro h set hset
      simpa using (hasDuplicateName_eq_false_iff d set).mpr (h set hset)
  refine ⟨?_, hvalid, by decide, by decide, by decide, by decide, by decide, by decide,
    by decide⟩
  rw [← Bool.not_eq_true, hvalid]
  push_neg
  constructor
  · rintro ⟨set, hset, hnd⟩
    obtain ⟨i, j, hij, heq⟩ := (not_nodup_iff_exists_lt _).mp hnd
    refine ⟨set, hset, ⟨i.1, by simpa using i.2⟩, ⟨j.1, by simpa using j.2⟩, hij, ?_⟩
    simpa using heq
  · rintro ⟨set, hset, i, j, hij, heq⟩
    refine ⟨set, hset, (not_nodup_iff_exists_lt _).mpr ?_⟩
    refine ⟨⟨i.1, by simp⟩, ⟨j.1, by simp⟩, hij, ?_⟩
    simpa using heq

end typesystem

namespace typesystem

open document lookup keyword token

theorem value_of_not_inRange (d : ParsedDefinitions) (ref : Int)
    (h : ¬ (0 ≤ ref ∧ ref < (d.Values.length : Int))) :
    (d.Value ref).ValueType = .Null := by
  unfold ParsedDefinitions.Value getAt
  split
  · rfl
  · have : d.Values.length ≤ ref.toNat := by omega
    rw [List.get?_eq_none.mpr this]
    rfl

theorem valueHasVariable_sound (d : ParsedDefinitions) :
    ∀ (fuel : Nat) (ref : Int), valueHasVariable d fuel ref = true → ContainsVariable d ref := by
  intro fuel
  induction fuel with
  | zero => intro ref h; simp [valueHasVariable] at h
  | succ fuel ih =>
    intro ref h
    unfold valueHasVariable at h
    split at h
    · rename_i hk
      exact ContainsVariable.isVariable ref hk
    · rename_i hk
      rw [List.any_eq_true] at h
      obtain ⟨item, hitem, hrec⟩ := h
      exact ContainsVariable.inList ref item hk hitem (ih item hrec)
    · rename_i hk
      rw [List.any_eq_true] at h
      obtain ⟨field, hfield, hrec⟩ := h
      exact ContainsVariable.inObject ref field hk hfield (ih _ hrec)
    · cases h

/-- The way from a value down to a variable in it, without coming back to a
value: each value of the list holds the next one, as an item of a list value or
as the value of a field of an object value, and the last one is a variable; for
each value on the way, as much fuel as there are values after it, and one more,
is enough for the check. -/
theorem variablePath_of_contains (d : ParsedDefinitions) (ref : Int)
    (h : ContainsVariable d ref) :
    ∃ path : List Int, (ref :: path).Nodup ∧
      (∀ r ∈ ref :: path, 0 ≤ r ∧ r < (d.Values.length : Int)) ∧
      ∀ (a : List Int) (x : Int) (b : List Int), ref :: path = a ++ x :: b →
        ∀ fuel : Nat, b.length < fuel → valueHasVariable d fuel x = true := by
  have step : ∀ (ref next : Int) (path : List Int),
      (0 ≤ ref ∧ ref < (d.Values.length : Int)) →
      (∀ fuel : Nat, valueHasVariable d fuel next = true →
        valueHasVariable d (fuel + 1) ref = true) →
      (next :: path).Nodup →
      (∀ r ∈ next :: path, 0 ≤ r ∧ r < (d.Values.length : Int)) →
      (∀ (a : List Int) (x : Int) (b : List Int), next :: path = a ++ x :: b →
        ∀ fuel : Nat, b.length < fuel → valueHasVariable d fuel x = true) →
      ∃ path' : List Int, (ref :: path').Nodup ∧
        (∀ r ∈ ref :: path', 0 ≤ r ∧ r < (d.Values.length : Int)) ∧
        ∀ (a : List Int) (x : Int) (b : List Int), ref :: path' = a ++ x :: b →
          ∀ fuel : Nat, b.length < fuel → valueHasVariable d fuel x = true := by
    intro ref next path href hstep hnd hrange hfuel
    by_cases hmem : ref ∈ next :: path
    · -- the way comes back to `ref`: what follows it there is a shorter way
      obtain ⟨a, b, hab⟩ := List.append_of_mem hmem
      refine ⟨b, ?_, ?_, ?_⟩
      · rw [hab] at hnd
        exact (List.nodup_append.mp hnd).2.1
      · intro r hr
        exact hrange r (by rw [hab]; exact List.mem_append_right a hr)
      · intro a' x b' hx
        exact hfuel (a ++ a') x b' (by rw [hab, hx, List.append_assoc])
    · refine ⟨next :: path, List.nodup_cons.mpr ⟨hmem, hnd⟩, ?_, ?_⟩
      · intro r hr
        rcases List.mem_cons.mp hr with h1 | h1
        · subst h1; exact href
        · exact hrange r h1
      · intro a x b hx fuel hf
        cases a with
        | nil =>
          simp only [List.nil_append, List.cons.injEq] at hx
          obtain ⟨rfl, rfl⟩ := hx
          cases fuel with
          | zero => simp at hf
          | succ fuel =>
            exact hstep fuel (hfuel [] next path rfl fuel
              (by simp only [List.length_cons] at hf; omega))
        | cons y a =>
          simp only [List.cons_append, List.cons.injEq] at hx
          exact hfuel a x b hx.2 fuel hf
  induction h with
  | isVariable ref hk =>
    refine ⟨[], by simp, ?_, ?_⟩
    · intro r hr
      simp only [List.mem_singleton] at hr
      subst hr
      by_contra hn
      rw [value_of_not_inRange d r hn] at hk
      cases hk
    · intro a x b hx fuel hf
      cases a with
      | nil =>
        simp only [List.nil_append, List.cons.injEq] at hx
        obtain ⟨rfl, rfl⟩ := hx
        cases fuel with
        | zero => simp at hf
        | succ fuel =>
          unfold valueHasVariable
          rw [hk]
      | cons y a =>
        simp at hx
  | inList ref item hk hitem _ ih =>
    obtain ⟨path, hnd, hrange, hfuel⟩ := ih
    refine step ref item path ?_ ?_ hnd hrange hfuel
    · by_contra hn
      rw [value_of_not_inRange d ref hn] at hk
      cases hk
    · intro fuel hrec
      unfold valueHasVariable
      rw [hk]
      simp only [List.any_eq_true]
      exact ⟨item, hitem, hrec⟩
  | inObject ref field hk hfield _ ih =>
    obtain ⟨path, hnd, hrange, hfuel⟩ := ih
    refine step ref _ path ?_ ?_ hnd hrange hfuel
    · by_contra hn
      rw [value_of_not_inRange d ref hn] at hk
      cases hk
    · intro fuel hrec
      unfold valueHasVariable
      rw [hk]
      simp only [List.any_eq_true]
      exact ⟨field, hfield, hrec⟩

/-- A list of different references into a pool is not longer than the pool. -/
theorem length_le_of_nodup_inRange (n : Nat) (refs : List Int) (hnd : refs.Nodup)
    (hrange : ∀ r ∈ refs, 0 ≤ r ∧ r < (n : Int)) : refs.length ≤ n := by
  have hsub : refs.toFinset ⊆ (Finset.range n).image (fun k : Nat => (k : Int)) := by
    intro x hx
    have := hrange x (List.mem_toFinset.mp hx)
    exact Finset.mem_image.mpr ⟨x.toNat, Finset.mem_range.mpr (by omega), by omega⟩
  calc refs.length = refs.toFinset.card := (List.toFinset_card_of_nodup hnd).symm
    _ ≤ ((Finset.range n).image (fun k : Nat => (k : Int))).card := Finset.card_le_card hsub
    _ ≤ (Finset.range n).card := Finset.card_image_le
    _ = n := Finset.card_range _

/-- The check of the rule finds a variable exactly when the value is or holds
one, whatever the pools: a way down to a variable that does not come back to a
value is not longer than the pool of values, for which the fuel is enough. -/
theorem valueHasVariable_iff (d : ParsedDefinitions) (ref : Int) :
    valueHasVariable d (d.Values.length + 1) ref = true ↔ ContainsVariable d ref := by
  constructor
  · exact valueHasVariable_sound d _ ref
  · intro h
    obtain ⟨path, hnd, hrange, hfuel⟩ := variablePath_of_contains d ref h
    have := length_le_of_nodup_inRange d.Values.length (ref :: path) hnd hrange
    exact hfuel [] ref path rfl _ (by simp only [List.length_cons] at this; omega)

end typesystem

namespace typesystem

open document lookup keyword token parser

set_option maxRecDepth 100000 in
/-- C24: `ParseTypeSystemDefinition` accepts the document of the test in which
the argument `contextKey` of the directive on the field `documents` has the
value `$user`: the pools it leaves hold the directive with its two arguments,
and the value of the argument `contextKey` is of kind `Variable`, with the name
`user` (a variable is read wherever a value is read, so also in a type-system
document).  For all pools, so for those of every accepted type-system document,
the rule `DirectiveArgumentsAreConstants` returns `Valid = true` if and only if
no argument of a directive of any directive set has a value that is a variable
or holds one, at any depth, in a list or object value.  On the pools that the
parser leaves for the two documents of the test the rule returns valid for the
one with constants and invalid for the one with `$user`; it returns invalid
for a variable inside a list inside a list. -/
theorem DirectiveArgumentsAreConstants_iff :
    (ParseTypeSystemDefinition variableValueTokens (withInput variableValueInput)).1 = .ok () ∧
    (variableValueDocument.DirectiveSets = [[0]] ∧
      variableValueDocument.ByteSlice (variableValueDocument.Directive 0).Name =
        asciiBytes "addArgumentFromContext" ∧
      variableValueDocument.ArgumentSet (variableValueDocument.Directive 0).ArgumentSet =
        [0, 1] ∧
      variableValueDocument.ByteSlice (variableValueDocument.Argument 1).Name =
        asciiBytes "contextKey" ∧
      (variableValueDocument.Value (variableValueDocument.Argument 1).Value).ValueType =
        .Variable ∧
      variableValueDocument.ByteSlice
        (variableValueDocument.Value (variableValueDocument.Argument 1).Value).Raw =
        asciiBytes "user") ∧
    (∀ d : ParsedDefinitions,
      (DirectiveArgumentsAreConstants d).Valid = true ↔
        ∀ set ∈ d.DirectiveSets, ∀ directive ∈ set,
          ∀ arg ∈ d.ArgumentSet (d.Directive directive).ArgumentSet,
            ¬ ContainsVariable d (d.Argument arg).Value) ∧
    (∀ (ts : List Token) (input : List Nat),
      (DirectiveArgumentsAreConstants
          (ParseTypeSystemDefinition ts (withInput input)).2).Valid = true ↔
        ∀ set ∈ (ParseTypeSystemDefinition ts (withInput input)).2.DirectiveSets,
          ∀ directive ∈ set,
          ∀ arg ∈ (ParseTypeSystemDefinition ts (withInput input)).2.ArgumentSet
              ((ParseTypeSystemDefinition ts (withInput input)).2.Directive directive).ArgumentSet,
            ¬ ContainsVariable (ParseTypeSystemDefinition ts (withInput input)).2
              ((ParseTypeSystemDefinition ts (withInput input)).2.Argument arg).Value) ∧
    (ParseTypeSystemDefinition requiredValidTokens (withInput requiredValidInput)).1 = .ok () ∧
    (DirectiveArgumentsAreConstants
      (ParseTypeSystemDefinition requiredValidTokens (withInput requiredValidInput)).2).Valid =
      true ∧
    (DirectiveArgumentsAreConstants
      (ParseTypeSystemDefinition variableValueTokens (withInput variableValueInput)).2).Valid =
      false ∧
    (ParseTypeSystemDefinition variableInListTokens (withInput variableInListInput)).1 = .ok () ∧
    (DirectiveArgumentsAreConstants
      (ParseTypeSystemDefinition variableInListTokens (withInput variableInListInput)).2).Valid =
      false := by
  have key : ∀ d : ParsedDefinitions,
      (DirectiveArgumentsAreConstants d).Valid = true ↔
        ∀ set ∈ d.DirectiveSets, ∀ directive ∈ set,
          ∀ arg ∈ d.ArgumentSet (d.Directive directive).ArgumentSet,
            ¬ ContainsVariable d (d.Argument arg).Value := by
    intro d
    simp only [DirectiveArgumentsAreConstants, List.all_eq_true, Bool.not_eq_true',
      ← Bool.not_eq_true, valueHasVariable_iff d]
  exact ⟨rfl, ⟨by decide, by decide, by decide, by decide, by decide, by decide⟩, key,
    fun ts input => key _, rfl, by decide, by decide, rfl, by decide⟩

end typesystem


namespace lookup

open document

end lookup

namespace parser

open document lookup keyword token typesystem

theorem run_pure {α : Type} (a : α) (d : ParsedDefinitions) :
    (pure a : Parse α).run d = (.ok a, d) := rfl

theorem run_abort {α : Type} (e : String) (d : ParsedDefinitions) :
    (abort e : Parse α).run d = (.error e, d) := rfl

theorem run_pools (d : ParsedDefinitions) : pools.run d = (.ok d, d) := rfl

theorem run_add (added : ParsedDefinitions) (h : NoDefinitions added) (d : ParsedDefinitions) :
    (add added h).run d = (.ok (), appendParsed d added) := rfl

end parser

namespace parser

open document lookup keyword token typesystem

end parser

namespace parser

open document lookup keyword token typesystem

end parser

namespace parser

open document lookup keyword token typesystem

end parser

namespace parser

open document lookup keyword token typesystem

end parser

namespace parser

open document lookup keyword token typesystem

end parser

namespace typesystem

open document lookup

end typesystem

namespace typesystem

open document lookup keyword token parser

end typesystem


namespace amqp_datasource

/-- C31 (evaluated where the code departs from it): with the query parameters of
the test, `prepareQueryParams` removes the one element whose template names the
argument `optional`, which the field does not give; but an element with two
such templates is marked twice, so that with it first the element after it is
removed too, and with it last the second removal panics. -/
theorem prepareQueryParams_element_marked_twice :
    (examplePlanner none none).prepareQueryParams exampleArrayEach 0
        (some (arrayOf [staticParam, idParam, optionalParam])) =
      .ok (some (arrayOf [staticParam, idParam])) ∧
    (examplePlanner none none).prepareQueryParams exampleArrayEach 0
        (some (arrayOf [optionalTwiceParam, staticParam])) =
      .ok (some (arrayOf [])) ∧
    (examplePlanner none none).prepareQueryParams exampleArrayEach 0
        (some (arrayOf [staticParam, optionalTwiceParam])) =
      .error "slice bounds out of range" := by
  refine ⟨?_, ?_, ?_⟩ <;> rfl

end amqp_datasource

namespace amqp_datasource

theorem bytesEqual_GET (method : Option (List Nat)) :
    bytesEqual method (some (bytesOf "GET")) = true ↔ method = some (bytesOf "GET") := by
  cases method with
  | none => simp [bytesEqual, bytesOf]
  | some m => simp [bytesEqual]

/-- C32: for a root field, `EnterField` panics exactly when `prepareQueryParams`
does, and otherwise it takes a buffer id from `NextBufferID`, sets it and then
sets one `SingleFetch` with this buffer id, whose `DisallowSingleFlight` is true if and
only if the method attribute is not exactly the bytes `GET`; for a field that is
not a root field it makes no call on the visitor. -/
theorem EnterField_DisallowSingleFlight (p : Planner) (h : httpclient.Package)
    (ArrayEach : Option (List Nat) → Except String (List (List Nat))) (ref : Int) :
    ((p.v.IsRootField ref).1 = true →
      (∀ queryParams,
        p.prepareQueryParams ArrayEach ref ((p.v.IsRootField ref).2.ValueForKey h.QUERYPARAMS) =
            .ok queryParams →
          ∃ fetch, p.EnterField h ArrayEach ref =
              .ok [.NextBufferID, .SetBufferIDForCurrentFieldSet p.v.NextBufferID,
                .SetCurrentObjectFetch fetch (p.v.IsRootField ref).2] ∧
            fetch.BufferId = p.v.NextBufferID ∧
            (fetch.DisallowSingleFlight = true ↔
              (p.v.IsRootField ref).2.ValueForKey h.METHOD ≠ some (bytesOf "GET"))) ∧
      (∀ msg,
        p.prepareQueryParams ArrayEach ref ((p.v.IsRootField ref).2.ValueForKey h.QUERYPARAMS) =
            .error msg →
          p.EnterField h ArrayEach ref = .error msg)) ∧
    ((p.v.IsRootField ref).1 = false → p.EnterField h ArrayEach ref = .ok []) := by
  refine ⟨fun hroot => ⟨fun queryParams hq => ?_, fun msg hq => ?_⟩, fun hroot => ?_⟩
  · have key : ∃ input, p.EnterField h ArrayEach ref =
        .ok [.NextBufferID, .SetBufferIDForCurrentFieldSet p.v.NextBufferID,
          .SetCurrentObjectFetch ⟨p.v.NextBufferID, input, ⟨p.conn⟩,
            !bytesEqual ((p.v.IsRootField ref).2.ValueForKey h.METHOD) (some (bytesOf "GET"))⟩
            (p.v.IsRootField ref).2] := by
      simp only [Planner.EnterField, hroot, hq]
      exact ⟨_, rfl⟩
    obtain ⟨input, e⟩ := key
    exact ⟨_, e, rfl, by simp [← bytesEqual_GET]⟩
  · simp only [Planner.EnterField, hroot, hq]
    rfl
  · simp only [Planner.EnterField, hroot]
    rfl

/-- C32 at the planner of the examples, with the query parameters of the test:
the root field 0 gets a fetch that disallows single flight for the method
`POST`, for the method `get` and without a method, and one that allows it for
`GET`; the field 1, which is not a root field, gets nothing. -/
theorem EnterField_DisallowSingleFlight_witness :
    (∃ fetch config,
      (examplePlanner (some (bytesOf "POST"))
          (some (arrayOf [staticParam, idParam, optionalParam]))).EnterField
          exampleHttpclient exampleArrayEach 0 =
        .ok [.NextBufferID, .SetBufferIDForCurrentFieldSet 0, .SetCurrentObjectFetch fetch config] ∧
      fetch.DisallowSingleFlight = true) ∧
    (∃ fetch config,
      (examplePlanner (some (bytesOf "get"))
          (some (arrayOf [staticParam, idParam, optionalParam]))).EnterField
          exampleHttpclient exampleArrayEach 0 =
        .ok [.NextBufferID, .SetBufferIDForCurrentFieldSet 0, .SetCurrentObjectFetch fetch config] ∧
      fetch.DisallowSingleFlight = true) ∧
    (∃ fetch config,
      (examplePlanner none (some (arrayOf [staticParam, idParam, optionalParam]))).EnterField
          exampleHttpclient exampleArrayEach 0 =
        .ok [.NextBufferID, .SetBufferIDForCurrentFieldSet 0, .SetCurrentObjectFetch fetch config] ∧
      fetch.DisallowSingleFlight = true) ∧
    (∃ fetch config,
      (examplePlanner (some (bytesOf "GET"))
          (some (arrayOf [staticParam, idParam, optionalParam]))).EnterField
          exampleHttpclient exampleArrayEach 0 =
        .ok [.NextBufferID, .SetBufferIDForCurrentFieldSet 0, .SetCurrentObjectFetch fetch config] ∧
      fetch.DisallowSingleFlight = false) ∧
    (examplePlanner none none).EnterField exampleHttpclient exampleArrayEach 1 = .ok [] := by
  refine ⟨?_, ?_, ?_, ?_, ?_⟩
  · obtain ⟨fetch, e, _, hd⟩ := ((EnterField_DisallowSingleFlight
      (examplePlanner (some (bytesOf "POST"))
        (some (arrayOf [staticParam, idParam, optionalParam])))
      exampleHttpclient exampleArrayEach 0).1 rfl).1 (some (arrayOf [staticParam, idParam])) rfl
    exact ⟨fetch, _, e, hd.2 (by decide)⟩
  · obtain ⟨fetch, e, _, hd⟩ := ((EnterField_DisallowSingleFlight
      (examplePlanner (some (bytesOf "get"))
        (some (arrayOf [staticParam, idParam, optionalParam])))
      exampleHttpclient exampleArrayEach 0).1 rfl).1 (some (arrayOf [staticParam, idParam])) rfl
    exact ⟨fetch, _, e, hd.2 (by decide)⟩
  · obtain ⟨fetch, e, _, hd⟩ := ((EnterField_DisallowSingleFlight
      (examplePlanner none (some (arrayOf [staticParam, idParam, optionalParam])))
      exampleHttpclient exampleArrayEach 0).1 rfl).1 (some (arrayOf [staticParam, idParam])) rfl
    exact ⟨fetch, _, e, hd.2 (by decide)⟩
  · obtain ⟨fetch, e, _, hd⟩ := ((EnterField_DisallowSingleFlight
      (examplePlanner (some (bytesOf "GET"))
        (some (arrayOf [staticParam, idParam, optionalParam])))
      exampleHttpclient exampleArrayEach 0).1 rfl).1 (some (arrayOf [staticParam, idParam])) rfl
    refine ⟨fetch, _, e, ?_⟩
    cases hf : fetch.DisallowSingleFlight with
    | false => rfl
    | true => exact absurd rfl (hd.1 hf)
  · exact (EnterField_DisallowSingleFlight (examplePlanner none none) exampleHttpclient
      exampleArrayEach 1).2 (by simp [examplePlanner])

end amqp_datasource

namespace http
open context

theorem SetContextValues_ok (canonical : List Nat → List Nat) (header : Header)
    (addHeaders : List (List Nat)) (ctx : Context) :
    ∃ c, SetContextValues canonical ctx header addHeaders = .ok c := by
  induction addHeaders generalizing ctx with
  | nil => exact ⟨ctx, rfl⟩
  | cons key rest ih =>
    obtain ⟨c, hc⟩ := ih (.valueCtx ctx (.string key) (.string (header.Get canonical key)))
    exact ⟨c, by simpa [SetContextValues, WithValue, bind, Except.bind] using hc⟩

theorem SetContextValues_cons (canonical : List Nat → List Nat) (header : Header)
    (key : List Nat) (addHeaders : List (List Nat)) (ctx : Context) :
    SetContextValues canonical ctx header (key :: addHeaders) =
      SetContextValues canonical
        (.valueCtx ctx (.string key) (.string (header.Get canonical key))) header addHeaders := by
  simp [SetContextValues, WithValue, bind, Except.bind]

theorem SetContextValues_other (canonical : List Nat → List Nat) (header : Header)
    (addHeaders : List (List Nat)) (ctx c : Context)
    (h : SetContextValues canonical ctx header addHeaders = .ok c) (key : Any)
    (hkey : ∀ k ∈ addHeaders, key ≠ .string k) : c.Value key = ctx.Value key := by
  induction addHeaders generalizing ctx with
  | nil =>
    simp only [SetContextValues, Except.ok.injEq] at h
    rw [← h]
  | cons k rest ih =>
    rw [SetContextValues_cons] at h
    rw [ih _ h (fun k' hk' => hkey k' (List.mem_cons_of_mem _ hk'))]
    have : Any.string k ≠ key := fun e => hkey k (List.mem_cons_self _ _) e.symm
    simp [Context.Value, this]

theorem SetContextValues_header (canonical : List Nat → List Nat) (header : Header)
    (addHeaders : List (List Nat)) (ctx c : Context)
    (h : SetContextValues canonical ctx header addHeaders = .ok c) (k : List Nat)
    (hk : k ∈ addHeaders) : c.Value (.string k) = .string (header.Get canonical k) := by
  induction addHeaders generalizing ctx with
  | nil => simp at hk
  | cons k' rest ih =>
    rw [SetContextValues_cons] at h
    by_cases hmem : k ∈ rest
    · exact ih _ h hmem
    · have e : k = k' := by
        rcases List.mem_cons.1 hk with e | e
        · exact e
        · exact absurd e hmem
      subst e
      rw [SetContextValues_other canonical header rest _ c h (.string k)
        (fun k' hk' e => hmem (by cases e; exact hk'))]
      simp [Context.Value]

end http

namespace http
open context

/-- C33: `SetContextValues` does not panic, and the context it returns has under
every key of `addHeaders` what `Get` of the header gives for it (the empty
string when the header has no such entry), under every other key what the given
context has; without keys it returns the given context. -/
theorem SetContextValues_values (canonical : List Nat → List Nat) (ctx : Context)
    (header : Header) (addHeaders : List (List Nat)) :
    ∃ c, SetContextValues canonical ctx header addHeaders = .ok c ∧
      (∀ k ∈ addHeaders, c.Value (.string k) = .string (header.Get canonical k)) ∧
      (∀ k, header.values (canonical k) = none → header.Get canonical k = []) ∧
      (∀ key, (∀ k ∈ addHeaders, key ≠ .string k) → c.Value key = ctx.Value key) ∧
      (addHeaders = [] → c = ctx) := by
  obtain ⟨c, hc⟩ := SetContextValues_ok canonical header addHeaders ctx
  refine ⟨c, hc, fun k hk => SetContextValues_header canonical header addHeaders ctx c hc k hk,
    fun k hk => by simp [Header.Get, hk],
    fun key hkey => SetContextValues_other canonical header addHeaders ctx c hc key hkey,
    fun e => ?_⟩
  subst e
  simpa [SetContextValues] using hc.symm

end http

namespace http
open context

/-- C33 at the examples: with the keys `X-User` and `X-Trace` and a header that
has `X-User: jens` only, the returned context has `jens` under `X-User`, the
empty string under `X-Trace`, and under a key of another type what the given
context has. -/
theorem SetContextValues_values_witness :
    ∃ c, SetContextValues exampleCanonical exampleContext exampleHeader
        [amqp_datasource.bytesOf "X-User", amqp_datasource.bytesOf "X-Trace"] = .ok c ∧
      c.Value (.string (amqp_datasource.bytesOf "X-User")) =
        .string (amqp_datasource.bytesOf "jens") ∧
      c.Value (.string (amqp_datasource.bytesOf "X-Trace")) = .string [] ∧
      c.Value (.other 0) = exampleContext.Value (.other 0) := by
  obtain ⟨c, hc, hheader, _, hother, _⟩ := SetContextValues_values exampleCanonical
    exampleContext exampleHeader
    [amqp_datasource.bytesOf "X-User", amqp_datasource.bytesOf "X-Trace"]
  exact ⟨c, hc, hheader _ (List.mem_cons_self _ _),
    hheader _ (List.mem_cons_of_mem _ (List.mem_cons_self _ _)),
    hother _ (by simp)⟩

end http

namespace http

/-- C35: a call of `DispatchRequest` on a buffer that holds `q` returns without
error only after it has sent one request whose body is `{"query":` followed by
the JSON string of `q`, `}` and a line feed, without `operationName`, and then
the buffer holds `q` followed by the body `r` of the response; and it does so
whenever the client answers such a request with a response whose body reads as
`r`. -/
theorem DispatchRequest_keeps_query {σ : Type} (pr : ProxyRequest σ)
    (canonical encodeString : List Nat → List Nat) (q : List Nat) :
    (∀ buff sent, pr.DispatchRequest canonical encodeString q = .ok (none, buff, sent) →
      ∃ client request response r, pr.Proxy.ClientPool = some client ∧ sent = [request] ∧
        request.Body =
          [123] ++ amqp_datasource.bytesOf "\"query\":" ++ encodeString q ++ [125] ++ [10] ∧
        client.Do request = .ok response ∧ response.Body = .ok r ∧ buff = q ++ r) ∧
    (∀ client r, pr.Proxy.ClientPool = some client →
      (∀ request : Request,
        request.Body =
            [123] ++ amqp_datasource.bytesOf "\"query\":" ++ encodeString q ++ [125] ++ [10] →
          client.Do request = .ok ⟨.ok r⟩) →
      ∃ request, pr.DispatchRequest canonical encodeString q = .ok (none, q ++ r, [request]) ∧
        request.Body =
          [123] ++ amqp_datasource.bytesOf "\"query\":" ++ encodeString q ++ [125] ++ [10]) := by
  have body : (GraphqlJsonRequest.mk [] q).Encode encodeString =
      [123] ++ amqp_datasource.bytesOf "\"query\":" ++ encodeString q ++ [125] ++ [10] := by
    simp [GraphqlJsonRequest.Encode, GraphqlJsonRequest.Marshal]
  constructor
  · intro buff sent h
    unfold ProxyRequest.DispatchRequest at h
    cases hc : pr.Proxy.ClientPool with
    | none => simp [hc] at h
    | some client =>
      simp only [hc] at h
      split at h
      · simp at h
      · rename_i response hdo
        split at h
        · simp at h
        · rename_i r hr
          simp only [Except.ok.injEq, Prod.mk.injEq, true_and] at h
          exact ⟨client, _, response, r, rfl, h.2.symm, body, hdo, hr, h.1.symm⟩
  · intro client r hc hdo
    have hsent := hdo
      ⟨"POST", pr.Config.BackendURL,
        Header.Set canonical
          (match pr.Config.BackendHeaders with
            | some backendHeaders => backendHeaders
            | none => ⟨fun _ => none⟩)
          (amqp_datasource.bytesOf "Content-Type") (amqp_datasource.bytesOf "application/json"),
        (GraphqlJsonRequest.mk [] q).Encode encodeString⟩ body
    refine ⟨⟨"POST", pr.Config.BackendURL,
        Header.Set canonical
          (match pr.Config.BackendHeaders with
            | some backendHeaders => backendHeaders
            | none => ⟨fun _ => none⟩)
          (amqp_datasource.bytesOf "Content-Type") (amqp_datasource.bytesOf "application/json"),
        (GraphqlJsonRequest.mk [] q).Encode encodeString⟩, ?_, body⟩
    unfold ProxyRequest.DispatchRequest
    simp only [hc]
    rw [hsent]

end http

namespace http

/-- C35 at the examples: on a buffer that holds `{friend}`, the request body is
`{"query":"{friend}"}` with a line feed, and after the answer `{"data":null}`
the buffer holds `{friend}{"data":null}`. -/
theorem DispatchRequest_keeps_query_witness :
    ∃ request,
      exampleProxyRequest.DispatchRequest exampleCanonical exampleEncodeString
          (amqp_datasource.bytesOf "\x7bfriend\x7d") =
        .ok (none, amqp_datasource.bytesOf "\x7bfriend\x7d\x7b\"data\":null\x7d", [request]) ∧
      request.Body = amqp_datasource.bytesOf "\x7b\"query\":\"\x7bfriend\x7d\"\x7d\n" :=
  (DispatchRequest_keeps_query exampleProxyRequest exampleCanonical exampleEncodeString
    (amqp_datasource.bytesOf "\x7bfriend\x7d")).2 exampleClient
    (amqp_datasource.bytesOf "\x7b\"data\":null\x7d") rfl (fun _ _ => rfl)

end http

namespace http

/-- The outcome of `ServeHTTP`, path by path. -/
theorem ServeHTTP_paths {σ : Type} (p : Proxy σ)
    (Decode : List Nat → Except String GraphqlJsonRequest)
    (canonical encodeString : List Nat → List Nat) (w : ResponseWriter) (r : ServerRequest) :
    p.ServeHTTP Decode canonical encodeString w r =
      match p.BufferPool with
      | none => (.error "interface conversion: interface is not *bytes.Buffer", [Event.Close])
      | some _ =>
        match SetContextValues canonical r.Context r.Header
            (p.GetRequestConfig r.Context).AddHeadersToContext with
        | .error msg => (.error msg, [Event.Close])
        | .ok ctx =>
          match (ProxyRequest.mk (p.GetRequestConfig r.Context) r.URL r.Body ctx
              p).AcceptRequest Decode [] with
          | .error msg => (.error msg, [Event.Close])
          | .ok (some err, buff) =>
            (p.HandleError err, [Event.Put buff, Event.HandleError err, Event.Close])
          | .ok (none, buff) =>
            match (ProxyRequest.mk (p.GetRequestConfig r.Context) r.URL r.Body ctx
                p).DispatchRequest canonical encodeString buff with
            | .error msg => (.error msg, [Event.Close])
            | .ok (some err, buff, _) =>
              (p.HandleError err, [Event.Put buff, Event.HandleError err, Event.Close])
            | .ok (none, _, _) => (.error "implement me", [Event.Close]) := by
  unfold Proxy.ServeHTTP Proxy.serve
  cases p.BufferPool with
  | none => rfl
  | some b =>
    dsimp only
    cases SetContextValues canonical r.Context r.Header
        (p.GetRequestConfig r.Context).AddHeadersToContext with
    | error msg => rfl
    | ok ctx =>
      dsimp only
      cases (ProxyRequest.mk (p.GetRequestConfig r.Context) r.URL r.Body ctx
          p).AcceptRequest Decode [] with
      | error msg => rfl
      | ok res =>
        obtain ⟨err, buff⟩ := res
        cases err with
        | some err => rfl
        | none =>
          dsimp only
          cases (ProxyRequest.mk (p.GetRequestConfig r.Context) r.URL r.Body ctx
              p).DispatchRequest canonical encodeString buff with
          | error msg => rfl
          | ok res =>
            obtain ⟨err, buff, sent⟩ := res
            cases err with
            | some err => rfl
            | none => rfl

end http

namespace http

/-- C34: `AcceptResponse` panics for every input, and so `ServeHTTP` never
copies the buffer to the response writer; when `AcceptRequest` and
`DispatchRequest` both return without error `ServeHTTP` panics; and when
`ServeHTTP` returns, it has put the buffer back once, then called `HandleError`
once, and then closed the body. -/
theorem ServeHTTP_never_copies {σ : Type} (p : Proxy σ)
    (Decode : List Nat → Except String GraphqlJsonRequest)
    (canonical encodeString : List Nat → List Nat) (w : ResponseWriter) (r : ServerRequest) :
    (∀ (pr : ProxyRequest σ) (buff : List Nat), pr.AcceptResponse buff = .error "implement me") ∧
    (∀ buff, Event.Copy buff ∉ (p.ServeHTTP Decode canonical encodeString w r).2) ∧
    (∀ ctx buff buff' sent,
      SetContextValues canonical r.Context r.Header
          (p.GetRequestConfig r.Context).AddHeadersToContext = .ok ctx →
      (ProxyRequest.mk (p.GetRequestConfig r.Context) r.URL r.Body ctx p).AcceptRequest
          Decode [] = .ok (none, buff) →
      (ProxyRequest.mk (p.GetRequestConfig r.Context) r.URL r.Body ctx p).DispatchRequest
          canonical encodeString buff = .ok (none, buff', sent) →
      ∃ msg, (p.ServeHTTP Decode canonical encodeString w r).1 = .error msg) ∧
    ((p.ServeHTTP Decode canonical encodeString w r).1 = .ok () →
      ∃ buff err, (p.ServeHTTP Decode canonical encodeString w r).2 =
        [Event.Put buff, Event.HandleError err, Event.Close]) := by
  rw [ServeHTTP_paths]
  refine ⟨fun _ _ => rfl, ?_, ?_, ?_⟩
  · intro b
    repeat' split
    all_goals simp
  · intro ctx buff buff' sent hc ha hd
    rw [hc]
    dsimp only
    rw [ha]
    dsimp only
    rw [hd]
    cases p.BufferPool <;> exact ⟨_, rfl⟩
  · repeat' split
    all_goals first
      | (intro _; exact ⟨_, _, rfl⟩)
      | (intro h; simp at h)

/-- C34 at the proxy of the examples: the request with the query `{friend}`
passes `AcceptRequest` and `DispatchRequest` and makes `ServeHTTP` panic, and
the request whose body breaks off makes it return after one `Put` and one
`HandleError`. -/
theorem ServeHTTP_never_copies_witness :
    (∃ msg, (exampleProxy.ServeHTTP exampleDecode exampleCanonical exampleEncodeString
      exampleWriter exampleRequest).1 = .error msg) ∧
    (∃ buff err, (exampleProxy.ServeHTTP exampleDecode exampleCanonical exampleEncodeString
      exampleWriter brokenRequest).2 = [Event.Put buff, Event.HandleError err, Event.Close]) :=
  ⟨(ServeHTTP_never_copies exampleProxy exampleDecode exampleCanonical exampleEncodeString
      exampleWriter exampleRequest).2.2.1 exampleProxyRequest.Context _ _ _ rfl rfl rfl,
    (ServeHTTP_never_copies exampleProxy exampleDecode exampleCanonical exampleEncodeString
      exampleWriter brokenRequest).2.2.2 rfl⟩

end http
